import Mathlib

/-! Label resolution and label fusion of `LabelTsdfIntegrator`

Shallow embedding of `global_segment_map/label_tsdf_integrator.h`.

* `std::map` and `std::set` are key-ordered lists (`StdMap`, `StdSet`); the
  operations keep the list sorted and duplicate-free when it was so before.
* `Label`, `SemanticLabel` and `Segment*` are natural numbers.  `Label` is
  taken to be the `unsigned int` that the overflow check of `getFreshLabel`
  is written for.
* `LabelConfidence` is `float` in the source.  The definitions are generic in
  a type `C` of confidences with a linear order (no NaN), a zero and an
  addition of which nothing is assumed, so that they cover the rounded
  addition of `float`.  `Binary32` is the type `float` itself: its values in
  units of `2^-149` and its addition, the exact sum rounded to nearest, ties
  to even.  A theorem that takes `C` to be a linearly ordered additive
  commutative monoid speaks of exact confidences.
* Member functions take the integrator state and return the new state.
-/

namespace voxblox

abbrev Label := Nat
abbrev SemanticLabel := Nat
abbrev SegmentPtr := Nat

/-- Largest value of `unsigned int`, `std::numeric_limits<unsigned int>::max()`. -/
def UINT_MAX : Nat := 4294967295

/-! ## Ordered containers -/

namespace StdMap

/-- The value stored under key `k` (`find`), if any. -/
def find {K V : Type} [DecidableEq K] : List (K × V) → K → Option V
  | [], _ => none
  | (k', v) :: t, k => if k' = k then some v else find t k

/-- Removal of key `k` (`erase`). -/
def erase {K V : Type} [DecidableEq K] : List (K × V) → K → List (K × V)
  | [], _ => []
  | (k', v) :: t, k => if k' = k then erase t k else (k', v) :: erase t k

/-- Store `v` under `k` at its place in key order, replacing the value of an
existing entry (`m[k] = v`, or a write through an iterator to `k`). -/
def put {V : Type} : List (Nat × V) → Nat → V → List (Nat × V)
  | [], k, v => [(k, v)]
  | (k', v') :: t, k, v =>
    if k < k' then (k, v) :: (k', v') :: t
    else if k = k' then (k, v) :: t
    else (k', v') :: put t k v

/-- Insertion that keeps an already present entry (`emplace`, `insert`). -/
def emplace {V : Type} (m : List (Nat × V)) (k : Nat) (v : V) : List (Nat × V) :=
  match find m k with
  | some _ => m
  | none => put m k v

/-- The keys, in iteration order. -/
def keys {K V : Type} (m : List (K × V)) : List K := m.map Prod.fst

end StdMap

namespace StdSet

/-- Ordered insertion into a `std::set`; an element already present is kept. -/
def put : List Nat → Nat → List Nat
  | [], k => [k]
  | k' :: t, k =>
    if k < k' then k :: k' :: t
    else if k = k' then k' :: t
    else k' :: put t k

/-- Removal from a `std::set`. -/
def erase (s : List Nat) (k : Nat) : List Nat := s.filter (fun x => x ≠ k)

end StdSet

/-- Insertion into a `std::unordered_set`, kept as a duplicate-free list in
insertion order (the iteration order of the hash set is unspecified). -/
def unorderedInsert (s : List Label) (k : Label) : List Label :=
  if k ∈ s then s else s ++ [k]

abbrev LMap := List (Label × Int)
abbrev SLMap := List (SemanticLabel × Int)
abbrev LLMap := List (Label × LMap)
abbrev LSLMap := List (Label × SLMap)
abbrev LSet := List Label
abbrev LLSet := List (Label × LSet)

/-! ## Data model -/

/-- The options of `LabelTsdfConfig` that the embedded functions read.  The
ratio threshold `pairwise_confidence_ratio_threshold` is the fraction
`ratio_threshold_num / ratio_threshold_den`. -/
structure LabelTsdfConfig where
  min_label_voxel_count : Nat := 20
  enable_pairwise_confidence_merging : Bool := true
  ratio_threshold_num : Nat := 1
  ratio_threshold_den : Nat := 5
  pairwise_confidence_count_threshold : Int := 30
  object_flushing_age_threshold : Int := 3
deriving DecidableEq, Repr

/-- One competing hypothesis of a voxel (`LabelCount`). -/
structure LabelCount (C : Type) where
  label : Label
  label_confidence : C
deriving DecidableEq, Repr

/-- A voxel of the label layer: the cached best label and confidence and the
fixed-size array `label_count` (a list; no operation changes its length). -/
structure LabelVoxel (C : Type) where
  label : Label
  label_confidence : C
  label_count : List (LabelCount C)
deriving DecidableEq, Repr

/-- A block of the label layer: its voxels in linear-index order and the
`updated` flag. -/
structure Block (C : Type) where
  voxels : List (LabelVoxel C)
  updated : Bool
deriving DecidableEq, Repr

abbrev BlockIndex := Int × Int × Int

/-- The label layer: the allocated blocks, in the order in which
`getAllAllocatedBlocks` lists them. -/
abbrev Layer (C : Type) := List (BlockIndex × Block C)

/-- A point of a segment, reduced to what the integrator obtains for it from
the base engine: the index of the block containing `T_G_C_ * point_C`, the
linear index of the voxel inside that block, and whether the distance stored
in the TSDF voxel lies inside the label propagation band
(`abs(distance) < label_propagation_td_factor * voxel_size_`). -/
structure Point where
  block_index : BlockIndex
  voxel_index : Nat
  within_band : Bool
deriving DecidableEq, Repr

/-- A segment of one frame (`Segment`). -/
structure Segment where
  points_C_ : List Point
  labels_ : List Label
  semantic_label_ : SemanticLabel
  instance_ : SemanticLabel
deriving DecidableEq, Repr

/-- The segments that the `Segment*` pointers denote. -/
abbrev Heap := SegmentPtr → Segment

/-- Write through a `Segment*`. -/
def Heap.set (heap : Heap) (p : SegmentPtr) (s : Segment) : Heap :=
  fun q => if q = p then s else heap q

/-- The member variables of `LabelTsdfIntegrator`. -/
structure Integrator (C : Type) where
  label_tsdf_config_ : LabelTsdfConfig
  label_layer_ : Layer C
  highest_label_ : Label
  labels_count_map_ : LMap
  pairwise_confidence_ : LLMap
  label_class_count_ : LSLMap
  highest_instance_ : SemanticLabel
  current_to_global_instance_map_ : List (SemanticLabel × SemanticLabel)
  label_instance_count_ : LSLMap
  label_frames_count_ : LMap
  updated_labels_ : LSet
  labels_to_publish_ : LMap
deriving DecidableEq

/-- The ways in which a call does not return normally. -/
inductive Fault where
  /-- A failed `CHECK_LT` of `getFreshLabel` or `getFreshInstance`. -/
  | counterOverflow
  /-- Element access `labels_[0]` on an empty vector. -/
  | emptyLabels
  /-- The iteration bound given to a `while` loop was reached. -/
  | outOfFuel
deriving DecidableEq, Repr

/-! ## Pairwise confidence and merge engine -/

/-- Body of the double loop of `increasePairwiseConfidenceCount` for the labels
`merge_candidates[i]` and `merge_candidates[j]`. -/
def increasePairwiseConfidenceCountPair (pc : LLMap) (li lj : Label) : LLMap :=
  if li ≠ lj then
    let new_label := if li > lj then lj else li
    let old_label := if li > lj then li else lj
    match StdMap.find pc new_label with
    | some inner =>
      match StdMap.find inner old_label with
      | some c => StdMap.put pc new_label (StdMap.put inner old_label (c + 1))
      | none => StdMap.put pc new_label (StdMap.emplace inner old_label 1)
    | none => StdMap.emplace pc new_label [(old_label, 1)]
  else pc

/-- Inner loop of `increasePairwiseConfidenceCount`: `j` runs over the labels
after position `i`. -/
def increasePairwiseConfidenceCountFrom (pc : LLMap) (li : Label) : List Label → LLMap
  | [] => pc
  | lj :: rest => increasePairwiseConfidenceCountFrom (increasePairwiseConfidenceCountPair pc li lj) li rest

/-- Embedding of `increasePairwiseConfidenceCount` on the table `pairwise_confidence_`. -/
def increasePairwiseConfidenceCount (pc : LLMap) : List Label → LLMap
  | [] => pc
  | li :: rest => increasePairwiseConfidenceCount (increasePairwiseConfidenceCountFrom pc li rest) rest

/-- Embedding of `addPairwiseConfidenceCount`; `it` is the outer key that the
iterator `label_map_it` points to. -/
def addPairwiseConfidenceCount (pc : LLMap) (it : Label) (label : Label) (count : Int) : LLMap :=
  match StdMap.find pc it with
  | none => pc
  | some inner =>
    match StdMap.find inner label with
    | some c => StdMap.put pc it (StdMap.put inner label (c + count))
    | none => StdMap.put pc it (StdMap.emplace inner label count)

/-- First half of `adjustPairwiseConfidenceAfterMerging`: the counts
`(old_label, some_label)` move to `new_label` and the outer entry of
`old_label` is erased. -/
def adjustOuter (pc : LLMap) (new_label old_label : Label) : LLMap :=
  match StdMap.find pc old_label with
  | some old_inner =>
    let pc1 :=
      match StdMap.find pc new_label with
      | some _ =>
        old_inner.foldl (fun acc e => addPairwiseConfidenceCount acc new_label e.1 e.2) pc
      | none => StdMap.emplace pc new_label old_inner
    StdMap.erase pc1 old_label
  | none => pc

/-- One round of the outer loop in the second half of
`adjustPairwiseConfidenceAfterMerging`, at the outer key `a`: a count stored
for `(a, old_label)` is added to `(a, new_label)` or `(new_label, a)` and its
entry erased; an outer entry left without pairs is erased. -/
def adjustInnerStep (new_label old_label : Label) (pc : LLMap) (a : Label) : LLMap :=
  match StdMap.find pc a with
  | none => pc
  | some inner =>
    match StdMap.find inner old_label with
    | some n =>
      let pc1 :=
        if a < new_label then addPairwiseConfidenceCount pc a new_label n
        else
          match StdMap.find pc new_label with
          | some _ => addPairwiseConfidenceCount pc new_label a n
          | none => StdMap.emplace pc new_label [(a, n)]
      match StdMap.find pc1 a with
      | none => pc1
      | some inner1 =>
        let inner2 := StdMap.erase inner1 old_label
        if inner2.isEmpty then StdMap.erase pc1 a else StdMap.put pc1 a inner2
    | none => if inner.isEmpty then StdMap.erase pc a else pc

/-- Embedding of `adjustPairwiseConfidenceAfterMerging`.  The second loop
visits the outer keys present when it starts: the only outer key it inserts
is `new_label`, and only while the iterator is at a larger key. -/
def adjustPairwiseConfidenceAfterMerging (pc : LLMap) (new_label old_label : Label) : LLMap :=
  let pc1 := adjustOuter pc new_label old_label
  (StdMap.keys pc1).foldl (adjustInnerStep new_label old_label) pc1

/-- Embedding of `getNextMerge`: `none` for `false`, otherwise the pair
`(new_label, old_label)`; the second component is the table afterwards.  The
recursion walks the outer entries in iteration order; the inner loop stops at
the first pair whose count exceeds the threshold and erases it. -/
def getNextMerge (threshold : Int) : LLMap → Option (Label × Label) × LLMap
  | [] => (none, [])
  | (a, inner) :: rest =>
    match inner.find? (fun e => decide (e.2 > threshold)) with
    | some e => (some (a, e.1), (a, StdMap.erase inner e.1) :: rest)
    | none =>
      let r := getNextMerge threshold rest
      (r.1, (a, inner) :: r.2)

/-- The count stored for the pair `(a, b)`: under outer key `a`, inner key `b`. -/
def pairCount (pc : LLMap) (a b : Label) : Option Int :=
  match StdMap.find pc a with
  | some inner => StdMap.find inner b
  | none => none

/-- The ordering invariant of the pairwise table: every stored pair has its
outer key below its inner key. -/
def PairOrdered (pc : LLMap) : Prop :=
  ∀ a b c, pairCount pc a b = some c → a < b

/-! ## Voxel label store -/

section Voxel

variable {C : Type} [LinearOrder C] [Zero C] [Add C]

/-- Loop body of `updateVoxelLabelAndConfidence`; the accumulator is
`(max_label, max_confidence)`. -/
def updateVoxelStep (preferred_label : Label) (acc : Label × C) (label_count : LabelCount C) :
    Label × C :=
  if label_count.label_confidence > acc.2 ∨
      (label_count.label = preferred_label ∧ preferred_label ≠ 0 ∧
        label_count.label_confidence = acc.2) then
    (label_count.label, label_count.label_confidence)
  else acc

/-- Embedding of `updateVoxelLabelAndConfidence`. -/
def updateVoxelLabelAndConfidence (label_voxel : LabelVoxel C) (preferred_label : Label := 0) :
    LabelVoxel C :=
  let r := label_voxel.label_count.foldl (updateVoxelStep preferred_label) (0, 0)
  { label_voxel with label := r.1, label_confidence := r.2 }

/-- First loop of `addVoxelLabelConfidence`: add `confidence` to the first
entry labelled `label`; `none` when there is no such entry. -/
def addToObserved (label : Label) (confidence : C) :
    List (LabelCount C) → Option (List (LabelCount C))
  | [] => none
  | lc :: rest =>
    if lc.label = label then
      some ({ lc with label_confidence := lc.label_confidence + confidence } :: rest)
    else (addToObserved label confidence rest).map (fun r => lc :: r)

/-- Second loop of `addVoxelLabelConfidence`: write the entry into the first
unused slot; `none` when every slot is in use. -/
def addToUnused (label : Label) (confidence : C) :
    List (LabelCount C) → Option (List (LabelCount C))
  | [] => none
  | lc :: rest =>
    if lc.label = 0 then some ({ label := label, label_confidence := confidence } :: rest)
    else (addToUnused label confidence rest).map (fun r => lc :: r)

/-- Embedding of `addVoxelLabelConfidence`. -/
def addVoxelLabelConfidence (label : Label) (confidence : C) (label_voxel : LabelVoxel C) :
    LabelVoxel C :=
  match addToObserved label confidence label_voxel.label_count with
  | some entries => { label_voxel with label_count := entries }
  | none =>
    match addToUnused label confidence label_voxel.label_count with
    | some entries => { label_voxel with label_count := entries }
    | none => label_voxel

/-- Embedding of `changeLabelCount` (the `DCHECK` is compiled out). -/
def changeLabelCount (st : Integrator C) (label : Label) (count : Int) : Integrator C :=
  match StdMap.find st.labels_count_map_ label with
  | some c =>
    if c + count ≤ 0 then
      { st with labels_count_map_ := StdMap.erase st.labels_count_map_ label }
    else { st with labels_count_map_ := StdMap.put st.labels_count_map_ label (c + count) }
  | none =>
    if label ≠ 0 then
      { st with labels_count_map_ := StdMap.emplace st.labels_count_map_ label count }
    else st

/-- First loop over `voxel.label_count` in `swapLabels`: every entry of
`old_label` is cleared; the accumulator is `old_label_confidence`. -/
def clearOldLabel (old_label : Label) :
    C → List (LabelCount C) → C × List (LabelCount C)
  | acc, [] => (acc, [])
  | acc, lc :: rest =>
    if lc.label = old_label then
      let r := clearOldLabel old_label lc.label_confidence rest
      (r.1, { label := 0, label_confidence := 0 } :: r.2)
    else
      let r := clearOldLabel old_label acc rest
      (r.1, lc :: r.2)

/-- What `swapLabels` does to the entries and the cached best label of one voxel. -/
def swapVoxel (old_label new_label : Label) (voxel : LabelVoxel C) : LabelVoxel C :=
  let r := clearOldLabel old_label 0 voxel.label_count
  let v1 := { voxel with label_count := r.2 }
  let v2 := if r.1 > 0 then addVoxelLabelConfidence new_label r.1 v1 else v1
  updateVoxelLabelAndConfidence v2 new_label

/-- The bookkeeping of `swapLabels` for one voxel whose best label went from
`previous_label` to `updated_label`. -/
def swapBookkeeping (st : Integrator C) (previous_label updated_label : Label) : Integrator C :=
  if updated_label ≠ previous_label then
    changeLabelCount
      (changeLabelCount
        { st with updated_labels_ := StdSet.put st.updated_labels_ updated_label }
        updated_label 1)
      previous_label (-1)
  else st

/-- The loop of `swapLabels` over the voxels of one block; the flag is the
`updated` flag of the block. -/
def swapLabelsVoxels (old_label new_label : Label) :
    Integrator C → Bool → List (LabelVoxel C) → Integrator C × Bool × List (LabelVoxel C)
  | st, updated, [] => (st, updated, [])
  | st, updated, voxel :: rest =>
    let voxel1 := swapVoxel old_label new_label voxel
    let st1 := swapBookkeeping st voxel.label voxel1.label
    let updated1 := if voxel1.label ≠ voxel.label then true else updated
    let r := swapLabelsVoxels old_label new_label st1 updated1 rest
    (r.1, r.2.1, voxel1 :: r.2.2)

/-- The loop of `swapLabels` over the allocated blocks. -/
def swapLabelsBlocks (old_label new_label : Label) :
    Integrator C → Layer C → Integrator C × Layer C
  | st, [] => (st, [])
  | st, (block_index, block) :: rest =>
    let r := swapLabelsVoxels old_label new_label st block.updated block.voxels
    let r2 := swapLabelsBlocks old_label new_label r.1 rest
    (r2.1, (block_index, { voxels := r.2.2, updated := r.2.1 }) :: r2.2)

/-- Embedding of `swapLabels`. -/
def swapLabels (st : Integrator C) (old_label new_label : Label) : Integrator C :=
  let r := swapLabelsBlocks old_label new_label st st.label_layer_
  { r.1 with label_layer_ := r.2 }

/-- Body of the `while` loop of `mergeLabels` for the popped pair. -/
def mergeLabelsBody (st : Integrator C) (merges_to_publish : LLSet) (new_label old_label : Label) :
    Integrator C × LLSet :=
  let st1 := swapLabels st old_label new_label
  let st2 := { st1 with
    labels_to_publish_ :=
      match StdMap.find st1.labels_to_publish_ old_label with
      | some _ => StdMap.erase st1.labels_to_publish_ old_label
      | none => st1.labels_to_publish_
    updated_labels_ := StdSet.erase st1.updated_labels_ old_label }
  let merges :=
    match StdMap.find merges_to_publish new_label with
    | some incorporated => StdMap.put merges_to_publish new_label (StdSet.put incorporated old_label)
    | none => StdMap.emplace merges_to_publish new_label [old_label]
  ({ st2 with pairwise_confidence_ :=
      adjustPairwiseConfidenceAfterMerging st2.pairwise_confidence_ new_label old_label }, merges)

/-- The `while` loop of `mergeLabels`, run for at most `fuel` evaluations of
its condition. -/
def mergeLabelsLoop : Nat → Integrator C → LLSet → Except Fault (Integrator C × LLSet)
  | 0, _, _ => .error .outOfFuel
  | fuel + 1, st, merges_to_publish =>
    match getNextMerge st.label_tsdf_config_.pairwise_confidence_count_threshold
        st.pairwise_confidence_ with
    | (none, pc) => .ok ({ st with pairwise_confidence_ := pc }, merges_to_publish)
    | (some (new_label, old_label), pc) =>
      let r := mergeLabelsBody { st with pairwise_confidence_ := pc } merges_to_publish
        new_label old_label
      mergeLabelsLoop fuel r.1 r.2

/-- Embedding of `mergeLabels`. -/
def mergeLabels (fuel : Nat) (st : Integrator C) (merges_to_publish : LLSet) :
    Except Fault (Integrator C × LLSet) :=
  if st.label_tsdf_config_.enable_pairwise_confidence_merging then
    mergeLabelsLoop fuel st merges_to_publish
  else .ok (st, merges_to_publish)

end Voxel

/-! ## Candidate computation and greedy assignment -/

/-- The candidate table `std::map<Label, std::map<Segment*, size_t>>`. -/
abbrev Candidates := List (Label × List (SegmentPtr × Nat))

/-- The table `std::map<Segment*, std::vector<Label>>` of merge candidates. -/
abbrev SegmentMergeCandidates := List (SegmentPtr × List Label)

/-- Embedding of `checkForSegmentLabelMergeCandidate`.  The comparison
`label_points_count / segment_points_count > pairwise_confidence_ratio_threshold`
is made exactly, on the cross products with the threshold as a fraction (the
segment has at least one point whenever this is called); the rounding of the
quotient and of the threshold to `float` is not modelled. -/
def checkForSegmentLabelMergeCandidate (config : LabelTsdfConfig) (label : Label)
    (label_points_count segment_points_count : Nat) (merge_candidate_labels : List Label) :
    List Label :=
  if label_points_count * config.ratio_threshold_den >
      config.ratio_threshold_num * segment_points_count then
    unorderedInsert merge_candidate_labels label
  else merge_candidate_labels

/-- Embedding of `increaseLabelCountForSegment`. -/
def increaseLabelCountForSegment (config : LabelTsdfConfig) (segment : SegmentPtr)
    (label : Label) (segment_points_count : Nat) (candidates : Candidates)
    (merge_candidate_labels : List Label) : Candidates × List Label :=
  match StdMap.find candidates label with
  | some segments =>
    match StdMap.find segments segment with
    | some c =>
      (StdMap.put candidates label (StdMap.put segments segment (c + 1)),
        if config.enable_pairwise_confidence_merging then
          checkForSegmentLabelMergeCandidate config label (c + 1) segment_points_count
            merge_candidate_labels
        else merge_candidate_labels)
    | none => (StdMap.put candidates label (StdMap.emplace segments segment 1),
        merge_candidate_labels)
  | none => (StdMap.emplace candidates label [(segment, 1)], merge_candidate_labels)

section Assignment

variable {C : Type} [LinearOrder C] [Zero C] [Add C]

/-- Loop body of `getNextUnassignedLabel`; the accumulator is
`(voxel_label, max_confidence)`. -/
def nextUnassignedStep (assigned_labels : LSet) (preferred_label : Label) (acc : Label × C)
    (label_count : LabelCount C) : Label × C :=
  if label_count.label ∉ assigned_labels ∧
      (label_count.label_confidence ≥ acc.2 ∨
        (label_count.label = preferred_label ∧ preferred_label ≠ 0 ∧
          label_count.label_confidence = acc.2)) then
    (label_count.label, label_count.label_confidence)
  else acc

/-- Embedding of `getNextUnassignedLabel`. -/
def getNextUnassignedLabel (voxel : LabelVoxel C) (assigned_labels : LSet) : Label :=
  if voxel.label ∈ assigned_labels then
    (voxel.label_count.foldl (nextUnassignedStep assigned_labels 0) (0, 0)).1
  else voxel.label

/-- Embedding of `getFreshLabel`. -/
def getFreshLabel (st : Integrator C) : Except Fault (Label × Integrator C) :=
  if st.highest_label_ < UINT_MAX then
    .ok (st.highest_label_ + 1, { st with highest_label_ := st.highest_label_ + 1 })
  else .error .counterOverflow

/-- Embedding of `getFreshInstance`. -/
def getFreshInstance (st : Integrator C) : Except Fault (SemanticLabel × Integrator C) :=
  if st.highest_instance_ < UINT_MAX then
    .ok (st.highest_instance_ + 1, { st with highest_instance_ := st.highest_instance_ + 1 })
  else .error .counterOverflow

/-- The voxel of the label layer that a point falls into, if its block is
allocated (`getBlockPtrByCoordinates`, `getVoxelByCoordinates`). -/
def voxelAt (layer : Layer C) (point : Point) : Option (LabelVoxel C) :=
  match StdMap.find layer point.block_index with
  | some block => block.voxels[point.voxel_index]?
  | none => none

/-- The local variables of `computeSegmentLabelCandidates` that its loop over
the points updates, together with the candidate table. -/
structure PointScan where
  candidate_label_exists : Bool
  candidates : Candidates
  merge_candidate_labels : List Label
deriving DecidableEq, Repr

/-- Body of the loop of `computeSegmentLabelCandidates` over the points. -/
def scanPoint (st : Integrator C) (segment : SegmentPtr) (segment_points_count : Nat)
    (assigned_labels : LSet) (acc : PointScan) (point : Point) : PointScan :=
  match voxelAt st.label_layer_ point with
  | some label_voxel =>
    let label := getNextUnassignedLabel label_voxel assigned_labels
    if label ≠ 0 ∧ point.within_band = true then
      let r := increaseLabelCountForSegment st.label_tsdf_config_ segment label
        segment_points_count acc.candidates acc.merge_candidate_labels
      { candidate_label_exists := true, candidates := r.1, merge_candidate_labels := r.2 }
    else acc
  | none => acc

/-- What `computeSegmentLabelCandidates` and `getNextSegmentLabelPair` change:
the integrator, the candidate table and the merge candidates of the segments. -/
structure CandidateState (C : Type) where
  st : Integrator C
  candidates : Candidates
  segment_merge_candidates : SegmentMergeCandidates

/-- Embedding of `computeSegmentLabelCandidates`. -/
def computeSegmentLabelCandidates (heap : Heap) (segment : SegmentPtr) (cs : CandidateState C)
    (assigned_labels : LSet := []) : Except Fault (CandidateState C) :=
  let segment_points_count := (heap segment).points_C_.length
  let scan := (heap segment).points_C_.foldl
    (scanPoint cs.st segment segment_points_count assigned_labels)
    { candidate_label_exists := false, candidates := cs.candidates,
      merge_candidate_labels := [] }
  let segment_merge_candidates :=
    if cs.st.label_tsdf_config_.enable_pairwise_confidence_merging then
      StdMap.put cs.segment_merge_candidates segment scan.merge_candidate_labels
    else cs.segment_merge_candidates
  if scan.candidate_label_exists then
    .ok { st := cs.st, candidates := scan.candidates,
          segment_merge_candidates := segment_merge_candidates }
  else
    match getFreshLabel cs.st with
    | .error e => .error e
    | .ok (fresh_label, st1) =>
      .ok { st := st1,
            candidates := StdMap.emplace scan.candidates fresh_label
              [(segment, (heap segment).points_C_.length)],
            segment_merge_candidates := segment_merge_candidates }

/-- The local variables of the selection loops of `getNextSegmentLabelPair`. -/
structure MaxPair where
  max_label : Label
  max_count : Nat
  max_segment : SegmentPtr
  segments_to_recompute : List (SegmentPtr × Nat)
deriving DecidableEq, Repr

/-- Body of the inner selection loop of `getNextSegmentLabelPair`, at the
entry `segment_it` of the map `label_it->second` stored under `label`. -/
def selectStep (min_label_voxel_count : Nat) (labelled_segments : List SegmentPtr)
    (label : Label) (segments : List (SegmentPtr × Nat)) (acc : MaxPair)
    (segment_it : SegmentPtr × Nat) : MaxPair :=
  if segment_it.2 > acc.max_count ∧ segment_it.2 > min_label_voxel_count ∧
      segment_it.1 ∉ labelled_segments then
    { max_count := segment_it.2, max_segment := segment_it.1, max_label := label,
      segments_to_recompute := segments }
  else acc

/-- The selection loops of `getNextSegmentLabelPair` (the uninitialised
`max_label` and `max_segment` start as 0; they are not read while
`max_count` is 0). -/
def selectMax (min_label_voxel_count : Nat) (labelled_segments : List SegmentPtr)
    (candidates : Candidates) : MaxPair :=
  candidates.foldl
    (fun acc label_it =>
      label_it.2.foldl (selectStep min_label_voxel_count labelled_segments label_it.1 label_it.2)
        acc)
    { max_label := 0, max_count := 0, max_segment := 0, segments_to_recompute := [] }

/-- Erasure of a segment from the entries of all labels except `max_label`. -/
def purgeSegment (candidates : Candidates) (max_label : Label) (segment : SegmentPtr) :
    Candidates :=
  candidates.map (fun label_it =>
    if label_it.1 ≠ max_label then (label_it.1, StdMap.erase label_it.2 segment) else label_it)

/-- The loop of `getNextSegmentLabelPair` over `segments_to_recompute`. -/
def recomputeSegments (heap : Heap) (max_label : Label) (max_segment : SegmentPtr)
    (assigned_labels : LSet) :
    CandidateState C → List (SegmentPtr × Nat) → Except Fault (CandidateState C)
  | cs, [] => .ok cs
  | cs, segment :: rest =>
    if segment.1 ≠ max_segment then
      match computeSegmentLabelCandidates heap segment.1
          { cs with candidates := purgeSegment cs.candidates max_label segment.1 }
          assigned_labels with
      | .error e => .error e
      | .ok cs1 => recomputeSegments heap max_label max_segment assigned_labels cs1 rest
    else recomputeSegments heap max_label max_segment assigned_labels cs rest

/-- Embedding of `getNextSegmentLabelPair`: `none` for `false`, otherwise
`segment_label_pair`; then `assigned_labels` and the tables afterwards. -/
def getNextSegmentLabelPair (heap : Heap) (labelled_segments : List SegmentPtr)
    (assigned_labels : LSet) (cs : CandidateState C) :
    Except Fault (Option (SegmentPtr × Label) × LSet × CandidateState C) :=
  let m := selectMax cs.st.label_tsdf_config_.min_label_voxel_count labelled_segments
    cs.candidates
  if m.max_count = 0 then .ok (none, assigned_labels, cs)
  else
    let assigned_labels1 := StdSet.put assigned_labels m.max_label
    match recomputeSegments heap m.max_label m.max_segment assigned_labels1 cs
        m.segments_to_recompute with
    | .error e => .error e
    | .ok cs1 => .ok (some (m.max_segment, m.max_label), assigned_labels1, cs1)

/-- The loops `for (i < points_C_.size()) labels_.push_back(label)`. -/
def pushLabels (heap : Heap) (segment : SegmentPtr) (label : Label) : Heap :=
  heap.set segment { heap segment with
    labels_ := (heap segment).labels_ ++ List.replicate (heap segment).points_C_.length label }

/-- The local variables of `decideLabelPointClouds` and the data it works on. -/
structure Resolution (C : Type) where
  cs : CandidateState C
  heap : Heap
  assigned_labels : LSet
  labelled_segments : List SegmentPtr

/-- The `while` loop of `decideLabelPointClouds`, run for at most `fuel`
evaluations of its condition. -/
def assignLoop : Nat → Resolution C → Except Fault (Resolution C)
  | 0, _ => .error .outOfFuel
  | fuel + 1, r =>
    match getNextSegmentLabelPair r.heap r.labelled_segments r.assigned_labels r.cs with
    | .error e => .error e
    | .ok (none, assigned_labels, cs) =>
      .ok { r with cs := cs, assigned_labels := assigned_labels }
    | .ok (some (segment, label), assigned_labels, cs) =>
      assignLoop fuel
        { cs := { cs with candidates := StdMap.erase cs.candidates label },
          heap := pushLabels r.heap segment label,
          assigned_labels := assigned_labels,
          labelled_segments := StdSet.put r.labelled_segments segment }

/-- The loop of `decideLabelPointClouds` that gives a fresh label to every
segment of `segments_to_integrate` left without one. -/
def labelRemaining : Resolution C → List SegmentPtr → Except Fault (Resolution C)
  | r, [] => .ok r
  | r, segment :: rest =>
    if segment ∉ r.labelled_segments then
      match getFreshLabel r.cs.st with
      | .error e => .error e
      | .ok (fresh, st1) =>
        labelRemaining
          { r with cs := { r.cs with st := st1 },
                   heap := pushLabels r.heap segment fresh,
                   labelled_segments := StdSet.put r.labelled_segments segment }
          rest
    else labelRemaining r rest

end Assignment

/-! ## Instance and class bookkeeping -/

section Instances

variable {C : Type} [LinearOrder C] [Zero C] [Add C]

/-- Loop body of `getLabelInstance`; the accumulator is
`(instance_label, max_count)`.  The product with `0.0` is the integer product
with 0. -/
def labelInstanceStep (frames_count : Int) (assigned_instances : List SemanticLabel)
    (acc : SemanticLabel × Int) (instance_count : SemanticLabel × Int) : SemanticLabel × Int :=
  if instance_count.2 > acc.2 ∧ instance_count.1 ≠ 0 ∧
      instance_count.1 ∉ assigned_instances then
    if instance_count.2 > 0 * (frames_count - instance_count.2) then
      (instance_count.1, instance_count.2)
    else acc
  else acc

/-- Embedding of `getLabelInstance(label, assigned_instances)`. -/
def getLabelInstance (st : Integrator C) (label : Label)
    (assigned_instances : List SemanticLabel := []) : SemanticLabel :=
  match StdMap.find st.label_instance_count_ label with
  | some instance_counts =>
    let frames_count : Int :=
      match StdMap.find st.label_frames_count_ label with
      | some c => c
      | none => 0
    (instance_counts.foldl (labelInstanceStep frames_count assigned_instances) (0, 0)).1
  | none => 0

/-- Embedding of `increaseLabelFramesCount`. -/
def increaseLabelFramesCount (st : Integrator C) (label : Label) : Integrator C :=
  match StdMap.find st.label_frames_count_ label with
  | some c => { st with label_frames_count_ := StdMap.put st.label_frames_count_ label (c + 1) }
  | none => { st with label_frames_count_ := StdMap.emplace st.label_frames_count_ label 1 }

/-- The update shared by `increaseLabelInstanceCount` and
`increaseLabelClassCount`, on a map from labels to vote counts. -/
def increaseVote (votes : LSLMap) (label : Label) (semantic_label : SemanticLabel) : LSLMap :=
  match StdMap.find votes label with
  | some inner =>
    match StdMap.find inner semantic_label with
    | some c => StdMap.put votes label (StdMap.put inner semantic_label (c + 1))
    | none => StdMap.put votes label (StdMap.emplace inner semantic_label 1)
  | none => StdMap.emplace votes label [(semantic_label, 1)]

/-- Embedding of `increaseLabelInstanceCount`. -/
def increaseLabelInstanceCount (st : Integrator C) (label : Label)
    (instance_label : SemanticLabel) : Integrator C :=
  { st with label_instance_count_ := increaseVote st.label_instance_count_ label instance_label }

/-- Embedding of `increaseLabelClassCount`. -/
def increaseLabelClassCount (st : Integrator C) (label : Label)
    (semantic_label : SemanticLabel) : Integrator C :=
  { st with label_class_count_ := increaseVote st.label_class_count_ label semantic_label }

/-- Body of the last loop of `decideLabelPointClouds` ("Instance stuff") for
one labelled segment; the second component is `assigned_instances`. -/
def instanceStep (heap : Heap) (acc : Integrator C × List SemanticLabel) (segment : SegmentPtr) :
    Except Fault (Integrator C × List SemanticLabel) :=
  match (heap segment).labels_ with
  | [] => .error .emptyLabels
  | label :: _ =>
    let st1 :=
      if (heap segment).points_C_.length > 0 then increaseLabelFramesCount acc.1 label
      else acc.1
    if (heap segment).instance_ ≠ 0 then
      match StdMap.find st1.current_to_global_instance_map_ (heap segment).instance_ with
      | some global_instance =>
        .ok (increaseLabelClassCount (increaseLabelInstanceCount st1 label global_instance)
              label (heap segment).semantic_label_, acc.2)
      | none =>
        let instance_label := getLabelInstance st1 label acc.2
        if instance_label ≠ 0 then
          let instance_map := StdMap.emplace st1.current_to_global_instance_map_
            (heap segment).instance_ instance_label
          let st2 := { st1 with current_to_global_instance_map_ := instance_map }
          .ok (increaseLabelClassCount (increaseLabelInstanceCount st2 label instance_label)
                label (heap segment).semantic_label_, StdSet.put acc.2 instance_label)
        else
          match getFreshInstance st1 with
          | .error e => .error e
          | .ok (fresh_instance, st2) =>
            let instance_map := StdMap.emplace st2.current_to_global_instance_map_
              (heap segment).instance_ fresh_instance
            let st3 := { st2 with current_to_global_instance_map_ := instance_map }
            .ok (increaseLabelClassCount (increaseLabelInstanceCount st3 label fresh_instance)
                  label (heap segment).semantic_label_, acc.2)
    else
      let instance_label := getLabelInstance st1 label
      if instance_label ≠ 0 then .ok (st1, StdSet.put acc.2 instance_label)
      else .ok (st1, acc.2)

/-- The last loop of `decideLabelPointClouds`, over `labelled_segments`. -/
def instanceLoop (heap : Heap) :
    Integrator C × List SemanticLabel → List SegmentPtr →
      Except Fault (Integrator C × List SemanticLabel)
  | acc, [] => .ok acc
  | acc, segment :: rest =>
    match instanceStep heap acc segment with
    | .error e => .error e
    | .ok acc1 => instanceLoop heap acc1 rest

/-- What `decideLabelPointClouds` leaves behind: the integrator, the segments
and the two tables it was given. -/
structure Decided (C : Type) where
  st : Integrator C
  heap : Heap
  candidates : Candidates
  segment_merge_candidates : SegmentMergeCandidates

/-- Embedding of `decideLabelPointClouds`; `fuel` bounds the number of
evaluations of the condition of its `while` loop. -/
def decideLabelPointClouds (fuel : Nat) (st : Integrator C) (heap : Heap)
    (segments_to_integrate : List SegmentPtr) (candidates : Candidates)
    (segment_merge_candidates : SegmentMergeCandidates) : Except Fault (Decided C) :=
  match assignLoop fuel
      { cs := { st := st, candidates := candidates,
                segment_merge_candidates := segment_merge_candidates },
        heap := heap, assigned_labels := [], labelled_segments := [] } with
  | .error e => .error e
  | .ok r1 =>
    let pc := r1.cs.segment_merge_candidates.foldl
      (fun pc merge_candidates => increasePairwiseConfidenceCount pc merge_candidates.2)
      r1.cs.st.pairwise_confidence_
    let st1 := { r1.cs.st with pairwise_confidence_ := pc }
    match labelRemaining { r1 with cs := { r1.cs with st := st1 } } segments_to_integrate with
    | .error e => .error e
    | .ok r2 =>
      match instanceLoop r2.heap (r2.cs.st, []) r2.labelled_segments with
      | .error e => .error e
      | .ok r3 =>
        .ok { st := r3.1, heap := r2.heap, candidates := r2.cs.candidates,
              segment_merge_candidates := r2.cs.segment_merge_candidates }

end Instances

/-- Strictly ascending keys: the list is a well-formed `std::map`. -/
def StdMap.ascending {V : Type} : List (Nat × V) → Bool
  | [] => true
  | [_] => true
  | e :: e' :: t => decide (e.1 < e'.1) && StdMap.ascending (e' :: t)

/-- The pairwise table is a well-formed map of well-formed maps. -/
def TableWF (pc : LLMap) : Prop :=
  StdMap.ascending pc = true ∧ ∀ e ∈ pc, StdMap.ascending e.2 = true

instance (pc : LLMap) : Decidable (TableWF pc) := by
  unfold TableWF
  infer_instance

/-! ## Concrete inputs -/

/-- A pairwise table in which the pair (3, 7) has been seen 31 times. -/
def tableScenarioC : LLMap :=
  [(2, [(7, 4), (9, 1)]), (3, [(7, 31)]), (5, [(7, 2)]), (7, [(8, 3)])]

/-- The table `tableScenarioC` after `getNextMerge` popped the pair (3, 7). -/
def tablePopped : LLMap :=
  [(2, [(7, 4), (9, 1)]), (3, []), (5, [(7, 2)]), (7, [(8, 3)])]

/-- An integrator with an empty layer, default options and the given
pairwise table. -/
def integratorWithTable (pc : LLMap) : Integrator Int :=
  { label_tsdf_config_ := {}, label_layer_ := [], highest_label_ := 9,
    labels_count_map_ := [], pairwise_confidence_ := pc, label_class_count_ := [],
    highest_instance_ := 0, current_to_global_instance_map_ := [],
    label_instance_count_ := [], label_frames_count_ := [], updated_labels_ := [],
    labels_to_publish_ := [] }

/-! ## Predicates on the voxel store -/

section StorePredicates

variable {C : Type} [LinearOrder C] [Zero C] [Add C]

/-- All voxels of all allocated blocks, in the order `swapLabels` visits them. -/
def allVoxels : Layer C → List (LabelVoxel C)
  | [] => []
  | block :: rest => block.2.voxels ++ allVoxels rest

/-- The voxel with linear index `j` of the `i`-th allocated block. -/
def voxelAtPos (layer : Layer C) (i j : Nat) : Option (LabelVoxel C) :=
  match layer[i]? with
  | some block => block.2.voxels[j]?
  | none => none

/-- The cached best label of the voxel is the label of an entry whose
confidence is maximal among the entries of the voxel. -/
def BestIsMax (voxel : LabelVoxel C) : Prop :=
  ∃ e ∈ voxel.label_count, e.label = voxel.label ∧
    ∀ e' ∈ voxel.label_count, e'.label_confidence ≤ e.label_confidence

/-- Some entry of the voxel carries the cached best label with a positive
confidence. -/
def BestIsPositive (voxel : LabelVoxel C) : Prop :=
  ∃ e ∈ voxel.label_count, e.label = voxel.label ∧ 0 < e.label_confidence

/-- The entries of a voxel have non-negative confidences and pairwise distinct
non-zero labels. -/
def EntriesWF (voxel : LabelVoxel C) : Prop :=
  (∀ e ∈ voxel.label_count, 0 ≤ e.label_confidence) ∧
    voxel.label_count.Pairwise (fun a b => a.label ≠ 0 → a.label ≠ b.label)

/-- The number of voxels in the list whose cached best label is `label`. -/
def voxelCount (voxels : List (LabelVoxel C)) (label : Label) : Nat :=
  voxels.countP (fun v => decide (v.label = label))

/-- The voxel count stored for `label` in `labels_count_map_` (0 if absent). -/
def storedCount (m : LMap) (label : Label) : Int :=
  (StdMap.find m label).getD 0

/-- The per-label voxel-count map agrees with the cached best labels of the
voxels: label 0 is not a key, no stored value is zero or negative, and the
value stored for a non-zero label is the number of voxels carrying it. -/
def CountsConsistent (m : LMap) (voxels : List (LabelVoxel C)) : Prop :=
  StdMap.find m 0 = none ∧ (∀ label c, StdMap.find m label = some c → 0 < c) ∧
    ∀ label, label ≠ 0 → storedCount m label = (voxelCount voxels label : Int)

end StorePredicates

section StoreInstances

variable {C : Type} [LinearOrder C] [Zero C] [Add C]

instance (voxel : LabelVoxel C) : Decidable (BestIsMax voxel) := by
  unfold BestIsMax
  infer_instance

instance (voxel : LabelVoxel C) : Decidable (BestIsPositive voxel) := by
  unfold BestIsPositive
  infer_instance

instance (voxel : LabelVoxel C) : Decidable (EntriesWF voxel) := by
  unfold EntriesWF
  infer_instance

/-- The number of voxels whose cached best label is neither `old_label` nor
`new_label` and becomes `new_label` when `swapLabels` rewrites the voxel. -/
def voxelsTakenOver (old_label new_label : Label) (voxels : List (LabelVoxel C)) : Nat :=
  voxels.countP (fun v => decide (v.label ≠ old_label ∧ v.label ≠ new_label ∧
    (swapVoxel old_label new_label v).label = new_label))

end StoreInstances

/-- An integrator with default options whose layer is one block with the given
voxels, with the given per-label voxel counts. -/
def integratorWithVoxels (voxels : List (LabelVoxel Int)) (counts : LMap) : Integrator Int :=
  { label_tsdf_config_ := {}, label_layer_ := [((0, 0, 0), { voxels := voxels, updated := false })],
    highest_label_ := 9, labels_count_map_ := counts, pairwise_confidence_ := [],
    label_class_count_ := [], highest_instance_ := 0, current_to_global_instance_map_ := [],
    label_instance_count_ := [], label_frames_count_ := [], updated_labels_ := [],
    labels_to_publish_ := [] }

/-- A voxel whose only observation is label 7, fused with confidence 0. -/
def voxelZeroConfidence : LabelVoxel Int :=
  { label := 7, label_confidence := 0,
    label_count := [⟨7, 0⟩, ⟨0, 0⟩, ⟨0, 0⟩] }

/-- A voxel labelled 7 with confidence 2 that also holds evidence for label 3. -/
def voxelSeven : LabelVoxel Int :=
  { label := 7, label_confidence := 2,
    label_count := [⟨3, 1⟩, ⟨7, 2⟩, ⟨0, 0⟩] }

/-- A voxel whose best label is 5 and whose evidence for 3 and for 7 together
outweighs it. -/
def voxelFive : LabelVoxel Int :=
  { label := 5, label_confidence := 3,
    label_count := [⟨3, 2⟩, ⟨7, 2⟩, ⟨5, 3⟩] }

/-! ## Predicates on the candidate table -/

/-- The candidate table has an entry for `(label, segment)` with support
`count` that `getNextSegmentLabelPair` may select: the count exceeds
`min_label_voxel_count` and the segment is not yet labelled. -/
def Eligible (min_label_voxel_count : Nat) (labelled_segments : List SegmentPtr)
    (candidates : Candidates) (label : Label) (segment : SegmentPtr) (count : Nat) : Prop :=
  ∃ segments, (label, segments) ∈ candidates ∧ (segment, count) ∈ segments ∧
    count > min_label_voxel_count ∧ segment ∉ labelled_segments

/-- Every key of the candidate table satisfies `P`. -/
def KeysSatisfy (P : Label → Prop) (candidates : Candidates) : Prop :=
  ∀ e ∈ candidates, P e.1

/-- Every segment with an entry in the candidate table satisfies `Q`. -/
def SegmentsSatisfy (Q : SegmentPtr → Prop) (candidates : Candidates) : Prop :=
  ∀ e ∈ candidates, ∀ x ∈ e.2, Q x.1

/-- The label occurs in the voxel grid: as the cached best label of a voxel
or as the label of one of its entries. -/
def LayerLabel {C : Type} (layer : Layer C) (label : Label) : Prop :=
  ∃ block ∈ layer, ∃ voxel ∈ block.2.voxels,
    voxel.label = label ∨ ∃ lc ∈ voxel.label_count, lc.label = label

/-- What the selection loops of `getNextSegmentLabelPair` have established
after visiting the entries described by `Seen`: no eligible entry seen has a
larger count than `max_count`, and `max_count` is 0 or the count of an
eligible entry seen, stored together with its label, segment and the map of
its label. -/
def SelectInv (min_count : Nat) (labelled : List SegmentPtr) (candidates : Candidates)
    (Seen : Label → SegmentPtr → Nat → Prop) (acc : MaxPair) : Prop :=
  (∀ l s c, Seen l s c → c > min_count → s ∉ labelled → c ≤ acc.max_count) ∧
    (acc.max_count = 0 ∨
      (Seen acc.max_label acc.max_segment acc.max_count ∧ acc.max_count > min_count ∧
        acc.max_segment ∉ labelled ∧
        (acc.max_label, acc.segments_to_recompute) ∈ candidates ∧
        (acc.max_segment, acc.max_count) ∈ acc.segments_to_recompute))

/-- Scenario B: one voxel with best label 10 and a weaker entry for label 4. -/
def voxelTen : LabelVoxel Int :=
  { label := 10, label_confidence := 5,
    label_count := [⟨10, 5⟩, ⟨4, 2⟩, ⟨0, 0⟩] }

/-- A point that falls into the voxel of scenario B, inside the propagation
band. -/
def pointB : Point := { block_index := (0, 0, 0), voxel_index := 0, within_band := true }

/-- Scenario B: the integrator, with default options (threshold 20) and
highest label 10. -/
def integratorB : Integrator Int :=
  { label_tsdf_config_ := {},
    label_layer_ := [((0, 0, 0), { voxels := [voxelTen], updated := false })],
    highest_label_ := 10, labels_count_map_ := [(10, 1)], pairwise_confidence_ := [],
    label_class_count_ := [], highest_instance_ := 0, current_to_global_instance_map_ := [],
    label_instance_count_ := [], label_frames_count_ := [], updated_labels_ := [],
    labels_to_publish_ := [] }

/-- Scenario B: segment 1 has 25 points and segment 2 has 30 points, all on
the voxel labelled 10; every other pointer denotes a segment of one point
that hits no allocated block. -/
def heapB : Heap := fun p =>
  if p = 1 then
    { points_C_ := List.replicate 25 pointB, labels_ := [], semantic_label_ := 0, instance_ := 0 }
  else if p = 2 then
    { points_C_ := List.replicate 30 pointB, labels_ := [], semantic_label_ := 0, instance_ := 0 }
  else
    { points_C_ := [{ block_index := (1, 0, 0), voxel_index := 0, within_band := true }],
      labels_ := [], semantic_label_ := 0, instance_ := 0 }

/-- Scenario B: both segments are candidates for label 10, with support 25 and 30. -/
def candidatesB : Candidates := [(10, [(1, 25), (2, 30)])]

/-- Scenario B: the tables handed to `getNextSegmentLabelPair`. -/
def candidateStateB : CandidateState Int :=
  { st := integratorB, candidates := candidatesB, segment_merge_candidates := [(1, [10]), (2, [10])] }

/-- The segments that have an entry in the candidate table, with repetition. -/
def tableSegments : Candidates → List SegmentPtr
  | [] => []
  | e :: rest => e.2.map Prod.fst ++ tableSegments rest

/-- The number of segments of the list `S` that are not yet labelled: the
quantity that decreases in every round of the assignment loop. -/
def unlabelledCount (S : List SegmentPtr) (labelled_segments : List SegmentPtr) : Nat :=
  (S.filter (fun s => decide (s ∉ labelled_segments))).length

/-- The state of `decideLabelPointClouds` after a round of its `while` loop
in which `getNextSegmentLabelPair` returned `(segment, label)`, the new set of
assigned labels `A` and the tables `cs`. -/
def assignRound {C : Type} (r : Resolution C) (segment : SegmentPtr) (label : Label) (A : LSet)
    (cs : CandidateState C) : Resolution C :=
  { cs := { cs with candidates := StdMap.erase cs.candidates label },
    heap := pushLabels r.heap segment label,
    assigned_labels := A,
    labelled_segments := StdSet.put r.labelled_segments segment }

/-- Invariant of the loops of `decideLabelPointClouds` that hand out labels,
relative to the segments `heap0` at the call and the segments `S` of the
candidate table at the call: the keys of the table are non-zero, its segments
are among `S`, a segment not yet labelled is untouched, and a labelled segment
has kept its points and received one non-zero label for each of them. -/
def AssignInv {C : Type} (heap0 : Heap) (S : List SegmentPtr) (r : Resolution C) : Prop :=
  KeysSatisfy (fun k => k ≠ 0) r.cs.candidates ∧
  SegmentsSatisfy (fun s => s ∈ S) r.cs.candidates ∧
  (∀ p, p ∉ r.labelled_segments → r.heap p = heap0 p) ∧
  (∀ p ∈ r.labelled_segments, (r.heap p).points_C_ = (heap0 p).points_C_ ∧
    ∃ l, l ≠ 0 ∧ (r.heap p).labels_ =
      (heap0 p).labels_ ++ List.replicate (heap0 p).points_C_.length l)

/-- The labels pushed onto `labels_` of the segment `p` since the segments
were `heap0`. -/
def givenLabels (heap0 heap : Heap) (p : SegmentPtr) : List Label :=
  (heap p).labels_.drop (heap0 p).labels_.length

/-- Invariant of the loops of `decideLabelPointClouds` for the distinctness of
the labels handed out, relative to the segments `heap0` at the call: the keys
of the table are not assigned and not above the highest label, neither are the
assigned labels nor the labels of the voxel grid, the labels given to a
labelled segment are assigned, and two labelled segments are given no common
label. -/
def DistinctInv {C : Type} (heap0 : Heap) (r : Resolution C) : Prop :=
  KeysSatisfy (fun k => k ∉ r.assigned_labels ∧ k ≤ r.cs.st.highest_label_) r.cs.candidates ∧
  (∀ a ∈ r.assigned_labels, a ≤ r.cs.st.highest_label_) ∧
  (∀ k, LayerLabel r.cs.st.label_layer_ k → k ≤ r.cs.st.highest_label_) ∧
  (∀ p ∈ r.labelled_segments, ∀ l ∈ givenLabels heap0 r.heap p, l ∈ r.assigned_labels) ∧
  (∀ p ∈ r.labelled_segments, ∀ q ∈ r.labelled_segments, p ≠ q →
    ∀ l ∈ givenLabels heap0 r.heap p, l ∉ givenLabels heap0 r.heap q)

/-- Invariant of the loop of `decideLabelPointClouds` that hands out fresh
labels, relative to the segments `heap0` at the call: no label given to a
labelled segment is above the highest label, and two labelled segments are
given no common label. -/
def RemainInv {C : Type} (heap0 : Heap) (r : Resolution C) : Prop :=
  (∀ p ∈ r.labelled_segments, ∀ l ∈ givenLabels heap0 r.heap p, l ≤ r.cs.st.highest_label_) ∧
  (∀ p ∈ r.labelled_segments, ∀ q ∈ r.labelled_segments, p ≠ q →
    ∀ l ∈ givenLabels heap0 r.heap p, l ∉ givenLabels heap0 r.heap q)

/-- The calls of `computeSegmentLabelCandidates` (with the default, empty
`assigned_labels`) that `Controller::segmentPointCloudCallback` makes for the
segments of one frame; they fill the tables that `decideLabelPointClouds`
receives. -/
def collectCandidates {C : Type} [LinearOrder C] [Zero C] [Add C] (heap : Heap) :
    CandidateState C → List SegmentPtr → Except Fault (CandidateState C)
  | cs, [] => .ok cs
  | cs, segment :: rest =>
    match computeSegmentLabelCandidates heap segment cs with
    | .error e => .error e
    | .ok cs1 => collectCandidates heap cs1 rest

/-- The state in which `decideLabelPointClouds` enters its `while` loop. -/
def initialResolution {C : Type} (st : Integrator C) (heap : Heap) (candidates : Candidates)
    (segment_merge_candidates : SegmentMergeCandidates) : Resolution C :=
  { cs := { st := st, candidates := candidates,
            segment_merge_candidates := segment_merge_candidates },
    heap := heap, assigned_labels := [], labelled_segments := [] }

/-- The state in which `decideLabelPointClouds` enters the loop over
`segments_to_integrate`: the merge candidates of the segments have been added
to the pairwise table. -/
def afterPairwise {C : Type} (r : Resolution C) : Resolution C :=
  { r with cs := { r.cs with st := { r.cs.st with
      pairwise_confidence_ := r.cs.segment_merge_candidates.foldl
        (fun pc merge_candidates => increasePairwiseConfidenceCount pc merge_candidates.2)
        r.cs.st.pairwise_confidence_ } } }

/-- Every label stored in the voxel grid, as a cached best label or in an
entry, is at most `highest`. -/
def LayerLabelsBounded {C : Type} (layer : Layer C) (highest : Label) : Prop :=
  ∀ block ∈ layer, ∀ voxel ∈ block.2.voxels,
    voxel.label ≤ highest ∧ ∀ lc ∈ voxel.label_count, lc.label ≤ highest

instance {C : Type} (layer : Layer C) (highest : Label) :
    Decidable (LayerLabelsBounded layer highest) := by
  unfold LayerLabelsBounded
  infer_instance

/-- The candidate table with an entry for label 0: segment 1 with support 25. -/
def candidatesZero : Candidates := [(0, [(1, 25)])]

/-- The labels that the segment `p` carries when a call of
`decideLabelPointClouds` has returned; `none` when the call did not return. -/
def labelsAfter {C : Type} (outcome : Except Fault (Decided C)) (p : SegmentPtr) :
    Option (List Label) :=
  match outcome with
  | .ok d => some (d.heap p).labels_
  | .error _ => none

/-- Every inner map of the candidate table is a well-formed `std::map`. -/
def InnerWF (candidates : Candidates) : Prop :=
  ∀ e ∈ candidates, StdMap.ascending e.2 = true

instance (candidates : Candidates) : Decidable (InnerWF candidates) := by
  unfold InnerWF
  infer_instance

/-- Invariant of the `while` loop of `decideLabelPointClouds` for the counters,
relative to the integrator `st0` at the call and the segments `S` of the
candidate table at the call: the inner maps of the table are well formed, the
highest label leaves room for one fresh label per segment in every remaining
round, the labelled segments are segments of `S`, at most one per round, and
the highest instance is the one at the call. -/
def ReturnInv {C : Type} (st0 : Integrator C) (S : List SegmentPtr) (r : Resolution C) : Prop :=
  InnerWF r.cs.candidates ∧
  r.cs.st.highest_label_ + unlabelledCount S r.labelled_segments * S.length ≤
    st0.highest_label_ + S.length * S.length ∧
  r.labelled_segments.length + unlabelledCount S r.labelled_segments ≤ S.length ∧
  r.cs.st.highest_instance_ = st0.highest_instance_ ∧
  ∀ p ∈ r.labelled_segments, p ∈ S

/-- The number of pairs `(outer key, inner key)` stored in the pairwise table. -/
def pairTotal (pc : LLMap) : Nat := (pc.map (fun e => e.2.length)).sum

section MergePredicates

variable {C : Type} [LinearOrder C] [Zero C] [Add C]

/-- The state `s` agrees with `t` on every member variable that `swapLabels`
does not write: all but the label layer, `updated_labels_` and
`labels_count_map_`. -/
def SameOutsideSwap (s t : Integrator C) : Prop :=
  s.label_tsdf_config_ = t.label_tsdf_config_ ∧ s.highest_label_ = t.highest_label_ ∧
  s.pairwise_confidence_ = t.pairwise_confidence_ ∧
  s.label_class_count_ = t.label_class_count_ ∧ s.highest_instance_ = t.highest_instance_ ∧
  s.current_to_global_instance_map_ = t.current_to_global_instance_map_ ∧
  s.label_instance_count_ = t.label_instance_count_ ∧
  s.label_frames_count_ = t.label_frames_count_ ∧
  s.labels_to_publish_ = t.labels_to_publish_

/-- The label `o` is neither the cached best label of the voxel nor the label
of one of its entries. -/
def VoxelFree (o : Label) (v : LabelVoxel C) : Prop :=
  v.label ≠ o ∧ ∀ lc ∈ v.label_count, lc.label ≠ o

/-- No stored pair of the pairwise table has the label `x` as its outer or
inner key. -/
def TableFree (pc : LLMap) (x : Label) : Prop :=
  ∀ a b, pairCount pc a b ≠ none → a ≠ x ∧ b ≠ x

/-- The table `merges_to_publish` records that `old_label` was merged into
`new_label`. -/
def Recorded (m : LLSet) (new_label old_label : Label) : Prop :=
  ∃ s, StdMap.find m new_label = some s ∧ old_label ∈ s

/-- The label `o` has left the integrator: it is non-zero, occurs in no stored
pair, in no voxel, not in `updated_labels_` and not in the age map. -/
def Gone (st : Integrator C) (o : Label) : Prop :=
  o ≠ 0 ∧ TableFree st.pairwise_confidence_ o ∧
  (∀ v ∈ allVoxels st.label_layer_, VoxelFree o v) ∧ o ∉ st.updated_labels_ ∧
  StdMap.find st.labels_to_publish_ o = none

end MergePredicates

section MergeTrace

variable {C : Type} [LinearOrder C] [Zero C] [Add C]

/-- The pairs `(new_label, old_label)` that the `while` loop of `mergeLabels`
obtains from `getNextMerge` and merges, in order, within `fuel` evaluations of
its condition. -/
def mergedPairsLoop : Nat → Integrator C → LLSet → List (Label × Label)
  | 0, _, _ => []
  | fuel + 1, st, merges_to_publish =>
    match getNextMerge st.label_tsdf_config_.pairwise_confidence_count_threshold
        st.pairwise_confidence_ with
    | (none, _) => []
    | (some (new_label, old_label), pc) =>
      let r := mergeLabelsBody { st with pairwise_confidence_ := pc } merges_to_publish
        new_label old_label
      (new_label, old_label) :: mergedPairsLoop fuel r.1 r.2

/-- The pairs `(new_label, old_label)` merged by a call of `mergeLabels`. -/
def mergedPairs (fuel : Nat) (st : Integrator C) (merges_to_publish : LLSet) :
    List (Label × Label) :=
  if st.label_tsdf_config_.enable_pairwise_confidence_merging then
    mergedPairsLoop fuel st merges_to_publish
  else []

end MergeTrace

/-- Scenario C with a store: the voxels `voxelSeven` and `voxelFive`, their
counts, the labels 5 and 7 updated and aged, and a pairwise table in which
both (3, 5) and (3, 7) have been seen 31 times. -/
def integratorScenarioC : Integrator Int :=
  { label_tsdf_config_ := {},
    label_layer_ := [((0, 0, 0), { voxels := [voxelSeven, voxelFive], updated := false })],
    highest_label_ := 9, labels_count_map_ := [(5, 1), (7, 1)],
    pairwise_confidence_ := [(3, [(5, 31), (7, 31)])],
    label_class_count_ := [], highest_instance_ := 0, current_to_global_instance_map_ := [],
    label_instance_count_ := [], label_frames_count_ := [], updated_labels_ := [5, 7],
    labels_to_publish_ := [(5, 1), (7, 2)] }

/-- What a call of `mergeLabels` leaves in the per-label bookkeeping: the keys
of the voxel-count map, the keys of the age map and `updated_labels_`; `none`
when the call did not return. -/
def bookkeepingAfter {C : Type} (outcome : Except Fault (Integrator C × LLSet)) :
    Option (List Label × List Label × List Label) :=
  match outcome with
  | .ok r => some (StdMap.keys r.1.labels_count_map_, StdMap.keys r.1.labels_to_publish_,
      r.1.updated_labels_)
  | .error _ => none

section Fusion

variable {C : Type} [LinearOrder C] [Zero C] [Add C]

/-- Embedding of `updateLabelVoxel` (the locks are left out): the integrator
state and the voxel that `label_voxel` points to, after the call. -/
def updateLabelVoxel (st : Integrator C) (label : Label) (label_voxel : LabelVoxel C)
    (confidence : C) : Integrator C × LabelVoxel C :=
  let previous_label := label_voxel.label
  let voxel1 := updateVoxelLabelAndConfidence
    (addVoxelLabelConfidence label confidence label_voxel) label
  let new_label := voxel1.label
  if new_label ≠ previous_label then
    let st1 := changeLabelCount
      { st with updated_labels_ := StdSet.put st.updated_labels_ new_label } new_label 1
    let st2 :=
      if previous_label ≠ 0 then
        changeLabelCount
          { st1 with updated_labels_ := StdSet.put st1.updated_labels_ previous_label }
          previous_label (-1)
      else st1
    let st3 :=
      if st2.highest_label_ < new_label then { st2 with highest_label_ := new_label } else st2
    (st3, voxel1)
  else (st, voxel1)

/-- The layer with the voxel of linear index `j` of the `i`-th allocated block
replaced by `v` (a write through a `LabelVoxel*` into the layer). -/
def setVoxelAt (layer : Layer C) (i j : Nat) (v : LabelVoxel C) : Layer C :=
  match layer[i]? with
  | some block => layer.set i (block.1, { block.2 with voxels := block.2.voxels.set j v })
  | none => layer

/-- A call of `updateLabelVoxel` whose argument `label_voxel` points to the
voxel of linear index `j` of the `i`-th allocated block. -/
def updateLabelVoxelAt (st : Integrator C) (i j : Nat) (label : Label) (confidence : C) :
    Integrator C :=
  match voxelAtPos st.label_layer_ i j with
  | some voxel =>
    let r := updateLabelVoxel st label voxel confidence
    { r.1 with label_layer_ := setVoxelAt st.label_layer_ i j r.2 }
  | none => st

/-- A fusion operation on the store: a call of `updateLabelVoxel` on a stored
voxel, or a call of `swapLabels`. -/
inductive FusionOp (C : Type) where
  | update (block voxel : Nat) (label : Label) (confidence : C)
  | swap (old_label new_label : Label)

/-- The store after one fusion operation. -/
def applyOp (st : Integrator C) : FusionOp C → Integrator C
  | .update i j label confidence => updateLabelVoxelAt st i j label confidence
  | .swap old_label new_label => swapLabels st old_label new_label

/-- The store after a sequence of fusion operations. -/
def applyOps (st : Integrator C) (ops : List (FusionOp C)) : Integrator C :=
  ops.foldl applyOp st

/-- The confidence of an `updateLabelVoxel` operation is non-negative. -/
def OpNonneg : FusionOp C → Prop
  | .update _ _ _ confidence => 0 ≤ confidence
  | .swap _ _ => True

/-- The confidence of an `updateLabelVoxel` operation is positive. -/
def OpPositive : FusionOp C → Prop
  | .update _ _ _ confidence => 0 < confidence
  | .swap _ _ => True

/-- An all-zero voxel: cached label 0 with confidence 0 and a non-empty array
of entries that are all `(0, 0)`. -/
def AllZero (v : LabelVoxel C) : Prop :=
  v.label = 0 ∧ v.label_confidence = 0 ∧ v.label_count ≠ [] ∧
    ∀ e ∈ v.label_count, e.label = 0 ∧ e.label_confidence = 0

/-- Every stored confidence of the voxel is non-negative. -/
def ConfidencesNonneg (v : LabelVoxel C) : Prop :=
  ∀ e ∈ v.label_count, 0 ≤ e.label_confidence

/-- The cached `(label, label_confidence)` of the voxel is the label and the
confidence of an entry whose confidence is the maximum over the entries. -/
def CachedBest (v : LabelVoxel C) : Prop :=
  ∃ e ∈ v.label_count, e.label = v.label ∧ e.label_confidence = v.label_confidence ∧
    ∀ e' ∈ v.label_count, e'.label_confidence ≤ e.label_confidence

/-- The cached confidence of the voxel bounds the confidence of every entry,
and the cached pair is the label and confidence of an entry or it is `(0, 0)`. -/
def CachedMaxOrZero (v : LabelVoxel C) : Prop :=
  (∀ e ∈ v.label_count, e.label_confidence ≤ v.label_confidence) ∧
    ((∃ e ∈ v.label_count, e.label = v.label ∧ e.label_confidence = v.label_confidence) ∨
      (v.label = 0 ∧ v.label_confidence = 0))

/-- An entry of the voxel with confidence 0 is an unused slot (label 0). -/
def ZeroIsUnused (v : LabelVoxel C) : Prop :=
  ∀ e ∈ v.label_count, e.label_confidence = 0 → e.label = 0

instance (op : FusionOp C) : Decidable (OpNonneg op) := by
  cases op <;> unfold OpNonneg <;> infer_instance

instance (op : FusionOp C) : Decidable (OpPositive op) := by
  cases op <;> unfold OpPositive <;> infer_instance

instance (v : LabelVoxel C) : Decidable (ConfidencesNonneg v) := by
  unfold ConfidencesNonneg
  infer_instance

instance (v : LabelVoxel C) : Decidable (CachedBest v) := by
  unfold CachedBest
  infer_instance

instance (v : LabelVoxel C) : Decidable (AllZero v) := by
  unfold AllZero
  infer_instance

end Fusion

/-- A store of one block with one all-zero voxel that has room for two labels. -/
def integratorZeroVoxel : Integrator Int :=
  integratorWithVoxels [{ label := 0, label_confidence := 0, label_count := [⟨0, 0⟩, ⟨0, 0⟩] }] []

/-- Three calls of `updateLabelVoxel` on the voxel, for the labels 5, 6 and 7,
each with confidence 0. -/
def zeroConfidenceUpdates : List (FusionOp Int) :=
  [.update 0 0 5 0, .update 0 0 6 0, .update 0 0 7 0]

/-- Two calls of `updateLabelVoxel` on the voxel, for label 5 with confidence 2
and label 3 with confidence 1, followed by `swapLabels(5, 3)`. -/
def positiveUpdates : List (FusionOp Int) :=
  [.update 0 0 5 2, .update 0 0 3 1, .swap 5 3]

section ScenarioA

variable {C : Type} [LinearOrder C] [Zero C] [Add C]

/-- The point lands on a voxel without an assigned label, or on a block that
is not allocated. -/
def LandsUnlabelled (layer : Layer C) (point : Point) : Prop :=
  ((voxelAt layer point).map (fun voxel => voxel.label)).getD 0 = 0

instance (layer : Layer C) (point : Point) : Decidable (LandsUnlabelled layer point) := by
  unfold LandsUnlabelled
  infer_instance

/-- The calls that `Controller` makes for the segments of one frame:
`computeSegmentLabelCandidates` for each segment, starting from empty tables,
then `decideLabelPointClouds` on the tables obtained. -/
def resolveFrame (fuel : Nat) (st : Integrator C) (heap : Heap) (segments : List SegmentPtr) :
    Except Fault (Decided C) :=
  match collectCandidates heap
      { st := st, candidates := [], segment_merge_candidates := [] } segments with
  | .error e => .error e
  | .ok cs =>
    decideLabelPointClouds fuel cs.st heap segments cs.candidates cs.segment_merge_candidates

/-- The highest issued label when a call has returned; `none` when it did not
return. -/
def highestLabelAfter (outcome : Except Fault (Decided C)) : Option Label :=
  match outcome with
  | .ok d => some d.st.highest_label_
  | .error _ => none

end ScenarioA

/-- Scenario A: the segment 4 has 25 points, all on a block that is not
allocated; the other pointers denote the segments of `heapB`. -/
def heapScenarioA : Heap := fun p =>
  if p = 4 then
    { points_C_ := List.replicate 25
        { block_index := (1, 0, 0), voxel_index := 0, within_band := true },
      labels_ := [], semantic_label_ := 0, instance_ := 0 }
  else heapB p

/-- Invariant of the `while` loop of `decideLabelPointClouds` that bounds its
rounds, for a duplicate-free list `S` of the segments of the candidate table at
the call: the table mentions only segments of `S`, the labelled segments are
segments of `S`, and there are at most as many of them as segments of `S`
that are no longer unlabelled. -/
def RoundsInv {C : Type} (S : List SegmentPtr) (r : Resolution C) : Prop :=
  SegmentsSatisfy (fun s => s ∈ S) r.cs.candidates ∧
  (∀ p ∈ r.labelled_segments, p ∈ S) ∧
  r.labelled_segments.length + unlabelledCount S r.labelled_segments ≤ S.length

section ComputeFrame

variable {C : Type} [LinearOrder C] [Zero C] [Add C]

/-- The point gives the segment a candidate label: it lands on an allocated
voxel inside the propagation band whose next unassigned label is not 0. -/
def PointHasCandidate (st : Integrator C) (assigned_labels : LSet) (point : Point) : Prop :=
  ∃ voxel, voxelAt st.label_layer_ point = some voxel ∧
    getNextUnassignedLabel voxel assigned_labels ≠ 0 ∧ point.within_band = true

/-- The integrator when `computeSegmentLabelCandidates` has returned; `none`
when it did not return. -/
def integratorAfter (outcome : Except Fault (CandidateState C)) : Option (Integrator C) :=
  match outcome with
  | .ok cs => some cs.st
  | .error _ => none

end ComputeFrame

/-- Whether `acc = (instance_label, max_count)` is what the loop of
`getLabelInstance` holds after the entries `seen`: with no instance chosen the
count is zero and no entry seen is a non-zero, unclaimed instance with a
positive count; otherwise the chosen entry was seen, is unclaimed, has a
positive count that no non-zero unclaimed entry seen exceeds, and has the
smallest id among those that reach it. -/
def BestSeen (assigned_instances : List SemanticLabel) (seen : List (SemanticLabel × Int))
    (acc : SemanticLabel × Int) : Prop :=
  (acc.1 = 0 → acc.2 = 0 ∧
    ∀ e ∈ seen, e.1 ≠ 0 → e.1 ∉ assigned_instances → e.2 ≤ 0) ∧
  (acc.1 ≠ 0 → acc ∈ seen ∧ acc.1 ∉ assigned_instances ∧ 0 < acc.2 ∧
    ∀ e ∈ seen, e.1 ≠ 0 → e.1 ∉ assigned_instances →
      e.2 ≤ acc.2 ∧ (e.2 = acc.2 → acc.1 ≤ e.1))

/-- An integrator whose label 7 has votes for the instances 0, 2, 3 and 5, the
instances 3 and 5 being tied. -/
def integratorVotes : Integrator Int :=
  { integratorB with
    label_instance_count_ := [(7, [(0, 9), (2, 4), (3, 6), (5, 6)])]
    label_frames_count_ := [(7, 100)] }

section Publish

variable {C : Type}

/-- Embedding of `clearCurrentFrameInstanceLabels`. -/
def clearCurrentFrameInstanceLabels (st : Integrator C) : Integrator C :=
  { st with current_to_global_instance_map_ := [] }

/-- Embedding of `resetCurrentFrameUpdatedLabelsAge`: the age of every label of
`updated_labels_` is set to 0 and `updated_labels_` is cleared. -/
def resetCurrentFrameUpdatedLabelsAge (st : Integrator C) : Integrator C :=
  { st with
    labels_to_publish_ :=
      st.updated_labels_.foldl (fun m label => StdMap.put m label 0) st.labels_to_publish_
    updated_labels_ := [] }

/-- The loop of `getLabelsToPublish` over `labels_to_publish_`: every age is
increased by one; a label whose age then exceeds the threshold is pushed to the
output and erased, the others stay with the increased age.  The result is the
labels pushed, in order, and the map left. -/
def publishLoop (object_flushing_age_threshold : Int) : LMap → List Label × LMap
  | [] => ([], [])
  | (label, age) :: rest =>
    let r := publishLoop object_flushing_age_threshold rest
    if age + 1 > object_flushing_age_threshold then (label :: r.1, r.2)
    else (r.1, (label, age + 1) :: r.2)

/-- Embedding of `getLabelsToPublish(segment_labels_to_publish)`: the vector
after the call and the integrator after the call. -/
def getLabelsToPublish (st : Integrator C) (segment_labels_to_publish : List Label) :
    List Label × Integrator C :=
  let st1 := clearCurrentFrameInstanceLabels (resetCurrentFrameUpdatedLabelsAge st)
  let r := publishLoop st1.label_tsdf_config_.object_flushing_age_threshold
    st1.labels_to_publish_
  (segment_labels_to_publish ++ r.1, { st1 with labels_to_publish_ := r.2 })

/-- The integrator at the start of successive calls of `getLabelsToPublish`
between which nothing else happens. -/
def idleFrames (st : Integrator C) : Nat → Integrator C
  | 0 => st
  | j + 1 => (getLabelsToPublish (idleFrames st j) []).2

end Publish

/-! ## Worker partition of the ray-casting workload -/

/-- Embedding of the loop of `integrateVoxels(..., thread_idx)`: the positions
`i` of the map, in iteration order, for which it calls `integrateVoxel`.  The
arithmetic is that of `size_t`, taken to have `w` bits. -/
def integrateVoxels (w integrator_threads map_size thread_idx : Nat) : List Nat :=
  (List.range map_size).filter
    (fun i => decide (((i + thread_idx + 1) % 2 ^ w) % integrator_threads = 0))

/-- Embedding of the dispatch of `integrateRays`: the positions handled by each
worker it starts, in the order of the workers. -/
def integrateRays (w integrator_threads map_size : Nat) : List (List Nat) :=
  if integrator_threads = 1 then [integrateVoxels w integrator_threads map_size 0]
  else (List.range integrator_threads).map (integrateVoxels w integrator_threads map_size)

/-- A voxel with room for two labels, both slots in use, by the labels 3 and 7. -/
def voxelFull : LabelVoxel Int :=
  { label := 7, label_confidence := 2, label_count := [⟨3, 1⟩, ⟨7, 2⟩] }

section NextUnassigned

variable {C : Type} [LinearOrder C] [Zero C] [Add C]

/-- What the loop of `getNextUnassignedLabel` holds in
`(voxel_label, max_confidence)` after the entries `seen`: the initial `(0, 0)`
when every entry seen carries an assigned label, and otherwise the label and
confidence of an entry seen whose label is not assigned and whose confidence no
such entry seen exceeds. -/
def NextSeen (assigned_labels : LSet) (seen : List (LabelCount C)) (acc : Label × C) : Prop :=
  ((∀ e ∈ seen, e.label ∈ assigned_labels) ∧ acc = (0, 0)) ∨
    ∃ e ∈ seen, e.label ∉ assigned_labels ∧ acc = (e.label, e.label_confidence) ∧
      ∀ e' ∈ seen, e'.label ∉ assigned_labels → e'.label_confidence ≤ e.label_confidence

end NextUnassigned

/-- A voxel labelled 10 whose two slots hold the labels 10 and 4. -/
def voxelTenFour : LabelVoxel Int :=
  { label := 10, label_confidence := 5, label_count := [⟨10, 5⟩, ⟨4, 2⟩] }

/-- The fusion operations of the witness of the count invariant: label 5 is
fused into the voxel twice, label 3 once, then `swapLabels(5, 3)`. -/
def countedUpdates : List (FusionOp Int) :=
  [.update 0 0 5 2, .update 0 0 3 1, .update 0 0 5 1, .swap 5 3]

/-- The support stored in the candidate table for `segment` under `label`, if
there is such an entry. -/
def entryCount (candidates : Candidates) (label : Label) (segment : SegmentPtr) : Option Nat :=
  match StdMap.find candidates label with
  | some segments => StdMap.find segments segment
  | none => none

/-- The candidate table has an entry for the segment under some label. -/
def HasEntry (candidates : Candidates) (segment : SegmentPtr) : Prop :=
  ∃ label count, entryCount candidates label segment = some count

section Support

variable {C : Type} [LinearOrder C] [Zero C] [Add C]

/-- The label that a point of a segment supports in
`computeSegmentLabelCandidates`: the next unassigned label of the voxel it
lands on, when that label is not 0 and the voxel lies inside the propagation
band; 0 when the point supports no label. -/
def pointVote (st : Integrator C) (assigned_labels : LSet) (point : Point) : Label :=
  match voxelAt st.label_layer_ point with
  | some label_voxel =>
    if getNextUnassignedLabel label_voxel assigned_labels ≠ 0 ∧ point.within_band = true then
      getNextUnassignedLabel label_voxel assigned_labels
    else 0
  | none => 0

/-- The support count of a label for a segment: the number of points of the
segment that support the label. -/
def supportCount (st : Integrator C) (assigned_labels : LSet) (points : List Point)
    (label : Label) : Nat :=
  points.countP (fun point => decide (pointVote st assigned_labels point = label))

/-- What the loop of `computeSegmentLabelCandidates` over the points has
established after the points `seen`, for a table without a prior entry for the
segment: the table holds the support counts of the labels supported so far,
and a label is a merge candidate exactly when its support is at least 2 and
its ratio to `segment_points_count` exceeds the threshold. -/
def ScanInv (st : Integrator C) (segment : SegmentPtr) (segment_points_count : Nat)
    (assigned_labels : LSet) (seen : List Point) (acc : PointScan) : Prop :=
  (∀ label, label ≠ 0 → entryCount acc.candidates label segment =
    if supportCount st assigned_labels seen label = 0 then none
    else some (supportCount st assigned_labels seen label)) ∧
  (∀ label, label ∈ acc.merge_candidate_labels ↔
    label ≠ 0 ∧ 2 ≤ supportCount st assigned_labels seen label ∧
      supportCount st assigned_labels seen label * st.label_tsdf_config_.ratio_threshold_den >
        st.label_tsdf_config_.ratio_threshold_num * segment_points_count)

end Support

/-- One segment of a single point, which lands inside the propagation band on
the voxel of scenario B. -/
def heapSinglePoint : Heap := fun _ =>
  { points_C_ := [pointB], labels_ := [], semantic_label_ := 0, instance_ := 0 }

/-- The counter `x` after the counter `y` has been added to it; an absent
counter counts 0, and nothing is created when `y` is absent. -/
def addOpt (x y : Option Int) : Option Int :=
  match y with
  | some n => some (x.getD 0 + n)
  | none => x

/-- The counter stored for the unordered pair `{x, y}` under its canonical
order (smaller label as outer key), 0 if absent. -/
def unorderedCount (pc : LLMap) (x y : Label) : Int :=
  (pairCount pc (min x y) (max x y)).getD 0

/-- The place to which `adjustPairwiseConfidenceAfterMerging` redirects the
counter of `(k, old_label)`: the pair of `k` and `new_label` in canonical
order. -/
def redirectTarget (new_label k : Label) : Label × Label :=
  if k < new_label then (k, new_label) else (new_label, k)

/-- The sum of the weights of the values of a map. -/
def weightSum {V : Type} (w : V → Int) (m : List (Nat × V)) : Int :=
  (m.map (fun e => w e.2)).sum

/-- The sum of the counters of an inner map of the pairwise table. -/
def innerSum (inner : LMap) : Int := weightSum (fun c => c) inner

/-- The sum of all counters stored in the pairwise table. -/
def counterSum (pc : LLMap) : Int := weightSum innerSum pc

/-- Every outer key of the pairwise table other than the keys `rest`, which the
second loop of `adjustPairwiseConfidenceAfterMerging` has still to visit, has
a non-empty inner map. -/
def NoEmptyOutside (rest : List Label) (pc : LLMap) : Prop :=
  ∀ a inner, StdMap.find pc a = some inner → a ∉ rest → inner ≠ []

/-- A table in which label 7 has counters with the labels 2, 5, 8 and 9, and
label 3 with 5 and 9. -/
def tableRebalance : LLMap :=
  [(2, [(7, 4), (9, 1)]), (3, [(5, 6), (9, 2)]), (5, [(7, 2)]), (7, [(8, 3), (9, 10)])]

/-! ## The type `float` -/

/-- The number of binary digits of `n`, found with at most `fuel` halvings. -/
def bitLengthAux : Nat → Nat → Nat
  | 0, _ => 0
  | fuel + 1, n => if n = 0 then 0 else bitLengthAux fuel (n / 2) + 1

/-- The number of binary digits of `n` (0 for 0). -/
def bitLength (n : Nat) : Nat := bitLengthAux n n

/-- Rounding of a magnitude to 24 significant binary digits: to the nearest
number with at most 24 significant digits, and to the one whose last kept
digit is even when two are equally near (round to nearest, ties to even). -/
def roundNearestEven (n : Nat) : Nat :=
  let shift := bitLength n - 24
  let q := n / 2 ^ shift
  let r := n % 2 ^ shift
  if 2 * r > 2 ^ shift ∨ (2 * r = 2 ^ shift ∧ q % 2 = 1) then (q + 1) * 2 ^ shift
  else q * 2 ^ shift

/-- The magnitude that stands for infinity, in units of `2^-149`: the value
`2^128`, the first power of two above the largest finite `float`. -/
def infinityUnits : Nat := 2 ^ 128 * 2 ^ 149

/-- Rounding of an exact value, given in units of `2^-149`, to the type
`float`: the magnitude is rounded to 24 significant binary digits, and a
magnitude that rounds to `2^128` or more becomes infinity. -/
def roundUnits (u : Int) : Int :=
  if u < 0 then -((min (roundNearestEven u.natAbs) infinityUnits : Nat) : Int)
  else ((min (roundNearestEven u.natAbs) infinityUnits : Nat) : Int)

/-- A value of the type `float` (IEEE 754 binary32) other than NaN.  Every
finite `float` is an integer multiple of `2^-149`, the spacing of the smallest
values; `units` is that integer, and `units = ± infinityUnits` stands for the
two infinities.  The two zeros of the format, which compare equal, are one
value here. -/
structure Binary32 where
  units : Int
  representable : roundUnits units = units

namespace Binary32

instance : DecidableEq Binary32 := fun a b =>
  decidable_of_iff (a.units = b.units)
    ⟨fun h => by cases a; cases b; cases h; rfl, fun h => by rw [h]⟩

instance : LinearOrder Binary32 :=
  LinearOrder.lift' Binary32.units (fun a b h => by cases a; cases b; cases h; rfl)

instance : Zero Binary32 := ⟨⟨0, by decide⟩⟩

/-- The `float` with the given number of units; 0 when the number is no
value of the type. -/
def ofUnits (u : Int) : Binary32 :=
  if h : roundUnits u = u then ⟨u, h⟩ else 0

/-- Addition of two `float` values: the exact sum, rounded.  An infinite
operand is the result; the sum of the two infinities is NaN in the format and
the first operand here. -/
def add (a b : Binary32) : Binary32 :=
  if a.units.natAbs = infinityUnits then a
  else if b.units.natAbs = infinityUnits then b
  else ofUnits (roundUnits (a.units + b.units))

instance : Add Binary32 := ⟨Binary32.add⟩

end Binary32

/-- The literal `0.1f`: the `float` nearest to 0.1, `13421773 * 2^-27`. -/
def float_0_1 : Binary32 := Binary32.ofUnits (13421773 * 2 ^ 122)

/-- The literal `0.2f`: the `float` nearest to 0.2, `13421773 * 2^-26`. -/
def float_0_2 : Binary32 := Binary32.ofUnits (13421773 * 2 ^ 123)

/-- The literal `0.7f`: the `float` nearest to 0.7, `11744051 * 2^-24`. -/
def float_0_7 : Binary32 := Binary32.ofUnits (11744051 * 2 ^ 125)

/-- A voxel whose best label is 5 with confidence 0.7f and which also holds
0.1f for label 3 and 0.2f for label 7. -/
def voxelFloat : LabelVoxel Binary32 :=
  { label := 5, label_confidence := float_0_7,
    label_count := [⟨3, float_0_1⟩, ⟨7, float_0_2⟩, ⟨5, float_0_7⟩] }

/-- A store of one block with the voxel `voxelFloat`. -/
def integratorFloat : Integrator Binary32 :=
  { label_tsdf_config_ := {},
    label_layer_ := [((0, 0, 0), { voxels := [voxelFloat], updated := false })],
    highest_label_ := 9, labels_count_map_ := [(5, 1)], pairwise_confidence_ := [],
    label_class_count_ := [], highest_instance_ := 0, current_to_global_instance_map_ := [],
    label_instance_count_ := [], label_frames_count_ := [], updated_labels_ := [],
    labels_to_publish_ := [] }

section Confidence

variable {C : Type}

/-- The confidence stored for `label` in the entries of a voxel: the
confidence of the first entry labelled `label`, 0 if there is none. -/
def confidenceOf [Zero C] : List (LabelCount C) → Label → C
  | [], _ => 0
  | e :: rest, label =>
    if e.label = label then e.label_confidence else confidenceOf rest label

/-- The exact sum of the confidences stored in the entries of a voxel; `val`
gives the exact value of a confidence. -/
def totalConfidence {M : Type} [AddCommMonoid M] (val : C → M)
    (entries : List (LabelCount C)) : M :=
  (entries.map (fun e => val e.label_confidence)).sum

/-- An empty slot (label 0) holds confidence 0. -/
def EmptySlotsZero [Zero C] (entries : List (LabelCount C)) : Prop :=
  ∀ e ∈ entries, e.label = 0 → e.label_confidence = 0

instance [Zero C] [DecidableEq C] (entries : List (LabelCount C)) :
    Decidable (EmptySlotsZero entries) := by
  unfold EmptySlotsZero
  infer_instance

end Confidence

/-! ## Lemmas on the ordered containers -/

namespace StdMap

theorem find_put {V : Type} (m : List (Nat × V)) (k k' : Nat) (v : V) :
    find (put m k v) k' = if k' = k then some v else find m k' := by
  induction m with
  | nil =>
    by_cases h : k' = k
    · subst h; simp [put, find]
    · have h' : ¬ k = k' := fun e => h e.symm
      simp [put, find, h, h']
  | cons e t ih =>
    obtain ⟨k0, v0⟩ := e
    by_cases h1 : k < k0
    · by_cases h : k' = k
      · subst h; simp [put, find, h1]
      · have h' : ¬ k = k' := fun e => h e.symm
        simp [put, find, h1, h, h']
    · by_cases h2 : k = k0
      · subst h2
        by_cases h : k' = k
        · subst h; simp [put, find]
        · have h' : ¬ k = k' := fun e => h e.symm
          simp [put, find, h, h']
      · by_cases h : k' = k
        · subst h
          have h3 : ¬ k0 = k' := fun e => h2 e.symm
          simp [put, find, h1, h2, h3, ih]
        · by_cases h4 : k0 = k'
          · subst h4; simp [put, find, h1, h2, h]
          · simp [put, find, h1, h2, h, h4, ih]

theorem find_erase {K V : Type} [DecidableEq K] (m : List (K × V)) (k k' : K) :
    find (erase m k) k' = if k' = k then none else find m k' := by
  induction m with
  | nil => simp [erase, find]
  | cons e t ih =>
    obtain ⟨k0, v0⟩ := e
    by_cases h1 : k0 = k
    · subst h1
      by_cases h : k' = k0
      · subst h; simp [erase, ih]
      · have h' : ¬ k0 = k' := fun e => h e.symm
        simp [erase, find, ih, h, h']
    · by_cases h : k' = k
      · subst h; simp [erase, find, h1, ih]
      · by_cases h4 : k0 = k'
        · subst h4; simp [erase, find, h1]
        · simp [erase, find, h1, h, h4, ih]

theorem find_emplace {V : Type} (m : List (Nat × V)) (k k' : Nat) (v : V) :
    find (emplace m k v) k' =
      if k' = k then some ((find m k).getD v) else find m k' := by
  unfold emplace
  cases hf : find m k with
  | some x =>
    by_cases h : k' = k
    · subst h; simp [hf]
    · simp [h]
  | none =>
    by_cases h : k' = k
    · subst h; simp [find_put]
    · simp [find_put, h]

theorem mem_of_find {K V : Type} [DecidableEq K] {m : List (K × V)} {k : K} {v : V}
    (h : find m k = some v) : (k, v) ∈ m := by
  induction m with
  | nil => simp [find] at h
  | cons e t ih =>
    obtain ⟨k0, v0⟩ := e
    by_cases h1 : k0 = k
    · subst h1
      simp [find] at h
      subst h
      exact List.mem_cons_self _ _
    · simp [find, h1] at h
      exact List.mem_cons_of_mem _ (ih h)

theorem find_isSome_of_mem {K V : Type} [DecidableEq K] {m : List (K × V)} {e : K × V}
    (h : e ∈ m) : ∃ v, find m e.1 = some v := by
  induction m with
  | nil => cases h
  | cons e0 t ih =>
    obtain ⟨k0, v0⟩ := e0
    by_cases h1 : k0 = e.1
    · exact ⟨v0, by simp [find, h1]⟩
    · rcases List.mem_cons.mp h with h2 | h2
      · exact absurd (by rw [h2]) h1
      · obtain ⟨v, hv⟩ := ih h2
        exact ⟨v, by simp [find, h1, hv]⟩

theorem mem_put {V : Type} {m : List (Nat × V)} {k : Nat} {v : V} {e : Nat × V}
    (h : e ∈ put m k v) : e = (k, v) ∨ e ∈ m := by
  induction m with
  | nil => simp [put] at h; exact Or.inl h
  | cons e0 t ih =>
    obtain ⟨k0, v0⟩ := e0
    by_cases h1 : k < k0
    · simp only [put, h1, if_true] at h
      rcases List.mem_cons.mp h with h2 | h2
      · exact Or.inl h2
      · exact Or.inr h2
    · by_cases h2 : k = k0
      · subst h2
        simp only [put, lt_irrefl, if_true, if_false] at h
        rcases List.mem_cons.mp h with h3 | h3
        · exact Or.inl h3
        · exact Or.inr (List.mem_cons_of_mem _ h3)
      · simp only [put, h1, h2, if_false] at h
        rcases List.mem_cons.mp h with h3 | h3
        · exact Or.inr (by rw [h3]; exact List.mem_cons_self _ _)
        · rcases ih h3 with h4 | h4
          · exact Or.inl h4
          · exact Or.inr (List.mem_cons_of_mem _ h4)

theorem mem_emplace {V : Type} {m : List (Nat × V)} {k : Nat} {v : V} {e : Nat × V}
    (h : e ∈ emplace m k v) : e = (k, v) ∨ e ∈ m := by
  unfold emplace at h
  cases hf : find m k with
  | some x => rw [hf] at h; exact Or.inr h
  | none => rw [hf] at h; exact mem_put h

theorem mem_erase {K V : Type} [DecidableEq K] {m : List (K × V)} {k : K} {e : K × V}
    (h : e ∈ erase m k) : e ∈ m ∧ e.1 ≠ k := by
  induction m with
  | nil => simp [erase] at h
  | cons e0 t ih =>
    obtain ⟨k0, v0⟩ := e0
    by_cases h1 : k0 = k
    · simp only [erase, h1, if_true] at h
      exact ⟨List.mem_cons_of_mem _ (ih h).1, (ih h).2⟩
    · simp only [erase, h1, if_false] at h
      rcases List.mem_cons.mp h with h3 | h3
      · exact ⟨by rw [h3]; exact List.mem_cons_self _ _, by rw [h3]; exact h1⟩
      · exact ⟨List.mem_cons_of_mem _ (ih h3).1, (ih h3).2⟩

end StdMap

namespace StdMap

theorem ascending_tail {V : Type} {e : Nat × V} {t : List (Nat × V)}
    (h : ascending (e :: t) = true) : ascending t = true := by
  cases t with
  | nil => rfl
  | cons e' t' =>
    simp only [ascending, Bool.and_eq_true] at h
    exact h.2

theorem ascending_head_lt {V : Type} {e : Nat × V} {t : List (Nat × V)}
    (h : ascending (e :: t) = true) : ∀ x ∈ t, e.1 < x.1 := by
  induction t generalizing e with
  | nil => intro x hx; cases hx
  | cons e' t' ih =>
    simp only [ascending, Bool.and_eq_true, decide_eq_true_eq] at h
    intro x hx
    rcases List.mem_cons.mp hx with hx | hx
    · rw [hx]; exact h.1
    · exact lt_trans h.1 (ih h.2 x hx)

theorem find_of_mem_ascending {V : Type} {m : List (Nat × V)} {k : Nat} {v : V}
    (hasc : ascending m = true) (h : (k, v) ∈ m) : find m k = some v := by
  induction m with
  | nil => cases h
  | cons e t ih =>
    obtain ⟨k0, v0⟩ := e
    rcases List.mem_cons.mp h with h1 | h1
    · injection h1 with h2 h3
      subst h2; subst h3
      simp [find]
    · have hlt := ascending_head_lt hasc (k, v) h1
      have hne : ¬ k0 = k := fun e => by simp at hlt; omega
      simp only [find, hne, if_false]
      exact ih (ascending_tail hasc) h1

theorem find_eq_none_of_not_mem_keys {K V : Type} [DecidableEq K] {m : List (K × V)} {k : K}
    (h : k ∉ keys m) : find m k = none := by
  cases hf : find m k with
  | none => rfl
  | some v =>
    exact absurd (List.mem_map.mpr ⟨(k, v), mem_of_find hf, rfl⟩) h

end StdMap

theorem pairCount_cons (a0 : Label) (inner : LMap) (rest : LLMap) (a b : Label) :
    pairCount ((a0, inner) :: rest) a b =
      if a0 = a then StdMap.find inner b else pairCount rest a b := by
  unfold pairCount
  by_cases h : a0 = a <;> simp [StdMap.find, h]

theorem pairCount_put (pc : LLMap) (a : Label) (inner : LMap) (a' b : Label) :
    pairCount (StdMap.put pc a inner) a' b =
      if a' = a then StdMap.find inner b else pairCount pc a' b := by
  unfold pairCount
  rw [StdMap.find_put]
  by_cases h : a' = a <;> simp [h]

theorem pairCount_erase (pc : LLMap) (a a' b : Label) :
    pairCount (StdMap.erase pc a) a' b = if a' = a then none else pairCount pc a' b := by
  unfold pairCount
  rw [StdMap.find_erase]
  by_cases h : a' = a <;> simp [h]

theorem pairCount_emplace (pc : LLMap) (a : Label) (inner : LMap) (a' b : Label)
    (hnone : StdMap.find pc a = none) :
    pairCount (StdMap.emplace pc a inner) a' b =
      if a' = a then StdMap.find inner b else pairCount pc a' b := by
  unfold pairCount
  rw [StdMap.find_emplace]
  by_cases h : a' = a
  · subst h; simp [hnone]
  · simp [h]

theorem pairCount_eq_some {pc : LLMap} {a b : Label} {c : Int} (h : pairCount pc a b = some c) :
    ∃ inner, StdMap.find pc a = some inner ∧ StdMap.find inner b = some c := by
  unfold pairCount at h
  cases hf : StdMap.find pc a with
  | none => rw [hf] at h; cases h
  | some inner => rw [hf] at h; exact ⟨inner, rfl, h⟩

theorem pairCount_of_find {pc : LLMap} {a b : Label} {inner : LMap}
    (h : StdMap.find pc a = some inner) : pairCount pc a b = StdMap.find inner b := by
  unfold pairCount; rw [h]

/-- Membership form of the ordering invariant implies the lookup form. -/
theorem pairOrdered_of_forall_mem (pc : LLMap)
    (h : ∀ e ∈ pc, ∀ p ∈ e.2, e.1 < p.1) : PairOrdered pc := by
  intro a b c hc
  obtain ⟨inner, h1, h2⟩ := pairCount_eq_some hc
  exact h (a, inner) (StdMap.mem_of_find h1) (b, c) (StdMap.mem_of_find h2)

theorem pairOrdered_nil : PairOrdered [] := by
  intro a b c h
  simp [pairCount, StdMap.find] at h

/-! ### `increasePairwiseConfidenceCount` -/

theorem pairOrdered_increasePair (pc : LLMap) (li lj : Label) (h : PairOrdered pc) :
    PairOrdered (increasePairwiseConfidenceCountPair pc li lj) := by
  unfold increasePairwiseConfidenceCountPair
  by_cases hne : li = lj
  · simpa [hne] using h
  · simp only [ne_eq, hne, not_false_eq_true, if_true]
    have hlt : (if li > lj then lj else li) < (if li > lj then li else lj) := by
      by_cases h1 : li > lj
      · simp [h1]
      · simp only [h1, if_false]; exact lt_of_le_of_ne (not_lt.mp h1) hne
    generalize (if li > lj then lj else li) = n at hlt ⊢
    generalize (if li > lj then li else lj) = o at hlt ⊢
    cases hf : StdMap.find pc n with
    | none =>
      simp only []
      intro a b c hc
      rw [pairCount_emplace _ _ _ _ _ hf] at hc
      by_cases ha : a = n
      · subst ha
        simp only [if_true] at hc
        by_cases hb : o = b
        · subst hb; exact hlt
        · simp [StdMap.find, hb] at hc
      · simp only [ha, if_false] at hc
        exact h a b c hc
    | some inner =>
      simp only []
      cases hg : StdMap.find inner o with
      | none =>
        simp only []
        intro a b c hc
        rw [pairCount_put] at hc
        by_cases ha : a = n
        · subst ha
          simp only [if_true, StdMap.find_emplace] at hc
          by_cases hb : b = o
          · subst hb; exact hlt
          · simp only [hb, if_false] at hc
            exact h a b c (by rw [pairCount_of_find hf]; exact hc)
        · simp only [ha, if_false] at hc
          exact h a b c hc
      | some c0 =>
        simp only []
        intro a b c hc
        rw [pairCount_put] at hc
        by_cases ha : a = n
        · subst ha
          simp only [if_true, StdMap.find_put] at hc
          by_cases hb : b = o
          · subst hb; exact hlt
          · simp only [hb, if_false] at hc
            exact h a b c (by rw [pairCount_of_find hf]; exact hc)
        · simp only [ha, if_false] at hc
          exact h a b c hc

theorem pairOrdered_increaseFrom (li : Label) (rest : List Label) :
    ∀ pc : LLMap, PairOrdered pc → PairOrdered (increasePairwiseConfidenceCountFrom pc li rest) := by
  induction rest with
  | nil => intro pc h; exact h
  | cons lj t ih =>
    intro pc h
    exact ih _ (pairOrdered_increasePair pc li lj h)

theorem pairOrdered_increase (l : List Label) :
    ∀ pc : LLMap, PairOrdered pc → PairOrdered (increasePairwiseConfidenceCount pc l) := by
  induction l with
  | nil => intro pc h; exact h
  | cons li t ih =>
    intro pc h
    exact ih _ (pairOrdered_increaseFrom li t pc h)

/-! ### `getNextMerge` -/

theorem tableWF_tail {e : Label × LMap} {rest : LLMap} (h : TableWF (e :: rest)) :
    TableWF rest :=
  ⟨StdMap.ascending_tail h.1, fun x hx => h.2 x (List.mem_cons_of_mem _ hx)⟩

theorem getNextMerge_none (threshold : Int) (pc : LLMap)
    (h : (getNextMerge threshold pc).1 = none) :
    (getNextMerge threshold pc).2 = pc ∧ ∀ e ∈ pc, ∀ p ∈ e.2, p.2 ≤ threshold := by
  induction pc with
  | nil => exact ⟨rfl, fun e he => by cases he⟩
  | cons e0 rest ih =>
    obtain ⟨a0, inner⟩ := e0
    unfold getNextMerge at h ⊢
    cases hf : inner.find? (fun e => decide (e.2 > threshold)) with
    | some e => rw [hf] at h; simp at h
    | none =>
      rw [hf] at h
      simp only [hf]
      simp only at h
      obtain ⟨ih1, ih2⟩ := ih h
      refine ⟨by rw [ih1], ?_⟩
      intro e he p hp
      rcases List.mem_cons.mp he with he | he
      · subst he
        have := List.find?_eq_none.mp hf p hp
        simpa using this
      · exact ih2 e he p hp

theorem getNextMerge_some (threshold : Int) (pc : LLMap) (hwf : TableWF pc) (n o : Label)
    (h : (getNextMerge threshold pc).1 = some (n, o)) :
    (∃ c, pairCount pc n o = some c ∧ threshold < c) ∧
      pairCount (getNextMerge threshold pc).2 n o = none ∧
      ∀ a b, (a, b) ≠ (n, o) →
        pairCount (getNextMerge threshold pc).2 a b = pairCount pc a b := by
  induction pc with
  | nil => simp [getNextMerge] at h
  | cons e0 rest ih =>
    obtain ⟨a0, inner⟩ := e0
    unfold getNextMerge at h ⊢
    cases hf : inner.find? (fun e => decide (e.2 > threshold)) with
    | some e =>
      rw [hf] at h
      simp only [hf]
      simp only [Option.some.injEq, Prod.mk.injEq] at h
      obtain ⟨h1, h2⟩ := h
      subst h1; subst h2
      have hmem : e ∈ inner := List.mem_of_find?_eq_some hf
      have hgt : threshold < e.2 := by
        have := List.find?_some hf
        simpa using this
      have hasc : StdMap.ascending inner = true := hwf.2 (a0, inner) (List.mem_cons_self _ _)
      have hfind : StdMap.find inner e.1 = some e.2 :=
        StdMap.find_of_mem_ascending hasc (by simpa using hmem)
      refine ⟨⟨e.2, by rw [pairCount_cons]; simpa using hfind, hgt⟩, ?_, ?_⟩
      · rw [pairCount_cons]; simp [StdMap.find_erase]
      · intro a b hab
        rw [pairCount_cons, pairCount_cons]
        by_cases ha : a0 = a
        · subst ha
          have hb : b ≠ e.1 := fun hb => hab (by rw [hb])
          simp [StdMap.find_erase, hb]
        · simp [ha]
    | none =>
      rw [hf] at h
      simp only [hf]
      simp only at h
      obtain ⟨⟨c, hc, hgt⟩, h2, h3⟩ := ih (tableWF_tail hwf) h
      obtain ⟨inner', hi1, _⟩ := pairCount_eq_some hc
      have hlt : a0 < n :=
        StdMap.ascending_head_lt hwf.1 (n, inner') (StdMap.mem_of_find hi1)
      have hne : ¬ a0 = n := fun e => by rw [e] at hlt; exact lt_irrefl _ hlt
      refine ⟨⟨c, by rw [pairCount_cons]; simpa [hne] using hc, hgt⟩, ?_, ?_⟩
      · rw [pairCount_cons]; simpa [hne] using h2
      · intro a b hab
        rw [pairCount_cons, pairCount_cons]
        by_cases ha : a0 = a
        · simp [ha]
        · simpa [ha] using h3 a b hab

theorem pairCount_of_mem {pc : LLMap} (hwf : TableWF pc) {e : Label × LMap} {p : Label × Int}
    (he : e ∈ pc) (hp : p ∈ e.2) : pairCount pc e.1 p.1 = some p.2 := by
  have h1 : StdMap.find pc e.1 = some e.2 := StdMap.find_of_mem_ascending hwf.1 (by simpa using he)
  rw [pairCount_of_find h1]
  exact StdMap.find_of_mem_ascending (hwf.2 e he) (by simpa using hp)

theorem getNextMerge_subset (threshold : Int) (pc : LLMap) (a b : Label) (c : Int)
    (h : pairCount (getNextMerge threshold pc).2 a b = some c) : pairCount pc a b = some c := by
  induction pc with
  | nil => simpa [getNextMerge] using h
  | cons e0 rest ih =>
    obtain ⟨a0, inner⟩ := e0
    unfold getNextMerge at h
    cases hf : inner.find? (fun e => decide (e.2 > threshold)) with
    | some e =>
      rw [hf] at h
      simp only at h
      rw [pairCount_cons] at h ⊢
      by_cases ha : a0 = a
      · simp only [ha, if_true, StdMap.find_erase] at h ⊢
        by_cases hb : b = e.1
        · simp [hb] at h
        · simpa [hb] using h
      · simpa [ha] using h
    | none =>
      rw [hf] at h
      simp only at h
      rw [pairCount_cons] at h ⊢
      by_cases ha : a0 = a
      · simpa [ha] using h
      · simp only [ha, if_false] at h ⊢
        exact ih h

theorem pairOrdered_getNextMerge (threshold : Int) (pc : LLMap) (h : PairOrdered pc) :
    PairOrdered (getNextMerge threshold pc).2 :=
  fun a b c hc => h a b c (getNextMerge_subset threshold pc a b c hc)

/-! ### `adjustPairwiseConfidenceAfterMerging` -/

theorem pairCount_add (pc : LLMap) (it l : Label) (n : Int) (a b : Label) :
    pairCount (addPairwiseConfidenceCount pc it l n) a b =
      if a = it ∧ b = l then
        (match StdMap.find pc it with
          | some _ => some ((pairCount pc it l).getD 0 + n)
          | none => none)
      else pairCount pc a b := by
  unfold addPairwiseConfidenceCount
  cases hf : StdMap.find pc it with
  | none =>
    simp only []
    by_cases h : a = it ∧ b = l
    · obtain ⟨h1, h2⟩ := h
      subst h1; subst h2
      simp [pairCount, hf]
    · simp [h]
  | some inner =>
    simp only []
    cases hg : StdMap.find inner l with
    | none =>
      simp only []
      rw [pairCount_put, StdMap.find_emplace]
      by_cases ha : a = it
      · subst ha
        by_cases hb : b = l
        · subst hb; simp [pairCount, hf, hg]
        · simp [hb, pairCount, hf]
      · simp [ha]
    | some c =>
      simp only []
      rw [pairCount_put, StdMap.find_put]
      by_cases ha : a = it
      · subst ha
        by_cases hb : b = l
        · subst hb; simp [pairCount, hf, hg]
        · simp [hb, pairCount, hf]
      · simp [ha]

theorem pairCount_add_support {pc : LLMap} {it l : Label} {n : Int} {a b : Label}
    (h : pairCount (addPairwiseConfidenceCount pc it l n) a b ≠ none) :
    (a = it ∧ b = l) ∨ pairCount pc a b ≠ none := by
  rw [pairCount_add] at h
  by_cases hab : a = it ∧ b = l
  · exact Or.inl hab
  · simp only [hab, if_false] at h
    exact Or.inr h

theorem find_add (pc : LLMap) (it l : Label) (n : Int) (a : Label) :
    StdMap.find (addPairwiseConfidenceCount pc it l n) a = none ↔ StdMap.find pc a = none := by
  unfold addPairwiseConfidenceCount
  cases hf : StdMap.find pc it with
  | none => simp
  | some inner =>
    simp only []
    cases hg : StdMap.find inner l with
    | none =>
      simp only []
      rw [StdMap.find_put]
      by_cases ha : a = it
      · subst ha; simp [hf]
      · simp [ha]
    | some c =>
      simp only []
      rw [StdMap.find_put]
      by_cases ha : a = it
      · subst ha; simp [hf]
      · simp [ha]

theorem foldl_add_support (new_label : Label) (l : List (Label × Int)) :
    ∀ (pc : LLMap) (a b : Label),
      pairCount (l.foldl (fun acc e => addPairwiseConfidenceCount acc new_label e.1 e.2) pc) a b
          ≠ none →
        (a = new_label ∧ ∃ e ∈ l, e.1 = b) ∨ pairCount pc a b ≠ none := by
  induction l with
  | nil => intro pc a b h; exact Or.inr h
  | cons e t ih =>
    intro pc a b h
    simp only [List.foldl_cons] at h
    rcases ih _ a b h with ⟨h1, x, hx, hxb⟩ | h1
    · exact Or.inl ⟨h1, x, List.mem_cons_of_mem _ hx, hxb⟩
    · rcases pairCount_add_support h1 with ⟨h2, h3⟩ | h2
      · exact Or.inl ⟨h2, e, List.mem_cons_self _ _, h3.symm⟩
      · exact Or.inr h2

theorem pairCount_ne_none_of_find_none {pc : LLMap} {a b : Label}
    (h : StdMap.find pc a = none) : pairCount pc a b = none := by
  unfold pairCount; rw [h]

theorem adjustOuter_find_old (pc : LLMap) (new_label old_label : Label) :
    StdMap.find (adjustOuter pc new_label old_label) old_label = none := by
  unfold adjustOuter
  cases hf : StdMap.find pc old_label with
  | none => simpa using hf
  | some old_inner => simp [StdMap.find_erase]

theorem adjustOuter_support {pc : LLMap} {new_label old_label a b : Label}
    (h : pairCount (adjustOuter pc new_label old_label) a b ≠ none) :
    pairCount pc a b ≠ none ∨ (a = new_label ∧ pairCount pc old_label b ≠ none) := by
  unfold adjustOuter at h
  cases hf : StdMap.find pc old_label with
  | none => rw [hf] at h; exact Or.inl h
  | some old_inner =>
    rw [hf] at h
    simp only [pairCount_erase] at h
    by_cases ha : a = old_label
    · simp [ha] at h
    · simp only [ha, if_false] at h
      cases hg : StdMap.find pc new_label with
      | some new_inner =>
        rw [hg] at h
        simp only [] at h
        rcases foldl_add_support new_label old_inner pc a b h with ⟨h1, e, he, heb⟩ | h1
        · refine Or.inr ⟨h1, ?_⟩
          obtain ⟨v, hv⟩ := StdMap.find_isSome_of_mem he
          rw [pairCount_of_find hf, ← heb, hv]
          simp
        · exact Or.inl h1
      | none =>
        rw [hg] at h
        simp only [] at h
        rw [pairCount_emplace _ _ _ _ _ hg] at h
        by_cases ha2 : a = new_label
        · simp only [ha2, if_true] at h
          exact Or.inr ⟨ha2, by rw [pairCount_of_find hf]; exact h⟩
        · simp only [ha2, if_false] at h
          exact Or.inl h

theorem adjustInnerStep_support {new_label old_label : Label} {pc : LLMap} {k a b : Label}
    (h : pairCount (adjustInnerStep new_label old_label pc k) a b ≠ none) :
    pairCount pc a b ≠ none ∨
      (pairCount pc k old_label ≠ none ∧
        ((a = k ∧ b = new_label ∧ k < new_label) ∨
          (a = new_label ∧ b = k ∧ ¬ k < new_label))) := by
  unfold adjustInnerStep at h
  cases hf : StdMap.find pc k with
  | none => rw [hf] at h; exact Or.inl h
  | some inner =>
    rw [hf] at h
    simp only [] at h
    cases hg : StdMap.find inner old_label with
    | none =>
      rw [hg] at h
      simp only [] at h
      by_cases he : inner.isEmpty = true
      · simp only [he, if_true, pairCount_erase] at h
        by_cases ha : a = k
        · simp [ha] at h
        · simp only [ha, if_false] at h; exact Or.inl h
      · simp only [he, Bool.false_eq_true, if_false] at h; exact Or.inl h
    | some n =>
      rw [hg] at h
      simp only [] at h
      have hstored : pairCount pc k old_label ≠ none := by
        rw [pairCount_of_find hf, hg]; simp
      -- the table after the count was added
      have key : ∀ pc1 : LLMap,
          (∀ a b, pairCount pc1 a b ≠ none → pairCount pc a b ≠ none ∨
            ((a = k ∧ b = new_label ∧ k < new_label) ∨
              (a = new_label ∧ b = k ∧ ¬ k < new_label))) →
          pairCount (match StdMap.find pc1 k with
            | none => pc1
            | some inner1 =>
              if (StdMap.erase inner1 old_label).isEmpty then StdMap.erase pc1 k
              else StdMap.put pc1 k (StdMap.erase inner1 old_label)) a b ≠ none →
          pairCount pc a b ≠ none ∨
            (pairCount pc k old_label ≠ none ∧
              ((a = k ∧ b = new_label ∧ k < new_label) ∨
                (a = new_label ∧ b = k ∧ ¬ k < new_label))) := by
        intro pc1 hpc1 h2
        have h3 : pairCount pc1 a b ≠ none := by
          cases hk : StdMap.find pc1 k with
          | none => rw [hk] at h2; exact h2
          | some inner1 =>
            rw [hk] at h2
            simp only [] at h2
            by_cases he : (StdMap.erase inner1 old_label).isEmpty = true
            · simp only [he, if_true, pairCount_erase] at h2
              by_cases ha : a = k
              · simp [ha] at h2
              · simpa [ha] using h2
            · simp only [he, Bool.false_eq_true, if_false] at h2
              rw [pairCount_put] at h2
              by_cases ha : a = k
              · subst ha
                simp only [if_true, StdMap.find_erase] at h2
                by_cases hb : b = old_label
                · simp [hb] at h2
                · simp only [hb, if_false] at h2
                  rw [pairCount_of_find hk]; exact h2
              · simpa [ha] using h2
        rcases hpc1 a b h3 with h4 | h4
        · exact Or.inl h4
        · exact Or.inr ⟨hstored, h4⟩
      by_cases hlt : k < new_label
      · simp only [hlt, if_true] at h
        refine key _ ?_ h
        intro a' b' h'
        rcases pairCount_add_support h' with ⟨h1, h2⟩ | h1
        · exact Or.inr (Or.inl ⟨h1, h2, hlt⟩)
        · exact Or.inl h1
      · simp only [hlt, if_false] at h
        cases hn : StdMap.find pc new_label with
        | some new_inner =>
          rw [hn] at h
          simp only [] at h
          refine key _ ?_ h
          intro a' b' h'
          rcases pairCount_add_support h' with ⟨h1, h2⟩ | h1
          · exact Or.inr (Or.inr ⟨h1, h2, hlt⟩)
          · exact Or.inl h1
        | none =>
          rw [hn] at h
          simp only [] at h
          refine key _ ?_ h
          intro a' b' h'
          rw [pairCount_emplace _ _ _ _ _ hn] at h'
          by_cases ha : a' = new_label
          · simp only [ha, if_true] at h'
            by_cases hb : k = b'
            · exact Or.inr (Or.inr ⟨ha, hb.symm, hlt⟩)
            · simp [StdMap.find, hb] at h'
          · simp only [ha, if_false] at h'
            exact Or.inl h'

theorem find_emplace_eq_none {V : Type} (m : List (Nat × V)) (k k' : Nat) (v : V)
    (h : StdMap.find (StdMap.emplace m k v) k' = none) : StdMap.find m k' = none ∧ k' ≠ k := by
  rw [StdMap.find_emplace] at h
  by_cases hk : k' = k
  · simp [hk] at h
  · simp only [hk, if_false] at h; exact ⟨h, hk⟩

theorem adjustInnerStep_find {new_label old_label : Label} {pc : LLMap} {k a : Label}
    (h : StdMap.find (adjustInnerStep new_label old_label pc k) a ≠ none) :
    StdMap.find pc a ≠ none ∨ a = new_label := by
  by_cases hanew : a = new_label
  · exact Or.inr hanew
  refine Or.inl ?_
  intro hnone
  apply h
  unfold adjustInnerStep
  cases hf : StdMap.find pc k with
  | none => simpa using hnone
  | some inner =>
    simp only []
    cases hg : StdMap.find inner old_label with
    | none =>
      simp only []
      by_cases he : inner.isEmpty = true
      · simp only [he, if_true, StdMap.find_erase]
        by_cases ha : a = k <;> simp [ha, hnone]
      · simpa [he] using hnone
    | some n =>
      simp only []
      have key : ∀ pc1 : LLMap, StdMap.find pc1 a = none →
          StdMap.find (match StdMap.find pc1 k with
            | none => pc1
            | some inner1 =>
              if (StdMap.erase inner1 old_label).isEmpty then StdMap.erase pc1 k
              else StdMap.put pc1 k (StdMap.erase inner1 old_label)) a = none := by
        intro pc1 h1
        cases hk : StdMap.find pc1 k with
        | none => simpa using h1
        | some inner1 =>
          simp only []
          have hak : a ≠ k := fun e => by rw [e, hk] at h1; cases h1
          by_cases he : (StdMap.erase inner1 old_label).isEmpty = true
          · simp only [he, if_true, StdMap.find_erase, hak, if_false]; exact h1
          · simp only [he, Bool.false_eq_true, if_false, StdMap.find_put, hak]; exact h1
      apply key
      by_cases hlt : k < new_label
      · simp only [hlt, if_true]
        exact (find_add _ _ _ _ _).mpr hnone
      · simp only [hlt, if_false]
        cases hn : StdMap.find pc new_label with
        | some new_inner => simp only []; exact (find_add _ _ _ _ _).mpr hnone
        | none =>
          simp only []
          rw [StdMap.find_emplace]
          simp [hanew, hnone]

theorem adjustInnerStep_clean_self (new_label old_label : Label) (pc : LLMap) (k : Label) :
    pairCount (adjustInnerStep new_label old_label pc k) k old_label = none := by
  unfold adjustInnerStep
  cases hf : StdMap.find pc k with
  | none => simp only []; exact pairCount_ne_none_of_find_none hf
  | some inner =>
    simp only []
    cases hg : StdMap.find inner old_label with
    | none =>
      simp only []
      by_cases he : inner.isEmpty = true
      · simp [he, pairCount_erase]
      · simp only [he, Bool.false_eq_true, if_false]
        rw [pairCount_of_find hf]; exact hg
    | some n =>
      simp only []
      have key : ∀ pc1 : LLMap,
          pairCount (match StdMap.find pc1 k with
            | none => pc1
            | some inner1 =>
              if (StdMap.erase inner1 old_label).isEmpty then StdMap.erase pc1 k
              else StdMap.put pc1 k (StdMap.erase inner1 old_label)) k old_label = none := by
        intro pc1
        cases hk : StdMap.find pc1 k with
        | none => exact pairCount_ne_none_of_find_none hk
        | some inner1 =>
          by_cases he : (StdMap.erase inner1 old_label).isEmpty = true
          · simp [he, pairCount_erase]
          · simp [he, pairCount_put, StdMap.find_erase]
      exact key _

/-- After the second loop of `adjustPairwiseConfidenceAfterMerging` over the
keys `ks`, no pair with inner key `old_label` is left, provided the keys not
in `ks` had none. -/
theorem adjustInner_clean (new_label old_label : Label) (hne : new_label ≠ old_label)
    (ks : List Label) :
    ∀ pc : LLMap, StdMap.find pc old_label = none →
      (∀ a, a ∉ ks → pairCount pc a old_label = none) →
      StdMap.find (ks.foldl (adjustInnerStep new_label old_label) pc) old_label = none ∧
        ∀ a, pairCount (ks.foldl (adjustInnerStep new_label old_label) pc) a old_label = none := by
  induction ks with
  | nil =>
    intro pc h1 h2
    exact ⟨h1, fun a => h2 a (by simp)⟩
  | cons k t ih =>
    intro pc h1 h2
    simp only [List.foldl_cons]
    apply ih
    · by_contra hcon
      rcases adjustInnerStep_find hcon with h3 | h3
      · exact h3 h1
      · exact hne h3.symm
    · intro a ha
      by_cases hak : a = k
      · subst hak; exact adjustInnerStep_clean_self _ _ _ _
      · by_contra hcon
        rcases adjustInnerStep_support hcon with h3 | ⟨h3, h4 | h4⟩
        · exact h3 (h2 a (by simp [hak, ha]))
        · exact hne h4.2.1.symm
        · apply h3
          rw [← h4.2.1]
          exact pairCount_ne_none_of_find_none h1

theorem adjust_clean (pc : LLMap) (new_label old_label : Label) (hne : new_label ≠ old_label) :
    StdMap.find (adjustPairwiseConfidenceAfterMerging pc new_label old_label) old_label = none ∧
      ∀ a, pairCount (adjustPairwiseConfidenceAfterMerging pc new_label old_label) a old_label
        = none := by
  unfold adjustPairwiseConfidenceAfterMerging
  apply adjustInner_clean new_label old_label hne
  · exact adjustOuter_find_old pc new_label old_label
  · intro a ha
    exact pairCount_ne_none_of_find_none (StdMap.find_eq_none_of_not_mem_keys ha)

theorem pairOrdered_lt {pc : LLMap} (h : PairOrdered pc) {a b : Label}
    (hs : pairCount pc a b ≠ none) : a < b := by
  cases hc : pairCount pc a b with
  | none => exact absurd hc hs
  | some c => exact h a b c hc

theorem adjustInner_ordered (new_label old_label : Label) (hlt : new_label < old_label)
    (ks : List Label) :
    ∀ pc : LLMap, PairOrdered pc → pairCount pc new_label old_label = none →
      PairOrdered (ks.foldl (adjustInnerStep new_label old_label) pc) := by
  induction ks with
  | nil => intro pc h1 _; exact h1
  | cons k t ih =>
    intro pc h1 h2
    simp only [List.foldl_cons]
    apply ih
    · intro a b c hc
      have hs : pairCount (adjustInnerStep new_label old_label pc k) a b ≠ none := by
        rw [hc]; simp
      rcases adjustInnerStep_support hs with h3 | ⟨h3, h4 | h4⟩
      · exact pairOrdered_lt h1 h3
      · rw [h4.1, h4.2.1]; exact h4.2.2
      · rw [h4.1, h4.2.1]
        have hk : k ≠ new_label := fun e => by rw [e] at h3; exact h3 h2
        exact lt_of_le_of_ne (not_lt.mp h4.2.2) (Ne.symm hk)
    · by_contra hcon
      rcases adjustInnerStep_support hcon with h3 | ⟨h3, h4 | h4⟩
      · exact h3 h2
      · rw [h4.2.1] at hlt; exact lt_irrefl _ hlt
      · have := pairOrdered_lt h1 h3
        rw [← h4.2.1] at this
        exact lt_irrefl _ this

theorem pairOrdered_adjust (pc : LLMap) (new_label old_label : Label) (h : PairOrdered pc)
    (hlt : new_label < old_label) (habs : pairCount pc new_label old_label = none) :
    PairOrdered (adjustPairwiseConfidenceAfterMerging pc new_label old_label) := by
  unfold adjustPairwiseConfidenceAfterMerging
  apply adjustInner_ordered new_label old_label hlt
  · intro a b c hc
    have hs : pairCount (adjustOuter pc new_label old_label) a b ≠ none := by rw [hc]; simp
    rcases adjustOuter_support hs with h1 | ⟨h1, h2⟩
    · exact pairOrdered_lt h h1
    · rw [h1]; exact lt_trans hlt (pairOrdered_lt h h2)
  · by_contra hcon
    rcases adjustOuter_support hcon with h1 | ⟨_, h2⟩
    · exact h1 habs
    · exact lt_irrefl _ (pairOrdered_lt h h2)

/-! ### Well-formedness of the maps is preserved -/

namespace StdMap

theorem ascending_cons_iff {V : Type} (e : Nat × V) (t : List (Nat × V)) :
    ascending (e :: t) = true ↔ (∀ x ∈ t, e.1 < x.1) ∧ ascending t = true := by
  constructor
  · intro h; exact ⟨ascending_head_lt h, ascending_tail h⟩
  · rintro ⟨h1, h2⟩
    cases t with
    | nil => rfl
    | cons e' t' =>
      simp only [ascending, Bool.and_eq_true, decide_eq_true_eq]
      exact ⟨h1 e' (List.mem_cons_self _ _), h2⟩

theorem ascending_put {V : Type} (m : List (Nat × V)) (k : Nat) (v : V)
    (h : ascending m = true) : ascending (put m k v) = true := by
  induction m with
  | nil => rfl
  | cons e t ih =>
    obtain ⟨k0, v0⟩ := e
    rw [ascending_cons_iff] at h
    by_cases h1 : k < k0
    · simp only [put, h1, if_true]
      rw [ascending_cons_iff]
      refine ⟨?_, (ascending_cons_iff _ _).mpr h⟩
      intro x hx
      rcases List.mem_cons.mp hx with hx | hx
      · rw [hx]; exact h1
      · exact lt_trans h1 (h.1 x hx)
    · by_cases h2 : k = k0
      · subst h2
        simp only [put, lt_irrefl, if_true, if_false]
        rw [ascending_cons_iff]
        exact h
      · simp only [put, h1, h2, if_false]
        rw [ascending_cons_iff]
        refine ⟨?_, ih h.2⟩
        intro x hx
        rcases mem_put hx with hx | hx
        · rw [hx]; exact lt_of_le_of_ne (not_lt.mp h1) (Ne.symm h2)
        · exact h.1 x hx

theorem ascending_emplace {V : Type} (m : List (Nat × V)) (k : Nat) (v : V)
    (h : ascending m = true) : ascending (emplace m k v) = true := by
  unfold emplace
  cases find m k with
  | some _ => exact h
  | none => exact ascending_put m k v h

theorem ascending_erase {V : Type} (m : List (Nat × V)) (k : Nat)
    (h : ascending m = true) : ascending (erase m k) = true := by
  induction m with
  | nil => rfl
  | cons e t ih =>
    obtain ⟨k0, v0⟩ := e
    rw [ascending_cons_iff] at h
    by_cases h1 : k0 = k
    · simp only [erase, h1, if_true]; exact ih h.2
    · simp only [erase, h1, if_false]
      rw [ascending_cons_iff]
      exact ⟨fun x hx => h.1 x (mem_erase hx).1, ih h.2⟩

end StdMap

theorem tableWF_put {pc : LLMap} (h : TableWF pc) (a : Label) {inner : LMap}
    (hi : StdMap.ascending inner = true) : TableWF (StdMap.put pc a inner) := by
  refine ⟨StdMap.ascending_put _ _ _ h.1, ?_⟩
  intro e he
  rcases StdMap.mem_put he with he | he
  · rw [he]; exact hi
  · exact h.2 e he

theorem tableWF_emplace {pc : LLMap} (h : TableWF pc) (a : Label) {inner : LMap}
    (hi : StdMap.ascending inner = true) : TableWF (StdMap.emplace pc a inner) := by
  refine ⟨StdMap.ascending_emplace _ _ _ h.1, ?_⟩
  intro e he
  rcases StdMap.mem_emplace he with he | he
  · rw [he]; exact hi
  · exact h.2 e he

theorem tableWF_erase {pc : LLMap} (h : TableWF pc) (a : Label) :
    TableWF (StdMap.erase pc a) :=
  ⟨StdMap.ascending_erase _ _ h.1, fun e he => h.2 e (StdMap.mem_erase he).1⟩

theorem tableWF_find {pc : LLMap} (h : TableWF pc) {a : Label} {inner : LMap}
    (hf : StdMap.find pc a = some inner) : StdMap.ascending inner = true :=
  h.2 (a, inner) (StdMap.mem_of_find hf)

theorem tableWF_add {pc : LLMap} (h : TableWF pc) (it l : Label) (n : Int) :
    TableWF (addPairwiseConfidenceCount pc it l n) := by
  unfold addPairwiseConfidenceCount
  cases hf : StdMap.find pc it with
  | none => exact h
  | some inner =>
    simp only []
    cases hg : StdMap.find inner l with
    | none => exact tableWF_put h it (StdMap.ascending_emplace _ _ _ (tableWF_find h hf))
    | some c => exact tableWF_put h it (StdMap.ascending_put _ _ _ (tableWF_find h hf))

theorem tableWF_foldl_add (new_label : Label) (l : List (Label × Int)) :
    ∀ pc : LLMap, TableWF pc →
      TableWF (l.foldl (fun acc e => addPairwiseConfidenceCount acc new_label e.1 e.2) pc) := by
  induction l with
  | nil => intro pc h; exact h
  | cons e t ih => intro pc h; exact ih _ (tableWF_add h _ _ _)

theorem tableWF_adjustOuter {pc : LLMap} (h : TableWF pc) (new_label old_label : Label) :
    TableWF (adjustOuter pc new_label old_label) := by
  unfold adjustOuter
  cases hf : StdMap.find pc old_label with
  | none => exact h
  | some old_inner =>
    simp only []
    apply tableWF_erase
    cases hg : StdMap.find pc new_label with
    | some _ => exact tableWF_foldl_add _ _ _ h
    | none => exact tableWF_emplace h _ (tableWF_find h hf)

theorem tableWF_adjustInnerStep {pc : LLMap} (h : TableWF pc) (new_label old_label k : Label) :
    TableWF (adjustInnerStep new_label old_label pc k) := by
  unfold adjustInnerStep
  cases hf : StdMap.find pc k with
  | none => exact h
  | some inner =>
    simp only []
    cases hg : StdMap.find inner old_label with
    | none =>
      simp only []
      by_cases he : inner.isEmpty = true
      · simp only [he, if_true]; exact tableWF_erase h k
      · simp only [he, Bool.false_eq_true, if_false]; exact h
    | some n =>
      simp only []
      have key : ∀ pc1 : LLMap, TableWF pc1 →
          TableWF (match StdMap.find pc1 k with
            | none => pc1
            | some inner1 =>
              if (StdMap.erase inner1 old_label).isEmpty then StdMap.erase pc1 k
              else StdMap.put pc1 k (StdMap.erase inner1 old_label)) := by
        intro pc1 h1
        cases hk : StdMap.find pc1 k with
        | none => exact h1
        | some inner1 =>
          simp only []
          by_cases he : (StdMap.erase inner1 old_label).isEmpty = true
          · simp only [he, if_true]; exact tableWF_erase h1 k
          · simp only [he, Bool.false_eq_true, if_false]
            exact tableWF_put h1 k (StdMap.ascending_erase _ _ (tableWF_find h1 hk))
      apply key
      by_cases hlt : k < new_label
      · simp only [hlt, if_true]; exact tableWF_add h _ _ _
      · simp only [hlt, if_false]
        cases hn : StdMap.find pc new_label with
        | some _ => exact tableWF_add h _ _ _
        | none => exact tableWF_emplace h _ rfl

theorem tableWF_foldl_adjustInnerStep (new_label old_label : Label) (ks : List Label) :
    ∀ pc : LLMap, TableWF pc →
      TableWF (ks.foldl (adjustInnerStep new_label old_label) pc) := by
  induction ks with
  | nil => intro pc h; exact h
  | cons k t ih => intro pc h; exact ih _ (tableWF_adjustInnerStep h _ _ _)

theorem tableWF_adjust {pc : LLMap} (h : TableWF pc) (new_label old_label : Label) :
    TableWF (adjustPairwiseConfidenceAfterMerging pc new_label old_label) := by
  unfold adjustPairwiseConfidenceAfterMerging
  exact tableWF_foldl_adjustInnerStep _ _ _ _ (tableWF_adjustOuter h new_label old_label)

/-! ## The pairwise table: ordering invariant, merge check, removal of the merged label -/

/-- C4: the ordering invariant of the pairwise table (every stored pair has its
outer key strictly below its inner key) holds for the empty table and is
preserved by `increasePairwiseConfidenceCount` for every list, by
`getNextMerge`, and by `adjustPairwiseConfidenceAfterMerging` called with the
pair that `getNextMerge` has just popped. -/
theorem pairwise_order_invariant :
    PairOrdered [] ∧
    (∀ (pc : LLMap) (merge_candidates : List Label),
      PairOrdered pc → PairOrdered (increasePairwiseConfidenceCount pc merge_candidates)) ∧
    (∀ (threshold : Int) (pc : LLMap),
      PairOrdered pc → PairOrdered (getNextMerge threshold pc).2) ∧
    (∀ (threshold : Int) (pc : LLMap) (new_label old_label : Label),
      TableWF pc → PairOrdered pc →
      (getNextMerge threshold pc).1 = some (new_label, old_label) →
      PairOrdered
        (adjustPairwiseConfidenceAfterMerging (getNextMerge threshold pc).2 new_label
          old_label)) := by
  refine ⟨pairOrdered_nil, fun pc l h => pairOrdered_increase l pc h,
    fun t pc h => pairOrdered_getNextMerge t pc h, ?_⟩
  intro threshold pc n o hwf hord hpop
  obtain ⟨⟨c, hc, _⟩, habs, _⟩ := getNextMerge_some threshold pc hwf n o hpop
  exact pairOrdered_adjust _ n o (pairOrdered_getNextMerge threshold pc hord)
    (hord n o c hc) habs

theorem pairwise_order_invariant_witness :
    TableWF tableScenarioC ∧ (getNextMerge 30 tableScenarioC).1 = some (3, 7) ∧
      PairOrdered (adjustPairwiseConfidenceAfterMerging (getNextMerge 30 tableScenarioC).2 3 7) :=
  ⟨by decide, by decide,
    pairwise_order_invariant.2.2.2 30 tableScenarioC 3 7 (by decide)
      (pairOrdered_of_forall_mem _ (by decide)) (by decide)⟩

/-- C5: on a well-formed table `getNextMerge` returns a pair iff some stored
pair has a count strictly above the threshold; the returned pair is a stored
pair whose count exceeds the threshold, it is no longer stored afterwards, and
every other pair keeps its count. -/
theorem getNextMerge_correct (threshold : Int) (pc : LLMap) (hwf : TableWF pc) :
    ((∃ p, (getNextMerge threshold pc).1 = some p) ↔
      ∃ a b c, pairCount pc a b = some c ∧ threshold < c) ∧
    ∀ new_label old_label, (getNextMerge threshold pc).1 = some (new_label, old_label) →
      (∃ c, pairCount pc new_label old_label = some c ∧ threshold < c) ∧
      pairCount (getNextMerge threshold pc).2 new_label old_label = none ∧
      ∀ a b, (a, b) ≠ (new_label, old_label) →
        pairCount (getNextMerge threshold pc).2 a b = pairCount pc a b := by
  refine ⟨⟨?_, ?_⟩, fun n o h => getNextMerge_some threshold pc hwf n o h⟩
  · rintro ⟨⟨n, o⟩, hp⟩
    obtain ⟨⟨c, hc, hgt⟩, _⟩ := getNextMerge_some threshold pc hwf n o hp
    exact ⟨n, o, c, hc, hgt⟩
  · rintro ⟨a, b, c, hc, hgt⟩
    cases hr : (getNextMerge threshold pc).1 with
    | some p => exact ⟨p, rfl⟩
    | none =>
      exfalso
      obtain ⟨inner, h1, h2⟩ := pairCount_eq_some hc
      have := (getNextMerge_none threshold pc hr).2 (a, inner) (StdMap.mem_of_find h1) (b, c)
        (StdMap.mem_of_find h2)
      exact absurd hgt (not_lt.mpr this)

theorem getNextMerge_correct_witness :
    TableWF tableScenarioC ∧
    (((∃ p, (getNextMerge 30 tableScenarioC).1 = some p) ↔
      ∃ a b c, pairCount tableScenarioC a b = some c ∧ (30 : Int) < c) ∧
    ∀ new_label old_label, (getNextMerge 30 tableScenarioC).1 = some (new_label, old_label) →
      (∃ c, pairCount tableScenarioC new_label old_label = some c ∧ (30 : Int) < c) ∧
      pairCount (getNextMerge 30 tableScenarioC).2 new_label old_label = none ∧
      ∀ a b, (a, b) ≠ (new_label, old_label) →
        pairCount (getNextMerge 30 tableScenarioC).2 a b = pairCount tableScenarioC a b) :=
  ⟨by decide, getNextMerge_correct 30 tableScenarioC (by decide)⟩

/-- C6: when no stored pair of a well-formed pairwise table has a count above
`pairwise_confidence_count_threshold`, `getNextMerge` returns no pair and
leaves the table as it is, and `mergeLabels` returns the integrator state and
`merges_to_publish` unchanged. -/
theorem mergeLabels_idle {C : Type} [LinearOrderedAddCommMonoid C] (st : Integrator C)
    (merges_to_publish : LLSet) (fuel : Nat) (hwf : TableWF st.pairwise_confidence_)
    (hidle : ∀ a b c, pairCount st.pairwise_confidence_ a b = some c →
      c ≤ st.label_tsdf_config_.pairwise_confidence_count_threshold) :
    getNextMerge st.label_tsdf_config_.pairwise_confidence_count_threshold
        st.pairwise_confidence_ = (none, st.pairwise_confidence_) ∧
    mergeLabels (fuel + 1) st merges_to_publish = .ok (st, merges_to_publish) := by
  have h1 : (getNextMerge st.label_tsdf_config_.pairwise_confidence_count_threshold
      st.pairwise_confidence_).1 = none := by
    cases hr : (getNextMerge st.label_tsdf_config_.pairwise_confidence_count_threshold
      st.pairwise_confidence_).1 with
    | none => rfl
    | some p =>
      exfalso
      obtain ⟨n, o⟩ := p
      obtain ⟨⟨c, hc, hgt⟩, _⟩ := getNextMerge_some _ _ hwf n o hr
      exact absurd hgt (not_lt.mpr (hidle n o c hc))
  have h2 := (getNextMerge_none _ _ h1).1
  have h3 : getNextMerge st.label_tsdf_config_.pairwise_confidence_count_threshold
      st.pairwise_confidence_ = (none, st.pairwise_confidence_) := Prod.ext h1 h2
  refine ⟨h3, ?_⟩
  unfold mergeLabels
  by_cases he : st.label_tsdf_config_.enable_pairwise_confidence_merging = true
  · simp only [he, if_true, mergeLabelsLoop, h3]
  · simp only [he, Bool.false_eq_true, if_false]

theorem mergeLabels_idle_witness :
    mergeLabels 1 (integratorWithTable tablePopped) [] =
      .ok (integratorWithTable tablePopped, []) :=
  (mergeLabels_idle (integratorWithTable tablePopped) [] 0 (by decide)
    (fun a b c h => by
      have hmem : ∀ e ∈ tablePopped, ∀ p ∈ e.2, p.2 ≤ (30 : Int) := by decide
      obtain ⟨inner, h1, h2⟩ := pairCount_eq_some h
      exact hmem (a, inner) (StdMap.mem_of_find h1) (b, c) (StdMap.mem_of_find h2))).2

/-- C10: after `adjustPairwiseConfidenceAfterMerging(new_label, old_label)` with
`new_label != old_label` on a well-formed table, `old_label` appears nowhere in
the table: it is not the outer key of an entry and not an inner key of any
entry. -/
theorem adjust_removes_old_label (pc : LLMap) (new_label old_label : Label)
    (hwf : TableWF pc) (hne : new_label ≠ old_label) :
    ∀ e ∈ adjustPairwiseConfidenceAfterMerging pc new_label old_label,
      e.1 ≠ old_label ∧ ∀ p ∈ e.2, p.1 ≠ old_label := by
  intro e he
  have hwf2 := tableWF_adjust hwf new_label old_label
  obtain ⟨h1, h2⟩ := adjust_clean pc new_label old_label hne
  have hfind : StdMap.find (adjustPairwiseConfidenceAfterMerging pc new_label old_label) e.1
      = some e.2 := StdMap.find_of_mem_ascending hwf2.1 (by simpa using he)
  refine ⟨fun heq => ?_, fun p hp hpeq => ?_⟩
  · rw [heq, h1] at hfind; cases hfind
  · have := pairCount_of_mem hwf2 he hp
    rw [hpeq, h2] at this
    cases this

theorem adjust_removes_old_label_witness :
    TableWF tablePopped ∧
      ∀ e ∈ adjustPairwiseConfidenceAfterMerging tablePopped 3 7,
        e.1 ≠ 7 ∧ ∀ p ∈ e.2, p.1 ≠ 7 :=
  ⟨by decide, adjust_removes_old_label tablePopped 3 7 (by decide) (by decide)⟩

/-! ## The voxel store under `swapLabels` -/

section SwapLabels

set_option linter.unusedSectionVars false

variable {C : Type} [LinearOrder C] [Zero C] [Add C]

theorem swapLabelsVoxels_voxels (old_label new_label : Label) (vs : List (LabelVoxel C)) :
    ∀ (st : Integrator C) (updated : Bool),
      (swapLabelsVoxels old_label new_label st updated vs).2.2 =
        vs.map (swapVoxel old_label new_label) := by
  induction vs with
  | nil => intro st updated; rfl
  | cons v t ih => intro st updated; simp [swapLabelsVoxels, ih]

theorem swapLabelsVoxels_state (old_label new_label : Label) (vs : List (LabelVoxel C)) :
    ∀ (st : Integrator C) (updated : Bool),
      (swapLabelsVoxels old_label new_label st updated vs).1 =
        vs.foldl (fun s v => swapBookkeeping s v.label (swapVoxel old_label new_label v).label)
          st := by
  induction vs with
  | nil => intro st updated; rfl
  | cons v t ih => intro st updated; simp [swapLabelsVoxels, ih]

theorem swapLabelsBlocks_blocks (old_label new_label : Label) (layer : Layer C) :
    ∀ st : Integrator C,
      (swapLabelsBlocks old_label new_label st layer).2.map (fun b => (b.1, b.2.voxels)) =
        layer.map (fun b => (b.1, b.2.voxels.map (swapVoxel old_label new_label))) := by
  induction layer with
  | nil => intro st; rfl
  | cons b t ih =>
    intro st
    obtain ⟨idx, block⟩ := b
    simp [swapLabelsBlocks, ih, swapLabelsVoxels_voxels]

theorem swapLabelsBlocks_state (old_label new_label : Label) (layer : Layer C) :
    ∀ st : Integrator C,
      (swapLabelsBlocks old_label new_label st layer).1 =
        (allVoxels layer).foldl
          (fun s v => swapBookkeeping s v.label (swapVoxel old_label new_label v).label) st := by
  induction layer with
  | nil => intro st; rfl
  | cons b t ih =>
    intro st
    obtain ⟨idx, block⟩ := b
    simp [swapLabelsBlocks, ih, swapLabelsVoxels_state, allVoxels, List.foldl_append]

theorem swapLabels_layer (st : Integrator C) (old_label new_label : Label) :
    (swapLabels st old_label new_label).label_layer_.map (fun b => (b.1, b.2.voxels)) =
      st.label_layer_.map (fun b => (b.1, b.2.voxels.map (swapVoxel old_label new_label))) := by
  unfold swapLabels
  exact swapLabelsBlocks_blocks old_label new_label st.label_layer_ st

theorem mem_swapLabels_layer {st : Integrator C} {old_label new_label : Label}
    {b : BlockIndex × Block C} (hb : b ∈ (swapLabels st old_label new_label).label_layer_) :
    ∃ b0 ∈ st.label_layer_, b.2.voxels = b0.2.voxels.map (swapVoxel old_label new_label) := by
  have h1 : (b.1, b.2.voxels) ∈
      (swapLabels st old_label new_label).label_layer_.map (fun b => (b.1, b.2.voxels)) :=
    List.mem_map.mpr ⟨b, hb, rfl⟩
  rw [swapLabels_layer] at h1
  obtain ⟨b0, hb0, heq⟩ := List.mem_map.mp h1
  refine ⟨b0, hb0, ?_⟩
  have := congrArg Prod.snd heq
  exact this.symm

theorem voxelAtPos_swapLabels (st : Integrator C) (old_label new_label : Label) (i j : Nat) :
    voxelAtPos (swapLabels st old_label new_label).label_layer_ i j =
      (voxelAtPos st.label_layer_ i j).map (swapVoxel old_label new_label) := by
  have h := congrArg (fun l => l[i]?) (swapLabels_layer st old_label new_label)
  simp only [List.getElem?_map] at h
  unfold voxelAtPos
  cases h1 : (swapLabels st old_label new_label).label_layer_[i]? with
  | none =>
    rw [h1] at h
    cases h2 : st.label_layer_[i]? with
    | none => rfl
    | some b0 => rw [h2] at h; simp at h
  | some b =>
    rw [h1] at h
    cases h2 : st.label_layer_[i]? with
    | none => rw [h2] at h; simp at h
    | some b0 =>
      rw [h2] at h
      simp only [Option.map_some', Option.some.injEq, Prod.mk.injEq] at h
      simp only [h.2, List.getElem?_map]

/-! ### The entries of one voxel -/

theorem clearOldLabel_labels (old_label : Label) (hold : old_label ≠ 0)
    (l : List (LabelCount C)) :
    ∀ acc : C, ∀ lc ∈ (clearOldLabel old_label acc l).2, lc.label ≠ old_label := by
  induction l with
  | nil => intro acc lc h; simp [clearOldLabel] at h
  | cons x t ih =>
    intro acc lc h
    unfold clearOldLabel at h
    by_cases hx : x.label = old_label
    · simp only [hx, if_true] at h
      rcases List.mem_cons.mp h with h | h
      · rw [h]; intro e; exact hold e.symm
      · exact ih _ lc h
    · simp only [hx, if_false] at h
      rcases List.mem_cons.mp h with h | h
      · rw [h]; exact hx
      · exact ih _ lc h

theorem addToObserved_labels {label : Label} {confidence : C} (P : Label → Prop)
    (l : List (LabelCount C)) :
    ∀ l2, addToObserved label confidence l = some l2 → (∀ lc ∈ l, P lc.label) →
      ∀ lc ∈ l2, P lc.label := by
  induction l with
  | nil => intro l2 h; simp [addToObserved] at h
  | cons x t ih =>
    intro l2 h hP lc hlc
    unfold addToObserved at h
    by_cases hx : x.label = label
    · simp only [hx, if_true, Option.some.injEq] at h
      subst h
      rcases List.mem_cons.mp hlc with h1 | h1
      · rw [h1]
        have h2 := hP x (List.mem_cons_self _ _)
        rw [hx] at h2
        exact h2
      · exact hP lc (List.mem_cons_of_mem _ h1)
    · simp only [hx, if_false] at h
      cases hr : addToObserved label confidence t with
      | none => rw [hr] at h; simp at h
      | some r =>
        rw [hr] at h
        simp only [Option.map_some', Option.some.injEq] at h
        subst h
        rcases List.mem_cons.mp hlc with h1 | h1
        · rw [h1]; exact hP x (List.mem_cons_self _ _)
        · exact ih r hr (fun y hy => hP y (List.mem_cons_of_mem _ hy)) lc h1

theorem addToUnused_labels {label : Label} {confidence : C} (P : Label → Prop)
    (l : List (LabelCount C)) :
    ∀ l2, addToUnused label confidence l = some l2 → (∀ lc ∈ l, P lc.label) → P label →
      ∀ lc ∈ l2, P lc.label := by
  induction l with
  | nil => intro l2 h; simp [addToUnused] at h
  | cons x t ih =>
    intro l2 h hP hl lc hlc
    unfold addToUnused at h
    by_cases hx : x.label = 0
    · simp only [hx, if_true, Option.some.injEq] at h
      subst h
      rcases List.mem_cons.mp hlc with h1 | h1
      · rw [h1]; exact hl
      · exact hP lc (List.mem_cons_of_mem _ h1)
    · simp only [hx, if_false] at h
      cases hr : addToUnused label confidence t with
      | none => rw [hr] at h; simp at h
      | some r =>
        rw [hr] at h
        simp only [Option.map_some', Option.some.injEq] at h
        subst h
        rcases List.mem_cons.mp hlc with h1 | h1
        · rw [h1]; exact hP x (List.mem_cons_self _ _)
        · exact ih r hr (fun y hy => hP y (List.mem_cons_of_mem _ hy)) hl lc h1

theorem addVoxelLabelConfidence_labels {label : Label} {confidence : C} (P : Label → Prop)
    (voxel : LabelVoxel C) (hP : ∀ lc ∈ voxel.label_count, P lc.label) (hl : P label) :
    ∀ lc ∈ (addVoxelLabelConfidence label confidence voxel).label_count, P lc.label := by
  unfold addVoxelLabelConfidence
  cases h1 : addToObserved label confidence voxel.label_count with
  | some l2 => exact addToObserved_labels P _ l2 h1 hP
  | none =>
    cases h2 : addToUnused label confidence voxel.label_count with
    | some l2 => exact addToUnused_labels P _ l2 h2 hP hl
    | none => exact hP

theorem updateVoxel_fold_label (preferred_label : Label) (l : List (LabelCount C)) :
    ∀ acc : Label × C,
      (l.foldl (updateVoxelStep preferred_label) acc).1 = acc.1 ∨
        ∃ lc ∈ l, lc.label = (l.foldl (updateVoxelStep preferred_label) acc).1 := by
  induction l with
  | nil => intro acc; exact Or.inl rfl
  | cons x t ih =>
    intro acc
    simp only [List.foldl_cons]
    have hstep : updateVoxelStep preferred_label acc x = (x.label, x.label_confidence) ∨
        updateVoxelStep preferred_label acc x = acc := by
      unfold updateVoxelStep
      split
      · exact Or.inl rfl
      · exact Or.inr rfl
    rcases hstep with hs | hs
    · rw [hs]
      rcases ih (x.label, x.label_confidence) with h | ⟨lc, hlc, h⟩
      · exact Or.inr ⟨x, List.mem_cons_self _ _, h.symm⟩
      · exact Or.inr ⟨lc, List.mem_cons_of_mem _ hlc, h⟩
    · rw [hs]
      rcases ih acc with h | ⟨lc, hlc, h⟩
      · exact Or.inl h
      · exact Or.inr ⟨lc, List.mem_cons_of_mem _ hlc, h⟩

theorem updateVoxel_label_count (voxel : LabelVoxel C) (preferred_label : Label) :
    (updateVoxelLabelAndConfidence voxel preferred_label).label_count = voxel.label_count := rfl

theorem swapVoxel_without_old (old_label new_label : Label) (voxel : LabelVoxel C)
    (hne : old_label ≠ new_label) (hold : old_label ≠ 0) :
    (∀ lc ∈ (swapVoxel old_label new_label voxel).label_count, lc.label ≠ old_label) ∧
      (swapVoxel old_label new_label voxel).label ≠ old_label := by
  have hentries : ∀ lc ∈ (swapVoxel old_label new_label voxel).label_count,
      lc.label ≠ old_label := by
    unfold swapVoxel
    simp only [updateVoxel_label_count]
    have h1 := clearOldLabel_labels old_label hold voxel.label_count 0
    split
    · exact addVoxelLabelConfidence_labels (fun l => l ≠ old_label) _ h1 (fun e => hne e.symm)
    · exact h1
  refine ⟨hentries, ?_⟩
  have h2 := updateVoxel_fold_label new_label
    (swapVoxel old_label new_label voxel).label_count (0, 0)
  have h3 : (swapVoxel old_label new_label voxel).label =
      ((swapVoxel old_label new_label voxel).label_count.foldl
        (updateVoxelStep new_label) (0, 0)).1 := by
    unfold swapVoxel
    simp only [updateVoxelLabelAndConfidence]
  rw [h3]
  rcases h2 with h | ⟨lc, hlc, h⟩
  · rw [h]; intro e; exact hold e.symm
  · rw [← h]; exact hentries lc hlc

end SwapLabels

section SwapVoxel

set_option linter.unusedSectionVars false

variable {C : Type} [LinearOrder C] [Zero C] [Add C]

/-! ### The best label of one voxel after `swapLabels` -/

theorem clearOldLabel_absent (old_label : Label) (l : List (LabelCount C)) :
    ∀ acc : C, (∀ y ∈ l, y.label ≠ old_label) → clearOldLabel old_label acc l = (acc, l) := by
  induction l with
  | nil => intro acc _; rfl
  | cons x t ih =>
    intro acc h
    have hx : ¬ x.label = old_label := h x (List.mem_cons_self _ _)
    unfold clearOldLabel
    simp only [hx, if_false]
    rw [ih acc (fun y hy => h y (List.mem_cons_of_mem _ hy))]

theorem clearOldLabel_mem (old_label : Label) (l : List (LabelCount C)) :
    ∀ acc : C, ∀ y ∈ (clearOldLabel old_label acc l).2,
      y ∈ l ∨ y = { label := 0, label_confidence := 0 } := by
  induction l with
  | nil => intro acc y h; simp [clearOldLabel] at h
  | cons x t ih =>
    intro acc y h
    unfold clearOldLabel at h
    by_cases hx : x.label = old_label
    · simp only [hx, if_true] at h
      rcases List.mem_cons.mp h with h | h
      · exact Or.inr h
      · rcases ih _ y h with h1 | h1
        · exact Or.inl (List.mem_cons_of_mem _ h1)
        · exact Or.inr h1
    · simp only [hx, if_false] at h
      rcases List.mem_cons.mp h with h | h
      · exact Or.inl (by rw [h]; exact List.mem_cons_self _ _)
      · rcases ih _ y h with h1 | h1
        · exact Or.inl (List.mem_cons_of_mem _ h1)
        · exact Or.inr h1

theorem clearOldLabel_keeps (old_label : Label) (l : List (LabelCount C)) :
    ∀ acc : C, ∀ y ∈ l, y.label ≠ old_label → y ∈ (clearOldLabel old_label acc l).2 := by
  induction l with
  | nil => intro acc y h; cases h
  | cons x t ih =>
    intro acc y h hy
    unfold clearOldLabel
    by_cases hx : x.label = old_label
    · simp only [hx, if_true]
      rcases List.mem_cons.mp h with h | h
      · rw [h] at hy; exact absurd hx hy
      · exact List.mem_cons_of_mem _ (ih _ y h hy)
    · simp only [hx, if_false]
      rcases List.mem_cons.mp h with h | h
      · rw [h]; exact List.mem_cons_self _ _
      · exact List.mem_cons_of_mem _ (ih _ y h hy)

theorem clearOldLabel_confidence (old_label : Label) (hold : old_label ≠ 0)
    (l : List (LabelCount C)) :
    ∀ (acc : C) (e : LabelCount C),
      l.Pairwise (fun a b => a.label ≠ 0 → a.label ≠ b.label) → e ∈ l → e.label = old_label →
      (clearOldLabel old_label acc l).1 = e.label_confidence ∧
        ({ label := 0, label_confidence := 0 } : LabelCount C) ∈
          (clearOldLabel old_label acc l).2 := by
  induction l with
  | nil => intro acc e _ h; cases h
  | cons x t ih =>
    intro acc e hpw he hel
    rw [List.pairwise_cons] at hpw
    unfold clearOldLabel
    by_cases hx : x.label = old_label
    · have hnone : ∀ y ∈ t, y.label ≠ old_label := by
        intro y hy
        have := hpw.1 y hy (by rw [hx]; exact hold)
        rw [hx] at this
        exact fun e => this e.symm
      have hex : e = x := by
        rcases List.mem_cons.mp he with h | h
        · exact h
        · exact absurd hel (hnone e h)
      simp only [hx, if_true]
      rw [clearOldLabel_absent old_label t _ hnone, hex]
      exact ⟨rfl, List.mem_cons_self _ _⟩
    · have het : e ∈ t := by
        rcases List.mem_cons.mp he with h | h
        · rw [h] at hel; exact absurd hel hx
        · exact h
      simp only [hx, if_false]
      obtain ⟨h1, h2⟩ := ih acc e hpw.2 het hel
      exact ⟨h1, List.mem_cons_of_mem _ h2⟩

theorem clearOldLabel_pairwise (old_label : Label) (l : List (LabelCount C)) :
    ∀ acc : C, l.Pairwise (fun a b => a.label ≠ 0 → a.label ≠ b.label) →
      (clearOldLabel old_label acc l).2.Pairwise (fun a b => a.label ≠ 0 → a.label ≠ b.label) := by
  induction l with
  | nil => intro acc _; simp [clearOldLabel]
  | cons x t ih =>
    intro acc hpw
    rw [List.pairwise_cons] at hpw
    unfold clearOldLabel
    by_cases hx : x.label = old_label
    · simp only [hx, if_true]
      rw [List.pairwise_cons]
      exact ⟨fun y _ h => absurd rfl h, ih _ hpw.2⟩
    · simp only [hx, if_false]
      rw [List.pairwise_cons]
      refine ⟨?_, ih _ hpw.2⟩
      intro y hy h0
      rcases clearOldLabel_mem old_label t acc y hy with h1 | h1
      · exact hpw.1 y h1 h0
      · rw [h1]; exact h0

theorem addToObserved_spec (label : Label) (confidence : C) (l : List (LabelCount C)) :
    ∀ l2, addToObserved label confidence l = some l2 →
      ∃ x ∈ l, x.label = label ∧
        ({ label := label, label_confidence := x.label_confidence + confidence } : LabelCount C)
          ∈ l2 ∧
        ∀ y ∈ l2, y ∈ l ∨
          y = { label := label, label_confidence := x.label_confidence + confidence } := by
  induction l with
  | nil => intro l2 h; simp [addToObserved] at h
  | cons x t ih =>
    intro l2 h
    unfold addToObserved at h
    by_cases hx : x.label = label
    · simp only [hx, if_true, Option.some.injEq] at h
      subst h
      refine ⟨x, List.mem_cons_self _ _, hx, List.mem_cons_self _ _, ?_⟩
      intro y hy
      rcases List.mem_cons.mp hy with h1 | h1
      · exact Or.inr h1
      · exact Or.inl (List.mem_cons_of_mem _ h1)
    · simp only [hx, if_false] at h
      cases hr : addToObserved label confidence t with
      | none => rw [hr] at h; simp at h
      | some r =>
        rw [hr] at h
        simp only [Option.map_some', Option.some.injEq] at h
        subst h
        obtain ⟨x0, hx0, hl0, hmem, hall⟩ := ih r hr
        refine ⟨x0, List.mem_cons_of_mem _ hx0, hl0, List.mem_cons_of_mem _ hmem, ?_⟩
        intro y hy
        rcases List.mem_cons.mp hy with h1 | h1
        · exact Or.inl (by rw [h1]; exact List.mem_cons_self _ _)
        · rcases hall y h1 with h2 | h2
          · exact Or.inl (List.mem_cons_of_mem _ h2)
          · exact Or.inr h2

theorem addToObserved_none (label : Label) (confidence : C) (l : List (LabelCount C))
    (h : addToObserved label confidence l = none) : ∀ y ∈ l, y.label ≠ label := by
  induction l with
  | nil => intro y hy; cases hy
  | cons x t ih =>
    unfold addToObserved at h
    by_cases hx : x.label = label
    · simp [hx] at h
    · simp only [hx, if_false, Option.map_eq_none'] at h
      intro y hy
      rcases List.mem_cons.mp hy with h1 | h1
      · rw [h1]; exact hx
      · exact ih h y h1

theorem addToUnused_spec (label : Label) (confidence : C) (l : List (LabelCount C))
    (hz : ∃ y ∈ l, y.label = 0) :
    ∃ l2, addToUnused label confidence l = some l2 ∧
      ({ label := label, label_confidence := confidence } : LabelCount C) ∈ l2 ∧
      ∀ y ∈ l2, y ∈ l ∨ y = { label := label, label_confidence := confidence } := by
  induction l with
  | nil => obtain ⟨y, hy, _⟩ := hz; cases hy
  | cons x t ih =>
    unfold addToUnused
    by_cases hx : x.label = 0
    · simp only [hx, if_true]
      refine ⟨_, rfl, List.mem_cons_self _ _, ?_⟩
      intro y hy
      rcases List.mem_cons.mp hy with h1 | h1
      · exact Or.inr h1
      · exact Or.inl (List.mem_cons_of_mem _ h1)
    · simp only [hx, if_false]
      have hz2 : ∃ y ∈ t, y.label = 0 := by
        obtain ⟨y, hy, hy0⟩ := hz
        rcases List.mem_cons.mp hy with h1 | h1
        · rw [h1] at hy0; exact absurd hy0 hx
        · exact ⟨y, h1, hy0⟩
      obtain ⟨r, hr, hmem, hall⟩ := ih hz2
      refine ⟨x :: r, by rw [hr]; rfl, List.mem_cons_of_mem _ hmem, ?_⟩
      intro y hy
      rcases List.mem_cons.mp hy with h1 | h1
      · exact Or.inl (by rw [h1]; exact List.mem_cons_self _ _)
      · rcases hall y h1 with h2 | h2
        · exact Or.inl (List.mem_cons_of_mem _ h2)
        · exact Or.inr h2

theorem updateVoxel_fold_preferred (p : Label) (hp : p ≠ 0) (M : C) (l : List (LabelCount C)) :
    ∀ acc : Label × C, (∀ y ∈ l, y.label_confidence ≤ M) → acc.2 ≤ M →
      ((∃ e ∈ l, e.label = p ∧ e.label_confidence = M) ∨ acc = (p, M)) →
      l.foldl (updateVoxelStep p) acc = (p, M) := by
  induction l with
  | nil =>
    intro acc _ _ h
    rcases h with ⟨e, he, _⟩ | h
    · cases he
    · exact h
  | cons x t ih =>
    intro acc hall hacc h
    simp only [List.foldl_cons]
    have hxM : x.label_confidence ≤ M := hall x (List.mem_cons_self _ _)
    have hall2 : ∀ y ∈ t, y.label_confidence ≤ M :=
      fun y hy => hall y (List.mem_cons_of_mem _ hy)
    by_cases hxe : x.label = p ∧ x.label_confidence = M
    · -- the preferred entry of maximal confidence is taken
      have hs : updateVoxelStep p acc x = (p, M) := by
        unfold updateVoxelStep
        have hcond : x.label_confidence > acc.2 ∨
            (x.label = p ∧ p ≠ 0 ∧ x.label_confidence = acc.2) := by
          rcases lt_or_eq_of_le hacc with h1 | h1
          · exact Or.inl (by rw [hxe.2]; exact h1)
          · exact Or.inr ⟨hxe.1, hp, by rw [hxe.2, h1]⟩
        rw [if_pos hcond, hxe.1, hxe.2]
      rw [hs]
      exact ih (p, M) hall2 (le_refl _) (Or.inr rfl)
    · have hs : updateVoxelStep p acc x = (x.label, x.label_confidence) ∨
          updateVoxelStep p acc x = acc := by
        unfold updateVoxelStep
        split
        · exact Or.inl rfl
        · exact Or.inr rfl
      rcases h with ⟨e, he, hel, hec⟩ | h
      · have het : e ∈ t := by
          rcases List.mem_cons.mp he with h1 | h1
          · rw [h1] at hel hec; exact absurd ⟨hel, hec⟩ hxe
          · exact h1
        rcases hs with hs | hs
        · rw [hs]; exact ih _ hall2 hxM (Or.inl ⟨e, het, hel, hec⟩)
        · rw [hs]; exact ih _ hall2 hacc (Or.inl ⟨e, het, hel, hec⟩)
      · -- the accumulator already holds the preferred maximal entry
        have hs2 : updateVoxelStep p acc x = acc := by
          unfold updateVoxelStep
          rw [h]
          have h1 : ¬ x.label_confidence > M := not_lt.mpr hxM
          have h2 : ¬ (x.label = p ∧ p ≠ 0 ∧ x.label_confidence = M) :=
            fun hh => hxe ⟨hh.1, hh.2.2⟩
          simp only [h1, h2, or_self, if_false]
        rw [hs2]
        exact ih acc hall2 hacc (Or.inr h)

theorem updateVoxel_picks_preferred (voxel : LabelVoxel C) (p : Label) (hp : p ≠ 0) (M : C)
    (hM : 0 ≤ M) (hall : ∀ y ∈ voxel.label_count, y.label_confidence ≤ M)
    (hex : ∃ e ∈ voxel.label_count, e.label = p ∧ e.label_confidence = M) :
    (updateVoxelLabelAndConfidence voxel p).label = p := by
  unfold updateVoxelLabelAndConfidence
  simp only []
  rw [updateVoxel_fold_preferred p hp M voxel.label_count (0, 0) hall hM (Or.inl hex)]

end SwapVoxel

section SwapVoxelLabel

set_option linter.unusedSectionVars false

variable {C : Type} [LinearOrderedAddCommMonoid C]

theorem entries_same_label {l : List (LabelCount C)}
    (hpw : l.Pairwise (fun a b => a.label ≠ 0 → a.label ≠ b.label)) {x y : LabelCount C}
    (hx : x ∈ l) (hy : y ∈ l) (hxy : x.label = y.label) (h0 : x.label ≠ 0) : x = y := by
  by_contra hne
  have hsymm : Symmetric (fun a b : LabelCount C => a.label ≠ 0 → a.label ≠ b.label) := by
    intro a b hab hb0 hba
    exact hab (by rw [← hba]; exact hb0) hba.symm
  exact (List.Pairwise.forall hsymm hpw hx hy hne) h0 hxy

/-- After the confidence `c` of the old label is added to `new_label`, the
recomputed best label is `new_label`. -/
theorem add_then_update (voxel : LabelVoxel C) (new_label : Label) (hnew : new_label ≠ 0)
    (c B : C) (hc : 0 < c) (hB0 : 0 ≤ B)
    (hB : ∀ y ∈ voxel.label_count, y.label_confidence ≤ B)
    (hnn : ∀ y ∈ voxel.label_count, 0 ≤ y.label_confidence)
    (hpw : voxel.label_count.Pairwise (fun a b => a.label ≠ 0 → a.label ≠ b.label))
    (hcase : (B ≤ c ∧ ∃ y ∈ voxel.label_count, y.label = 0) ∨
      ∃ e ∈ voxel.label_count, e.label = new_label ∧ e.label_confidence = B) :
    (updateVoxelLabelAndConfidence (addVoxelLabelConfidence new_label c voxel) new_label).label
      = new_label := by
  unfold addVoxelLabelConfidence
  cases h1 : addToObserved new_label c voxel.label_count with
  | some l2 =>
    simp only []
    obtain ⟨x, hx, hxl, hmem, hall⟩ := addToObserved_spec new_label c _ l2 h1
    have hBM : B ≤ x.label_confidence + c := by
      rcases hcase with ⟨h2, _⟩ | ⟨e, he, hel, hec⟩
      · exact le_trans h2 (le_add_of_nonneg_left (hnn x hx))
      · have hxe : x = e :=
          entries_same_label hpw hx he (by rw [hxl, hel]) (by rw [hxl]; exact hnew)
        rw [hxe, hec]
        exact le_add_of_nonneg_right (le_of_lt hc)
    apply updateVoxel_picks_preferred _ new_label hnew (x.label_confidence + c)
      (le_trans hB0 hBM)
    · intro y hy
      rcases hall y hy with h2 | h2
      · exact le_trans (hB y h2) hBM
      · rw [h2]
    · exact ⟨_, hmem, rfl, rfl⟩
  | none =>
    simp only []
    have hno := addToObserved_none new_label c _ h1
    rcases hcase with ⟨h2, hz⟩ | ⟨e, he, hel, _⟩
    · obtain ⟨l2, hl2, hmem, hall⟩ := addToUnused_spec new_label c _ hz
      rw [hl2]
      simp only []
      apply updateVoxel_picks_preferred _ new_label hnew c (le_of_lt hc)
      · intro y hy
        rcases hall y hy with h3 | h3
        · exact le_trans (hB y h3) h2
        · rw [h3]
      · exact ⟨_, hmem, rfl, rfl⟩
    · exact absurd hel (hno e he)

theorem swapVoxel_old_becomes_new (old_label new_label : Label) (voxel : LabelVoxel C)
    (hold : old_label ≠ 0) (hnew : new_label ≠ 0) (hwf : EntriesWF voxel)
    (hmax : BestIsMax voxel) (hpos : BestIsPositive voxel) (hlabel : voxel.label = old_label) :
    (swapVoxel old_label new_label voxel).label = new_label := by
  obtain ⟨e, he, hel, hemax⟩ := hmax
  obtain ⟨e2, he2, hel2, he2pos⟩ := hpos
  have hee : e2 = e :=
    entries_same_label hwf.2 he2 he (by rw [hel, hel2]) (by rw [hel2, hlabel]; exact hold)
  rw [hee] at he2pos
  obtain ⟨hc, hzero⟩ := clearOldLabel_confidence old_label hold voxel.label_count 0 e hwf.2 he
    (by rw [hel, hlabel])
  have hmem := clearOldLabel_mem old_label voxel.label_count 0
  unfold swapVoxel
  simp only []
  rw [hc, if_pos he2pos]
  apply add_then_update _ new_label hnew e.label_confidence e.label_confidence he2pos
    (le_of_lt he2pos)
  · intro y hy
    rcases hmem y hy with h1 | h1
    · exact hemax y h1
    · rw [h1]; exact le_of_lt he2pos
  · intro y hy
    rcases hmem y hy with h1 | h1
    · exact hwf.1 y h1
    · rw [h1]
  · exact clearOldLabel_pairwise old_label voxel.label_count 0 hwf.2
  · exact Or.inl ⟨le_refl _, _, hzero, rfl⟩

theorem clearOldLabel_nonneg (old_label : Label) (l : List (LabelCount C)) :
    ∀ acc : C, 0 ≤ acc → (∀ y ∈ l, 0 ≤ y.label_confidence) →
      0 ≤ (clearOldLabel old_label acc l).1 := by
  induction l with
  | nil => intro acc h _; exact h
  | cons x t ih =>
    intro acc hacc h
    unfold clearOldLabel
    by_cases hx : x.label = old_label
    · simp only [hx, if_true]
      exact ih _ (h x (List.mem_cons_self _ _)) (fun y hy => h y (List.mem_cons_of_mem _ hy))
    · simp only [hx, if_false]
      exact ih _ hacc (fun y hy => h y (List.mem_cons_of_mem _ hy))

theorem swapVoxel_new_stays (old_label new_label : Label) (voxel : LabelVoxel C)
    (hne : old_label ≠ new_label) (hnew : new_label ≠ 0) (hwf : EntriesWF voxel)
    (hmax : BestIsMax voxel) (hlabel : voxel.label = new_label) :
    (swapVoxel old_label new_label voxel).label = new_label := by
  obtain ⟨e, he, hel, hemax⟩ := hmax
  have hel2 : e.label = new_label := by rw [hel, hlabel]
  have he0 : 0 ≤ e.label_confidence := hwf.1 e he
  have hmem := clearOldLabel_mem old_label voxel.label_count 0
  have hkeep : e ∈ (clearOldLabel old_label 0 voxel.label_count).2 :=
    clearOldLabel_keeps old_label voxel.label_count 0 e he
      (by rw [hel2]; exact fun h => hne h.symm)
  have hB : ∀ y ∈ (clearOldLabel old_label 0 voxel.label_count).2,
      y.label_confidence ≤ e.label_confidence := by
    intro y hy
    rcases hmem y hy with h1 | h1
    · exact hemax y h1
    · rw [h1]; exact he0
  unfold swapVoxel
  simp only []
  by_cases hc : (clearOldLabel old_label 0 voxel.label_count).1 > 0
  · rw [if_pos hc]
    apply add_then_update _ new_label hnew _ e.label_confidence hc he0 hB
    · intro y hy
      rcases hmem y hy with h1 | h1
      · exact hwf.1 y h1
      · rw [h1]
    · exact clearOldLabel_pairwise old_label voxel.label_count 0 hwf.2
    · exact Or.inr ⟨e, hkeep, hel2, rfl⟩
  · rw [if_neg hc]
    exact updateVoxel_picks_preferred _ new_label hnew e.label_confidence he0 hB
      ⟨e, hkeep, hel2, rfl⟩

end SwapVoxelLabel

/-! ## `swapLabels`: the merged label leaves the store -/

/-- C7: after `swapLabels(old_label, new_label)` with `old_label != new_label`
and `old_label != 0`, no entry of any voxel of any allocated block carries
`old_label`, and no voxel has `old_label` as its cached best label. -/
theorem swapLabels_removes_old_label {C : Type} [LinearOrderedAddCommMonoid C]
    (st : Integrator C) (old_label new_label : Label) (hne : old_label ≠ new_label)
    (hold : old_label ≠ 0) :
    ∀ block ∈ (swapLabels st old_label new_label).label_layer_, ∀ voxel ∈ block.2.voxels,
      (∀ lc ∈ voxel.label_count, lc.label ≠ old_label) ∧ voxel.label ≠ old_label := by
  intro block hb voxel hv
  obtain ⟨b0, _, hvox⟩ := mem_swapLabels_layer hb
  rw [hvox] at hv
  obtain ⟨v0, _, hv0⟩ := List.mem_map.mp hv
  rw [← hv0]
  exact swapVoxel_without_old old_label new_label v0 hne hold

theorem swapLabels_removes_old_label_witness :
    (7 : Label) ≠ 3 ∧ (7 : Label) ≠ 0 ∧
      ∀ block ∈ (swapLabels (integratorWithVoxels [voxelSeven, voxelFive] [(5, 1), (7, 1)])
          7 3).label_layer_,
        ∀ voxel ∈ block.2.voxels,
          (∀ lc ∈ voxel.label_count, lc.label ≠ 7) ∧ voxel.label ≠ 7 :=
  ⟨by decide, by decide, swapLabels_removes_old_label _ 7 3 (by decide) (by decide)⟩

/-- C8 as stated fails: the voxel `voxelZeroConfidence` has best label 7, which
is an entry of maximal confidence (0), and after `swapLabels(7, 3)` its best
label is 0, not 3. -/
theorem swapLabels_zero_confidence_not_relabelled :
    voxelAtPos (integratorWithVoxels [voxelZeroConfidence] [(7, 1)]).label_layer_ 0 0
        = some voxelZeroConfidence ∧
      voxelZeroConfidence.label = 7 ∧ BestIsMax voxelZeroConfidence ∧
      (voxelAtPos (swapLabels (integratorWithVoxels [voxelZeroConfidence] [(7, 1)])
        7 3).label_layer_ 0 0).map (fun v => v.label) = some 0 := by
  decide

/-- C8, amended: after `swapLabels(old_label, new_label)` with both labels
non-zero, every voxel whose cached best label was `old_label` has cached best
label `new_label`, provided the voxel stored a positive confidence for
`old_label`, that entry was of maximal confidence, and the entries of the
voxel have non-negative confidences and pairwise distinct non-zero labels. -/
theorem swapLabels_relabels_old_voxels {C : Type} [LinearOrderedAddCommMonoid C]
    (st : Integrator C) (old_label new_label : Label) (hold : old_label ≠ 0)
    (hnew : new_label ≠ 0) (i j : Nat) (voxel : LabelVoxel C)
    (hat : voxelAtPos st.label_layer_ i j = some voxel) (hlabel : voxel.label = old_label)
    (hwf : EntriesWF voxel) (hmax : BestIsMax voxel) (hpos : BestIsPositive voxel) :
    ∃ voxel1, voxelAtPos (swapLabels st old_label new_label).label_layer_ i j = some voxel1 ∧
      voxel1.label = new_label := by
  refine ⟨swapVoxel old_label new_label voxel, ?_, ?_⟩
  · rw [voxelAtPos_swapLabels, hat]; rfl
  · exact swapVoxel_old_becomes_new old_label new_label voxel hold hnew hwf hmax hpos hlabel

theorem swapLabels_relabels_old_voxels_witness :
    ∃ voxel1, voxelAtPos (swapLabels (integratorWithVoxels [voxelSeven, voxelFive]
        [(5, 1), (7, 1)]) 7 3).label_layer_ 0 0 = some voxel1 ∧ voxel1.label = 3 :=
  swapLabels_relabels_old_voxels _ 7 3 (by decide) (by decide) 0 0 voxelSeven (by decide)
    (by decide) (by decide) (by decide) (by decide)

section Counts

set_option linter.unusedSectionVars false

variable {C : Type} [LinearOrderedAddCommMonoid C]

/-! ### The per-label voxel counts under `swapLabels` -/

theorem voxelCount_split (pre post : List (LabelVoxel C)) (v : LabelVoxel C) (label : Label) :
    voxelCount (pre ++ v :: post) label =
      voxelCount pre label + (if v.label = label then 1 else 0) + voxelCount post label := by
  unfold voxelCount
  rw [List.countP_append, List.countP_cons]
  by_cases h : v.label = label
  · simp [h]; omega
  · simp [h]

theorem storedCount_eq (m : LMap) (label : Label) :
    storedCount m label = (StdMap.find m label).getD 0 := rfl

theorem changeLabelCount_increase (st : Integrator C) (u : Label)
    (h0 : StdMap.find st.labels_count_map_ 0 = none)
    (hpos : ∀ label c, StdMap.find st.labels_count_map_ label = some c → 0 < c) (label : Label) :
    StdMap.find (changeLabelCount st u 1).labels_count_map_ label =
      if label = u ∧ u ≠ 0 then some (storedCount st.labels_count_map_ u + 1)
      else StdMap.find st.labels_count_map_ label := by
  unfold changeLabelCount storedCount
  cases hf : StdMap.find st.labels_count_map_ u with
  | some c =>
    have hc := hpos u c hf
    have hu : u ≠ 0 := fun e => by rw [e, h0] at hf; cases hf
    have hle : ¬ c + 1 ≤ 0 := by omega
    simp only [hle, if_false, StdMap.find_put, Option.getD_some, hu, ne_eq, not_false_eq_true,
      and_true]
  | none =>
    by_cases hu : u = 0
    · simp [hu]
    · simp only [ne_eq, hu, not_false_eq_true, if_true, StdMap.find_emplace, hf,
        Option.getD_none, and_true, zero_add]

theorem changeLabelCount_decrease (st : Integrator C) (p : Label)
    (hone : 1 ≤ storedCount st.labels_count_map_ p) (label : Label) :
    StdMap.find (changeLabelCount st p (-1)).labels_count_map_ label =
      if label = p then
        (if storedCount st.labels_count_map_ p = 1 then none
          else some (storedCount st.labels_count_map_ p - 1))
      else StdMap.find st.labels_count_map_ label := by
  unfold changeLabelCount
  unfold storedCount at hone ⊢
  cases hf : StdMap.find st.labels_count_map_ p with
  | none => rw [hf] at hone; simp at hone
  | some c =>
    rw [hf] at hone
    simp only [Option.getD_some] at hone ⊢
    by_cases hc : c = 1
    · subst hc
      simp only [show (1 : Int) + -1 ≤ 0 by decide, if_true, StdMap.find_erase]
    · have hle : ¬ c + -1 ≤ 0 := by omega
      simp only [hle, if_false, StdMap.find_put, hc]
      by_cases hl : label = p
      · simp only [hl, if_true]; congr 1
      · simp only [hl, if_false]

theorem changeLabelCount_zero (st : Integrator C) (count : Int)
    (h0 : StdMap.find st.labels_count_map_ 0 = none) : changeLabelCount st 0 count = st := by
  unfold changeLabelCount
  simp [h0]

theorem storedCount_pos_of_consistent {m : LMap} {pre post : List (LabelVoxel C)}
    {v : LabelVoxel C} (h : CountsConsistent m (pre ++ v :: post)) (hv : v.label ≠ 0) :
    1 ≤ storedCount m v.label := by
  rw [h.2.2 v.label hv, voxelCount_split]
  simp only [if_true]
  omega

theorem swapBookkeeping_consistent (st : Integrator C) (pre post : List (LabelVoxel C))
    (v v1 : LabelVoxel C) (h : CountsConsistent st.labels_count_map_ (pre ++ v :: post)) :
    CountsConsistent (swapBookkeeping st v.label v1.label).labels_count_map_
      (pre ++ v1 :: post) := by
  unfold swapBookkeeping
  by_cases hne : v1.label = v.label
  · simp only [ne_eq, hne, not_true_eq_false, if_false]
    refine ⟨h.1, h.2.1, fun label hl => ?_⟩
    rw [h.2.2 label hl, voxelCount_split, voxelCount_split, hne]
  · simp only [ne_eq, hne, not_false_eq_true, if_true]
    obtain ⟨h0, hpos, hcnt⟩ := h
    -- the state after the count of the new best label was increased
    let st0 : Integrator C :=
      { st with updated_labels_ := StdSet.put st.updated_labels_ v1.label }
    have hinc := changeLabelCount_increase st0 v1.label h0 hpos
    have h0' : StdMap.find (changeLabelCount st0 v1.label 1).labels_count_map_ 0 = none := by
      rw [hinc 0]
      by_cases hu : (0 : Label) = v1.label ∧ v1.label ≠ 0
      · exact absurd hu.1.symm hu.2
      · rw [if_neg hu]; exact h0
    by_cases hp : v.label = 0
    · -- the previous label was 0: only the increase takes effect
      rw [hp, changeLabelCount_zero _ _ h0']
      have hv1 : v1.label ≠ 0 := fun e => hne (by rw [e, hp])
      refine ⟨h0', ?_, ?_⟩
      · intro label c hc
        rw [hinc label] at hc
        by_cases hl : label = v1.label ∧ v1.label ≠ 0
        · rw [if_pos hl] at hc
          injection hc with hc
          have : 0 ≤ storedCount st.labels_count_map_ v1.label := by
            rw [hcnt v1.label hv1]; exact Int.natCast_nonneg _
          have h2 : storedCount st0.labels_count_map_ v1.label
              = storedCount st.labels_count_map_ v1.label := rfl
          omega
        · rw [if_neg hl] at hc; exact hpos label c hc
      · intro label hl
        have hsc : storedCount (changeLabelCount st0 v1.label 1).labels_count_map_ label =
            if label = v1.label then storedCount st.labels_count_map_ v1.label + 1
            else storedCount st.labels_count_map_ label := by
          rw [storedCount_eq, hinc label]
          by_cases hl2 : label = v1.label
          · rw [if_pos ⟨hl2, hv1⟩, if_pos hl2]; rfl
          · have : ¬ (label = v1.label ∧ v1.label ≠ 0) := fun e => hl2 e.1
            rw [if_neg this, if_neg hl2]; rfl
        rw [hsc, voxelCount_split]
        by_cases hl2 : label = v1.label
        · subst hl2
          rw [if_pos rfl, hcnt _ hl, voxelCount_split, hp]
          have : ¬ (0 : Label) = v1.label := fun e => hl e.symm
          simp only [this, if_false, if_true]
          push_cast
          omega
        · have h3 : ¬ v1.label = label := fun e => hl2 e.symm
          have h4 : ¬ v.label = label := fun e => hl (by rw [← e, hp])
          rw [if_neg hl2, hcnt _ hl, voxelCount_split]
          simp only [h3, h4, if_false]
    · -- the previous label loses the voxel
      have hone : 1 ≤ storedCount (changeLabelCount st0 v1.label 1).labels_count_map_ v.label := by
        have : storedCount (changeLabelCount st0 v1.label 1).labels_count_map_ v.label
            = storedCount st.labels_count_map_ v.label := by
          unfold storedCount
          rw [hinc v.label]
          have : ¬ (v.label = v1.label ∧ v1.label ≠ 0) := fun e => hne e.1.symm
          rw [if_neg this]
        rw [this]
        exact storedCount_pos_of_consistent ⟨h0, hpos, hcnt⟩ hp
      have hdec := changeLabelCount_decrease (changeLabelCount st0 v1.label 1) v.label hone
      have hscv : storedCount (changeLabelCount st0 v1.label 1).labels_count_map_ v.label
          = storedCount st.labels_count_map_ v.label := by
        unfold storedCount
        rw [hinc v.label]
        have : ¬ (v.label = v1.label ∧ v1.label ≠ 0) := fun e => hne e.1.symm
        rw [if_neg this]
      rw [hscv] at hdec hone
      have hfind : ∀ label, StdMap.find
          (changeLabelCount (changeLabelCount st0 v1.label 1) v.label (-1)).labels_count_map_ label
          = if label = v.label then
              (if storedCount st.labels_count_map_ v.label = 1 then none
                else some (storedCount st.labels_count_map_ v.label - 1))
            else if label = v1.label ∧ v1.label ≠ 0 then
              some (storedCount st.labels_count_map_ v1.label + 1)
            else StdMap.find st.labels_count_map_ label := by
        intro label
        rw [hdec label, hinc label]
      refine ⟨?_, ?_, ?_⟩
      · rw [hfind 0]
        have h1 : ¬ (0 : Label) = v.label := fun e => hp e.symm
        have h2 : ¬ ((0 : Label) = v1.label ∧ v1.label ≠ 0) := fun e => e.2 e.1.symm
        rw [if_neg h1, if_neg h2]; exact h0
      · intro label c hc
        rw [hfind label] at hc
        by_cases hl : label = v.label
        · rw [if_pos hl] at hc
          by_cases h1 : storedCount st.labels_count_map_ v.label = 1
          · rw [if_pos h1] at hc; cases hc
          · rw [if_neg h1] at hc
            injection hc with hc
            omega
        · rw [if_neg hl] at hc
          by_cases hl2 : label = v1.label ∧ v1.label ≠ 0
          · rw [if_pos hl2] at hc
            injection hc with hc
            have : 0 ≤ storedCount st.labels_count_map_ v1.label := by
              rw [hcnt v1.label hl2.2]; exact Int.natCast_nonneg _
            omega
          · rw [if_neg hl2] at hc; exact hpos label c hc
      · intro label hl
        have hsc : storedCount
            (changeLabelCount (changeLabelCount st0 v1.label 1) v.label (-1)).labels_count_map_
            label =
            if label = v.label then storedCount st.labels_count_map_ v.label - 1
            else if label = v1.label then storedCount st.labels_count_map_ v1.label + 1
            else storedCount st.labels_count_map_ label := by
          rw [storedCount_eq, hfind label]
          by_cases hl1 : label = v.label
          · rw [if_pos hl1, if_pos hl1]
            by_cases h1 : storedCount st.labels_count_map_ v.label = 1
            · rw [if_pos h1, h1]; rfl
            · rw [if_neg h1]; rfl
          · rw [if_neg hl1, if_neg hl1]
            by_cases hl2 : label = v1.label
            · have : label = v1.label ∧ v1.label ≠ 0 := ⟨hl2, by rw [← hl2]; exact hl⟩
              rw [if_pos this, if_pos hl2]; rfl
            · have : ¬ (label = v1.label ∧ v1.label ≠ 0) := fun e => hl2 e.1
              rw [if_neg this, if_neg hl2]; rfl
        rw [hsc, voxelCount_split]
        by_cases hl1 : label = v.label
        · subst hl1
          have h3 : ¬ v1.label = v.label := hne
          rw [if_pos rfl, hcnt _ hl, voxelCount_split]
          simp only [h3, if_false, if_true]
          push_cast
          omega
        · rw [if_neg hl1]
          have h4 : ¬ v.label = label := fun e => hl1 e.symm
          by_cases hl2 : label = v1.label
          · subst hl2
            rw [if_pos rfl, hcnt _ hl, voxelCount_split]
            simp only [h4, if_false, if_true]
            push_cast
            omega
          · have h3 : ¬ v1.label = label := fun e => hl2 e.symm
            rw [if_neg hl2, hcnt _ hl, voxelCount_split]
            simp only [h3, h4, if_false]

end Counts

section CountsOfStore

set_option linter.unusedSectionVars false

variable {C : Type} [LinearOrderedAddCommMonoid C]

theorem swapBookkeeping_foldl_consistent (old_label new_label : Label)
    (vs : List (LabelVoxel C)) :
    ∀ (pre : List (LabelVoxel C)) (st : Integrator C),
      CountsConsistent st.labels_count_map_ (pre ++ vs) →
      CountsConsistent
        (vs.foldl (fun s v => swapBookkeeping s v.label (swapVoxel old_label new_label v).label)
          st).labels_count_map_
        (pre ++ vs.map (swapVoxel old_label new_label)) := by
  induction vs with
  | nil => intro pre st h; simpa using h
  | cons v t ih =>
    intro pre st h
    simp only [List.foldl_cons, List.map_cons]
    have h1 := swapBookkeeping_consistent st pre t v (swapVoxel old_label new_label v) h
    have h2 := ih (pre ++ [swapVoxel old_label new_label v]) _ (by simpa using h1)
    simpa using h2

theorem allVoxels_swapLabelsBlocks (old_label new_label : Label) (layer : Layer C) :
    ∀ st : Integrator C,
      allVoxels (swapLabelsBlocks old_label new_label st layer).2 =
        (allVoxels layer).map (swapVoxel old_label new_label) := by
  induction layer with
  | nil => intro st; rfl
  | cons b t ih =>
    intro st
    obtain ⟨idx, block⟩ := b
    simp [swapLabelsBlocks, allVoxels, ih, swapLabelsVoxels_voxels]

theorem allVoxels_swapLabels (st : Integrator C) (old_label new_label : Label) :
    allVoxels (swapLabels st old_label new_label).label_layer_ =
      (allVoxels st.label_layer_).map (swapVoxel old_label new_label) :=
  allVoxels_swapLabelsBlocks old_label new_label st.label_layer_ st

theorem swapLabels_labels_count_map (st : Integrator C) (old_label new_label : Label) :
    (swapLabels st old_label new_label).labels_count_map_ =
      ((allVoxels st.label_layer_).foldl
        (fun s v => swapBookkeeping s v.label (swapVoxel old_label new_label v).label)
        st).labels_count_map_ := by
  unfold swapLabels
  simp only []
  rw [swapLabelsBlocks_state]

/-- The consistency of the voxel-count map with the store is preserved by
`swapLabels`. -/
theorem swapLabels_consistent (st : Integrator C) (old_label new_label : Label)
    (h : CountsConsistent st.labels_count_map_ (allVoxels st.label_layer_)) :
    CountsConsistent (swapLabels st old_label new_label).labels_count_map_
      (allVoxels (swapLabels st old_label new_label).label_layer_) := by
  rw [allVoxels_swapLabels, swapLabels_labels_count_map]
  have := swapBookkeeping_foldl_consistent old_label new_label (allVoxels st.label_layer_) [] st
    (by simpa using h)
  simpa using this

theorem voxelCount_cons (v : LabelVoxel C) (t : List (LabelVoxel C)) (label : Label) :
    voxelCount (v :: t) label = voxelCount t label + (if v.label = label then 1 else 0) := by
  unfold voxelCount
  rw [List.countP_cons]
  by_cases h : v.label = label <;> simp [h]

theorem voxelsTakenOver_cons (old_label new_label : Label) (v : LabelVoxel C)
    (t : List (LabelVoxel C)) :
    voxelsTakenOver old_label new_label (v :: t) =
      voxelsTakenOver old_label new_label t +
        (if v.label ≠ old_label ∧ v.label ≠ new_label ∧
            (swapVoxel old_label new_label v).label = new_label then 1 else 0) := by
  unfold voxelsTakenOver
  rw [List.countP_cons]
  by_cases h : v.label ≠ old_label ∧ v.label ≠ new_label ∧
      (swapVoxel old_label new_label v).label = new_label
  · rw [if_pos h, if_pos (decide_eq_true h)]
  · rw [if_neg h, if_neg (fun e => h (of_decide_eq_true e))]

theorem voxelCount_after_swap (old_label new_label : Label) (hne : old_label ≠ new_label)
    (vs : List (LabelVoxel C))
    (hold : ∀ v ∈ vs, v.label = old_label → (swapVoxel old_label new_label v).label = new_label)
    (hnew : ∀ v ∈ vs, v.label = new_label → (swapVoxel old_label new_label v).label = new_label) :
    voxelCount (vs.map (swapVoxel old_label new_label)) new_label =
      voxelCount vs new_label + voxelCount vs old_label +
        voxelsTakenOver old_label new_label vs := by
  induction vs with
  | nil => rfl
  | cons v t ih =>
    have ih2 := ih (fun x hx => hold x (List.mem_cons_of_mem _ hx))
      (fun x hx => hnew x (List.mem_cons_of_mem _ hx))
    rw [List.map_cons, voxelCount_cons, voxelCount_cons, voxelCount_cons,
      voxelsTakenOver_cons, ih2]
    by_cases h1 : v.label = old_label
    · have h2 := hold v (List.mem_cons_self _ _) h1
      have h3 : ¬ v.label = new_label := fun e => hne (by rw [← h1, e])
      have h5 : ¬ (v.label ≠ old_label ∧ v.label ≠ new_label ∧
          (swapVoxel old_label new_label v).label = new_label) := fun e => e.1 h1
      rw [if_pos h2, if_neg h3, if_pos h1, if_neg h5]
      omega
    · by_cases h3 : v.label = new_label
      · have h2 := hnew v (List.mem_cons_self _ _) h3
        have h5 : ¬ (v.label ≠ old_label ∧ v.label ≠ new_label ∧
            (swapVoxel old_label new_label v).label = new_label) := fun e => e.2.1 h3
        rw [if_pos h2, if_pos h3, if_neg h1, if_neg h5]
        omega
      · by_cases h4 : (swapVoxel old_label new_label v).label = new_label
        · have h5 : v.label ≠ old_label ∧ v.label ≠ new_label ∧
              (swapVoxel old_label new_label v).label = new_label := ⟨h1, h3, h4⟩
          rw [if_pos h4, if_neg h3, if_neg h1, if_pos h5]
          omega
        · have h5 : ¬ (v.label ≠ old_label ∧ v.label ≠ new_label ∧
              (swapVoxel old_label new_label v).label = new_label) := fun e => h4 e.2.2
          rw [if_neg h4, if_neg h3, if_neg h1, if_neg h5]
          omega

/-- A check of `CountsConsistent` over the finitely many labels that occur. -/
theorem countsConsistent_of_check (m : LMap) (vs : List (LabelVoxel C))
    (h0 : StdMap.find m 0 = none) (hpos : ∀ e ∈ m, 0 < e.2)
    (hcnt : ∀ label ∈ StdMap.keys m ++ vs.map (fun v => v.label), label ≠ 0 →
      storedCount m label = (voxelCount vs label : Int)) :
    CountsConsistent m vs := by
  refine ⟨h0, fun label c hc => hpos (label, c) (StdMap.mem_of_find hc), ?_⟩
  intro label hl
  by_cases hmem : label ∈ StdMap.keys m ++ vs.map (fun v => v.label)
  · exact hcnt label hmem hl
  · have h1 : label ∉ StdMap.keys m := fun e => hmem (List.mem_append_left _ e)
    have h2 : label ∉ vs.map (fun v => v.label) := fun e => hmem (List.mem_append_right _ e)
    have h3 : storedCount m label = 0 := by
      rw [storedCount_eq, StdMap.find_eq_none_of_not_mem_keys h1]; rfl
    have h4 : voxelCount vs label = 0 := by
      unfold voxelCount
      rw [List.countP_eq_zero]
      intro v hv
      simp only [decide_eq_true_eq]
      intro e
      exact h2 (List.mem_map.mpr ⟨v, hv, e⟩)
    rw [h3, h4]; rfl

end CountsOfStore

/-! ## `swapLabels`: the voxel count of the surviving label -/

/-- C9 as stated fails: in a store with one voxel labelled 7 and one voxel
whose best label 5 is outweighed by its evidence for 3 and 7 together, the
count map is consistent and `swapLabels(7, 3)` leaves the count 2 for label 3,
while the counts of 3 and 7 before the merge add up to 1. -/
theorem swapLabels_count_takes_third_label :
    CountsConsistent (integratorWithVoxels [voxelSeven, voxelFive] [(5, 1), (7, 1)]).labels_count_map_
        (allVoxels (integratorWithVoxels [voxelSeven, voxelFive] [(5, 1), (7, 1)]).label_layer_) ∧
      storedCount (swapLabels (integratorWithVoxels [voxelSeven, voxelFive] [(5, 1), (7, 1)])
        7 3).labels_count_map_ 3 = 2 ∧
      storedCount (integratorWithVoxels [voxelSeven, voxelFive] [(5, 1), (7, 1)]).labels_count_map_ 3
        + storedCount
          (integratorWithVoxels [voxelSeven, voxelFive] [(5, 1), (7, 1)]).labels_count_map_ 7 = 1 :=
  ⟨countsConsistent_of_check _ _ (by decide) (by decide) (by decide), by decide, by decide⟩

/-- C9, amended: after `swapLabels(old_label, new_label)` with distinct non-zero
labels, on a store whose voxel-count map is consistent with the best labels and
whose voxels are well formed (non-negative confidences, pairwise distinct
non-zero labels, best label an entry of maximal confidence, positive for the
voxels labelled `old_label`), the count stored for `new_label` equals the
count of `new_label` plus the count of `old_label` before the call plus the
number of voxels whose best label was neither of the two and became
`new_label`. -/
theorem swapLabels_count_of_new_label {C : Type} [LinearOrderedAddCommMonoid C]
    (st : Integrator C) (old_label new_label : Label) (hne : old_label ≠ new_label)
    (hold : old_label ≠ 0) (hnew : new_label ≠ 0)
    (hcons : CountsConsistent st.labels_count_map_ (allVoxels st.label_layer_))
    (hwf : ∀ v ∈ allVoxels st.label_layer_, EntriesWF v ∧ BestIsMax v)
    (hpos : ∀ v ∈ allVoxels st.label_layer_, v.label = old_label → BestIsPositive v) :
    storedCount (swapLabels st old_label new_label).labels_count_map_ new_label =
      storedCount st.labels_count_map_ new_label + storedCount st.labels_count_map_ old_label +
        (voxelsTakenOver old_label new_label (allVoxels st.label_layer_) : Int) := by
  have h1 := (swapLabels_consistent st old_label new_label hcons).2.2 new_label hnew
  rw [h1, allVoxels_swapLabels, hcons.2.2 new_label hnew, hcons.2.2 old_label hold,
    voxelCount_after_swap old_label new_label hne]
  · push_cast; ring
  · intro v hv hl
    exact swapVoxel_old_becomes_new old_label new_label v hold hnew (hwf v hv).1 (hwf v hv).2
      (hpos v hv hl) hl
  · intro v hv hl
    exact swapVoxel_new_stays old_label new_label v hne hnew (hwf v hv).1 (hwf v hv).2 hl

theorem swapLabels_count_of_new_label_witness :
    storedCount (swapLabels (integratorWithVoxels [voxelSeven, voxelFive] [(5, 1), (7, 1)])
        7 3).labels_count_map_ 3 =
      storedCount (integratorWithVoxels [voxelSeven, voxelFive] [(5, 1), (7, 1)]).labels_count_map_ 3
        + storedCount
          (integratorWithVoxels [voxelSeven, voxelFive] [(5, 1), (7, 1)]).labels_count_map_ 7
        + (voxelsTakenOver 7 3
          (allVoxels (integratorWithVoxels [voxelSeven, voxelFive] [(5, 1), (7, 1)]).label_layer_)
            : Int) :=
  swapLabels_count_of_new_label _ 7 3 (by decide) (by decide) (by decide)
    (countsConsistent_of_check _ _ (by decide) (by decide) (by decide))
    (by decide) (by decide)

/-! ## Selection of the next segment-label pair -/

theorem selectInv_congr {min_count : Nat} {labelled : List SegmentPtr} {candidates : Candidates}
    {Seen Seen2 : Label → SegmentPtr → Nat → Prop} {acc : MaxPair}
    (h : SelectInv min_count labelled candidates Seen acc)
    (hiff : ∀ l s c, Seen2 l s c ↔ Seen l s c) :
    SelectInv min_count labelled candidates Seen2 acc := by
  refine ⟨fun l s c hs => h.1 l s c ((hiff l s c).mp hs), ?_⟩
  rcases h.2 with h2 | h2
  · exact Or.inl h2
  · exact Or.inr ⟨(hiff _ _ _).mpr h2.1, h2.2⟩

theorem selectStep_inv (min_count : Nat) (labelled : List SegmentPtr) (candidates : Candidates)
    (label : Label) (segments : List (SegmentPtr × Nat)) (hmem : (label, segments) ∈ candidates)
    (x : SegmentPtr × Nat) (hx : x ∈ segments) (Seen : Label → SegmentPtr → Nat → Prop)
    (acc : MaxPair) (h : SelectInv min_count labelled candidates Seen acc) :
    SelectInv min_count labelled candidates
      (fun l s c => Seen l s c ∨ (l = label ∧ (s, c) = x))
      (selectStep min_count labelled label segments acc x) := by
  unfold selectStep
  by_cases hc : x.2 > acc.max_count ∧ x.2 > min_count ∧ x.1 ∉ labelled
  · rw [if_pos hc]
    refine ⟨?_, Or.inr ⟨Or.inr ⟨rfl, rfl⟩, hc.2.1, hc.2.2, hmem, hx⟩⟩
    intro l s c hs hgt hnl
    rcases hs with hs | ⟨_, hs⟩
    · exact le_trans (h.1 l s c hs hgt hnl) (le_of_lt hc.1)
    · have : c = x.2 := congrArg Prod.snd hs
      rw [this]
  · rw [if_neg hc]
    refine ⟨?_, ?_⟩
    · intro l s c hs hgt hnl
      rcases hs with hs | ⟨_, hs⟩
      · exact h.1 l s c hs hgt hnl
      · have h1 : c = x.2 := congrArg Prod.snd hs
        have h2 : s = x.1 := congrArg Prod.fst hs
        by_contra hcon
        apply hc
        rw [← h1, ← h2]
        exact ⟨not_le.mp hcon, hgt, hnl⟩
    · rcases h.2 with h2 | h2
      · exact Or.inl h2
      · exact Or.inr ⟨Or.inl h2.1, h2.2⟩

theorem selectInner_inv (min_count : Nat) (labelled : List SegmentPtr) (candidates : Candidates)
    (label : Label) (segments : List (SegmentPtr × Nat)) (hmem : (label, segments) ∈ candidates)
    (inner : List (SegmentPtr × Nat)) :
    ∀ (Seen : Label → SegmentPtr → Nat → Prop) (acc : MaxPair),
      (∀ x ∈ inner, x ∈ segments) → SelectInv min_count labelled candidates Seen acc →
      SelectInv min_count labelled candidates
        (fun l s c => Seen l s c ∨ (l = label ∧ (s, c) ∈ inner))
        (inner.foldl (selectStep min_count labelled label segments) acc) := by
  induction inner with
  | nil =>
    intro Seen acc _ h
    exact selectInv_congr h (fun l s c => by simp)
  | cons x t ih =>
    intro Seen acc hsub h
    simp only [List.foldl_cons]
    have h1 := selectStep_inv min_count labelled candidates label segments hmem x
      (hsub x (List.mem_cons_self _ _)) Seen acc h
    have h2 := ih _ _ (fun y hy => hsub y (List.mem_cons_of_mem _ hy)) h1
    refine selectInv_congr h2 (fun l s c => ?_)
    simp only [List.mem_cons]
    constructor
    · rintro (hs | ⟨hl, hs | hs⟩)
      · exact Or.inl (Or.inl hs)
      · exact Or.inl (Or.inr ⟨hl, hs⟩)
      · exact Or.inr ⟨hl, hs⟩
    · rintro ((hs | ⟨hl, hs⟩) | ⟨hl, hs⟩)
      · exact Or.inl hs
      · exact Or.inr ⟨hl, Or.inl hs⟩
      · exact Or.inr ⟨hl, Or.inr hs⟩

theorem selectOuter_inv (min_count : Nat) (labelled : List SegmentPtr) (candidates : Candidates)
    (outer : Candidates) :
    ∀ (Seen : Label → SegmentPtr → Nat → Prop) (acc : MaxPair),
      (∀ e ∈ outer, e ∈ candidates) → SelectInv min_count labelled candidates Seen acc →
      SelectInv min_count labelled candidates
        (fun l s c => Seen l s c ∨ ∃ segments, (l, segments) ∈ outer ∧ (s, c) ∈ segments)
        (outer.foldl
          (fun acc label_it =>
            label_it.2.foldl (selectStep min_count labelled label_it.1 label_it.2) acc)
          acc) := by
  induction outer with
  | nil =>
    intro Seen acc _ h
    exact selectInv_congr h (fun l s c => by simp)
  | cons e t ih =>
    intro Seen acc hsub h
    simp only [List.foldl_cons]
    have h1 := selectInner_inv min_count labelled candidates e.1 e.2
      (hsub e (List.mem_cons_self _ _)) e.2 Seen acc (fun x hx => hx) h
    have h2 := ih _ _ (fun y hy => hsub y (List.mem_cons_of_mem _ hy)) h1
    refine selectInv_congr h2 (fun l s c => ?_)
    constructor
    · rintro (hs | ⟨segments, hm, hs⟩)
      · exact Or.inl (Or.inl hs)
      · rcases List.mem_cons.mp hm with hm | hm
        · refine Or.inl (Or.inr ⟨congrArg Prod.fst hm, ?_⟩)
          have : segments = e.2 := congrArg Prod.snd hm
          rw [← this]; exact hs
        · exact Or.inr ⟨segments, hm, hs⟩
    · rintro ((hs | ⟨hl, hs⟩) | ⟨segments, hm, hs⟩)
      · exact Or.inl hs
      · refine Or.inr ⟨e.2, ?_, hs⟩
        rw [hl]; exact List.mem_cons_self _ _
      · exact Or.inr ⟨segments, List.mem_cons_of_mem _ hm, hs⟩

theorem selectMax_inv (min_count : Nat) (labelled : List SegmentPtr) (candidates : Candidates) :
    SelectInv min_count labelled candidates
      (fun l s c => ∃ segments, (l, segments) ∈ candidates ∧ (s, c) ∈ segments)
      (selectMax min_count labelled candidates) := by
  unfold selectMax
  have h0 : SelectInv min_count labelled candidates (fun _ _ _ => False)
      { max_label := 0, max_count := 0, max_segment := 0, segments_to_recompute := [] } :=
    ⟨fun l s c hs => absurd hs id, Or.inl rfl⟩
  have h1 := selectOuter_inv min_count labelled candidates candidates _ _ (fun e he => he) h0
  exact selectInv_congr h1 (fun l s c => by simp)

/-- `selectMax` leaves `max_count` at 0 exactly when no entry is eligible. -/
theorem selectMax_zero_iff (min_count : Nat) (labelled : List SegmentPtr)
    (candidates : Candidates) :
    (selectMax min_count labelled candidates).max_count = 0 ↔
      ¬ ∃ l s c, Eligible min_count labelled candidates l s c := by
  have h := selectMax_inv min_count labelled candidates
  constructor
  · rintro h0 ⟨l, s, c, segments, hm, hs, hgt, hnl⟩
    have := h.1 l s c ⟨segments, hm, hs⟩ hgt hnl
    rw [h0] at this
    omega
  · intro hno
    rcases h.2 with h2 | ⟨⟨segments, hm, hs⟩, hgt, hnl, _⟩
    · exact h2
    · exact absurd ⟨_, _, _, segments, hm, hs, hgt, hnl⟩ hno

/-- When `selectMax` ends with a non-zero `max_count`, it holds an eligible
entry of maximal count. -/
theorem selectMax_pos (min_count : Nat) (labelled : List SegmentPtr) (candidates : Candidates)
    (hpos : (selectMax min_count labelled candidates).max_count ≠ 0) :
    Eligible min_count labelled candidates (selectMax min_count labelled candidates).max_label
        (selectMax min_count labelled candidates).max_segment
        (selectMax min_count labelled candidates).max_count ∧
      (∀ l s c, Eligible min_count labelled candidates l s c →
        c ≤ (selectMax min_count labelled candidates).max_count) ∧
      ((selectMax min_count labelled candidates).max_label,
        (selectMax min_count labelled candidates).segments_to_recompute) ∈ candidates ∧
      ((selectMax min_count labelled candidates).max_segment,
        (selectMax min_count labelled candidates).max_count) ∈
          (selectMax min_count labelled candidates).segments_to_recompute := by
  have h := selectMax_inv min_count labelled candidates
  rcases h.2 with h2 | ⟨⟨segments, hm, hs⟩, hgt, hnl, hm2, hs2⟩
  · exact absurd h2 hpos
  · refine ⟨⟨segments, hm, hs, hgt, hnl⟩, ?_, hm2, hs2⟩
    rintro l s c ⟨segments2, hm3, hs3, hgt3, hnl3⟩
    exact h.1 l s c ⟨segments2, hm3, hs3⟩ hgt3 hnl3

/-! ## Candidate computation: keys and segments of the table -/

theorem StdSet.mem_put_iff (s : List Nat) (k x : Nat) : x ∈ StdSet.put s k ↔ x = k ∨ x ∈ s := by
  induction s with
  | nil => simp [StdSet.put]
  | cons y t ih =>
    unfold StdSet.put
    by_cases h1 : k < y
    · simp [h1]
    · by_cases h2 : k = y
      · subst h2; simp
      · simp only [h1, h2, if_false, List.mem_cons, ih]
        constructor
        · rintro (h | h | h)
          · exact Or.inr (Or.inl h)
          · exact Or.inl h
          · exact Or.inr (Or.inr h)
        · rintro (h | h | h)
          · exact Or.inr (Or.inl h)
          · exact Or.inl h
          · exact Or.inr (Or.inr h)

section CandidateLemmas

set_option linter.unusedSectionVars false

variable {C : Type} [LinearOrderedAddCommMonoid C]

theorem nextUnassigned_fold (assigned_labels : LSet) (p : Label) (l : List (LabelCount C)) :
    ∀ acc : Label × C,
      (l.foldl (nextUnassignedStep assigned_labels p) acc).1 = acc.1 ∨
        ∃ lc ∈ l, lc.label = (l.foldl (nextUnassignedStep assigned_labels p) acc).1 ∧
          lc.label ∉ assigned_labels := by
  induction l with
  | nil => intro acc; exact Or.inl rfl
  | cons x t ih =>
    intro acc
    simp only [List.foldl_cons]
    have hstep : (nextUnassignedStep assigned_labels p acc x = (x.label, x.label_confidence) ∧
        x.label ∉ assigned_labels) ∨ nextUnassignedStep assigned_labels p acc x = acc := by
      unfold nextUnassignedStep
      split
      · rename_i h; exact Or.inl ⟨rfl, h.1⟩
      · exact Or.inr rfl
    rcases hstep with ⟨hs, hx⟩ | hs
    · rw [hs]
      rcases ih (x.label, x.label_confidence) with h | ⟨lc, hlc, h, hn⟩
      · exact Or.inr ⟨x, List.mem_cons_self _ _, h.symm, hx⟩
      · exact Or.inr ⟨lc, List.mem_cons_of_mem _ hlc, h, hn⟩
    · rw [hs]
      rcases ih acc with h | ⟨lc, hlc, h, hn⟩
      · exact Or.inl h
      · exact Or.inr ⟨lc, List.mem_cons_of_mem _ hlc, h, hn⟩

/-- The label returned by `getNextUnassignedLabel` is 0 or a label of the
voxel that is not in `assigned_labels`. -/
theorem getNextUnassignedLabel_cases (voxel : LabelVoxel C) (assigned_labels : LSet) :
    getNextUnassignedLabel voxel assigned_labels = 0 ∨
      (getNextUnassignedLabel voxel assigned_labels ∉ assigned_labels ∧
        (voxel.label = getNextUnassignedLabel voxel assigned_labels ∨
          ∃ lc ∈ voxel.label_count, lc.label = getNextUnassignedLabel voxel assigned_labels)) := by
  unfold getNextUnassignedLabel
  by_cases h : voxel.label ∈ assigned_labels
  · rw [if_pos h]
    rcases nextUnassigned_fold assigned_labels 0 voxel.label_count (0, 0) with h1 | ⟨lc, hlc, h1, hn⟩
    · exact Or.inl h1
    · exact Or.inr ⟨by rw [← h1]; exact hn, Or.inr ⟨lc, hlc, h1⟩⟩
  · rw [if_neg h]
    exact Or.inr ⟨h, Or.inl rfl⟩

theorem voxelAt_mem {layer : Layer C} {point : Point} {voxel : LabelVoxel C}
    (h : voxelAt layer point = some voxel) :
    ∃ block ∈ layer, voxel ∈ block.2.voxels := by
  unfold voxelAt at h
  cases hf : StdMap.find layer point.block_index with
  | none => rw [hf] at h; cases h
  | some block =>
    rw [hf] at h
    exact ⟨(point.block_index, block), StdMap.mem_of_find hf, List.getElem?_mem h⟩

theorem increaseLabelCountForSegment_keys (P : Label → Prop) (config : LabelTsdfConfig)
    (segment : SegmentPtr) (label : Label) (n : Nat) (candidates : Candidates)
    (mcl : List Label) (h : KeysSatisfy P candidates) (hl : P label) :
    KeysSatisfy P (increaseLabelCountForSegment config segment label n candidates mcl).1 := by
  unfold increaseLabelCountForSegment
  cases hf : StdMap.find candidates label with
  | none =>
    intro e he
    rcases StdMap.mem_emplace he with h1 | h1
    · rw [h1]; exact hl
    · exact h e h1
  | some segments =>
    simp only []
    cases hg : StdMap.find segments segment with
    | none =>
      simp only []
      intro e he
      rcases StdMap.mem_put he with h1 | h1
      · rw [h1]; exact hl
      · exact h e h1
    | some c =>
      simp only []
      intro e he
      rcases StdMap.mem_put he with h1 | h1
      · rw [h1]; exact hl
      · exact h e h1

theorem increaseLabelCountForSegment_segments (Q : SegmentPtr → Prop) (config : LabelTsdfConfig)
    (segment : SegmentPtr) (label : Label) (n : Nat) (candidates : Candidates)
    (mcl : List Label) (h : SegmentsSatisfy Q candidates) (hs : Q segment) :
    SegmentsSatisfy Q (increaseLabelCountForSegment config segment label n candidates mcl).1 := by
  unfold increaseLabelCountForSegment
  cases hf : StdMap.find candidates label with
  | none =>
    intro e he x hx
    rcases StdMap.mem_emplace he with h1 | h1
    · rw [h1] at hx
      simp only [List.mem_singleton] at hx
      rw [hx]; exact hs
    · exact h e h1 x hx
  | some segments =>
    have hseg : ∀ x ∈ segments, Q x.1 := h (label, segments) (StdMap.mem_of_find hf)
    simp only []
    cases hg : StdMap.find segments segment with
    | none =>
      simp only []
      intro e he x hx
      rcases StdMap.mem_put he with h1 | h1
      · rw [h1] at hx
        rcases StdMap.mem_emplace hx with h2 | h2
        · rw [h2]; exact hs
        · exact hseg x h2
      · exact h e h1 x hx
    | some c =>
      simp only []
      intro e he x hx
      rcases StdMap.mem_put he with h1 | h1
      · rw [h1] at hx
        rcases StdMap.mem_put hx with h2 | h2
        · rw [h2]; exact hs
        · exact hseg x h2
      · exact h e h1 x hx

theorem scanPoint_keys (P : Label → Prop) (st : Integrator C) (segment : SegmentPtr) (n : Nat)
    (assigned_labels : LSet) (acc : PointScan) (point : Point)
    (h : KeysSatisfy P acc.candidates)
    (hlayer : ∀ l, l ≠ 0 → l ∉ assigned_labels → LayerLabel st.label_layer_ l → P l) :
    KeysSatisfy P (scanPoint st segment n assigned_labels acc point).candidates := by
  unfold scanPoint
  cases hv : voxelAt st.label_layer_ point with
  | none => exact h
  | some voxel =>
    simp only []
    split
    · rename_i hc
      apply increaseLabelCountForSegment_keys P _ _ _ _ _ _ h
      rcases getNextUnassignedLabel_cases voxel assigned_labels with h0 | ⟨hn, hv2⟩
      · exact absurd h0 hc.1
      · obtain ⟨block, hb, hvm⟩ := voxelAt_mem hv
        exact hlayer _ hc.1 hn ⟨block, hb, voxel, hvm, hv2⟩
    · exact h

theorem scanPoint_segments (Q : SegmentPtr → Prop) (st : Integrator C) (segment : SegmentPtr)
    (n : Nat) (assigned_labels : LSet) (acc : PointScan) (point : Point)
    (h : SegmentsSatisfy Q acc.candidates) (hs : Q segment) :
    SegmentsSatisfy Q (scanPoint st segment n assigned_labels acc point).candidates := by
  unfold scanPoint
  cases hv : voxelAt st.label_layer_ point with
  | none => exact h
  | some voxel =>
    simp only []
    split
    · exact increaseLabelCountForSegment_segments Q _ _ _ _ _ _ h hs
    · exact h

theorem scanPoints_keys (P : Label → Prop) (st : Integrator C) (segment : SegmentPtr) (n : Nat)
    (assigned_labels : LSet)
    (hlayer : ∀ l, l ≠ 0 → l ∉ assigned_labels → LayerLabel st.label_layer_ l → P l)
    (points : List Point) :
    ∀ acc : PointScan, KeysSatisfy P acc.candidates →
      KeysSatisfy P (points.foldl (scanPoint st segment n assigned_labels) acc).candidates := by
  induction points with
  | nil => intro acc h; exact h
  | cons p t ih =>
    intro acc h
    exact ih _ (scanPoint_keys P st segment n assigned_labels acc p h hlayer)

theorem scanPoints_segments (Q : SegmentPtr → Prop) (st : Integrator C) (segment : SegmentPtr)
    (n : Nat) (assigned_labels : LSet) (hs : Q segment) (points : List Point) :
    ∀ acc : PointScan, SegmentsSatisfy Q acc.candidates →
      SegmentsSatisfy Q (points.foldl (scanPoint st segment n assigned_labels) acc).candidates := by
  induction points with
  | nil => intro acc h; exact h
  | cons p t ih =>
    intro acc h
    exact ih _ (scanPoint_segments Q st segment n assigned_labels acc p h hs)

end CandidateLemmas

section ComputeLemmas

set_option linter.unusedSectionVars false

variable {C : Type} [LinearOrderedAddCommMonoid C]

/-- `computeSegmentLabelCandidates` changes nothing of the integrator but,
when it issues a fresh label, the highest label. -/
theorem compute_state {heap : Heap} {segment : SegmentPtr} {cs cs1 : CandidateState C}
    {assigned_labels : LSet}
    (h : computeSegmentLabelCandidates heap segment cs assigned_labels = .ok cs1) :
    cs1.st = cs.st ∨
      (cs.st.highest_label_ < UINT_MAX ∧
        cs1.st = { cs.st with highest_label_ := cs.st.highest_label_ + 1 }) := by
  unfold computeSegmentLabelCandidates at h
  simp only [] at h
  split at h
  · injection h with h; rw [← h]; exact Or.inl rfl
  · unfold getFreshLabel at h
    by_cases hlt : cs.st.highest_label_ < UINT_MAX
    · rw [if_pos hlt] at h
      simp only [] at h
      injection h with h; rw [← h]; exact Or.inr ⟨hlt, rfl⟩
    · rw [if_neg hlt] at h
      simp only [] at h
      cases h

theorem compute_keys (P : Label → Prop) {heap : Heap} {segment : SegmentPtr}
    {cs cs1 : CandidateState C} {assigned_labels : LSet}
    (h : computeSegmentLabelCandidates heap segment cs assigned_labels = .ok cs1)
    (hk : KeysSatisfy P cs.candidates)
    (hlayer : ∀ l, l ≠ 0 → l ∉ assigned_labels → LayerLabel cs.st.label_layer_ l → P l)
    (hfresh : cs1.st.highest_label_ = cs.st.highest_label_ + 1 → P (cs.st.highest_label_ + 1)) :
    KeysSatisfy P cs1.candidates := by
  have hscan := scanPoints_keys P cs.st segment (heap segment).points_C_.length assigned_labels
    hlayer (heap segment).points_C_
    { candidate_label_exists := false, candidates := cs.candidates,
      merge_candidate_labels := [] } hk
  unfold computeSegmentLabelCandidates at h
  simp only [] at h
  split at h
  · injection h with h; rw [← h]; exact hscan
  · unfold getFreshLabel at h
    by_cases hlt : cs.st.highest_label_ < UINT_MAX
    · rw [if_pos hlt] at h
      simp only [] at h
      injection h with h
      rw [← h] at hfresh ⊢
      intro e he
      rcases StdMap.mem_emplace he with h1 | h1
      · rw [h1]; exact hfresh rfl
      · exact hscan e h1
    · rw [if_neg hlt] at h
      simp only [] at h
      cases h

theorem compute_segments (Q : SegmentPtr → Prop) {heap : Heap} {segment : SegmentPtr}
    {cs cs1 : CandidateState C} {assigned_labels : LSet}
    (h : computeSegmentLabelCandidates heap segment cs assigned_labels = .ok cs1)
    (hk : SegmentsSatisfy Q cs.candidates) (hs : Q segment) :
    SegmentsSatisfy Q cs1.candidates := by
  have hscan := scanPoints_segments Q cs.st segment (heap segment).points_C_.length
    assigned_labels hs (heap segment).points_C_
    { candidate_label_exists := false, candidates := cs.candidates,
      merge_candidate_labels := [] } hk
  unfold computeSegmentLabelCandidates at h
  simp only [] at h
  split at h
  · injection h with h; rw [← h]; exact hscan
  · unfold getFreshLabel at h
    by_cases hlt : cs.st.highest_label_ < UINT_MAX
    · rw [if_pos hlt] at h
      simp only [] at h
      injection h with h
      rw [← h]
      intro e he x hx
      rcases StdMap.mem_emplace he with h1 | h1
      · rw [h1] at hx
        simp only [List.mem_singleton] at hx
        rw [hx]; exact hs
      · exact hscan e h1 x hx
    · rw [if_neg hlt] at h
      simp only [] at h
      cases h

theorem purgeSegment_keys (P : Label → Prop) (candidates : Candidates) (max_label : Label)
    (segment : SegmentPtr) (h : KeysSatisfy P candidates) :
    KeysSatisfy P (purgeSegment candidates max_label segment) := by
  intro e he
  unfold purgeSegment at he
  obtain ⟨e0, he0, heq⟩ := List.mem_map.mp he
  have : e.1 = e0.1 := by
    rw [← heq]; split <;> rfl
  rw [this]; exact h e0 he0

theorem purgeSegment_segments (Q : SegmentPtr → Prop) (candidates : Candidates)
    (max_label : Label) (segment : SegmentPtr) (h : SegmentsSatisfy Q candidates) :
    SegmentsSatisfy Q (purgeSegment candidates max_label segment) := by
  intro e he x hx
  unfold purgeSegment at he
  obtain ⟨e0, he0, heq⟩ := List.mem_map.mp he
  by_cases hc : e0.1 ≠ max_label
  · rw [if_pos hc] at heq
    rw [← heq] at hx
    exact h e0 he0 x (StdMap.mem_erase hx).1
  · rw [if_neg hc] at heq
    rw [← heq] at hx
    exact h e0 he0 x hx

/-- The state of the integrator across the recomputation loop. -/
theorem recompute_state (heap : Heap) (max_label : Label) (max_segment : SegmentPtr)
    (assigned_labels : LSet) (l : List (SegmentPtr × Nat)) :
    ∀ cs cs1 : CandidateState C,
      recomputeSegments heap max_label max_segment assigned_labels cs l = .ok cs1 →
      cs1.st = { cs.st with highest_label_ := cs1.st.highest_label_ } ∧
        cs.st.highest_label_ ≤ cs1.st.highest_label_ := by
  induction l with
  | nil =>
    intro cs cs1 h
    simp only [recomputeSegments] at h
    injection h with h
    rw [← h]; exact ⟨rfl, le_refl _⟩
  | cons x t ih =>
    intro cs cs1 h
    unfold recomputeSegments at h
    by_cases hx : x.1 ≠ max_segment
    · rw [if_pos hx] at h
      cases hc : computeSegmentLabelCandidates heap x.1
          { cs with candidates := purgeSegment cs.candidates max_label x.1 } assigned_labels with
      | error e => rw [hc] at h; cases h
      | ok cs2 =>
        rw [hc] at h
        simp only [] at h
        obtain ⟨h1, h2⟩ := ih cs2 cs1 h
        rcases compute_state hc with h3 | ⟨_, h3⟩
        · rw [h3] at h1 h2; exact ⟨h1, h2⟩
        · rw [h3] at h1 h2
          exact ⟨h1, le_trans (Nat.le_succ _) h2⟩
    · rw [if_neg hx] at h
      exact ih cs cs1 h

theorem recompute_keys (P : Label → Prop) (heap : Heap) (max_label : Label)
    (max_segment : SegmentPtr) (assigned_labels : LSet) (l : List (SegmentPtr × Nat)) :
    ∀ cs cs1 : CandidateState C,
      recomputeSegments heap max_label max_segment assigned_labels cs l = .ok cs1 →
      KeysSatisfy P cs.candidates →
      (∀ k, k ≠ 0 → k ∉ assigned_labels → LayerLabel cs.st.label_layer_ k → P k) →
      (∀ k, cs.st.highest_label_ < k → k ≤ cs1.st.highest_label_ → P k) →
      KeysSatisfy P cs1.candidates := by
  induction l with
  | nil =>
    intro cs cs1 h hk _ _
    simp only [recomputeSegments] at h
    injection h with h
    rw [← h]; exact hk
  | cons x t ih =>
    intro cs cs1 h hk hlayer hfresh
    unfold recomputeSegments at h
    by_cases hx : x.1 ≠ max_segment
    · rw [if_pos hx] at h
      cases hc : computeSegmentLabelCandidates heap x.1
          { cs with candidates := purgeSegment cs.candidates max_label x.1 } assigned_labels with
      | error e => rw [hc] at h; cases h
      | ok cs2 =>
        rw [hc] at h
        simp only [] at h
        have hmono := (recompute_state heap max_label max_segment assigned_labels t cs2 cs1 h).2
        have hst := compute_state hc
        have hk2 : KeysSatisfy P cs2.candidates := by
          apply compute_keys P hc (purgeSegment_keys P _ _ _ hk) hlayer
          intro heq
          exact hfresh _ (Nat.lt_succ_self _) (by
            have : cs2.st.highest_label_ = cs.st.highest_label_ + 1 := heq
            rw [← this]; exact hmono)
        apply ih cs2 cs1 h hk2
        · intro k hk0 hka hkl
          apply hlayer k hk0 hka
          rcases hst with h3 | ⟨_, h3⟩
          · rw [h3] at hkl; exact hkl
          · rw [h3] at hkl; exact hkl
        · intro k hlt hle
          apply hfresh k _ hle
          rcases hst with h3 | ⟨_, h3⟩
          · rw [h3] at hlt; exact hlt
          · rw [h3] at hlt; exact lt_trans (Nat.lt_succ_self _) hlt
    · rw [if_neg hx] at h
      exact ih cs cs1 h hk hlayer hfresh

theorem recompute_segments (Q : SegmentPtr → Prop) (heap : Heap) (max_label : Label)
    (max_segment : SegmentPtr) (assigned_labels : LSet) (l : List (SegmentPtr × Nat)) :
    ∀ cs cs1 : CandidateState C,
      recomputeSegments heap max_label max_segment assigned_labels cs l = .ok cs1 →
      SegmentsSatisfy Q cs.candidates → (∀ x ∈ l, Q x.1) →
      SegmentsSatisfy Q cs1.candidates := by
  induction l with
  | nil =>
    intro cs cs1 h hk _
    simp only [recomputeSegments] at h
    injection h with h
    rw [← h]; exact hk
  | cons x t ih =>
    intro cs cs1 h hk hl
    unfold recomputeSegments at h
    by_cases hx : x.1 ≠ max_segment
    · rw [if_pos hx] at h
      cases hc : computeSegmentLabelCandidates heap x.1
          { cs with candidates := purgeSegment cs.candidates max_label x.1 } assigned_labels with
      | error e => rw [hc] at h; cases h
      | ok cs2 =>
        rw [hc] at h
        simp only [] at h
        exact ih cs2 cs1 h
          (compute_segments Q hc (purgeSegment_segments Q _ _ _ hk) (hl x (List.mem_cons_self _ _)))
          (fun y hy => hl y (List.mem_cons_of_mem _ hy))
    · rw [if_neg hx] at h
      exact ih cs cs1 h hk (fun y hy => hl y (List.mem_cons_of_mem _ hy))

/-- What a successful call of `getNextSegmentLabelPair` has done. -/
theorem getNext_some {heap : Heap} {labelled : List SegmentPtr} {assigned A : LSet}
    {cs cs1 : CandidateState C} {segment : SegmentPtr} {label : Label}
    (h : getNextSegmentLabelPair heap labelled assigned cs = .ok (some (segment, label), A, cs1)) :
    (selectMax cs.st.label_tsdf_config_.min_label_voxel_count labelled cs.candidates).max_count
        ≠ 0 ∧
      segment =
        (selectMax cs.st.label_tsdf_config_.min_label_voxel_count labelled cs.candidates).max_segment ∧
      label =
        (selectMax cs.st.label_tsdf_config_.min_label_voxel_count labelled cs.candidates).max_label ∧
      A = StdSet.put assigned label ∧
      recomputeSegments heap label segment A cs
        (selectMax cs.st.label_tsdf_config_.min_label_voxel_count labelled
          cs.candidates).segments_to_recompute = .ok cs1 := by
  unfold getNextSegmentLabelPair at h
  simp only [] at h
  by_cases h0 : (selectMax cs.st.label_tsdf_config_.min_label_voxel_count labelled
      cs.candidates).max_count = 0
  · rw [if_pos h0] at h
    injection h with h
    injection h with h
    cases h
  · rw [if_neg h0] at h
    split at h
    · cases h
    · rename_i cs2 hr
      injection h with h
      simp only [Prod.mk.injEq, Option.some.injEq] at h
      obtain ⟨⟨h1, h2⟩, h3, h4⟩ := h
      subst h1; subst h2; subst h3; subst h4
      exact ⟨h0, rfl, rfl, rfl, hr⟩

/-- When `getNextSegmentLabelPair` returns false nothing has changed. -/
theorem getNext_none {heap : Heap} {labelled : List SegmentPtr} {assigned A : LSet}
    {cs cs1 : CandidateState C}
    (h : getNextSegmentLabelPair heap labelled assigned cs = .ok (none, A, cs1)) :
    (selectMax cs.st.label_tsdf_config_.min_label_voxel_count labelled cs.candidates).max_count
        = 0 ∧ A = assigned ∧ cs1 = cs := by
  unfold getNextSegmentLabelPair at h
  simp only [] at h
  by_cases h0 : (selectMax cs.st.label_tsdf_config_.min_label_voxel_count labelled
      cs.candidates).max_count = 0
  · rw [if_pos h0] at h
    injection h with h
    simp only [Prod.mk.injEq, true_and] at h
    exact ⟨h0, h.1.symm, h.2.symm⟩
  · rw [if_neg h0] at h
    split at h
    · cases h
    · injection h with h
      injection h with h
      cases h

end ComputeLemmas

section ReturnLemmas

set_option linter.unusedSectionVars false

variable {C : Type} [LinearOrderedAddCommMonoid C]

theorem compute_ok (heap : Heap) (segment : SegmentPtr) (cs : CandidateState C)
    (assigned_labels : LSet) (h : cs.st.highest_label_ < UINT_MAX) :
    ∃ cs1, computeSegmentLabelCandidates heap segment cs assigned_labels = .ok cs1 := by
  unfold computeSegmentLabelCandidates
  simp only []
  split
  · exact ⟨_, rfl⟩
  · unfold getFreshLabel
    rw [if_pos h]
    exact ⟨_, rfl⟩

theorem recompute_ok (heap : Heap) (max_label : Label) (max_segment : SegmentPtr)
    (assigned_labels : LSet) (l : List (SegmentPtr × Nat)) :
    ∀ cs : CandidateState C, cs.st.highest_label_ + l.length ≤ UINT_MAX →
      ∃ cs1, recomputeSegments heap max_label max_segment assigned_labels cs l = .ok cs1 := by
  induction l with
  | nil => intro cs _; exact ⟨cs, rfl⟩
  | cons x t ih =>
    intro cs h
    simp only [List.length_cons] at h
    unfold recomputeSegments
    by_cases hx : x.1 ≠ max_segment
    · rw [if_pos hx]
      obtain ⟨cs2, hc⟩ := compute_ok heap x.1
        { cs with candidates := purgeSegment cs.candidates max_label x.1 } assigned_labels
        (by show cs.st.highest_label_ < UINT_MAX; unfold Label at *; omega)
      rw [hc]
      simp only []
      apply ih cs2
      rcases compute_state hc with h3 | ⟨_, h3⟩
      · rw [h3]; show cs.st.highest_label_ + t.length ≤ UINT_MAX; unfold Label at *; omega
      · rw [h3]; show cs.st.highest_label_ + 1 + t.length ≤ UINT_MAX; unfold Label at *; omega
    · rw [if_neg hx]
      exact ih cs (by unfold Label at *; omega)

end ReturnLemmas

/-! ## `getNextSegmentLabelPair` -/

/-- C3: `getNextSegmentLabelPair` returns false iff the candidate table has no
entry whose count exceeds `min_label_voxel_count` and whose segment is not yet
labelled; when it returns true, the returned pair is such an entry, its count
is at least the count of every such entry, and the returned label has been
added to `assigned_labels`.  It returns true whenever such an entry exists and
the recomputation cannot exhaust the label counter. -/
theorem getNextSegmentLabelPair_correct {C : Type} [LinearOrderedAddCommMonoid C]
    (heap : Heap) (labelled_segments : List SegmentPtr) (assigned_labels : LSet)
    (cs : CandidateState C) :
    ((∃ A cs1, getNextSegmentLabelPair heap labelled_segments assigned_labels cs
        = .ok (none, A, cs1)) ↔
      ¬ ∃ l s c, Eligible cs.st.label_tsdf_config_.min_label_voxel_count labelled_segments
        cs.candidates l s c) ∧
    (∀ segment label A cs1,
      getNextSegmentLabelPair heap labelled_segments assigned_labels cs
        = .ok (some (segment, label), A, cs1) →
      (∃ count, Eligible cs.st.label_tsdf_config_.min_label_voxel_count labelled_segments
          cs.candidates label segment count ∧
        ∀ l s c, Eligible cs.st.label_tsdf_config_.min_label_voxel_count labelled_segments
          cs.candidates l s c → c ≤ count) ∧
      label ∈ A ∧ A = StdSet.put assigned_labels label) ∧
    ((∃ l s c, Eligible cs.st.label_tsdf_config_.min_label_voxel_count labelled_segments
        cs.candidates l s c) →
      (∀ e ∈ cs.candidates, cs.st.highest_label_ + e.2.length ≤ UINT_MAX) →
      ∃ segment label A cs1,
        getNextSegmentLabelPair heap labelled_segments assigned_labels cs
          = .ok (some (segment, label), A, cs1)) := by
  refine ⟨⟨?_, ?_⟩, ?_, ?_⟩
  · rintro ⟨A, cs1, h⟩
    exact (selectMax_zero_iff _ _ _).mp (getNext_none h).1
  · intro hno
    have h0 := (selectMax_zero_iff _ _ _).mpr hno
    refine ⟨assigned_labels, cs, ?_⟩
    unfold getNextSegmentLabelPair
    simp only []
    rw [if_pos h0]
  · intro segment label A cs1 h
    obtain ⟨h0, hs, hl, hA, _⟩ := getNext_some h
    obtain ⟨helig, hmax, _, _⟩ := selectMax_pos _ _ _ h0
    refine ⟨⟨_, ?_, hmax⟩, ?_, hA⟩
    · rw [hs, hl]; exact helig
    · rw [hA]; exact (StdSet.mem_put_iff _ _ _).mpr (Or.inl rfl)
  · intro helig hbound
    have h0 : (selectMax cs.st.label_tsdf_config_.min_label_voxel_count labelled_segments
        cs.candidates).max_count ≠ 0 :=
      fun e => (selectMax_zero_iff _ _ _).mp e helig
    obtain ⟨_, _, hmem, _⟩ := selectMax_pos _ _ _ h0
    unfold getNextSegmentLabelPair
    simp only []
    rw [if_neg h0]
    generalize selectMax cs.st.label_tsdf_config_.min_label_voxel_count labelled_segments
      cs.candidates = m at hmem ⊢
    obtain ⟨cs1, hr⟩ := recompute_ok heap m.max_label m.max_segment
      (StdSet.put assigned_labels m.max_label) m.segments_to_recompute cs (hbound _ hmem)
    rw [hr]
    exact ⟨m.max_segment, m.max_label, StdSet.put assigned_labels m.max_label, cs1, rfl⟩

set_option maxRecDepth 100000 in
theorem getNextSegmentLabelPair_correct_witness :
    ∃ A cs1, getNextSegmentLabelPair heapB [] [] candidateStateB = .ok (some (2, 10), A, cs1) := by
  obtain ⟨segment, label, A, cs1, h⟩ :=
    (getNextSegmentLabelPair_correct heapB [] [] candidateStateB).2.2
      ⟨10, 2, 30, [(1, 25), (2, 30)], by decide, by decide, by decide, by decide⟩ (by decide)
  obtain ⟨⟨count, ⟨segments, hm, hs, _, _⟩, hmax⟩, _, _⟩ :=
    (getNextSegmentLabelPair_correct heapB [] [] candidateStateB).2.1 segment label A cs1 h
  have h30 : 30 ≤ count :=
    hmax 10 2 30 ⟨[(1, 25), (2, 30)], by decide, by decide, by decide, by decide⟩
  have hm2 : (label, segments) = (10, [(1, 25), (2, 30)]) := by
    simpa [candidateStateB, candidatesB] using hm
  injection hm2 with hl hsegs
  subst hl; subst hsegs
  have hs2 : (segment, count) = (1, 25) ∨ (segment, count) = (2, 30) := by
    simpa using hs
  rcases hs2 with hs2 | hs2
  · injection hs2 with _ hc
    omega
  · injection hs2 with hseg _
    subst hseg
    exact ⟨A, cs1, h⟩

section AssignLoop

set_option linter.unusedSectionVars false

variable {C : Type} [LinearOrderedAddCommMonoid C]

/-! ## The assignment loop of `decideLabelPointClouds` -/

theorem compute_error {heap : Heap} {segment : SegmentPtr} {cs : CandidateState C}
    {assigned_labels : LSet} {e : Fault}
    (h : computeSegmentLabelCandidates heap segment cs assigned_labels = .error e) :
    e = .counterOverflow := by
  unfold computeSegmentLabelCandidates at h
  simp only [] at h
  split at h
  · cases h
  · unfold getFreshLabel at h
    by_cases hlt : cs.st.highest_label_ < UINT_MAX
    · rw [if_pos hlt] at h
      simp only [] at h
      cases h
    · rw [if_neg hlt] at h
      simp only [] at h
      injection h with h
      exact h.symm

theorem recompute_error (heap : Heap) (max_label : Label) (max_segment : SegmentPtr)
    (assigned_labels : LSet) (l : List (SegmentPtr × Nat)) :
    ∀ (cs : CandidateState C) (e : Fault),
      recomputeSegments heap max_label max_segment assigned_labels cs l = .error e →
      e = .counterOverflow := by
  induction l with
  | nil => intro cs e h; simp only [recomputeSegments] at h; cases h
  | cons x t ih =>
    intro cs e h
    unfold recomputeSegments at h
    by_cases hx : x.1 ≠ max_segment
    · rw [if_pos hx] at h
      cases hc : computeSegmentLabelCandidates heap x.1
          { cs with candidates := purgeSegment cs.candidates max_label x.1 } assigned_labels with
      | error e2 =>
        rw [hc] at h
        simp only [] at h
        injection h with h
        rw [← h]; exact compute_error hc
      | ok cs2 =>
        rw [hc] at h
        simp only [] at h
        exact ih cs2 e h
    · rw [if_neg hx] at h
      exact ih cs e h

theorem getNext_error {heap : Heap} {labelled : List SegmentPtr} {assigned : LSet}
    {cs : CandidateState C} {e : Fault}
    (h : getNextSegmentLabelPair heap labelled assigned cs = .error e) :
    e = .counterOverflow := by
  unfold getNextSegmentLabelPair at h
  simp only [] at h
  split at h
  · cases h
  · split at h
    · rename_i e2 hr
      injection h with h
      rw [← h]; exact recompute_error _ _ _ _ _ _ _ hr
    · cases h

/-- Proof rule for the `while` loop of `decideLabelPointClouds`: an invariant
that every round preserves while decreasing a measure holds at the end, and
the loop ends within the fuel that the measure allows. -/
theorem assignLoop_rule (Inv : Resolution C → Prop) (μ : Resolution C → Nat)
    (hstep : ∀ (r : Resolution C) segment label A cs, Inv r →
      getNextSegmentLabelPair r.heap r.labelled_segments r.assigned_labels r.cs
        = .ok (some (segment, label), A, cs) →
      Inv (assignRound r segment label A cs) ∧ μ (assignRound r segment label A cs) < μ r) :
    ∀ (fuel : Nat) (r : Resolution C), Inv r → μ r < fuel →
      assignLoop fuel r ≠ .error .outOfFuel ∧
        ∀ r1, assignLoop fuel r = .ok r1 → Inv r1 := by
  intro fuel
  induction fuel with
  | zero => intro r _ h; exact absurd h (Nat.not_lt_zero _)
  | succ n ih =>
    intro r hinv hμ
    unfold assignLoop
    cases hg : getNextSegmentLabelPair r.heap r.labelled_segments r.assigned_labels r.cs with
    | error e =>
      have := getNext_error hg
      subst this
      refine ⟨?_, ?_⟩
      · show Except.error Fault.counterOverflow ≠ Except.error Fault.outOfFuel
        intro h; cases h
      · intro r1 h
        change Except.error Fault.counterOverflow = Except.ok r1 at h
        cases h
    | ok res =>
      obtain ⟨pair, A, cs⟩ := res
      cases pair with
      | none =>
        obtain ⟨_, hA, hcs⟩ := getNext_none hg
        subst hA; subst hcs
        refine ⟨?_, ?_⟩
        · show Except.ok _ ≠ Except.error Fault.outOfFuel
          intro h; cases h
        · intro r1 h
          change Except.ok r = Except.ok r1 at h
          injection h with h
          rw [← h]
          exact hinv
      | some p =>
        obtain ⟨segment, label⟩ := p
        obtain ⟨h1, h2⟩ := hstep r segment label A cs hinv hg
        exact ih (assignRound r segment label A cs) h1 (by omega)

theorem unlabelledCount_put_lt (S labelled : List SegmentPtr) (segment : SegmentPtr)
    (hS : segment ∈ S) (hn : segment ∉ labelled) :
    unlabelledCount S (StdSet.put labelled segment) < unlabelledCount S labelled := by
  unfold unlabelledCount
  have heq : S.filter (fun s => decide (s ∉ StdSet.put labelled segment)) =
      (S.filter (fun s => decide (s ∉ labelled))).filter (fun s => decide (s ≠ segment)) := by
    rw [List.filter_filter]
    apply List.filter_congr
    intro x _
    by_cases h1 : x = segment
    · subst h1
      have h2 : x ∈ StdSet.put labelled x := (StdSet.mem_put_iff _ _ _).mpr (Or.inl rfl)
      simp [h2]
    · by_cases h3 : x ∈ labelled
      · have h2 : x ∈ StdSet.put labelled segment := (StdSet.mem_put_iff _ _ _).mpr (Or.inr h3)
        simp [h2, h3]
      · have h2 : x ∉ StdSet.put labelled segment := by
          intro hm
          rcases (StdSet.mem_put_iff _ _ _).mp hm with h | h
          · exact h1 h
          · exact h3 h
        simp [h1, h2, h3]
  rw [heq]
  apply List.length_filter_lt_length_iff_exists.mpr
  refine ⟨segment, ?_, by simp⟩
  exact List.mem_filter.mpr ⟨hS, by simpa using hn⟩

end AssignLoop

section AssignInvariants

set_option linter.unusedSectionVars false

variable {C : Type} [LinearOrderedAddCommMonoid C]

theorem pushLabels_self (heap : Heap) (segment : SegmentPtr) (label : Label) :
    (pushLabels heap segment label segment).points_C_ = (heap segment).points_C_ ∧
      (pushLabels heap segment label segment).labels_ =
        (heap segment).labels_ ++ List.replicate (heap segment).points_C_.length label := by
  unfold pushLabels Heap.set
  simp

theorem pushLabels_other (heap : Heap) (segment : SegmentPtr) (label : Label) (p : SegmentPtr)
    (h : p ≠ segment) : pushLabels heap segment label p = heap p := by
  unfold pushLabels Heap.set
  simp [h]

/-- What a successful `getNextSegmentLabelPair` says about the selected pair. -/
theorem getNext_selected {heap : Heap} {labelled : List SegmentPtr} {assigned A : LSet}
    {cs cs1 : CandidateState C} {segment : SegmentPtr} {label : Label}
    (h : getNextSegmentLabelPair heap labelled assigned cs = .ok (some (segment, label), A, cs1)) :
    ∃ segments count, (label, segments) ∈ cs.candidates ∧ (segment, count) ∈ segments ∧
      segment ∉ labelled ∧ A = StdSet.put assigned label ∧
      recomputeSegments heap label segment A cs segments = .ok cs1 := by
  obtain ⟨h0, hs, hl, hA, hrec⟩ := getNext_some h
  obtain ⟨helig, _, hmem, hmemseg⟩ := selectMax_pos _ _ _ h0
  obtain ⟨_, _, _, _, hnl⟩ := helig
  rw [← hs] at hmemseg hnl
  rw [← hl] at hmem
  exact ⟨_, _, hmem, hmemseg, hnl, hA, hrec⟩

theorem assignInv_step (heap0 : Heap) (S : List SegmentPtr) (r : Resolution C)
    (segment : SegmentPtr) (label : Label) (A : LSet) (cs : CandidateState C)
    (hinv : AssignInv heap0 S r)
    (hg : getNextSegmentLabelPair r.heap r.labelled_segments r.assigned_labels r.cs
      = .ok (some (segment, label), A, cs)) :
    AssignInv heap0 S (assignRound r segment label A cs) ∧
      unlabelledCount S (assignRound r segment label A cs).labelled_segments <
        unlabelledCount S r.labelled_segments := by
  obtain ⟨segments, count, hmem, hmemseg, hnl, _, hrec⟩ := getNext_selected hg
  obtain ⟨hk, hs, hun, hlab⟩ := hinv
  have hl0 : label ≠ 0 := hk (label, segments) hmem
  have hsS : segment ∈ S := hs (label, segments) hmem (segment, count) hmemseg
  refine ⟨⟨?_, ?_, ?_, ?_⟩, unlabelledCount_put_lt S _ segment hsS hnl⟩
  · intro e he
    have he2 := (StdMap.mem_erase he).1
    refine recompute_keys (fun k => k ≠ 0) _ _ _ _ _ _ _ hrec hk (fun k hk0 _ _ => hk0) ?_ e he2
    intro k hlt _ hk0
    rw [hk0] at hlt
    exact Nat.not_lt_zero _ hlt
  · intro e he x hx
    have he2 := (StdMap.mem_erase he).1
    exact recompute_segments (fun s => s ∈ S) _ _ _ _ _ _ _ hrec hs
      (fun y hy => hs (label, segments) hmem y hy) e he2 x hx
  · intro p hp
    have hp2 : p ≠ segment ∧ p ∉ r.labelled_segments := by
      constructor
      · intro e; exact hp ((StdSet.mem_put_iff _ _ _).mpr (Or.inl e))
      · intro e; exact hp ((StdSet.mem_put_iff _ _ _).mpr (Or.inr e))
    show pushLabels r.heap segment label p = heap0 p
    rw [pushLabels_other _ _ _ _ hp2.1]
    exact hun p hp2.2
  · intro p hp
    show (pushLabels r.heap segment label p).points_C_ = (heap0 p).points_C_ ∧
      ∃ l, l ≠ 0 ∧ (pushLabels r.heap segment label p).labels_ =
        (heap0 p).labels_ ++ List.replicate (heap0 p).points_C_.length l
    by_cases hps : p = segment
    · subst hps
      obtain ⟨h1, h2⟩ := pushLabels_self r.heap p label
      rw [h1, h2, hun p hnl]
      exact ⟨rfl, label, hl0, rfl⟩
    · rw [pushLabels_other _ _ _ _ hps]
      rcases (StdSet.mem_put_iff _ _ _).mp hp with h | h
      · exact absurd h hps
      · exact hlab p h

theorem givenLabels_push_self (heap0 heap : Heap) (segment : SegmentPtr) (label : Label)
    (h : heap segment = heap0 segment) :
    givenLabels heap0 (pushLabels heap segment label) segment =
      List.replicate (heap0 segment).points_C_.length label := by
  unfold givenLabels
  rw [(pushLabels_self heap segment label).2, h]
  exact List.drop_left _ _

theorem givenLabels_push_other (heap0 heap : Heap) (segment : SegmentPtr) (label : Label)
    (p : SegmentPtr) (h : p ≠ segment) :
    givenLabels heap0 (pushLabels heap segment label) p = givenLabels heap0 heap p := by
  unfold givenLabels
  rw [pushLabels_other _ _ _ _ h]

theorem distinctInv_step (heap0 : Heap) (S : List SegmentPtr) (r : Resolution C)
    (segment : SegmentPtr) (label : Label) (A : LSet) (cs : CandidateState C)
    (hinv : AssignInv heap0 S r) (hdist : DistinctInv heap0 r)
    (hg : getNextSegmentLabelPair r.heap r.labelled_segments r.assigned_labels r.cs
      = .ok (some (segment, label), A, cs)) :
    DistinctInv heap0 (assignRound r segment label A cs) := by
  obtain ⟨segments, count, hmem, hmemseg, hnl, hA, hrec⟩ := getNext_selected hg
  obtain ⟨_, hs, hun, _⟩ := hinv
  obtain ⟨hk, hass, hlayer, hlabs, hdisj⟩ := hdist
  obtain ⟨hst, hmono⟩ := recompute_state _ _ _ _ _ _ _ hrec
  have hlayer_eq : cs.st.label_layer_ = r.cs.st.label_layer_ := by rw [hst]
  have hlab := hk (label, segments) hmem
  have hA_le : ∀ a ∈ A, a ≤ r.cs.st.highest_label_ := by
    intro a ha
    rw [hA] at ha
    rcases (StdSet.mem_put_iff _ _ _).mp ha with h | h
    · rw [h]; exact hlab.2
    · exact hass a h
  have hseg_labels : ∀ l ∈ givenLabels heap0 (pushLabels r.heap segment label) segment,
      l = label := by
    intro l hl
    rw [givenLabels_push_self heap0 r.heap segment label (hun segment hnl)] at hl
    exact List.eq_of_mem_replicate hl
  have hlabelA : label ∈ A := by rw [hA]; exact (StdSet.mem_put_iff _ _ _).mpr (Or.inl rfl)
  have hsubA : ∀ a ∈ r.assigned_labels, a ∈ A := by
    intro a ha; rw [hA]; exact (StdSet.mem_put_iff _ _ _).mpr (Or.inr ha)
  refine ⟨?_, ?_, ?_, ?_, ?_⟩
  · intro e he
    obtain ⟨he2, hne⟩ := StdMap.mem_erase he
    have hP := recompute_keys
      (fun k => k = label ∨ (k ∉ A ∧ k ≤ cs.st.highest_label_)) _ _ _ _ _ _ _ hrec ?_ ?_ ?_ e he2
    · rcases hP with h | h
      · exact absurd h hne
      · exact h
    · intro e0 he0
      by_cases h1 : e0.1 = label
      · exact Or.inl h1
      · refine Or.inr ⟨?_, le_trans (hk e0 he0).2 hmono⟩
        intro ha
        rw [hA] at ha
        rcases (StdSet.mem_put_iff _ _ _).mp ha with h | h
        · exact h1 h
        · exact (hk e0 he0).1 h
    · intro k _ hkA hkl
      exact Or.inr ⟨hkA, le_trans (hlayer k hkl) hmono⟩
    · intro k hlt hle
      refine Or.inr ⟨?_, hle⟩
      intro ha
      exact absurd (hA_le k ha) (not_le.mpr hlt)
  · intro a ha
    exact le_trans (hA_le a ha) hmono
  · intro k hkl
    show k ≤ cs.st.highest_label_
    have hkl2 : LayerLabel cs.st.label_layer_ k := hkl
    rw [hlayer_eq] at hkl2
    exact le_trans (hlayer k hkl2) hmono
  · intro p hp l hl
    show l ∈ A
    have hl0 : l ∈ givenLabels heap0 (pushLabels r.heap segment label) p := hl
    by_cases hps : p = segment
    · rw [hps] at hl0
      rw [hseg_labels l hl0]; exact hlabelA
    · rw [givenLabels_push_other _ _ _ _ _ hps] at hl0
      rcases (StdSet.mem_put_iff _ _ _).mp hp with h | h
      · exact absurd h hps
      · exact hsubA l (hlabs p h l hl0)
  · intro p hp q hq hpq l hl hlq
    have hl0 : l ∈ givenLabels heap0 (pushLabels r.heap segment label) p := hl
    have hlq0 : l ∈ givenLabels heap0 (pushLabels r.heap segment label) q := hlq
    have hold : ∀ x, x ≠ segment → x ∈ StdSet.put r.labelled_segments segment →
        x ∈ r.labelled_segments := by
      intro x hx hxm
      rcases (StdSet.mem_put_iff _ _ _).mp hxm with h | h
      · exact absurd h hx
      · exact h
    by_cases hps : p = segment
    · have hqs : q ≠ segment := fun e => hpq (by rw [hps, e])
      have hq1 := hold q hqs hq
      rw [hps] at hl0
      rw [givenLabels_push_other _ _ _ _ _ hqs] at hlq0
      have hl1 : l = label := hseg_labels l hl0
      exact hlab.1 (by rw [← hl1]; exact hlabs q hq1 l hlq0)
    · have hp1 := hold p hps hp
      rw [givenLabels_push_other _ _ _ _ _ hps] at hl0
      by_cases hqs : q = segment
      · rw [hqs] at hlq0
        have hl1 : l = label := hseg_labels l hlq0
        exact hlab.1 (by rw [← hl1]; exact hlabs p hp1 l hl0)
      · have hq1 := hold q hqs hq
        rw [givenLabels_push_other _ _ _ _ _ hqs] at hlq0
        exact hdisj p hp1 q hq1 hpq l hl0 hlq0

end AssignInvariants

section RemainingLoops

set_option linter.unusedSectionVars false

variable {C : Type} [LinearOrderedAddCommMonoid C]

/-! ## The loops of `decideLabelPointClouds` after the assignment loop -/

theorem getFreshLabel_ok {st st1 : Integrator C} {fresh : Label}
    (h : getFreshLabel st = .ok (fresh, st1)) :
    fresh = st.highest_label_ + 1 ∧ st1 = { st with highest_label_ := st.highest_label_ + 1 } := by
  unfold getFreshLabel at h
  by_cases hlt : st.highest_label_ < UINT_MAX
  · rw [if_pos hlt] at h
    injection h with h
    injection h with h1 h2
    exact ⟨h1.symm, h2.symm⟩
  · rw [if_neg hlt] at h
    cases h

theorem getFreshLabel_error {st : Integrator C} {e : Fault}
    (h : getFreshLabel st = .error e) : e = .counterOverflow := by
  unfold getFreshLabel at h
  by_cases hlt : st.highest_label_ < UINT_MAX
  · rw [if_pos hlt] at h; cases h
  · rw [if_neg hlt] at h
    injection h with h
    exact h.symm

theorem labelRemaining_error (segs : List SegmentPtr) :
    ∀ (r : Resolution C) (e : Fault), labelRemaining r segs = .error e →
      e = .counterOverflow := by
  induction segs with
  | nil => intro r e h; simp only [labelRemaining] at h; cases h
  | cons s t ih =>
    intro r e h
    unfold labelRemaining at h
    by_cases hs : s ∉ r.labelled_segments
    · rw [if_pos hs] at h
      cases hf : getFreshLabel r.cs.st with
      | error e2 =>
        rw [hf] at h
        simp only [] at h
        injection h with h
        rw [← h]; exact getFreshLabel_error hf
      | ok res =>
        obtain ⟨fresh, st1⟩ := res
        rw [hf] at h
        simp only [] at h
        exact ih _ e h
    · rw [if_neg hs] at h
      exact ih r e h

theorem labelRemaining_spec (heap0 : Heap) (S : List SegmentPtr) (segs : List SegmentPtr) :
    ∀ r r2 : Resolution C, labelRemaining r segs = .ok r2 → AssignInv heap0 S r →
      AssignInv heap0 S r2 ∧ (∀ p ∈ segs, p ∈ r2.labelled_segments) ∧
        (∀ p ∈ r.labelled_segments, p ∈ r2.labelled_segments) := by
  induction segs with
  | nil =>
    intro r r2 h hinv
    simp only [labelRemaining] at h
    injection h with h
    rw [← h]
    exact ⟨hinv, fun p hp => absurd hp (List.not_mem_nil p), fun p hp => hp⟩
  | cons s t ih =>
    intro r r2 h hinv
    unfold labelRemaining at h
    by_cases hs : s ∉ r.labelled_segments
    · rw [if_pos hs] at h
      cases hf : getFreshLabel r.cs.st with
      | error e2 => rw [hf] at h; cases h
      | ok res =>
        obtain ⟨fresh, st1⟩ := res
        rw [hf] at h
        simp only [] at h
        obtain ⟨hfresh, _⟩ := getFreshLabel_ok hf
        obtain ⟨hk, hsg, hun, hlab⟩ := hinv
        have hinv2 : AssignInv heap0 S
            { r with cs := { r.cs with st := st1 },
                     heap := pushLabels r.heap s fresh,
                     labelled_segments := StdSet.put r.labelled_segments s } := by
          refine ⟨hk, hsg, ?_, ?_⟩
          · intro p hp
            have hp2 : p ≠ s ∧ p ∉ r.labelled_segments := by
              constructor
              · intro e; exact hp ((StdSet.mem_put_iff _ _ _).mpr (Or.inl e))
              · intro e; exact hp ((StdSet.mem_put_iff _ _ _).mpr (Or.inr e))
            show pushLabels r.heap s fresh p = heap0 p
            rw [pushLabels_other _ _ _ _ hp2.1]
            exact hun p hp2.2
          · intro p hp
            show (pushLabels r.heap s fresh p).points_C_ = (heap0 p).points_C_ ∧
              ∃ l, l ≠ 0 ∧ (pushLabels r.heap s fresh p).labels_ =
                (heap0 p).labels_ ++ List.replicate (heap0 p).points_C_.length l
            by_cases hps : p = s
            · subst hps
              obtain ⟨h1, h2⟩ := pushLabels_self r.heap p fresh
              rw [h1, h2, hun p hs]
              exact ⟨rfl, fresh, by rw [hfresh]; exact Nat.succ_ne_zero _, rfl⟩
            · rw [pushLabels_other _ _ _ _ hps]
              rcases (StdSet.mem_put_iff _ _ _).mp hp with h3 | h3
              · exact absurd h3 hps
              · exact hlab p h3
        obtain ⟨h1, h2, h3⟩ := ih _ r2 h hinv2
        refine ⟨h1, ?_, ?_⟩
        · intro p hp
          rcases List.mem_cons.mp hp with hp | hp
          · rw [hp]; exact h3 s ((StdSet.mem_put_iff _ _ _).mpr (Or.inl rfl))
          · exact h2 p hp
        · intro p hp
          exact h3 p ((StdSet.mem_put_iff _ _ _).mpr (Or.inr hp))
    · rw [if_neg hs] at h
      obtain ⟨h1, h2, h3⟩ := ih r r2 h hinv
      refine ⟨h1, ?_, h3⟩
      intro p hp
      rcases List.mem_cons.mp hp with hp | hp
      · rw [hp]; exact h3 s (not_not.mp hs)
      · exact h2 p hp

theorem labelRemaining_distinct (heap0 : Heap) (S : List SegmentPtr) (segs : List SegmentPtr) :
    ∀ r r2 : Resolution C, labelRemaining r segs = .ok r2 → AssignInv heap0 S r →
      RemainInv heap0 r → RemainInv heap0 r2 := by
  induction segs with
  | nil =>
    intro r r2 h _ hrem
    simp only [labelRemaining] at h
    injection h with h
    rw [← h]; exact hrem
  | cons s t ih =>
    intro r r2 h hinv hrem
    unfold labelRemaining at h
    by_cases hs : s ∉ r.labelled_segments
    · rw [if_pos hs] at h
      cases hf : getFreshLabel r.cs.st with
      | error e2 => rw [hf] at h; cases h
      | ok res =>
        obtain ⟨fresh, st1⟩ := res
        rw [hf] at h
        simp only [] at h
        obtain ⟨hfresh, hst1⟩ := getFreshLabel_ok hf
        have hinv2 := hinv
        obtain ⟨hk, hsg, hun, hlab⟩ := hinv
        obtain ⟨hle, hdisj⟩ := hrem
        have hs_labels : ∀ l ∈ givenLabels heap0 (pushLabels r.heap s fresh) s, l = fresh := by
          intro l hl
          rw [givenLabels_push_self heap0 r.heap s fresh (hun s hs)] at hl
          exact List.eq_of_mem_replicate hl
        have hold : ∀ x, x ≠ s → x ∈ StdSet.put r.labelled_segments s →
            x ∈ r.labelled_segments := by
          intro x hx hxm
          rcases (StdSet.mem_put_iff _ _ _).mp hxm with h3 | h3
          · exact absurd h3 hx
          · exact h3
        have hgt : ∀ x ∈ r.labelled_segments, ∀ l ∈ givenLabels heap0 r.heap x, l ≠ fresh := by
          intro x hx l hl e
          have := hle x hx l hl
          rw [e, hfresh] at this
          exact absurd this (Nat.not_succ_le_self _)
        have hstep_inv := (labelRemaining_spec heap0 S [s] r
          { r with cs := { r.cs with st := st1 },
                   heap := pushLabels r.heap s fresh,
                   labelled_segments := StdSet.put r.labelled_segments s }
          (by
            unfold labelRemaining
            rw [if_pos hs, hf]
            rfl) hinv2).1
        apply ih _ r2 h hstep_inv
        refine ⟨?_, ?_⟩
        · intro p hp l hl
          show l ≤ st1.highest_label_
          rw [hst1]
          show l ≤ r.cs.st.highest_label_ + 1
          have hl0 : l ∈ givenLabels heap0 (pushLabels r.heap s fresh) p := hl
          by_cases hps : p = s
          · rw [hps] at hl0
            rw [hs_labels l hl0, hfresh]
          · rw [givenLabels_push_other _ _ _ _ _ hps] at hl0
            exact le_trans (hle p (hold p hps hp) l hl0) (Nat.le_succ _)
        · intro p hp q hq hpq l hl hlq
          have hl0 : l ∈ givenLabels heap0 (pushLabels r.heap s fresh) p := hl
          have hlq0 : l ∈ givenLabels heap0 (pushLabels r.heap s fresh) q := hlq
          by_cases hps : p = s
          · have hqs : q ≠ s := fun e => hpq (by rw [hps, e])
            rw [hps] at hl0
            rw [givenLabels_push_other _ _ _ _ _ hqs] at hlq0
            exact hgt q (hold q hqs hq) l hlq0 (hs_labels l hl0)
          · rw [givenLabels_push_other _ _ _ _ _ hps] at hl0
            by_cases hqs : q = s
            · rw [hqs] at hlq0
              exact hgt p (hold p hps hp) l hl0 (hs_labels l hlq0)
            · rw [givenLabels_push_other _ _ _ _ _ hqs] at hlq0
              exact hdisj p (hold p hps hp) q (hold q hqs hq) hpq l hl0 hlq0
    · rw [if_neg hs] at h
      exact ih r r2 h hinv hrem

theorem getFreshInstance_error {st : Integrator C} {e : Fault}
    (h : getFreshInstance st = .error e) : e = .counterOverflow := by
  unfold getFreshInstance at h
  by_cases hlt : st.highest_instance_ < UINT_MAX
  · rw [if_pos hlt] at h; cases h
  · rw [if_neg hlt] at h
    injection h with h
    exact h.symm

theorem instanceStep_error {heap : Heap} {acc : Integrator C × List SemanticLabel}
    {segment : SegmentPtr} {e : Fault} (h : instanceStep heap acc segment = .error e) :
    e ≠ .outOfFuel := by
  unfold instanceStep at h
  cases hl : (heap segment).labels_ with
  | nil =>
    rw [hl] at h
    simp only [] at h
    injection h with h
    rw [← h]; intro h2; cases h2
  | cons label rest =>
    rw [hl] at h
    simp only [] at h
    generalize (if (heap segment).points_C_.length > 0 then increaseLabelFramesCount acc.1 label
      else acc.1) = st1 at h
    by_cases hi : (heap segment).instance_ ≠ 0
    · rw [if_pos hi] at h
      cases hm : StdMap.find st1.current_to_global_instance_map_ (heap segment).instance_ with
      | some g => rw [hm] at h; cases h
      | none =>
        rw [hm] at h
        simp only [] at h
        by_cases hil : getLabelInstance st1 label acc.2 ≠ 0
        · rw [if_pos hil] at h; cases h
        · rw [if_neg hil] at h
          cases hfi : getFreshInstance st1 with
          | error e2 =>
            rw [hfi] at h
            simp only [] at h
            injection h with h
            rw [← h, getFreshInstance_error hfi]
            intro h2; cases h2
          | ok res =>
            rw [hfi] at h
            cases h
    · rw [if_neg hi] at h
      by_cases hil : getLabelInstance st1 label ≠ 0
      · rw [if_pos hil] at h; cases h
      · rw [if_neg hil] at h; cases h

theorem instanceStep_nonempty {heap : Heap} {acc acc1 : Integrator C × List SemanticLabel}
    {segment : SegmentPtr} (h : instanceStep heap acc segment = .ok acc1) :
    (heap segment).labels_ ≠ [] := by
  unfold instanceStep at h
  cases hl : (heap segment).labels_ with
  | nil =>
    rw [hl] at h
    cases h
  | cons label rest => exact List.cons_ne_nil _ _

theorem instanceLoop_spec (heap : Heap) (l : List SegmentPtr) :
    ∀ acc : Integrator C × List SemanticLabel,
      instanceLoop heap acc l ≠ .error .outOfFuel ∧
        ∀ acc1, instanceLoop heap acc l = .ok acc1 → ∀ p ∈ l, (heap p).labels_ ≠ [] := by
  induction l with
  | nil =>
    intro acc
    refine And.intro ?_ ?_
    · intro h
      simp only [instanceLoop] at h
      cases h
    · intro acc1 _ p hp
      exact absurd hp (List.not_mem_nil p)
  | cons s t ih =>
    intro acc
    unfold instanceLoop
    cases hs : instanceStep heap acc s with
    | error e =>
      refine ⟨?_, ?_⟩
      · show Except.error e ≠ Except.error Fault.outOfFuel
        intro h
        injection h with h
        exact instanceStep_error hs h
      · intro acc1 h
        change Except.error e = Except.ok acc1 at h
        cases h
    | ok acc2 =>
      refine And.intro ?_ ?_
      · exact (ih acc2).1
      intro acc1 h p hp
      rcases List.mem_cons.mp hp with hp | hp
      · rw [hp]; exact instanceStep_nonempty hs
      · exact (ih acc2).2 acc1 h p hp

end RemainingLoops

section DecideLemmas

set_option linter.unusedSectionVars false

variable {C : Type} [LinearOrderedAddCommMonoid C]

/-! ## `decideLabelPointClouds` as the sequence of its loops -/

theorem decide_unfold (fuel : Nat) (st : Integrator C) (heap : Heap) (segs : List SegmentPtr)
    (candidates : Candidates) (smc : SegmentMergeCandidates) :
    decideLabelPointClouds fuel st heap segs candidates smc =
      match assignLoop fuel (initialResolution st heap candidates smc) with
      | .error e => .error e
      | .ok r1 =>
        match labelRemaining (afterPairwise r1) segs with
        | .error e => .error e
        | .ok r2 =>
          match instanceLoop r2.heap (r2.cs.st, []) r2.labelled_segments with
          | .error e => .error e
          | .ok r3 =>
            .ok { st := r3.1, heap := r2.heap, candidates := r2.cs.candidates,
                  segment_merge_candidates := r2.cs.segment_merge_candidates } := rfl

theorem mem_tableSegments {candidates : Candidates} {e : Label × List (SegmentPtr × Nat)}
    {x : SegmentPtr × Nat} (he : e ∈ candidates) (hx : x ∈ e.2) :
    x.1 ∈ tableSegments candidates := by
  induction candidates with
  | nil => cases he
  | cons e0 t ih =>
    unfold tableSegments
    rcases List.mem_cons.mp he with h | h
    · rw [← h]
      exact List.mem_append_left _ (List.mem_map.mpr ⟨x, hx, rfl⟩)
    · exact List.mem_append_right _ (ih h)

theorem unlabelledCount_le (S labelled : List SegmentPtr) :
    unlabelledCount S labelled ≤ S.length := by
  unfold unlabelledCount
  exact List.length_filter_le _ _

/-- The outcome of `decideLabelPointClouds` for an invariant `Inv` of its
`while` loop: the call does not run out of fuel, and when it returns, the
segments it leaves are those of a state `r2` reached from a state satisfying
`Inv` by the loop over `segments_to_integrate`, in which every labelled
segment has a label. -/
theorem decide_rule (Inv : Resolution C → Prop) (S : List SegmentPtr)
    (hstep : ∀ (r : Resolution C) segment label A cs, Inv r →
      getNextSegmentLabelPair r.heap r.labelled_segments r.assigned_labels r.cs
        = .ok (some (segment, label), A, cs) →
      Inv (assignRound r segment label A cs) ∧
        unlabelledCount S (assignRound r segment label A cs).labelled_segments <
          unlabelledCount S r.labelled_segments)
    (fuel : Nat) (st : Integrator C) (heap : Heap) (segs : List SegmentPtr)
    (candidates : Candidates) (smc : SegmentMergeCandidates)
    (hinit : Inv (initialResolution st heap candidates smc)) (hfuel : S.length < fuel) :
    decideLabelPointClouds fuel st heap segs candidates smc ≠ .error .outOfFuel ∧
      ∀ d, decideLabelPointClouds fuel st heap segs candidates smc = .ok d →
        ∃ r1 r2, Inv r1 ∧ labelRemaining (afterPairwise r1) segs = .ok r2 ∧ d.heap = r2.heap ∧
          ∀ p ∈ r2.labelled_segments, (r2.heap p).labels_ ≠ [] := by
  have hrule := assignLoop_rule Inv (fun r => unlabelledCount S r.labelled_segments) hstep fuel
    (initialResolution st heap candidates smc) hinit
    (lt_of_le_of_lt (unlabelledCount_le S _) hfuel)
  refine And.intro ?_ ?_
  · intro h
    rw [decide_unfold] at h
    cases h1 : assignLoop fuel (initialResolution st heap candidates smc) with
    | error e =>
      rw [h1] at h
      simp only [] at h
      injection h with h
      rw [h] at h1
      exact hrule.1 h1
    | ok r1 =>
      rw [h1] at h
      simp only [] at h
      cases h2 : labelRemaining (afterPairwise r1) segs with
      | error e =>
        rw [h2] at h
        simp only [] at h
        injection h with h
        rw [h] at h2
        have := labelRemaining_error segs _ _ h2
        cases this
      | ok r2 =>
        rw [h2] at h
        simp only [] at h
        cases h3 : instanceLoop r2.heap (r2.cs.st, []) r2.labelled_segments with
        | error e =>
          rw [h3] at h
          simp only [] at h
          injection h with h
          rw [h] at h3
          exact (instanceLoop_spec r2.heap r2.labelled_segments _).1 h3
        | ok r3 =>
          rw [h3] at h
          cases h
  · intro d h
    rw [decide_unfold] at h
    cases h1 : assignLoop fuel (initialResolution st heap candidates smc) with
    | error e =>
      rw [h1] at h
      cases h
    | ok r1 =>
      rw [h1] at h
      simp only [] at h
      cases h2 : labelRemaining (afterPairwise r1) segs with
      | error e =>
        rw [h2] at h
        cases h
      | ok r2 =>
        rw [h2] at h
        simp only [] at h
        cases h3 : instanceLoop r2.heap (r2.cs.st, []) r2.labelled_segments with
        | error e =>
          rw [h3] at h
          cases h
        | ok r3 =>
          rw [h3] at h
          simp only [] at h
          injection h with h
          refine ⟨r1, r2, hrule.2 r1 h1, h2, by rw [← h], ?_⟩
          exact (instanceLoop_spec r2.heap r2.labelled_segments _).2 r3 h3

end DecideLemmas

section InnerMaps

set_option linter.unusedSectionVars false

variable {C : Type} [LinearOrderedAddCommMonoid C]

/-! ## The inner maps of the candidate table stay well formed -/

theorem increaseLabelCountForSegment_innerWF (config : LabelTsdfConfig)
    (segment : SegmentPtr) (label : Label) (n : Nat) (candidates : Candidates)
    (mcl : List Label) (h : InnerWF candidates) :
    InnerWF (increaseLabelCountForSegment config segment label n candidates mcl).1 := by
  unfold increaseLabelCountForSegment
  cases hf : StdMap.find candidates label with
  | none =>
    intro e he
    rcases StdMap.mem_emplace he with h1 | h1
    · rw [h1]; rfl
    · exact h e h1
  | some segments =>
    have hseg : StdMap.ascending segments = true := h (label, segments) (StdMap.mem_of_find hf)
    simp only []
    cases hg : StdMap.find segments segment with
    | none =>
      simp only []
      intro e he
      rcases StdMap.mem_put he with h1 | h1
      · rw [h1]; exact StdMap.ascending_emplace _ _ _ hseg
      · exact h e h1
    | some c =>
      simp only []
      intro e he
      rcases StdMap.mem_put he with h1 | h1
      · rw [h1]; exact StdMap.ascending_put _ _ _ hseg
      · exact h e h1

theorem scanPoint_innerWF (st : Integrator C) (segment : SegmentPtr)
    (n : Nat) (assigned_labels : LSet) (acc : PointScan) (point : Point)
    (h : InnerWF acc.candidates) :
    InnerWF (scanPoint st segment n assigned_labels acc point).candidates := by
  unfold scanPoint
  cases hv : voxelAt st.label_layer_ point with
  | none => exact h
  | some voxel =>
    simp only []
    split
    · exact increaseLabelCountForSegment_innerWF _ _ _ _ _ _ h
    · exact h

theorem scanPoints_innerWF (st : Integrator C) (segment : SegmentPtr)
    (n : Nat) (assigned_labels : LSet) (points : List Point) :
    ∀ acc : PointScan, InnerWF acc.candidates →
      InnerWF (points.foldl (scanPoint st segment n assigned_labels) acc).candidates := by
  induction points with
  | nil => intro acc h; exact h
  | cons p t ih =>
    intro acc h
    exact ih _ (scanPoint_innerWF st segment n assigned_labels acc p h)

theorem compute_innerWF {heap : Heap} {segment : SegmentPtr}
    {cs cs1 : CandidateState C} {assigned_labels : LSet}
    (h : computeSegmentLabelCandidates heap segment cs assigned_labels = .ok cs1)
    (hk : InnerWF cs.candidates) : InnerWF cs1.candidates := by
  have hscan := scanPoints_innerWF cs.st segment (heap segment).points_C_.length
    assigned_labels (heap segment).points_C_
    { candidate_label_exists := false, candidates := cs.candidates,
      merge_candidate_labels := [] } hk
  unfold computeSegmentLabelCandidates at h
  simp only [] at h
  split at h
  · injection h with h; rw [← h]; exact hscan
  · unfold getFreshLabel at h
    by_cases hlt : cs.st.highest_label_ < UINT_MAX
    · rw [if_pos hlt] at h
      simp only [] at h
      injection h with h
      rw [← h]
      intro e he
      rcases StdMap.mem_emplace he with h1 | h1
      · rw [h1]; rfl
      · exact hscan e h1
    · rw [if_neg hlt] at h
      simp only [] at h
      cases h

theorem purgeSegment_innerWF (candidates : Candidates)
    (max_label : Label) (segment : SegmentPtr) (h : InnerWF candidates) :
    InnerWF (purgeSegment candidates max_label segment) := by
  intro e he
  unfold purgeSegment at he
  obtain ⟨e0, he0, heq⟩ := List.mem_map.mp he
  by_cases hc : e0.1 ≠ max_label
  · rw [if_pos hc] at heq
    rw [← heq]
    exact StdMap.ascending_erase _ _ (h e0 he0)
  · rw [if_neg hc] at heq
    rw [← heq]
    exact h e0 he0

theorem recompute_innerWF (heap : Heap) (max_label : Label)
    (max_segment : SegmentPtr) (assigned_labels : LSet) (l : List (SegmentPtr × Nat)) :
    ∀ cs cs1 : CandidateState C,
      recomputeSegments heap max_label max_segment assigned_labels cs l = .ok cs1 →
      InnerWF cs.candidates → InnerWF cs1.candidates := by
  induction l with
  | nil =>
    intro cs cs1 h hk
    simp only [recomputeSegments] at h
    injection h with h
    rw [← h]; exact hk
  | cons x t ih =>
    intro cs cs1 h hk
    unfold recomputeSegments at h
    by_cases hx : x.1 ≠ max_segment
    · rw [if_pos hx] at h
      cases hc : computeSegmentLabelCandidates heap x.1
          { cs with candidates := purgeSegment cs.candidates max_label x.1 } assigned_labels with
      | error e => rw [hc] at h; cases h
      | ok cs2 =>
        rw [hc] at h
        simp only [] at h
        exact ih cs2 cs1 h (compute_innerWF hc (purgeSegment_innerWF _ _ _ hk))
    · rw [if_neg hx] at h
      exact ih cs cs1 h hk

/-- The recomputation loop issues at most one fresh label per segment. -/
theorem recompute_highest_le (heap : Heap) (max_label : Label)
    (max_segment : SegmentPtr) (assigned_labels : LSet) (l : List (SegmentPtr × Nat)) :
    ∀ cs cs1 : CandidateState C,
      recomputeSegments heap max_label max_segment assigned_labels cs l = .ok cs1 →
      cs1.st.highest_label_ ≤ cs.st.highest_label_ + l.length := by
  induction l with
  | nil =>
    intro cs cs1 h
    simp only [recomputeSegments] at h
    injection h with h
    rw [← h]; exact le_refl _
  | cons x t ih =>
    intro cs cs1 h
    unfold recomputeSegments at h
    simp only [List.length_cons]
    by_cases hx : x.1 ≠ max_segment
    · rw [if_pos hx] at h
      cases hc : computeSegmentLabelCandidates heap x.1
          { cs with candidates := purgeSegment cs.candidates max_label x.1 } assigned_labels with
      | error e => rw [hc] at h; cases h
      | ok cs2 =>
        rw [hc] at h
        simp only [] at h
        have h1 := ih cs2 cs1 h
        rcases compute_state hc with h3 | ⟨_, h3⟩
        · rw [h3] at h1
          have h2 : cs1.st.highest_label_ ≤ cs.st.highest_label_ + t.length := h1
          unfold Label at *; omega
        · rw [h3] at h1
          have h2 : cs1.st.highest_label_ ≤ cs.st.highest_label_ + 1 + t.length := h1
          unfold Label at *; omega
    · rw [if_neg hx] at h
      have h1 := ih cs cs1 h
      unfold Label at *; omega

theorem ascending_keys_nodup {V : Type} (m : List (Nat × V))
    (h : StdMap.ascending m = true) : (m.map Prod.fst).Nodup := by
  induction m with
  | nil => exact List.nodup_nil
  | cons e t ih =>
    rw [StdMap.ascending_cons_iff] at h
    rw [List.map_cons]
    refine List.nodup_cons.mpr ⟨?_, ih h.2⟩
    intro hmem
    obtain ⟨x, hx, hxe⟩ := List.mem_map.mp hmem
    have := h.1 x hx
    omega

theorem ascending_length_le {V : Type} (m : List (Nat × V)) (S : List Nat)
    (h : StdMap.ascending m = true) (hS : ∀ x ∈ m, x.1 ∈ S) : m.length ≤ S.length := by
  have hsub : m.map Prod.fst ⊆ S := by
    intro k hk
    obtain ⟨x, hx, hxe⟩ := List.mem_map.mp hk
    rw [← hxe]; exact hS x hx
  have := ((ascending_keys_nodup m h).subperm hsub).length_le
  rw [List.length_map] at this
  exact this

theorem StdSet.length_put (s : List Nat) (k : Nat) : (StdSet.put s k).length ≤ s.length + 1 := by
  induction s with
  | nil => simp [StdSet.put]
  | cons a t ih =>
    unfold StdSet.put
    by_cases h1 : k < a
    · rw [if_pos h1]; simp
    · rw [if_neg h1]
      by_cases h2 : k = a
      · rw [if_pos h2]; simp
      · rw [if_neg h2]
        simp only [List.length_cons]
        omega

end InnerMaps

section Returns

set_option linter.unusedSectionVars false

variable {C : Type} [LinearOrderedAddCommMonoid C]

/-! ## `decideLabelPointClouds` returns -/

theorem returnInv_step (heap0 : Heap) (st0 : Integrator C) (S : List SegmentPtr)
    (r : Resolution C) (segment : SegmentPtr) (label : Label) (A : LSet)
    (cs : CandidateState C) (hinv : AssignInv heap0 S r) (hret : ReturnInv st0 S r)
    (hg : getNextSegmentLabelPair r.heap r.labelled_segments r.assigned_labels r.cs
      = .ok (some (segment, label), A, cs)) :
    ReturnInv st0 S (assignRound r segment label A cs) := by
  obtain ⟨segments, count, hmem, hmemseg, hnl, _, hrec⟩ := getNext_selected hg
  obtain ⟨_, hs, _, _⟩ := hinv
  obtain ⟨hwf, hhigh, hlen, hinst, hsub⟩ := hret
  have hsS : segment ∈ S := hs (label, segments) hmem (segment, count) hmemseg
  have hlt := unlabelledCount_put_lt S r.labelled_segments segment hsS hnl
  have hseglen : segments.length ≤ S.length :=
    ascending_length_le segments S (hwf _ hmem) (fun x hx => hs (label, segments) hmem x hx)
  have hhi := recompute_highest_le _ _ _ _ _ _ _ hrec
  obtain ⟨hst, _⟩ := recompute_state _ _ _ _ _ _ _ hrec
  have hput := StdSet.length_put r.labelled_segments segment
  refine ⟨?_, ?_, ?_, ?_, ?_⟩
  · intro e he
    exact recompute_innerWF _ _ _ _ _ _ _ hrec hwf e (StdMap.mem_erase he).1
  · show cs.st.highest_label_ +
        unlabelledCount S (StdSet.put r.labelled_segments segment) * S.length ≤
      st0.highest_label_ + S.length * S.length
    have hmul : (unlabelledCount S (StdSet.put r.labelled_segments segment) + 1) * S.length ≤
        unlabelledCount S r.labelled_segments * S.length :=
      Nat.mul_le_mul_right _ hlt
    rw [Nat.add_mul, Nat.one_mul] at hmul
    unfold Label at *
    omega
  · show (StdSet.put r.labelled_segments segment).length +
        unlabelledCount S (StdSet.put r.labelled_segments segment) ≤ S.length
    omega
  · show cs.st.highest_instance_ = st0.highest_instance_
    rw [hst]; exact hinst
  · intro p hp
    rcases (StdSet.mem_put_iff _ _ _).mp hp with h | h
    · rw [h]; exact hsS
    · exact hsub p h

theorem getNext_returns (heap0 : Heap) (st0 : Integrator C) (S : List SegmentPtr)
    (hroom : st0.highest_label_ + S.length * S.length ≤ UINT_MAX)
    (r : Resolution C) (hinv : AssignInv heap0 S r) (hret : ReturnInv st0 S r) :
    ∃ res, getNextSegmentLabelPair r.heap r.labelled_segments r.assigned_labels r.cs
      = .ok res := by
  obtain ⟨_, hs, _, _⟩ := hinv
  obtain ⟨hwf, hhigh, _, _, _⟩ := hret
  unfold getNextSegmentLabelPair
  simp only []
  by_cases h0 : (selectMax r.cs.st.label_tsdf_config_.min_label_voxel_count
      r.labelled_segments r.cs.candidates).max_count = 0
  · rw [if_pos h0]
    exact ⟨_, rfl⟩
  · rw [if_neg h0]
    obtain ⟨helig, _, hmem, hmemseg⟩ := selectMax_pos _ _ _ h0
    obtain ⟨_, _, _, _, hnl⟩ := helig
    generalize selectMax r.cs.st.label_tsdf_config_.min_label_voxel_count r.labelled_segments
      r.cs.candidates = m at hmem hmemseg hnl ⊢
    have hsS : m.max_segment ∈ S := hs _ hmem _ hmemseg
    have hlt := unlabelledCount_put_lt S r.labelled_segments m.max_segment hsS hnl
    have hseglen : m.segments_to_recompute.length ≤ S.length :=
      ascending_length_le _ S (hwf _ hmem) (fun x hx => hs _ hmem x hx)
    have hmul : 1 * S.length ≤ unlabelledCount S r.labelled_segments * S.length :=
      Nat.mul_le_mul_right _ (by omega)
    rw [Nat.one_mul] at hmul
    obtain ⟨cs1, hr⟩ := recompute_ok r.heap m.max_label m.max_segment
      (StdSet.put r.assigned_labels m.max_label) m.segments_to_recompute r.cs
      (by unfold Label at *; omega)
    rw [hr]
    exact ⟨_, rfl⟩

theorem assignLoop_returns (Inv : Resolution C → Prop) (μ : Resolution C → Nat)
    (hstep : ∀ (r : Resolution C) segment label A cs, Inv r →
      getNextSegmentLabelPair r.heap r.labelled_segments r.assigned_labels r.cs
        = .ok (some (segment, label), A, cs) →
      Inv (assignRound r segment label A cs) ∧ μ (assignRound r segment label A cs) < μ r)
    (hok : ∀ r : Resolution C, Inv r →
      ∃ res, getNextSegmentLabelPair r.heap r.labelled_segments r.assigned_labels r.cs
        = .ok res) :
    ∀ (fuel : Nat) (r : Resolution C), Inv r → μ r < fuel →
      ∃ r1, assignLoop fuel r = .ok r1 := by
  intro fuel
  induction fuel with
  | zero => intro r _ h; exact absurd h (Nat.not_lt_zero _)
  | succ n ih =>
    intro r hinv hμ
    obtain ⟨res, hg⟩ := hok r hinv
    obtain ⟨pair, A, cs⟩ := res
    unfold assignLoop
    cases pair with
    | none =>
      rw [hg]
      exact ⟨_, rfl⟩
    | some p =>
      obtain ⟨segment, label⟩ := p
      rw [hg]
      obtain ⟨h1, h2⟩ := hstep r segment label A cs hinv hg
      exact ih (assignRound r segment label A cs) h1 (by omega)

theorem labelRemaining_returns (segs : List SegmentPtr) :
    ∀ r : Resolution C, r.cs.st.highest_label_ + segs.length ≤ UINT_MAX →
      ∃ r2, labelRemaining r segs = .ok r2 ∧
        r2.cs.st.highest_instance_ = r.cs.st.highest_instance_ ∧
        r2.labelled_segments.length ≤ r.labelled_segments.length + segs.length ∧
        ∀ p ∈ r2.labelled_segments, p ∈ r.labelled_segments ∨ p ∈ segs := by
  induction segs with
  | nil =>
    intro r _
    exact ⟨r, rfl, rfl, le_refl _, fun p hp => Or.inl hp⟩
  | cons s t ih =>
    intro r hroom
    simp only [List.length_cons] at hroom
    unfold labelRemaining
    by_cases hs : s ∉ r.labelled_segments
    · rw [if_pos hs]
      have hlt : r.cs.st.highest_label_ < UINT_MAX := by unfold Label at *; omega
      unfold getFreshLabel
      rw [if_pos hlt]
      simp only []
      obtain ⟨r2, h1, h2, h3, h4⟩ := ih
        { r with cs := { r.cs with st :=
                    { r.cs.st with highest_label_ := r.cs.st.highest_label_ + 1 } },
                 heap := pushLabels r.heap s (r.cs.st.highest_label_ + 1),
                 labelled_segments := StdSet.put r.labelled_segments s }
        (by show r.cs.st.highest_label_ + 1 + t.length ≤ UINT_MAX; unfold Label at *; omega)
      refine ⟨r2, h1, h2, ?_, ?_⟩
      · have hput := StdSet.length_put r.labelled_segments s
        have h3b : r2.labelled_segments.length ≤
            (StdSet.put r.labelled_segments s).length + t.length := h3
        simp only [List.length_cons]
        omega
      · intro p hp
        rcases h4 p hp with h | h
        · rcases (StdSet.mem_put_iff _ _ _).mp h with h5 | h5
          · rw [h5]; exact Or.inr (List.mem_cons_self _ _)
          · exact Or.inl h5
        · exact Or.inr (List.mem_cons_of_mem _ h)
    · rw [if_neg hs]
      obtain ⟨r2, h1, h2, h3, h4⟩ := ih r (by unfold Label at *; omega)
      refine ⟨r2, h1, h2, ?_, ?_⟩
      · simp only [List.length_cons]
        omega
      · intro p hp
        rcases h4 p hp with h | h
        · exact Or.inl h
        · exact Or.inr (List.mem_cons_of_mem _ h)

theorem increaseLabelFramesCount_instance (st : Integrator C) (label : Label) :
    (increaseLabelFramesCount st label).highest_instance_ = st.highest_instance_ := by
  unfold increaseLabelFramesCount
  cases StdMap.find st.label_frames_count_ label <;> rfl

theorem instanceStep_returns (heap : Heap) (acc : Integrator C × List SemanticLabel)
    (segment : SegmentPtr) (hne : (heap segment).labels_ ≠ [])
    (hroom : acc.1.highest_instance_ < UINT_MAX) :
    ∃ acc1, instanceStep heap acc segment = .ok acc1 ∧
      acc1.1.highest_instance_ ≤ acc.1.highest_instance_ + 1 := by
  unfold instanceStep
  cases hl : (heap segment).labels_ with
  | nil => exact absurd hl hne
  | cons label rest =>
    simp only []
    have hfr : (if (heap segment).points_C_.length > 0 then increaseLabelFramesCount acc.1 label
        else acc.1).highest_instance_ = acc.1.highest_instance_ := by
      by_cases hp : (heap segment).points_C_.length > 0
      · rw [if_pos hp]; exact increaseLabelFramesCount_instance _ _
      · rw [if_neg hp]
    generalize (if (heap segment).points_C_.length > 0 then increaseLabelFramesCount acc.1 label
      else acc.1) = st1 at hfr ⊢
    by_cases hi : (heap segment).instance_ ≠ 0
    · rw [if_pos hi]
      cases hm : StdMap.find st1.current_to_global_instance_map_ (heap segment).instance_ with
      | some g =>
        refine ⟨_, rfl, ?_⟩
        show st1.highest_instance_ ≤ acc.1.highest_instance_ + 1
        rw [hfr]; exact Nat.le_succ _
      | none =>
        simp only []
        by_cases hil : getLabelInstance st1 label acc.2 ≠ 0
        · rw [if_pos hil]
          refine ⟨_, rfl, ?_⟩
          show st1.highest_instance_ ≤ acc.1.highest_instance_ + 1
          rw [hfr]; exact Nat.le_succ _
        · rw [if_neg hil]
          unfold getFreshInstance
          rw [if_pos (by rw [hfr]; exact hroom)]
          refine ⟨_, rfl, ?_⟩
          show st1.highest_instance_ + 1 ≤ acc.1.highest_instance_ + 1
          rw [hfr]
    · rw [if_neg hi]
      by_cases hil : getLabelInstance st1 label ≠ 0
      · rw [if_pos hil]
        refine ⟨_, rfl, ?_⟩
        show st1.highest_instance_ ≤ acc.1.highest_instance_ + 1
        rw [hfr]; exact Nat.le_succ _
      · rw [if_neg hil]
        refine ⟨_, rfl, ?_⟩
        show st1.highest_instance_ ≤ acc.1.highest_instance_ + 1
        rw [hfr]; exact Nat.le_succ _

theorem instanceLoop_returns (heap : Heap) (l : List SegmentPtr) :
    ∀ acc : Integrator C × List SemanticLabel,
      (∀ p ∈ l, (heap p).labels_ ≠ []) → acc.1.highest_instance_ + l.length ≤ UINT_MAX →
      ∃ acc1, instanceLoop heap acc l = .ok acc1 := by
  induction l with
  | nil => intro acc _ _; exact ⟨acc, rfl⟩
  | cons s t ih =>
    intro acc hne hroom
    simp only [List.length_cons] at hroom
    unfold instanceLoop
    obtain ⟨acc1, h1, h2⟩ := instanceStep_returns heap acc s (hne s (List.mem_cons_self _ _))
      (by unfold SemanticLabel at *; omega)
    rw [h1]
    exact ih acc1 (fun p hp => hne p (List.mem_cons_of_mem _ hp))
      (by unfold SemanticLabel at *; omega)

/-- A call of `decideLabelPointClouds` returns when the inner maps of the
candidate table are well formed and its keys non-zero, every segment of the
table and of `segments_to_integrate` has a point, and the counters have room:
one fresh label per segment in every round and for every segment to
integrate, one fresh instance per segment. -/
theorem decide_returns (st : Integrator C) (heap : Heap) (segs : List SegmentPtr)
    (candidates : Candidates) (smc : SegmentMergeCandidates)
    (hkeys : ∀ e ∈ candidates, e.1 ≠ 0) (hwf : InnerWF candidates)
    (hpoints : ∀ p, p ∈ tableSegments candidates ∨ p ∈ segs → (heap p).points_C_ ≠ [])
    (hlabels : st.highest_label_ +
      (tableSegments candidates).length * (tableSegments candidates).length + segs.length
        ≤ UINT_MAX)
    (hinstances : st.highest_instance_ + (tableSegments candidates).length + segs.length
      ≤ UINT_MAX)
    (fuel : Nat) (hfuel : (tableSegments candidates).length < fuel) :
    ∃ d, decideLabelPointClouds fuel st heap segs candidates smc = .ok d := by
  have hinit : AssignInv heap (tableSegments candidates)
        (initialResolution st heap candidates smc) ∧
      ReturnInv st (tableSegments candidates) (initialResolution st heap candidates smc) := by
    refine ⟨⟨hkeys, fun e he x hx => mem_tableSegments he hx, fun p _ => rfl,
      fun p hp => absurd hp (List.not_mem_nil p)⟩, hwf, ?_, ?_, rfl,
      fun p hp => absurd hp (List.not_mem_nil p)⟩
    · show st.highest_label_ + unlabelledCount (tableSegments candidates) [] *
          (tableSegments candidates).length ≤
        st.highest_label_ + (tableSegments candidates).length * (tableSegments candidates).length
      exact Nat.add_le_add_left
        (Nat.mul_le_mul_right _ (unlabelledCount_le _ _)) _
    · show ([] : List SegmentPtr).length + unlabelledCount (tableSegments candidates) [] ≤
        (tableSegments candidates).length
      simp only [List.length_nil, Nat.zero_add]
      exact unlabelledCount_le _ _
  have hstep : ∀ (r : Resolution C) segment label A cs,
      (AssignInv heap (tableSegments candidates) r ∧
        ReturnInv st (tableSegments candidates) r) →
      getNextSegmentLabelPair r.heap r.labelled_segments r.assigned_labels r.cs
        = .ok (some (segment, label), A, cs) →
      (AssignInv heap (tableSegments candidates) (assignRound r segment label A cs) ∧
        ReturnInv st (tableSegments candidates) (assignRound r segment label A cs)) ∧
      unlabelledCount (tableSegments candidates) (assignRound r segment label A cs).labelled_segments
        < unlabelledCount (tableSegments candidates) r.labelled_segments :=
    fun r s l A cs hi hg =>
      ⟨⟨(assignInv_step heap _ r s l A cs hi.1 hg).1,
          returnInv_step heap st _ r s l A cs hi.1 hi.2 hg⟩,
        (assignInv_step heap _ r s l A cs hi.1 hg).2⟩
  have hroom : st.highest_label_ +
      (tableSegments candidates).length * (tableSegments candidates).length ≤ UINT_MAX := by
    unfold Label at *; omega
  have hμ : unlabelledCount (tableSegments candidates)
      (initialResolution st heap candidates smc).labelled_segments < fuel :=
    lt_of_le_of_lt (unlabelledCount_le _ _) hfuel
  obtain ⟨r1, h1⟩ := assignLoop_returns _
    (fun r => unlabelledCount (tableSegments candidates) r.labelled_segments) hstep
    (fun r hi => getNext_returns heap st _ hroom r hi.1 hi.2) fuel _ hinit hμ
  obtain ⟨hinv1, hret1⟩ := (assignLoop_rule _
    (fun r => unlabelledCount (tableSegments candidates) r.labelled_segments) hstep
    fuel _ hinit hμ).2 r1 h1
  obtain ⟨_, hhigh1, hlen1, hinst1, hsub1⟩ := hret1
  obtain ⟨r2, h2, hinst2, hlen2, hsub2⟩ := labelRemaining_returns segs (afterPairwise r1)
    (by
      show r1.cs.st.highest_label_ + segs.length ≤ UINT_MAX
      unfold Label at *; omega)
  obtain ⟨hinv2, _, _⟩ := labelRemaining_spec heap (tableSegments candidates) segs
    (afterPairwise r1) r2 h2 hinv1
  have hne : ∀ p ∈ r2.labelled_segments, (r2.heap p).labels_ ≠ [] := by
    intro p hp
    obtain ⟨_, l, _, hl⟩ := hinv2.2.2.2 p hp
    have hpts : (heap p).points_C_ ≠ [] := by
      apply hpoints
      rcases hsub2 p hp with h | h
      · exact Or.inl (hsub1 p h)
      · exact Or.inr h
    rw [hl]
    intro hnil
    have hlen := congrArg List.length hnil
    simp only [List.length_append, List.length_replicate, List.length_nil] at hlen
    exact hpts (List.length_eq_zero.mp (by omega))
  obtain ⟨r3, h3⟩ := instanceLoop_returns r2.heap r2.labelled_segments (r2.cs.st, []) hne
    (by
      show r2.cs.st.highest_instance_ + r2.labelled_segments.length ≤ UINT_MAX
      rw [hinst2]
      have e1 : (afterPairwise r1).cs.st.highest_instance_ = st.highest_instance_ := hinst1
      have e2 : r2.labelled_segments.length ≤ r1.labelled_segments.length + segs.length := hlen2
      rw [e1]
      unfold SemanticLabel at *; omega)
  rw [decide_unfold, h1]
  simp only []
  rw [h2]
  simp only []
  rw [h3]
  exact ⟨_, rfl⟩

end Returns

/-! ## `decideLabelPointClouds`: every segment receives one non-zero label -/

set_option maxRecDepth 100000 in
/-- C1 as stated fails: with the candidate table `candidatesZero`, whose only
key is label 0, the segment 1 of `segments_to_integrate` starts with empty
`labels_` and ends with 25 labels that are all 0. -/
theorem decideLabelPointClouds_assigns_label_zero :
    (∀ p ∈ [1], (heapB p).labels_ = []) ∧
      labelsAfter (decideLabelPointClouds 3 integratorB heapB [1] candidatesZero []) 1
        = some (List.replicate 25 0) := by
  decide

/-- C1, amended: for every candidate table without an entry for label 0 and
every list of segments whose `labels_` are initially empty,
`decideLabelPointClouds` ends its `while` loop within one round per entry of
the table; when it returns, every segment of `segments_to_integrate` has kept
its points and carries exactly one non-zero label: `labels_` is non-empty and
holds that label once per point; and it does return when the inner maps of the
table are well formed, every segment of the table and of
`segments_to_integrate` has a point, and the label and instance counters have
room for the fresh labels and instances. -/
theorem decideLabelPointClouds_assigns_labels {C : Type} [LinearOrderedAddCommMonoid C]
    (st : Integrator C) (heap : Heap) (segments_to_integrate : List SegmentPtr)
    (candidates : Candidates) (segment_merge_candidates : SegmentMergeCandidates)
    (hkeys : ∀ e ∈ candidates, e.1 ≠ 0)
    (hempty : ∀ p ∈ segments_to_integrate, (heap p).labels_ = [])
    (fuel : Nat) (hfuel : (tableSegments candidates).length < fuel) :
    decideLabelPointClouds fuel st heap segments_to_integrate candidates
        segment_merge_candidates ≠ .error .outOfFuel ∧
      (∀ d, decideLabelPointClouds fuel st heap segments_to_integrate candidates
          segment_merge_candidates = .ok d →
        ∀ p ∈ segments_to_integrate,
          (d.heap p).points_C_ = (heap p).points_C_ ∧ (d.heap p).labels_ ≠ [] ∧
            ∃ l, l ≠ 0 ∧ (d.heap p).labels_ = List.replicate (heap p).points_C_.length l) ∧
      (InnerWF candidates →
        (∀ p, p ∈ tableSegments candidates ∨ p ∈ segments_to_integrate →
          (heap p).points_C_ ≠ []) →
        st.highest_label_ +
          (tableSegments candidates).length * (tableSegments candidates).length +
            segments_to_integrate.length ≤ UINT_MAX →
        st.highest_instance_ + (tableSegments candidates).length +
          segments_to_integrate.length ≤ UINT_MAX →
        ∃ d, decideLabelPointClouds fuel st heap segments_to_integrate candidates
          segment_merge_candidates = .ok d) := by
  have hinit : AssignInv heap (tableSegments candidates)
      (initialResolution st heap candidates segment_merge_candidates) :=
    ⟨hkeys, fun e he x hx => mem_tableSegments he hx, fun p _ => rfl,
      fun p hp => absurd hp (List.not_mem_nil p)⟩
  obtain ⟨h1, h2⟩ := decide_rule (AssignInv heap (tableSegments candidates))
    (tableSegments candidates)
    (fun r s l A cs hi hg => assignInv_step heap _ r s l A cs hi hg)
    fuel st heap segments_to_integrate candidates segment_merge_candidates hinit hfuel
  refine ⟨h1, ?_, ?_⟩
  · intro d hd p hp
    obtain ⟨r1, r2, hinv1, hrem, hheap, hne⟩ := h2 d hd
    obtain ⟨hinv2, hall, _⟩ := labelRemaining_spec heap (tableSegments candidates)
      segments_to_integrate (afterPairwise r1) r2 hrem hinv1
    obtain ⟨hpts, l, hl0, hlab⟩ := hinv2.2.2.2 p (hall p hp)
    rw [hheap]
    refine ⟨hpts, hne p (hall p hp), l, hl0, ?_⟩
    rw [hlab, hempty p hp]
    rfl
  · intro hwf hpoints hlabels hinstances
    exact decide_returns st heap segments_to_integrate candidates segment_merge_candidates
      hkeys hwf hpoints hlabels hinstances fuel hfuel

set_option maxRecDepth 100000 in
theorem decideLabelPointClouds_assigns_labels_witness :
    labelsAfter (decideLabelPointClouds 3 integratorB heapB [1, 2] candidatesB
        [(1, [10]), (2, [10])]) 1 = some (List.replicate 25 4) ∧
      ∃ d, decideLabelPointClouds 3 integratorB heapB [1, 2] candidatesB [(1, [10]), (2, [10])]
          = .ok d ∧
        ∀ p ∈ [1, 2],
          (d.heap p).points_C_ = (heapB p).points_C_ ∧ (d.heap p).labels_ ≠ [] ∧
            ∃ l, l ≠ 0 ∧ (d.heap p).labels_ = List.replicate (heapB p).points_C_.length l := by
  have h := decideLabelPointClouds_assigns_labels integratorB heapB [1, 2] candidatesB
    [(1, [10]), (2, [10])] (by decide) (by decide) 3 (by decide)
  have hpoints : ∀ p, p ∈ tableSegments candidatesB ∨ p ∈ [1, 2] → (heapB p).points_C_ ≠ [] := by
    intro p hp
    have hp2 : p = 1 ∨ p = 2 := by
      simpa [tableSegments, candidatesB] using hp
    rcases hp2 with e | e <;> subst e <;> decide
  obtain ⟨d, hd⟩ := h.2.2 (by decide) hpoints (by decide) (by decide)
  exact ⟨by decide, d, hd, h.2.1 d hd⟩

section CollectLemmas

set_option linter.unusedSectionVars false

variable {C : Type} [LinearOrderedAddCommMonoid C]

/-! ## The candidate table that `computeSegmentLabelCandidates` produces -/

theorem layerLabel_le {layer : Layer C} {highest : Label}
    (h : LayerLabelsBounded layer highest) : ∀ k, LayerLabel layer k → k ≤ highest := by
  intro k hk
  obtain ⟨block, hb, voxel, hv, hor⟩ := hk
  obtain ⟨h1, h2⟩ := h block hb voxel hv
  rcases hor with e | ⟨lc, hlc, e⟩
  · rw [← e]; exact h1
  · rw [← e]; exact h2 lc hlc

theorem compute_bounded {heap : Heap} {segment : SegmentPtr} {cs cs1 : CandidateState C}
    (h : computeSegmentLabelCandidates heap segment cs = .ok cs1)
    (hk : KeysSatisfy (fun k => k ≠ 0 ∧ k ≤ cs.st.highest_label_) cs.candidates)
    (hl : ∀ k, LayerLabel cs.st.label_layer_ k → k ≤ cs.st.highest_label_) :
    KeysSatisfy (fun k => k ≠ 0 ∧ k ≤ cs1.st.highest_label_) cs1.candidates ∧
      ∀ k, LayerLabel cs1.st.label_layer_ k → k ≤ cs1.st.highest_label_ := by
  have hmono : cs.st.highest_label_ ≤ cs1.st.highest_label_ ∧
      cs1.st.label_layer_ = cs.st.label_layer_ := by
    rcases compute_state h with e | ⟨_, e⟩
    · rw [e]; exact ⟨le_refl _, rfl⟩
    · rw [e]; exact ⟨Nat.le_succ _, rfl⟩
  refine ⟨compute_keys (fun k => k ≠ 0 ∧ k ≤ cs1.st.highest_label_) h ?_ ?_ ?_, ?_⟩
  · intro e he
    exact ⟨(hk e he).1, le_trans (hk e he).2 hmono.1⟩
  · intro l hl0 _ hll
    exact ⟨hl0, le_trans (hl l hll) hmono.1⟩
  · intro e
    exact ⟨Nat.succ_ne_zero _, le_of_eq e.symm⟩
  · intro k hkl
    rw [hmono.2] at hkl
    exact le_trans (hl k hkl) hmono.1

theorem collect_bounded (heap : Heap) (segs : List SegmentPtr) :
    ∀ cs cs1 : CandidateState C, collectCandidates heap cs segs = .ok cs1 →
      KeysSatisfy (fun k => k ≠ 0 ∧ k ≤ cs.st.highest_label_) cs.candidates →
      (∀ k, LayerLabel cs.st.label_layer_ k → k ≤ cs.st.highest_label_) →
      KeysSatisfy (fun k => k ≠ 0 ∧ k ≤ cs1.st.highest_label_) cs1.candidates ∧
        ∀ k, LayerLabel cs1.st.label_layer_ k → k ≤ cs1.st.highest_label_ := by
  induction segs with
  | nil =>
    intro cs cs1 h hk hl
    simp only [collectCandidates] at h
    injection h with h
    rw [← h]; exact ⟨hk, hl⟩
  | cons s t ih =>
    intro cs cs1 h hk hl
    unfold collectCandidates at h
    cases hc : computeSegmentLabelCandidates heap s cs with
    | error e => rw [hc] at h; cases h
    | ok cs2 =>
      rw [hc] at h
      simp only [] at h
      obtain ⟨hk2, hl2⟩ := compute_bounded hc hk hl
      exact ih cs2 cs1 h hk2 hl2

theorem collect_innerWF (heap : Heap) (segs : List SegmentPtr) :
    ∀ cs cs1 : CandidateState C, collectCandidates heap cs segs = .ok cs1 →
      InnerWF cs.candidates → InnerWF cs1.candidates := by
  induction segs with
  | nil =>
    intro cs cs1 h hk
    simp only [collectCandidates] at h
    injection h with h
    rw [← h]; exact hk
  | cons s t ih =>
    intro cs cs1 h hk
    unfold collectCandidates at h
    cases hc : computeSegmentLabelCandidates heap s cs with
    | error e => rw [hc] at h; cases h
    | ok cs2 =>
      rw [hc] at h
      simp only [] at h
      exact ih cs2 cs1 h (compute_innerWF hc hk)

theorem collect_segments (Q : SegmentPtr → Prop) (heap : Heap) (segs : List SegmentPtr) :
    ∀ cs cs1 : CandidateState C, collectCandidates heap cs segs = .ok cs1 →
      SegmentsSatisfy Q cs.candidates → (∀ p ∈ segs, Q p) →
      SegmentsSatisfy Q cs1.candidates := by
  induction segs with
  | nil =>
    intro cs cs1 h hk _
    simp only [collectCandidates] at h
    injection h with h
    rw [← h]; exact hk
  | cons s t ih =>
    intro cs cs1 h hk hq
    unfold collectCandidates at h
    cases hc : computeSegmentLabelCandidates heap s cs with
    | error e => rw [hc] at h; cases h
    | ok cs2 =>
      rw [hc] at h
      simp only [] at h
      exact ih cs2 cs1 h (compute_segments Q hc hk (hq s (List.mem_cons_self _ _)))
        (fun p hp => hq p (List.mem_cons_of_mem _ hp))

theorem tableSegments_satisfy (Q : SegmentPtr → Prop) (candidates : Candidates)
    (h : SegmentsSatisfy Q candidates) : ∀ p ∈ tableSegments candidates, Q p := by
  induction candidates with
  | nil => intro p hp; cases hp
  | cons e t ih =>
    intro p hp
    unfold tableSegments at hp
    rcases List.mem_append.mp hp with h1 | h1
    · obtain ⟨x, hx, hxe⟩ := List.mem_map.mp h1
      rw [← hxe]
      exact h e (List.mem_cons_self _ _) x hx
    · exact ih (fun e2 he2 => h e2 (List.mem_cons_of_mem _ he2)) p h1

theorem distinct_of_given (heap0 heap2 : Heap) (p q : SegmentPtr) (lp lq : Label)
    (hp : (heap2 p).labels_ = (heap0 p).labels_ ++ List.replicate (heap0 p).points_C_.length lp)
    (hq : (heap2 q).labels_ = (heap0 q).labels_ ++ List.replicate (heap0 q).points_C_.length lq)
    (hdisj : ∀ l ∈ givenLabels heap0 heap2 p, l ∉ givenLabels heap0 heap2 q) :
    ∃ lp lq, lp ≠ lq ∧
      (heap2 p).labels_ = (heap0 p).labels_ ++ List.replicate (heap0 p).points_C_.length lp ∧
      (heap2 q).labels_ = (heap0 q).labels_ ++ List.replicate (heap0 q).points_C_.length lq := by
  have hgp : givenLabels heap0 heap2 p = List.replicate (heap0 p).points_C_.length lp := by
    unfold givenLabels; rw [hp]; exact List.drop_left _ _
  have hgq : givenLabels heap0 heap2 q = List.replicate (heap0 q).points_C_.length lq := by
    unfold givenLabels; rw [hq]; exact List.drop_left _ _
  rw [hgp, hgq] at hdisj
  by_cases hnp : (heap0 p).points_C_.length = 0
  · refine ⟨lq + 1, lq, Nat.succ_ne_self lq, ?_, hq⟩
    rw [hp, hnp]; rfl
  · by_cases hnq : (heap0 q).points_C_.length = 0
    · refine ⟨lp, lp + 1, (Nat.succ_ne_self lp).symm, hp, ?_⟩
      rw [hq, hnq]; rfl
    · refine ⟨lp, lq, ?_, hp, hq⟩
      intro e
      apply hdisj lp (List.mem_replicate.mpr ⟨hnp, rfl⟩)
      rw [e]
      exact List.mem_replicate.mpr ⟨hnq, rfl⟩

end CollectLemmas

/-! ## `decideLabelPointClouds`: no label is given to two segments -/

/-- C2: when the candidate table and the merge candidates are those that
`computeSegmentLabelCandidates` produced for the segments of
`segments_to_integrate`, starting from empty tables, and every label stored in
the voxel grid is at most the highest label issued, `decideLabelPointClouds`
ends its `while` loop within one round per entry of the table; when it
returns, any two distinct segments of `segments_to_integrate` have been given
distinct labels: each has had one label pushed once per point, and the two
labels differ; and it does return when every segment has a point and the
label and instance counters have room for the fresh labels and instances. -/
theorem decideLabelPointClouds_distinct_labels {C : Type} [LinearOrderedAddCommMonoid C]
    (st0 : Integrator C) (heap : Heap) (segments_to_integrate : List SegmentPtr)
    (cs : CandidateState C)
    (hcollect : collectCandidates heap
      { st := st0, candidates := [], segment_merge_candidates := [] } segments_to_integrate
        = .ok cs)
    (hbounded : LayerLabelsBounded st0.label_layer_ st0.highest_label_)
    (fuel : Nat) (hfuel : (tableSegments cs.candidates).length < fuel) :
    decideLabelPointClouds fuel cs.st heap segments_to_integrate cs.candidates
        cs.segment_merge_candidates ≠ .error .outOfFuel ∧
      (∀ d, decideLabelPointClouds fuel cs.st heap segments_to_integrate cs.candidates
          cs.segment_merge_candidates = .ok d →
        ∀ p ∈ segments_to_integrate, ∀ q ∈ segments_to_integrate, p ≠ q →
          ∃ lp lq, lp ≠ lq ∧
            (d.heap p).labels_ =
              (heap p).labels_ ++ List.replicate (heap p).points_C_.length lp ∧
            (d.heap q).labels_ =
              (heap q).labels_ ++ List.replicate (heap q).points_C_.length lq) ∧
      ((∀ p ∈ segments_to_integrate, (heap p).points_C_ ≠ []) →
        cs.st.highest_label_ +
          (tableSegments cs.candidates).length * (tableSegments cs.candidates).length +
            segments_to_integrate.length ≤ UINT_MAX →
        cs.st.highest_instance_ + (tableSegments cs.candidates).length +
          segments_to_integrate.length ≤ UINT_MAX →
        ∃ d, decideLabelPointClouds fuel cs.st heap segments_to_integrate cs.candidates
          cs.segment_merge_candidates = .ok d) := by
  obtain ⟨hk, hl⟩ := collect_bounded heap segments_to_integrate _ cs hcollect
    (fun e he => absurd he (List.not_mem_nil e)) (layerLabel_le hbounded)
  have hinit : AssignInv heap (tableSegments cs.candidates)
        (initialResolution cs.st heap cs.candidates cs.segment_merge_candidates) ∧
      DistinctInv heap
        (initialResolution cs.st heap cs.candidates cs.segment_merge_candidates) := by
    refine ⟨⟨fun e he => (hk e he).1, fun e he x hx => mem_tableSegments he hx, fun p _ => rfl,
      fun p hp => absurd hp (List.not_mem_nil p)⟩, ?_, ?_, hl, ?_, ?_⟩
    · intro e he
      exact ⟨List.not_mem_nil _, (hk e he).2⟩
    · intro a ha
      exact absurd ha (List.not_mem_nil a)
    · intro p hp
      exact absurd hp (List.not_mem_nil p)
    · intro p hp
      exact absurd hp (List.not_mem_nil p)
  obtain ⟨h1, h2⟩ := decide_rule
    (fun r => AssignInv heap (tableSegments cs.candidates) r ∧ DistinctInv heap r)
    (tableSegments cs.candidates)
    (fun r s l A cs1 hi hg =>
      ⟨⟨(assignInv_step heap _ r s l A cs1 hi.1 hg).1,
          distinctInv_step heap _ r s l A cs1 hi.1 hi.2 hg⟩,
        (assignInv_step heap _ r s l A cs1 hi.1 hg).2⟩)
    fuel cs.st heap segments_to_integrate cs.candidates cs.segment_merge_candidates hinit hfuel
  refine ⟨h1, ?_, ?_⟩
  · intro d hd p hp q hq hpq
    obtain ⟨r1, r2, ⟨hinv1, hdist1⟩, hrem, hheap, _⟩ := h2 d hd
    obtain ⟨_, hass, _, hlabs, hdisj⟩ := hdist1
    have hrem1 : RemainInv heap (afterPairwise r1) :=
      ⟨fun x hx l hlx => hass l (hlabs x hx l hlx), hdisj⟩
    have hrem2 := labelRemaining_distinct heap (tableSegments cs.candidates)
      segments_to_integrate (afterPairwise r1) r2 hrem hinv1 hrem1
    obtain ⟨hinv2, hall, _⟩ := labelRemaining_spec heap (tableSegments cs.candidates)
      segments_to_integrate (afterPairwise r1) r2 hrem hinv1
    obtain ⟨_, lp, _, hlp⟩ := hinv2.2.2.2 p (hall p hp)
    obtain ⟨_, lq, _, hlq⟩ := hinv2.2.2.2 q (hall q hq)
    rw [hheap]
    exact distinct_of_given heap r2.heap p q lp lq hlp hlq
      (hrem2.2 p (hall p hp) q (hall q hq) hpq)
  · intro hpoints hlabels hinstances
    have hwf : InnerWF cs.candidates :=
      collect_innerWF heap segments_to_integrate _ cs hcollect
        (fun e he => absurd he (List.not_mem_nil e))
    have hseg : SegmentsSatisfy (fun p => p ∈ segments_to_integrate) cs.candidates :=
      collect_segments _ heap segments_to_integrate _ cs hcollect
        (fun e he => absurd he (List.not_mem_nil e)) (fun p hp => hp)
    refine decide_returns cs.st heap segments_to_integrate cs.candidates
      cs.segment_merge_candidates (fun e he => (hk e he).1) hwf ?_ hlabels hinstances fuel hfuel
    intro p hp
    rcases hp with h | h
    · exact hpoints p (tableSegments_satisfy _ _ hseg p h)
    · exact hpoints p h

set_option maxRecDepth 100000 in
theorem decideLabelPointClouds_distinct_labels_witness :
    labelsAfter (decideLabelPointClouds 3 integratorB heapB [1, 2] candidatesB
        [(1, [10]), (2, [10])]) 2 = some (List.replicate 30 10) ∧
      ∃ d, decideLabelPointClouds 3 candidateStateB.st heapB [1, 2] candidateStateB.candidates
          candidateStateB.segment_merge_candidates = .ok d ∧
        ∀ p ∈ [1, 2], ∀ q ∈ [1, 2], p ≠ q →
          ∃ lp lq, lp ≠ lq ∧
            (d.heap p).labels_ =
              (heapB p).labels_ ++ List.replicate (heapB p).points_C_.length lp ∧
            (d.heap q).labels_ =
              (heapB q).labels_ ++ List.replicate (heapB q).points_C_.length lq := by
  have h := decideLabelPointClouds_distinct_labels integratorB heapB [1, 2] candidateStateB
    (by rfl) (by decide) 3 (by decide)
  have hpoints : ∀ p ∈ [1, 2], (heapB p).points_C_ ≠ [] := by decide
  obtain ⟨d, hd⟩ := h.2.2 hpoints (by decide) (by decide)
  exact ⟨by decide, d, hd, h.2.1 d hd⟩

namespace StdMap

theorem length_put_le {V : Type} (m : List (Nat × V)) (k : Nat) (v : V) :
    (put m k v).length ≤ m.length + 1 := by
  induction m with
  | nil => simp [put]
  | cons e t ih =>
    obtain ⟨k0, v0⟩ := e
    unfold put
    by_cases h1 : k < k0
    · rw [if_pos h1]; simp
    · rw [if_neg h1]
      by_cases h2 : k = k0
      · rw [if_pos h2]; simp
      · rw [if_neg h2]
        simp only [List.length_cons]
        omega

theorem length_put_of_find {V : Type} (m : List (Nat × V)) (k : Nat) (v v0 : V)
    (hasc : ascending m = true) (h : find m k = some v0) :
    (put m k v).length = m.length := by
  induction m with
  | nil => cases h
  | cons e t ih =>
    obtain ⟨k0, w⟩ := e
    rw [ascending_cons_iff] at hasc
    unfold put
    by_cases h2 : k = k0
    · subst h2
      rw [if_neg (lt_irrefl _), if_pos rfl]
      simp
    · have hft : find t k = some v0 := by
        unfold find at h
        rw [if_neg (fun e => h2 e.symm)] at h
        exact h
      have hlt : k0 < k := hasc.1 (k, v0) (mem_of_find hft)
      rw [if_neg (by omega), if_neg h2]
      simp only [List.length_cons]
      rw [ih hasc.2 hft]

theorem length_erase_le {K V : Type} [DecidableEq K] (m : List (K × V)) (k : K) :
    (erase m k).length ≤ m.length := by
  induction m with
  | nil => simp [erase]
  | cons e t ih =>
    obtain ⟨k0, w⟩ := e
    unfold erase
    by_cases h : k0 = k
    · rw [if_pos h]; simp only [List.length_cons]; omega
    · rw [if_neg h]; simp only [List.length_cons]; omega

theorem length_erase_lt {K V : Type} [DecidableEq K] (m : List (K × V)) (k : K) (v0 : V)
    (h : find m k = some v0) : (erase m k).length < m.length := by
  induction m with
  | nil => cases h
  | cons e t ih =>
    obtain ⟨k0, w⟩ := e
    unfold erase
    by_cases h2 : k0 = k
    · rw [if_pos h2]
      have := length_erase_le t k
      simp only [List.length_cons]; omega
    · rw [if_neg h2]
      unfold find at h
      rw [if_neg h2] at h
      have := ih h
      simp only [List.length_cons]; omega

theorem erase_of_find_none {K V : Type} [DecidableEq K] (m : List (K × V)) (k : K)
    (h : find m k = none) : erase m k = m := by
  induction m with
  | nil => rfl
  | cons e t ih =>
    obtain ⟨k0, w⟩ := e
    unfold find at h
    unfold erase
    by_cases h2 : k0 = k
    · rw [if_pos h2] at h; cases h
    · rw [if_neg h2] at h
      rw [if_neg h2, ih h]

theorem find_none_of_head_lt {V : Type} {t : List (Nat × V)} {k : Nat}
    (h : ∀ x ∈ t, k < x.1) : find t k = none := by
  cases hf : find t k with
  | none => rfl
  | some v =>
    have := h (k, v) (mem_of_find hf)
    exact absurd this (lt_irrefl _)

end StdMap

theorem pairTotal_cons (e : Label × LMap) (rest : LLMap) :
    pairTotal (e :: rest) = e.2.length + pairTotal rest := by
  unfold pairTotal
  simp

theorem pairTotal_put_absent (pc : LLMap) (k : Label) (v : LMap)
    (h : StdMap.find pc k = none) :
    pairTotal (StdMap.put pc k v) = pairTotal pc + v.length := by
  induction pc with
  | nil => simp [StdMap.put, pairTotal]
  | cons e t ih =>
    obtain ⟨k0, w⟩ := e
    unfold StdMap.find at h
    by_cases h2 : k0 = k
    · rw [if_pos h2] at h; cases h
    · rw [if_neg h2] at h
      unfold StdMap.put
      by_cases h1 : k < k0
      · rw [if_pos h1]
        rw [pairTotal_cons, pairTotal_cons]
        simp only [pairTotal_cons]
        omega
      · rw [if_neg h1, if_neg (fun e => h2 e.symm)]
        rw [pairTotal_cons, pairTotal_cons, ih h]
        omega

theorem pairTotal_put_found (pc : LLMap) (k : Label) (v v0 : LMap)
    (hasc : StdMap.ascending pc = true) (h : StdMap.find pc k = some v0) :
    pairTotal (StdMap.put pc k v) + v0.length = pairTotal pc + v.length := by
  induction pc with
  | nil => cases h
  | cons e t ih =>
    obtain ⟨k0, w⟩ := e
    rw [StdMap.ascending_cons_iff] at hasc
    unfold StdMap.put
    by_cases h2 : k = k0
    · subst h2
      rw [if_neg (lt_irrefl _), if_pos rfl]
      unfold StdMap.find at h
      rw [if_pos rfl] at h
      injection h with h
      subst h
      rw [pairTotal_cons, pairTotal_cons]
      simp only
      omega
    · have hft : StdMap.find t k = some v0 := by
        unfold StdMap.find at h
        rw [if_neg (fun e => h2 e.symm)] at h
        exact h
      have hlt : k0 < k := hasc.1 (k, v0) (StdMap.mem_of_find hft)
      rw [if_neg (by unfold Label at *; omega), if_neg h2]
      rw [pairTotal_cons, pairTotal_cons]
      have := ih hasc.2 hft
      simp only
      omega

theorem pairTotal_erase_le (pc : LLMap) (k : Label) :
    pairTotal (StdMap.erase pc k) ≤ pairTotal pc := by
  induction pc with
  | nil => simp [StdMap.erase]
  | cons e t ih =>
    obtain ⟨k0, w⟩ := e
    unfold StdMap.erase
    by_cases h : k0 = k
    · rw [if_pos h, pairTotal_cons]; omega
    · rw [if_neg h, pairTotal_cons, pairTotal_cons]; omega

theorem pairTotal_erase_found (pc : LLMap) (k : Label) (v0 : LMap)
    (hasc : StdMap.ascending pc = true) (h : StdMap.find pc k = some v0) :
    pairTotal (StdMap.erase pc k) + v0.length = pairTotal pc := by
  induction pc with
  | nil => cases h
  | cons e t ih =>
    obtain ⟨k0, w⟩ := e
    rw [StdMap.ascending_cons_iff] at hasc
    unfold StdMap.erase
    unfold StdMap.find at h
    by_cases h2 : k0 = k
    · rw [if_pos h2] at h
      injection h with h
      subst h
      rw [if_pos h2]
      subst h2
      rw [StdMap.erase_of_find_none t k0 (StdMap.find_none_of_head_lt hasc.1), pairTotal_cons]
      simp only
      omega
    · rw [if_neg h2] at h
      rw [if_neg h2, pairTotal_cons, pairTotal_cons]
      have := ih hasc.2 h
      simp only
      omega

/-! ## The number of stored pairs under the merge operations -/

theorem find_add_other (pc : LLMap) (it l : Label) (n : Int) (a : Label) (h : a ≠ it) :
    StdMap.find (addPairwiseConfidenceCount pc it l n) a = StdMap.find pc a := by
  unfold addPairwiseConfidenceCount
  cases hf : StdMap.find pc it with
  | none => rfl
  | some inner =>
    simp only []
    cases hg : StdMap.find inner l with
    | none => simp only []; rw [StdMap.find_put, if_neg h]
    | some c => simp only []; rw [StdMap.find_put, if_neg h]

theorem pairTotal_add_le (pc : LLMap) (hwf : TableWF pc) (it l : Label) (n : Int) :
    pairTotal (addPairwiseConfidenceCount pc it l n) ≤ pairTotal pc + 1 := by
  unfold addPairwiseConfidenceCount
  cases hf : StdMap.find pc it with
  | none => exact Nat.le_succ _
  | some inner =>
    have hasc := tableWF_find hwf hf
    simp only []
    cases hg : StdMap.find inner l with
    | none =>
      simp only []
      have h1 := pairTotal_put_found pc it (StdMap.emplace inner l n) inner hwf.1 hf
      have h2 : (StdMap.emplace inner l n).length ≤ inner.length + 1 := by
        unfold StdMap.emplace
        rw [hg]
        exact StdMap.length_put_le _ _ _
      omega
    | some c =>
      simp only []
      have h1 := pairTotal_put_found pc it (StdMap.put inner l (c + n)) inner hwf.1 hf
      have h2 := StdMap.length_put_of_find inner l (c + n) c hasc hg
      omega

theorem pairTotal_foldl_add_le (new_label : Label) (l : List (Label × Int)) :
    ∀ pc : LLMap, TableWF pc →
      pairTotal (l.foldl (fun acc e => addPairwiseConfidenceCount acc new_label e.1 e.2) pc)
        ≤ pairTotal pc + l.length := by
  induction l with
  | nil => intro pc _; exact le_refl _
  | cons e t ih =>
    intro pc hwf
    simp only [List.foldl_cons, List.length_cons]
    have h1 := ih _ (tableWF_add hwf new_label e.1 e.2)
    have h2 := pairTotal_add_le pc hwf new_label e.1 e.2
    omega

theorem find_foldl_add_other (new_label : Label) (l : List (Label × Int)) (a : Label)
    (h : a ≠ new_label) :
    ∀ pc : LLMap,
      StdMap.find (l.foldl (fun acc e => addPairwiseConfidenceCount acc new_label e.1 e.2) pc) a
        = StdMap.find pc a := by
  induction l with
  | nil => intro pc; rfl
  | cons e t ih =>
    intro pc
    simp only [List.foldl_cons]
    rw [ih, find_add_other _ _ _ _ _ h]

theorem pairTotal_adjustOuter_le (pc : LLMap) (hwf : TableWF pc) (new_label old_label : Label)
    (hne : new_label ≠ old_label) :
    pairTotal (adjustOuter pc new_label old_label) ≤ pairTotal pc := by
  unfold adjustOuter
  cases hf : StdMap.find pc old_label with
  | none => exact le_refl _
  | some old_inner =>
    simp only []
    cases hg : StdMap.find pc new_label with
    | none =>
      simp only []
      have he : StdMap.emplace pc new_label old_inner = StdMap.put pc new_label old_inner := by
        unfold StdMap.emplace; rw [hg]
      rw [he]
      have h1 := pairTotal_put_absent pc new_label old_inner hg
      have h2 : StdMap.find (StdMap.put pc new_label old_inner) old_label = some old_inner := by
        rw [StdMap.find_put, if_neg (fun e => hne e.symm)]; exact hf
      have h3 := pairTotal_erase_found _ old_label old_inner
        (StdMap.ascending_put pc new_label old_inner hwf.1) h2
      omega
    | some new_inner =>
      simp only []
      have h1 := pairTotal_foldl_add_le new_label old_inner pc hwf
      have h2 := find_foldl_add_other new_label old_inner old_label (fun e => hne e.symm) pc
      rw [hf] at h2
      have h3 := pairTotal_erase_found _ old_label old_inner
        (tableWF_foldl_add new_label old_inner pc hwf).1 h2
      have h4 : pairTotal (StdMap.erase
          (old_inner.foldl (fun acc e => addPairwiseConfidenceCount acc new_label e.1 e.2) pc)
          old_label) + old_inner.length ≤ pairTotal pc + old_inner.length := by
        rw [h3]; exact h1
      exact Nat.le_of_add_le_add_right h4

theorem pairTotal_adjustInnerStep_le (pc : LLMap) (hwf : TableWF pc)
    (new_label old_label : Label) (hne : new_label ≠ old_label) (k : Label) :
    pairTotal (adjustInnerStep new_label old_label pc k) ≤ pairTotal pc := by
  unfold adjustInnerStep
  cases hf : StdMap.find pc k with
  | none => exact le_refl _
  | some inner =>
    simp only []
    cases hg : StdMap.find inner old_label with
    | none =>
      simp only []
      by_cases he : inner.isEmpty = true
      · rw [if_pos he]; exact pairTotal_erase_le _ _
      · rw [if_neg he]
    | some n =>
      simp only []
      have hko : pairCount pc k old_label = some n := by
        rw [pairCount_of_find hf]; exact hg
      -- the table after the count has been added to its new place
      have key : ∀ pc1 : LLMap, TableWF pc1 → pairTotal pc1 ≤ pairTotal pc + 1 →
          pairCount pc1 k old_label ≠ none →
          pairTotal
            (match StdMap.find pc1 k with
              | none => pc1
              | some inner1 =>
                if (StdMap.erase inner1 old_label).isEmpty then StdMap.erase pc1 k
                else StdMap.put pc1 k (StdMap.erase inner1 old_label)) ≤ pairTotal pc := by
        intro pc1 hwf1 hle hpair
        cases hf1 : StdMap.find pc1 k with
        | none =>
          exfalso
          apply hpair
          unfold pairCount
          rw [hf1]
        | some inner1 =>
          simp only []
          have hin : StdMap.find inner1 old_label ≠ none := by
            rw [pairCount_of_find hf1] at hpair; exact hpair
          obtain ⟨c1, hc1⟩ := Option.ne_none_iff_exists'.mp hin
          have hlt := StdMap.length_erase_lt inner1 old_label c1 hc1
          by_cases he : (StdMap.erase inner1 old_label).isEmpty = true
          · rw [if_pos he]
            have := pairTotal_erase_found pc1 k inner1 hwf1.1 hf1
            omega
          · rw [if_neg he]
            have := pairTotal_put_found pc1 k (StdMap.erase inner1 old_label) inner1 hwf1.1 hf1
            omega
      apply key
      · by_cases hlt : k < new_label
        · rw [if_pos hlt]; exact tableWF_add hwf _ _ _
        · rw [if_neg hlt]
          cases hn : StdMap.find pc new_label with
          | none => exact tableWF_emplace hwf new_label rfl
          | some _ => exact tableWF_add hwf _ _ _
      · by_cases hlt : k < new_label
        · rw [if_pos hlt]; exact pairTotal_add_le pc hwf _ _ _
        · rw [if_neg hlt]
          cases hn : StdMap.find pc new_label with
          | none =>
            simp only []
            have he : StdMap.emplace pc new_label [(k, n)] = StdMap.put pc new_label [(k, n)] := by
              unfold StdMap.emplace; rw [hn]
            rw [he, pairTotal_put_absent pc new_label _ hn]
            simp
          | some _ => exact pairTotal_add_le pc hwf _ _ _
      · by_cases hlt : k < new_label
        · rw [if_pos hlt, pairCount_add]
          by_cases hc : k = k ∧ old_label = new_label
          · exact absurd hc.2.symm hne
          · rw [if_neg hc, hko]; exact Option.some_ne_none _
        · rw [if_neg hlt]
          cases hn : StdMap.find pc new_label with
          | none =>
            simp only []
            rw [pairCount_emplace pc new_label _ k old_label hn]
            have hkn : k ≠ new_label := by
              intro e; rw [e, hn] at hf; cases hf
            rw [if_neg hkn, hko]; exact Option.some_ne_none _
          | some _ =>
            simp only []
            rw [pairCount_add]
            by_cases hc : k = new_label ∧ old_label = k
            · exact absurd (hc.1.symm.trans hc.2.symm) hne
            · rw [if_neg hc, hko]; exact Option.some_ne_none _

theorem pairTotal_foldl_adjustInnerStep_le (new_label old_label : Label)
    (hne : new_label ≠ old_label) (ks : List Label) :
    ∀ pc : LLMap, TableWF pc →
      pairTotal (ks.foldl (adjustInnerStep new_label old_label) pc) ≤ pairTotal pc := by
  induction ks with
  | nil => intro pc _; exact le_refl _
  | cons k t ih =>
    intro pc hwf
    simp only [List.foldl_cons]
    exact le_trans (ih _ (tableWF_adjustInnerStep hwf new_label old_label k))
      (pairTotal_adjustInnerStep_le pc hwf new_label old_label hne k)

/-- `adjustPairwiseConfidenceAfterMerging` never increases the number of
stored pairs. -/
theorem pairTotal_adjust_le (pc : LLMap) (hwf : TableWF pc) (new_label old_label : Label)
    (hne : new_label ≠ old_label) :
    pairTotal (adjustPairwiseConfidenceAfterMerging pc new_label old_label) ≤ pairTotal pc := by
  unfold adjustPairwiseConfidenceAfterMerging
  exact le_trans
    (pairTotal_foldl_adjustInnerStep_le new_label old_label hne _ _
      (tableWF_adjustOuter hwf new_label old_label))
    (pairTotal_adjustOuter_le pc hwf new_label old_label hne)

/-- A successful `getNextMerge` removes a stored pair. -/
theorem pairTotal_getNextMerge_lt (threshold : Int) (pc : LLMap) (p : Label × Label)
    (h : (getNextMerge threshold pc).1 = some p) :
    pairTotal (getNextMerge threshold pc).2 < pairTotal pc := by
  induction pc with
  | nil => simp [getNextMerge] at h
  | cons e0 rest ih =>
    obtain ⟨a0, inner⟩ := e0
    unfold getNextMerge at h ⊢
    cases hf : inner.find? (fun e => decide (e.2 > threshold)) with
    | some e =>
      simp only [hf]
      rw [pairTotal_cons, pairTotal_cons]
      have hmem : e ∈ inner := List.mem_of_find?_eq_some hf
      obtain ⟨v, hv⟩ := StdMap.find_isSome_of_mem hmem
      have := StdMap.length_erase_lt inner e.1 v hv
      simp only
      omega
    | none =>
      rw [hf] at h
      simp only [hf]
      simp only at h
      rw [pairTotal_cons, pairTotal_cons]
      have := ih h
      simp only
      omega

theorem getNextMerge_mem (threshold : Int) (pc : LLMap) :
    ∀ x ∈ (getNextMerge threshold pc).2, ∃ x0 ∈ pc, x.1 = x0.1 ∧
      (x.2 = x0.2 ∨ ∃ k, x.2 = StdMap.erase x0.2 k) := by
  induction pc with
  | nil => intro x hx; simp [getNextMerge] at hx
  | cons e0 rest ih =>
    obtain ⟨a0, inner⟩ := e0
    intro x hx
    unfold getNextMerge at hx
    cases hf : inner.find? (fun e => decide (e.2 > threshold)) with
    | some e =>
      simp only [hf] at hx
      rcases List.mem_cons.mp hx with h | h
      · exact ⟨(a0, inner), List.mem_cons_self _ _, by rw [h], Or.inr ⟨e.1, by rw [h]⟩⟩
      · exact ⟨x, List.mem_cons_of_mem _ h, rfl, Or.inl rfl⟩
    | none =>
      simp only [hf] at hx
      rcases List.mem_cons.mp hx with h | h
      · exact ⟨(a0, inner), List.mem_cons_self _ _, by rw [h], Or.inl (by rw [h])⟩
      · obtain ⟨x0, hx0, h1, h2⟩ := ih x h
        exact ⟨x0, List.mem_cons_of_mem _ hx0, h1, h2⟩

theorem tableWF_getNextMerge (threshold : Int) (pc : LLMap) (hwf : TableWF pc) :
    TableWF (getNextMerge threshold pc).2 := by
  refine ⟨?_, ?_⟩
  · have hwf1 := hwf.1
    clear hwf
    induction pc with
    | nil => simp [getNextMerge, StdMap.ascending]
    | cons e0 rest ih =>
      obtain ⟨a0, inner⟩ := e0
      rw [StdMap.ascending_cons_iff] at hwf1
      unfold getNextMerge
      cases hf : inner.find? (fun e => decide (e.2 > threshold)) with
      | some e =>
        simp only []
        rw [StdMap.ascending_cons_iff]
        exact hwf1
      | none =>
        simp only []
        rw [StdMap.ascending_cons_iff]
        refine ⟨?_, ih hwf1.2⟩
        intro x hx
        obtain ⟨x0, hx0, h1, _⟩ := getNextMerge_mem threshold rest x hx
        rw [h1]
        exact hwf1.1 x0 hx0
  · intro x hx
    obtain ⟨x0, hx0, _, h2⟩ := getNextMerge_mem threshold pc x hx
    rcases h2 with h | ⟨k, h⟩
    · rw [h]; exact hwf.2 x0 hx0
    · rw [h]; exact StdMap.ascending_erase _ _ (hwf.2 x0 hx0)

section MergeLoop

set_option linter.unusedSectionVars false

variable {C : Type} [LinearOrderedAddCommMonoid C]

/-! ## What `swapLabels` leaves alone -/

theorem sameOutsideSwap_refl (s : Integrator C) : SameOutsideSwap s s :=
  ⟨rfl, rfl, rfl, rfl, rfl, rfl, rfl, rfl, rfl⟩

theorem sameOutsideSwap_trans {s t u : Integrator C} (h1 : SameOutsideSwap s t)
    (h2 : SameOutsideSwap t u) : SameOutsideSwap s u := by
  obtain ⟨a1, a2, a3, a4, a5, a6, a7, a8, a9⟩ := h1
  obtain ⟨b1, b2, b3, b4, b5, b6, b7, b8, b9⟩ := h2
  exact ⟨a1.trans b1, a2.trans b2, a3.trans b3, a4.trans b4, a5.trans b5, a6.trans b6,
    a7.trans b7, a8.trans b8, a9.trans b9⟩

theorem changeLabelCount_same (st : Integrator C) (label : Label) (count : Int) :
    SameOutsideSwap (changeLabelCount st label count) st ∧
      (changeLabelCount st label count).updated_labels_ = st.updated_labels_ := by
  unfold changeLabelCount
  cases StdMap.find st.labels_count_map_ label with
  | none =>
    simp only []
    by_cases h : label ≠ 0
    · rw [if_pos h]; exact ⟨sameOutsideSwap_refl _, rfl⟩
    · rw [if_neg h]; exact ⟨sameOutsideSwap_refl _, rfl⟩
  | some c =>
    simp only []
    by_cases h : c + count ≤ 0
    · rw [if_pos h]; exact ⟨sameOutsideSwap_refl _, rfl⟩
    · rw [if_neg h]; exact ⟨sameOutsideSwap_refl _, rfl⟩

theorem swapBookkeeping_same (st : Integrator C) (p u : Label) :
    SameOutsideSwap (swapBookkeeping st p u) st ∧
      ∀ x ∈ (swapBookkeeping st p u).updated_labels_, x ∈ st.updated_labels_ ∨ x = u := by
  unfold swapBookkeeping
  by_cases h : u ≠ p
  · rw [if_pos h]
    obtain ⟨h1, h2⟩ := changeLabelCount_same
      (changeLabelCount { st with updated_labels_ := StdSet.put st.updated_labels_ u } u 1)
      p (-1)
    obtain ⟨h3, h4⟩ := changeLabelCount_same
      { st with updated_labels_ := StdSet.put st.updated_labels_ u } u 1
    refine ⟨sameOutsideSwap_trans h1 (sameOutsideSwap_trans h3 (sameOutsideSwap_refl _)), ?_⟩
    intro x hx
    rw [h2, h4] at hx
    rcases (StdSet.mem_put_iff _ _ _).mp hx with e | e
    · exact Or.inr e
    · exact Or.inl e
  · rw [if_neg h]
    exact ⟨sameOutsideSwap_refl _, fun x hx => Or.inl hx⟩

theorem swapBookkeeping_foldl_same (old_label new_label : Label) (vs : List (LabelVoxel C)) :
    ∀ st : Integrator C,
      SameOutsideSwap
        (vs.foldl (fun s v => swapBookkeeping s v.label (swapVoxel old_label new_label v).label)
          st) st ∧
      ∀ x ∈ (vs.foldl
          (fun s v => swapBookkeeping s v.label (swapVoxel old_label new_label v).label)
          st).updated_labels_,
        x ∈ st.updated_labels_ ∨ ∃ v ∈ vs, x = (swapVoxel old_label new_label v).label := by
  induction vs with
  | nil => intro st; exact ⟨sameOutsideSwap_refl _, fun x hx => Or.inl hx⟩
  | cons v t ih =>
    intro st
    simp only [List.foldl_cons]
    obtain ⟨h1, h2⟩ := ih (swapBookkeeping st v.label (swapVoxel old_label new_label v).label)
    obtain ⟨h3, h4⟩ := swapBookkeeping_same st v.label (swapVoxel old_label new_label v).label
    refine ⟨sameOutsideSwap_trans h1 h3, ?_⟩
    intro x hx
    rcases h2 x hx with e | ⟨w, hw, e⟩
    · rcases h4 x e with e2 | e2
      · exact Or.inl e2
      · exact Or.inr ⟨v, List.mem_cons_self _ _, e2⟩
    · exact Or.inr ⟨w, List.mem_cons_of_mem _ hw, e⟩

/-- `swapLabels` writes only the label layer, `updated_labels_` and
`labels_count_map_`; a label it adds to `updated_labels_` is the best label of
a rewritten voxel. -/
theorem swapLabels_same (st : Integrator C) (old_label new_label : Label) :
    SameOutsideSwap (swapLabels st old_label new_label) st ∧
      ∀ x ∈ (swapLabels st old_label new_label).updated_labels_,
        x ∈ st.updated_labels_ ∨
          ∃ v ∈ allVoxels st.label_layer_, x = (swapVoxel old_label new_label v).label := by
  have h := swapBookkeeping_foldl_same old_label new_label (allVoxels st.label_layer_) st
  rw [← swapLabelsBlocks_state] at h
  exact h

/-! ## Labels that occur in no voxel and in no stored pair -/

theorem swapVoxel_free (o old_label new_label : Label) (voxel : LabelVoxel C)
    (ho : o ≠ 0) (hn : o ≠ new_label) (h : VoxelFree o voxel) :
    VoxelFree o (swapVoxel old_label new_label voxel) := by
  have hentries : ∀ lc ∈ (swapVoxel old_label new_label voxel).label_count, lc.label ≠ o := by
    unfold swapVoxel
    simp only [updateVoxel_label_count]
    have h1 : ∀ lc ∈ (clearOldLabel old_label 0 voxel.label_count).2, lc.label ≠ o := by
      intro lc hlc
      rcases clearOldLabel_mem old_label voxel.label_count 0 lc hlc with e | e
      · exact h.2 lc e
      · rw [e]; exact fun e2 => ho e2.symm
    split
    · exact addVoxelLabelConfidence_labels (fun l => l ≠ o) _ h1 (fun e => hn e.symm)
    · exact h1
  refine ⟨?_, hentries⟩
  have h2 := updateVoxel_fold_label new_label
    (swapVoxel old_label new_label voxel).label_count (0, 0)
  have h3 : (swapVoxel old_label new_label voxel).label =
      ((swapVoxel old_label new_label voxel).label_count.foldl
        (updateVoxelStep new_label) (0, 0)).1 := by
    unfold swapVoxel
    simp only [updateVoxelLabelAndConfidence]
  rw [h3]
  rcases h2 with e | ⟨lc, hlc, e⟩
  · rw [e]; intro e2; exact ho e2.symm
  · rw [← e]; exact hentries lc hlc

theorem tableFree_getNextMerge (threshold : Int) (pc : LLMap) (x : Label)
    (h : TableFree pc x) : TableFree (getNextMerge threshold pc).2 x := by
  intro a b hab
  obtain ⟨c, hc⟩ := Option.ne_none_iff_exists'.mp hab
  apply h a b
  rw [getNextMerge_subset threshold pc a b c hc]
  exact Option.some_ne_none _

theorem tableFree_adjustOuter (pc : LLMap) (new_label old_label x : Label)
    (h : TableFree pc x) (hx : x ≠ new_label) :
    TableFree (adjustOuter pc new_label old_label) x := by
  intro a b hab
  rcases adjustOuter_support hab with h1 | ⟨h1, h2⟩
  · exact h a b h1
  · exact ⟨by rw [h1]; exact fun e => hx e.symm, (h old_label b h2).2⟩

theorem tableFree_adjustInnerStep (pc : LLMap) (new_label old_label x k : Label)
    (h : TableFree pc x) (hx : x ≠ new_label) :
    TableFree (adjustInnerStep new_label old_label pc k) x := by
  intro a b hab
  rcases adjustInnerStep_support hab with h1 | ⟨h1, h2⟩
  · exact h a b h1
  · have hk := (h k old_label h1).1
    rcases h2 with ⟨e1, e2, _⟩ | ⟨e1, e2, _⟩
    · exact ⟨by rw [e1]; exact hk, by rw [e2]; exact fun e => hx e.symm⟩
    · exact ⟨by rw [e1]; exact fun e => hx e.symm, by rw [e2]; exact hk⟩

theorem tableFree_foldl_adjustInnerStep (new_label old_label x : Label) (hx : x ≠ new_label)
    (ks : List Label) :
    ∀ pc : LLMap, TableFree pc x →
      TableFree (ks.foldl (adjustInnerStep new_label old_label) pc) x := by
  induction ks with
  | nil => intro pc h; exact h
  | cons k t ih =>
    intro pc h
    simp only [List.foldl_cons]
    exact ih _ (tableFree_adjustInnerStep pc new_label old_label x k h hx)

theorem tableFree_adjust (pc : LLMap) (new_label old_label x : Label)
    (h : TableFree pc x) (hx : x ≠ new_label) :
    TableFree (adjustPairwiseConfidenceAfterMerging pc new_label old_label) x := by
  unfold adjustPairwiseConfidenceAfterMerging
  exact tableFree_foldl_adjustInnerStep new_label old_label x hx _ _
    (tableFree_adjustOuter pc new_label old_label x h hx)

theorem tableFree_adjust_old (pc : LLMap) (new_label old_label : Label)
    (hne : new_label ≠ old_label) :
    TableFree (adjustPairwiseConfidenceAfterMerging pc new_label old_label) old_label := by
  obtain ⟨h1, h2⟩ := adjust_clean pc new_label old_label hne
  intro a b hab
  refine ⟨?_, ?_⟩
  · intro e
    apply hab
    unfold pairCount
    rw [e, h1]
  · intro e
    apply hab
    rw [e]; exact h2 a

/-! ## The body and the loop of `mergeLabels` -/

theorem mergeLabelsBody_pairwise (st : Integrator C) (m : LLSet) (new_label old_label : Label) :
    (mergeLabelsBody st m new_label old_label).1.pairwise_confidence_ =
      adjustPairwiseConfidenceAfterMerging st.pairwise_confidence_ new_label old_label := by
  have h := (swapLabels_same st old_label new_label).1.2.2.1
  unfold mergeLabelsBody
  simp only []
  rw [h]

theorem mergeLabelsBody_config (st : Integrator C) (m : LLSet) (new_label old_label : Label) :
    (mergeLabelsBody st m new_label old_label).1.label_tsdf_config_ = st.label_tsdf_config_ := by
  have h := (swapLabels_same st old_label new_label).1.1
  unfold mergeLabelsBody
  simp only []
  rw [h]

/-- What a successful `getNextMerge` from a table satisfying the ordering
invariant makes of the table by the end of the round: the invariant and the
well-formedness are kept and fewer pairs are stored. -/
theorem mergeRound_table (threshold : Int) (pc : LLMap) (hwf : TableWF pc)
    (hord : PairOrdered pc) (n o : Label)
    (h : (getNextMerge threshold pc).1 = some (n, o)) :
    n < o ∧
    TableWF (adjustPairwiseConfidenceAfterMerging (getNextMerge threshold pc).2 n o) ∧
    PairOrdered (adjustPairwiseConfidenceAfterMerging (getNextMerge threshold pc).2 n o) ∧
    pairTotal (adjustPairwiseConfidenceAfterMerging (getNextMerge threshold pc).2 n o) <
      pairTotal pc := by
  obtain ⟨⟨c, hc, _⟩, habs, _⟩ := getNextMerge_some threshold pc hwf n o h
  have hlt : n < o := hord n o c hc
  have hwf1 := tableWF_getNextMerge threshold pc hwf
  refine ⟨hlt, tableWF_adjust hwf1 n o, ?_, ?_⟩
  · exact pairOrdered_adjust _ n o (pairOrdered_getNextMerge threshold pc hord) hlt habs
  · exact lt_of_le_of_lt (pairTotal_adjust_le _ hwf1 n o (Nat.ne_of_lt hlt))
      (pairTotal_getNextMerge_lt threshold pc (n, o) h)

theorem mergeLoop_returns :
    ∀ (fuel : Nat) (st : Integrator C) (m : LLSet), TableWF st.pairwise_confidence_ →
      PairOrdered st.pairwise_confidence_ → pairTotal st.pairwise_confidence_ < fuel →
      ∃ r, mergeLabelsLoop fuel st m = .ok r := by
  intro fuel
  induction fuel with
  | zero => intro st m _ _ h; exact absurd h (Nat.not_lt_zero _)
  | succ k ih =>
    intro st m hwf hord hlt
    unfold mergeLabelsLoop
    cases hg : getNextMerge st.label_tsdf_config_.pairwise_confidence_count_threshold
        st.pairwise_confidence_ with
    | mk res pc1 =>
      cases res with
      | none => exact ⟨_, rfl⟩
      | some p =>
        obtain ⟨n, o⟩ := p
        have h1 : (getNextMerge st.label_tsdf_config_.pairwise_confidence_count_threshold
            st.pairwise_confidence_).1 = some (n, o) := by rw [hg]
        have h2 : (getNextMerge st.label_tsdf_config_.pairwise_confidence_count_threshold
            st.pairwise_confidence_).2 = pc1 := by rw [hg]
        obtain ⟨_, hwf2, hord2, hlt2⟩ := mergeRound_table _ _ hwf hord n o h1
        rw [h2] at hwf2 hord2 hlt2
        simp only []
        apply ih
        · rw [mergeLabelsBody_pairwise]; exact hwf2
        · rw [mergeLabelsBody_pairwise]; exact hord2
        · rw [mergeLabelsBody_pairwise]
          show pairTotal (adjustPairwiseConfidenceAfterMerging pc1 n o) < k
          omega

/-- Invariant rule for the `while` loop of `mergeLabels`. -/
theorem mergeLoop_rule (Inv : Integrator C → LLSet → Prop)
    (hstep : ∀ (st : Integrator C) (m : LLSet) (n o : Label), Inv st m →
      (getNextMerge st.label_tsdf_config_.pairwise_confidence_count_threshold
        st.pairwise_confidence_).1 = some (n, o) →
      Inv (mergeLabelsBody { st with pairwise_confidence_ :=
            (getNextMerge st.label_tsdf_config_.pairwise_confidence_count_threshold
              st.pairwise_confidence_).2 } m n o).1
          (mergeLabelsBody { st with pairwise_confidence_ :=
            (getNextMerge st.label_tsdf_config_.pairwise_confidence_count_threshold
              st.pairwise_confidence_).2 } m n o).2) :
    ∀ (fuel : Nat) (st : Integrator C) (m : LLSet), Inv st m →
      ∀ r, mergeLabelsLoop fuel st m = .ok r → Inv r.1 r.2 := by
  intro fuel
  induction fuel with
  | zero =>
    intro st m _ r h
    simp only [mergeLabelsLoop] at h
    cases h
  | succ k ih =>
    intro st m hinv r h
    unfold mergeLabelsLoop at h
    have hs := hstep st m
    cases hg : getNextMerge st.label_tsdf_config_.pairwise_confidence_count_threshold
        st.pairwise_confidence_ with
    | mk res pc1 =>
      rw [hg] at h hs
      cases res with
      | none =>
        simp only [] at h
        injection h with h
        have h1 : (getNextMerge st.label_tsdf_config_.pairwise_confidence_count_threshold
            st.pairwise_confidence_).1 = none := by rw [hg]
        have h2 := (getNextMerge_none _ _ h1).1
        rw [hg] at h2
        simp only [] at h2
        rw [← h, h2]
        exact hinv
      | some p =>
        obtain ⟨n, o⟩ := p
        simp only [] at h
        exact ih _ _ (hs n o hinv rfl) r h

end MergeLoop

section MergedLabels

set_option linter.unusedSectionVars false

variable {C : Type} [LinearOrderedAddCommMonoid C]

/-! ## Labels merged away by `mergeLabels` -/

theorem mergeLabelsBody_layer (st : Integrator C) (m : LLSet) (new_label old_label : Label) :
    (mergeLabelsBody st m new_label old_label).1.label_layer_ =
      (swapLabels st old_label new_label).label_layer_ := rfl

theorem mergeLabelsBody_counts (st : Integrator C) (m : LLSet) (new_label old_label : Label) :
    (mergeLabelsBody st m new_label old_label).1.labels_count_map_ =
      (swapLabels st old_label new_label).labels_count_map_ := rfl

theorem mergeLabelsBody_updated (st : Integrator C) (m : LLSet) (new_label old_label : Label) :
    (mergeLabelsBody st m new_label old_label).1.updated_labels_ =
      StdSet.erase (swapLabels st old_label new_label).updated_labels_ old_label := rfl

theorem mergeLabelsBody_publish (st : Integrator C) (m : LLSet) (new_label old_label : Label)
    (x : Label) :
    StdMap.find (mergeLabelsBody st m new_label old_label).1.labels_to_publish_ x =
      if x = old_label then none else StdMap.find st.labels_to_publish_ x := by
  have h := (swapLabels_same st old_label new_label).1.2.2.2.2.2.2.2.2
  have e : (mergeLabelsBody st m new_label old_label).1.labels_to_publish_ =
      match StdMap.find (swapLabels st old_label new_label).labels_to_publish_ old_label with
      | some _ => StdMap.erase (swapLabels st old_label new_label).labels_to_publish_ old_label
      | none => (swapLabels st old_label new_label).labels_to_publish_ := rfl
  rw [e, h]
  cases hf : StdMap.find st.labels_to_publish_ old_label with
  | some c =>
    simp only []
    rw [StdMap.find_erase]
  | none =>
    simp only []
    by_cases hx : x = old_label
    · rw [if_pos hx, hx, hf]
    · rw [if_neg hx]

theorem mem_stdSet_erase (s : List Nat) (k x : Nat) :
    x ∈ StdSet.erase s k ↔ x ∈ s ∧ x ≠ k := by
  unfold StdSet.erase
  simp [List.mem_filter]

/-- After the body of the loop the merged label has left the integrator. -/
theorem mergeLabelsBody_gone_old (st : Integrator C) (m : LLSet) (new_label old_label : Label)
    (hlt : new_label < old_label) :
    Gone (mergeLabelsBody st m new_label old_label).1 old_label := by
  have hne : new_label ≠ old_label := Nat.ne_of_lt hlt
  have h0 : old_label ≠ 0 := by unfold Label at *; omega
  refine ⟨h0, ?_, ?_, ?_, ?_⟩
  · rw [mergeLabelsBody_pairwise]
    exact tableFree_adjust_old _ _ _ hne
  · rw [mergeLabelsBody_layer, allVoxels_swapLabels]
    intro v hv
    obtain ⟨v0, _, e⟩ := List.mem_map.mp hv
    rw [← e]
    obtain ⟨h1, h2⟩ := swapVoxel_without_old old_label new_label v0 (fun e => hne e.symm) h0
    exact ⟨h2, h1⟩
  · rw [mergeLabelsBody_updated]
    intro hmem
    exact ((mem_stdSet_erase _ _ _).mp hmem).2 rfl
  · rw [mergeLabelsBody_publish, if_pos rfl]

/-- The body of the loop does not bring back a label that has left. -/
theorem mergeLabelsBody_gone_other (st : Integrator C) (m : LLSet)
    (new_label old_label x : Label) (hg : Gone st x) (hx : x ≠ new_label) :
    Gone (mergeLabelsBody st m new_label old_label).1 x := by
  obtain ⟨h0, htab, hvox, hupd, hpub⟩ := hg
  have hvox1 : ∀ v ∈ allVoxels (swapLabels st old_label new_label).label_layer_,
      VoxelFree x v := by
    rw [allVoxels_swapLabels]
    intro v hv
    obtain ⟨v0, hv0, e⟩ := List.mem_map.mp hv
    rw [← e]
    exact swapVoxel_free x old_label new_label v0 h0 hx (hvox v0 hv0)
  refine ⟨h0, ?_, ?_, ?_, ?_⟩
  · rw [mergeLabelsBody_pairwise]
    exact tableFree_adjust _ _ _ _ htab hx
  · rw [mergeLabelsBody_layer]; exact hvox1
  · rw [mergeLabelsBody_updated]
    intro hmem
    have h1 := ((mem_stdSet_erase _ _ _).mp hmem).1
    rcases (swapLabels_same st old_label new_label).2 x h1 with e | ⟨v, hv, e⟩
    · exact hupd e
    · exact (swapVoxel_free x old_label new_label v h0 hx (hvox v hv)).1 e.symm
  · rw [mergeLabelsBody_publish]
    by_cases e : x = old_label
    · rw [if_pos e]
    · rw [if_neg e]; exact hpub

theorem gone_with_table (st : Integrator C) (pc : LLMap) (x : Label) (hg : Gone st x)
    (h : TableFree pc x) : Gone { st with pairwise_confidence_ := pc } x :=
  ⟨hg.1, h, hg.2.2.1, hg.2.2.2.1, hg.2.2.2.2⟩

/-- A label that has left the integrator stays away until the loop ends. -/
theorem mergeLoop_gone (x : Label) (fuel : Nat) (st : Integrator C) (m : LLSet)
    (hwf : TableWF st.pairwise_confidence_) (hord : PairOrdered st.pairwise_confidence_)
    (hg : Gone st x) (r : Integrator C × LLSet) (h : mergeLabelsLoop fuel st m = .ok r) :
    Gone r.1 x := by
  have hrule := mergeLoop_rule
    (fun (s : Integrator C) (_ : LLSet) => TableWF s.pairwise_confidence_ ∧
      PairOrdered s.pairwise_confidence_ ∧ Gone s x) ?_ fuel st m ⟨hwf, hord, hg⟩ r h
  · exact hrule.2.2
  · intro s m1 n o hinv hpop
    obtain ⟨hwf1, hord1, hg1⟩ := hinv
    obtain ⟨_, hwf2, hord2, _⟩ := mergeRound_table _ _ hwf1 hord1 n o hpop
    obtain ⟨⟨c, hc, _⟩, _, _⟩ := getNextMerge_some _ _ hwf1 n o hpop
    have hxn : x ≠ n := by
      intro e
      exact (hg1.2.1 n o (by rw [hc]; exact Option.some_ne_none _)).1 e.symm
    refine ⟨?_, ?_, ?_⟩
    · rw [mergeLabelsBody_pairwise]; exact hwf2
    · rw [mergeLabelsBody_pairwise]; exact hord2
    · exact mergeLabelsBody_gone_other _ m1 n o x
        (gone_with_table s _ x hg1 (tableFree_getNextMerge _ _ x hg1.2.1)) hxn

theorem mergeLoop_consistent (fuel : Nat) (st : Integrator C) (m : LLSet)
    (hc : CountsConsistent st.labels_count_map_ (allVoxels st.label_layer_))
    (r : Integrator C × LLSet) (h : mergeLabelsLoop fuel st m = .ok r) :
    CountsConsistent r.1.labels_count_map_ (allVoxels r.1.label_layer_) := by
  refine mergeLoop_rule
    (fun (s : Integrator C) (_ : LLSet) =>
      CountsConsistent s.labels_count_map_ (allVoxels s.label_layer_)) ?_ fuel st m hc r h
  intro s m1 n o hinv _
  rw [mergeLabelsBody_layer, mergeLabelsBody_counts]
  exact swapLabels_consistent _ o n hinv

/-- Every pair merged by the loop satisfies `new_label < old_label`, and its
`old_label` has left the integrator when the loop ends. -/
theorem mergedPairsLoop_gone :
    ∀ (fuel : Nat) (st : Integrator C) (m : LLSet),
      TableWF st.pairwise_confidence_ → PairOrdered st.pairwise_confidence_ →
      ∀ r, mergeLabelsLoop fuel st m = .ok r →
        ∀ p ∈ mergedPairsLoop fuel st m, p.1 < p.2 ∧ Gone r.1 p.2 := by
  intro fuel
  induction fuel with
  | zero =>
    intro st m _ _ r h
    simp only [mergeLabelsLoop] at h
    cases h
  | succ k ih =>
    intro st m hwf hord r h p hp
    unfold mergeLabelsLoop at h
    unfold mergedPairsLoop at hp
    cases hg : getNextMerge st.label_tsdf_config_.pairwise_confidence_count_threshold
        st.pairwise_confidence_ with
    | mk res pc1 =>
      rw [hg] at h hp
      cases res with
      | none =>
        simp only [] at hp
        cases hp
      | some q =>
        obtain ⟨n, o⟩ := q
        simp only [] at h hp
        have h1 : (getNextMerge st.label_tsdf_config_.pairwise_confidence_count_threshold
            st.pairwise_confidence_).1 = some (n, o) := by rw [hg]
        have h2 : (getNextMerge st.label_tsdf_config_.pairwise_confidence_count_threshold
            st.pairwise_confidence_).2 = pc1 := by rw [hg]
        obtain ⟨hlt, hwf2, hord2, _⟩ := mergeRound_table _ _ hwf hord n o h1
        rw [h2] at hwf2 hord2
        have hwf3 : TableWF (mergeLabelsBody { st with pairwise_confidence_ := pc1 } m n o).1.pairwise_confidence_ := by
          rw [mergeLabelsBody_pairwise]; exact hwf2
        have hord3 : PairOrdered (mergeLabelsBody { st with pairwise_confidence_ := pc1 } m n o).1.pairwise_confidence_ := by
          rw [mergeLabelsBody_pairwise]; exact hord2
        rcases List.mem_cons.mp hp with e | e
        · rw [e]
          refine ⟨hlt, ?_⟩
          exact mergeLoop_gone o k _ _ hwf3 hord3
            (mergeLabelsBody_gone_old _ m n o hlt) r h
        · exact ih _ _ hwf3 hord3 r h p e

theorem not_mem_keys_of_find_none {K V : Type} [DecidableEq K] {m : List (K × V)} {k : K}
    (h : StdMap.find m k = none) : k ∉ StdMap.keys m := by
  intro hk
  unfold StdMap.keys at hk
  obtain ⟨e, he, hek⟩ := List.mem_map.mp hk
  obtain ⟨v, hv⟩ := StdMap.find_isSome_of_mem he
  rw [hek, h] at hv
  cases hv

/-- A label that occurs in no voxel is not a key of a consistent voxel-count map. -/
theorem not_counted_of_gone (st : Integrator C) (x : Label) (hg : Gone st x)
    (hc : CountsConsistent st.labels_count_map_ (allVoxels st.label_layer_)) :
    x ∉ StdMap.keys st.labels_count_map_ := by
  apply not_mem_keys_of_find_none
  obtain ⟨_, hpos, hcnt⟩ := hc
  have hzero : voxelCount (allVoxels st.label_layer_) x = 0 := by
    unfold voxelCount
    rw [List.countP_eq_zero]
    intro v hv
    have := (hg.2.2.1 v hv).1
    simpa using this
  have h1 := hcnt x hg.1
  rw [hzero, storedCount_eq] at h1
  cases hf : StdMap.find st.labels_count_map_ x with
  | none => rfl
  | some c =>
    exfalso
    rw [hf] at h1
    have hp := hpos x c hf
    simp only [Option.getD_some, Nat.cast_zero] at h1
    omega

end MergedLabels

section MergeCount

set_option linter.unusedSectionVars false

variable {C : Type} [LinearOrderedAddCommMonoid C]

theorem mergedPairsLoop_length :
    ∀ (fuel : Nat) (st : Integrator C) (m : LLSet),
      TableWF st.pairwise_confidence_ → PairOrdered st.pairwise_confidence_ →
      (mergedPairsLoop fuel st m).length ≤ pairTotal st.pairwise_confidence_ := by
  intro fuel
  induction fuel with
  | zero => intro st m _ _; exact Nat.zero_le _
  | succ k ih =>
    intro st m hwf hord
    unfold mergedPairsLoop
    cases hg : getNextMerge st.label_tsdf_config_.pairwise_confidence_count_threshold
        st.pairwise_confidence_ with
    | mk res pc1 =>
      cases res with
      | none => exact Nat.zero_le _
      | some q =>
        obtain ⟨n, o⟩ := q
        simp only []
        have h1 : (getNextMerge st.label_tsdf_config_.pairwise_confidence_count_threshold
            st.pairwise_confidence_).1 = some (n, o) := by rw [hg]
        have h2 : (getNextMerge st.label_tsdf_config_.pairwise_confidence_count_threshold
            st.pairwise_confidence_).2 = pc1 := by rw [hg]
        obtain ⟨_, hwf2, hord2, hlt2⟩ := mergeRound_table _ _ hwf hord n o h1
        rw [h2] at hwf2 hord2 hlt2
        have h3 := ih (mergeLabelsBody { st with pairwise_confidence_ := pc1 } m n o).1
          (mergeLabelsBody { st with pairwise_confidence_ := pc1 } m n o).2
          (by rw [mergeLabelsBody_pairwise]; exact hwf2)
          (by rw [mergeLabelsBody_pairwise]; exact hord2)
        rw [mergeLabelsBody_pairwise] at h3
        have h4 : (mergedPairsLoop k
            (mergeLabelsBody { st with pairwise_confidence_ := pc1 } m n o).1
            (mergeLabelsBody { st with pairwise_confidence_ := pc1 } m n o).2).length ≤
            pairTotal (adjustPairwiseConfidenceAfterMerging pc1 n o) := h3
        simp only [List.length_cons]
        omega

end MergeCount

/-! ## `mergeLabels`: merged labels leave the bookkeeping; termination -/

/-- C11: on a pairwise table that satisfies the ordering invariant and a
voxel-count map that is consistent with the store, `mergeLabels` returns
(within one round per stored pair), and when it returns, every label `old`
that the call merged into a label `new` is different from `new`, is not a key
of the voxel-count map, not a key of the age map `labels_to_publish_` and not
a member of `updated_labels_`, however many merges the call made. -/
theorem mergeLabels_drops_merged_labels {C : Type} [LinearOrderedAddCommMonoid C]
    (st : Integrator C) (merges_to_publish : LLSet)
    (hwf : TableWF st.pairwise_confidence_) (hord : PairOrdered st.pairwise_confidence_)
    (hcons : CountsConsistent st.labels_count_map_ (allVoxels st.label_layer_)) :
    (∀ fuel, pairTotal st.pairwise_confidence_ < fuel →
      ∃ r, mergeLabels fuel st merges_to_publish = .ok r) ∧
    ∀ fuel r, mergeLabels fuel st merges_to_publish = .ok r →
      ∀ p ∈ mergedPairs fuel st merges_to_publish,
        p.1 ≠ p.2 ∧ p.2 ∉ StdMap.keys r.1.labels_count_map_ ∧
          p.2 ∉ StdMap.keys r.1.labels_to_publish_ ∧ p.2 ∉ r.1.updated_labels_ := by
  refine ⟨?_, ?_⟩
  · intro fuel hfuel
    unfold mergeLabels
    by_cases he : st.label_tsdf_config_.enable_pairwise_confidence_merging = true
    · rw [if_pos he]
      exact mergeLoop_returns fuel st merges_to_publish hwf hord hfuel
    · rw [if_neg he]
      exact ⟨_, rfl⟩
  · intro fuel r h p hp
    unfold mergeLabels at h
    unfold mergedPairs at hp
    by_cases he : st.label_tsdf_config_.enable_pairwise_confidence_merging = true
    · rw [if_pos he] at h hp
      obtain ⟨hlt, hg⟩ := mergedPairsLoop_gone fuel st merges_to_publish hwf hord r h p hp
      have hc := mergeLoop_consistent fuel st merges_to_publish hcons r h
      exact ⟨Nat.ne_of_lt hlt, not_counted_of_gone r.1 p.2 hg hc,
        not_mem_keys_of_find_none hg.2.2.2.2, hg.2.2.2.1⟩
    · rw [if_neg he] at hp
      cases hp

theorem mergeLabels_drops_merged_labels_witness :
    mergedPairs 3 integratorScenarioC [] = [(3, 5), (3, 7)] ∧
    bookkeepingAfter (mergeLabels 3 integratorScenarioC []) = some ([3], [], [3]) ∧
    ∃ r, mergeLabels 3 integratorScenarioC [] = .ok r ∧
      ∀ p ∈ mergedPairs 3 integratorScenarioC [],
        p.1 ≠ p.2 ∧ p.2 ∉ StdMap.keys r.1.labels_count_map_ ∧
          p.2 ∉ StdMap.keys r.1.labels_to_publish_ ∧ p.2 ∉ r.1.updated_labels_ := by
  have h := mergeLabels_drops_merged_labels integratorScenarioC [] (by decide)
    (pairOrdered_of_forall_mem _ (by decide))
    (countsConsistent_of_check _ _ (by decide) (by decide) (by decide))
  obtain ⟨r, hr⟩ := h.1 3 (by decide)
  exact ⟨by decide, by decide, r, hr, h.2 3 r hr⟩

/-- C14: on a pairwise table that satisfies the ordering invariant, a round of
the loop of `mergeLabels` strictly decreases the number of stored pairs
(`getNextMerge` removes a pair, `adjustPairwiseConfidenceAfterMerging` adds
none) and keeps the invariant, so the loop merges at most as many pairs as
are stored at the call, and `mergeLabels` returns within one evaluation of
the loop condition per stored pair and one more. -/
theorem mergeLabels_terminates {C : Type} [LinearOrderedAddCommMonoid C]
    (st : Integrator C) (merges_to_publish : LLSet)
    (hwf : TableWF st.pairwise_confidence_) (hord : PairOrdered st.pairwise_confidence_) :
    (∀ new_label old_label,
      (getNextMerge st.label_tsdf_config_.pairwise_confidence_count_threshold
        st.pairwise_confidence_).1 = some (new_label, old_label) →
      pairTotal (getNextMerge st.label_tsdf_config_.pairwise_confidence_count_threshold
          st.pairwise_confidence_).2 < pairTotal st.pairwise_confidence_ ∧
      pairTotal (adjustPairwiseConfidenceAfterMerging
          (getNextMerge st.label_tsdf_config_.pairwise_confidence_count_threshold
            st.pairwise_confidence_).2 new_label old_label) ≤
        pairTotal (getNextMerge st.label_tsdf_config_.pairwise_confidence_count_threshold
          st.pairwise_confidence_).2 ∧
      TableWF (mergeLabelsBody { st with pairwise_confidence_ :=
          (getNextMerge st.label_tsdf_config_.pairwise_confidence_count_threshold
            st.pairwise_confidence_).2 } merges_to_publish new_label old_label).1.pairwise_confidence_ ∧
      PairOrdered (mergeLabelsBody { st with pairwise_confidence_ :=
          (getNextMerge st.label_tsdf_config_.pairwise_confidence_count_threshold
            st.pairwise_confidence_).2 } merges_to_publish new_label old_label).1.pairwise_confidence_ ∧
      pairTotal (mergeLabelsBody { st with pairwise_confidence_ :=
          (getNextMerge st.label_tsdf_config_.pairwise_confidence_count_threshold
            st.pairwise_confidence_).2 } merges_to_publish new_label old_label).1.pairwise_confidence_
        < pairTotal st.pairwise_confidence_) ∧
    (∀ fuel, (mergedPairs fuel st merges_to_publish).length ≤
      pairTotal st.pairwise_confidence_) ∧
    ∃ r, mergeLabels (pairTotal st.pairwise_confidence_ + 1) st merges_to_publish = .ok r := by
  refine ⟨?_, ?_, ?_⟩
  · intro n o hpop
    obtain ⟨hlt, hwf2, hord2, hlt2⟩ := mergeRound_table _ _ hwf hord n o hpop
    refine ⟨pairTotal_getNextMerge_lt _ _ (n, o) hpop,
      pairTotal_adjust_le _ (tableWF_getNextMerge _ _ hwf) n o (Nat.ne_of_lt hlt), ?_, ?_, ?_⟩
    · rw [mergeLabelsBody_pairwise]; exact hwf2
    · rw [mergeLabelsBody_pairwise]; exact hord2
    · rw [mergeLabelsBody_pairwise]; exact hlt2
  · intro fuel
    unfold mergedPairs
    by_cases he : st.label_tsdf_config_.enable_pairwise_confidence_merging = true
    · rw [if_pos he]
      exact mergedPairsLoop_length fuel st merges_to_publish hwf hord
    · rw [if_neg he]
      exact Nat.zero_le _
  · unfold mergeLabels
    by_cases he : st.label_tsdf_config_.enable_pairwise_confidence_merging = true
    · rw [if_pos he]
      exact mergeLoop_returns _ st merges_to_publish hwf hord (Nat.lt_succ_self _)
    · rw [if_neg he]
      exact ⟨_, rfl⟩

theorem mergeLabels_terminates_witness :
    pairTotal integratorScenarioC.pairwise_confidence_ = 2 ∧
    ∃ r, mergeLabels (pairTotal integratorScenarioC.pairwise_confidence_ + 1)
      integratorScenarioC [] = .ok r :=
  ⟨by decide, (mergeLabels_terminates integratorScenarioC [] (by decide)
    (pairOrdered_of_forall_mem _ (by decide))).2.2⟩

section FusionLemmas

set_option linter.unusedSectionVars false

variable {C : Type} [LinearOrderedAddCommMonoid C]

/-! ## Voxel well-formedness under the fusion operations -/

theorem updateVoxel_fold_max (p : Label) (l : List (LabelCount C)) :
    ∀ acc : Label × C,
      acc.2 ≤ (l.foldl (updateVoxelStep p) acc).2 ∧
      (∀ e ∈ l, e.label_confidence ≤ (l.foldl (updateVoxelStep p) acc).2) ∧
      (l.foldl (updateVoxelStep p) acc = acc ∨
        ∃ e ∈ l, (e.label, e.label_confidence) = l.foldl (updateVoxelStep p) acc) := by
  induction l with
  | nil => intro acc; exact ⟨le_refl _, fun e he => absurd he (List.not_mem_nil e), Or.inl rfl⟩
  | cons x t ih =>
    intro acc
    simp only [List.foldl_cons]
    obtain ⟨h1, h2, h3⟩ := ih (updateVoxelStep p acc x)
    have hstep : acc.2 ≤ (updateVoxelStep p acc x).2 ∧
        x.label_confidence ≤ (updateVoxelStep p acc x).2 ∧
        (updateVoxelStep p acc x = acc ∨
          updateVoxelStep p acc x = (x.label, x.label_confidence)) := by
      unfold updateVoxelStep
      by_cases hc : x.label_confidence > acc.2 ∨
          (x.label = p ∧ p ≠ 0 ∧ x.label_confidence = acc.2)
      · rw [if_pos hc]
        refine ⟨?_, le_refl _, Or.inr rfl⟩
        rcases hc with hgt | ⟨_, _, heq⟩
        · exact le_of_lt hgt
        · exact le_of_eq heq.symm
      · rw [if_neg hc]
        refine ⟨le_refl _, ?_, Or.inl rfl⟩
        exact not_lt.mp (fun hgt => hc (Or.inl hgt))
    obtain ⟨s1, s2, s3⟩ := hstep
    refine ⟨le_trans s1 h1, ?_, ?_⟩
    · intro e he
      rcases List.mem_cons.mp he with e1 | e1
      · rw [e1]; exact le_trans s2 h1
      · exact h2 e e1
    · rcases h3 with e1 | ⟨e, he, e1⟩
      · rcases s3 with e2 | e2
        · exact Or.inl (e1.trans e2)
        · exact Or.inr ⟨x, List.mem_cons_self _ _, by rw [e1, e2]⟩
      · exact Or.inr ⟨e, List.mem_cons_of_mem _ he, e1⟩

/-- After `updateVoxelLabelAndConfidence` the cached confidence bounds every
entry, and the cached pair is an entry or `(0, 0)`. -/
theorem updateVoxel_cached (voxel : LabelVoxel C) (p : Label) :
    CachedMaxOrZero (updateVoxelLabelAndConfidence voxel p) := by
  obtain ⟨_, h2, h3⟩ := updateVoxel_fold_max p voxel.label_count (0, 0)
  refine ⟨h2, ?_⟩
  rcases h3 with e | ⟨e, he, heq⟩
  · right
    show (voxel.label_count.foldl (updateVoxelStep p) (0, 0)).1 = 0 ∧
      (voxel.label_count.foldl (updateVoxelStep p) (0, 0)).2 = 0
    rw [e]; exact ⟨rfl, rfl⟩
  · left
    refine ⟨e, he, ?_, ?_⟩
    · show e.label = (voxel.label_count.foldl (updateVoxelStep p) (0, 0)).1
      rw [← heq]
    · show e.label_confidence = (voxel.label_count.foldl (updateVoxelStep p) (0, 0)).2
      rw [← heq]

/-- When in addition the array is not empty, the confidences are non-negative
and every entry with confidence 0 is an unused slot, the cached pair is an
entry of maximal confidence. -/
theorem updateVoxel_cachedBest (voxel : LabelVoxel C) (p : Label)
    (hne : voxel.label_count ≠ []) (hnn : ConfidencesNonneg voxel) (hz : ZeroIsUnused voxel) :
    CachedBest (updateVoxelLabelAndConfidence voxel p) := by
  obtain ⟨hmax, hor⟩ := updateVoxel_cached voxel p
  rcases hor with ⟨e, he, h1, h2⟩ | ⟨h1, h2⟩
  · refine ⟨e, he, h1, h2, ?_⟩
    intro e' he'
    rw [h2]; exact hmax e' he'
  · obtain ⟨x, hx⟩ := List.exists_mem_of_ne_nil _ hne
    have hx0 : x.label_confidence = 0 := by
      apply le_antisymm
      · have := hmax x hx
        rw [h2] at this
        exact this
      · exact hnn x hx
    refine ⟨x, hx, ?_, ?_, ?_⟩
    · rw [h1]; exact hz x hx hx0
    · rw [h2]; exact hx0
    · intro e' he'
      rw [hx0]
      have := hmax e' he'
      rw [h2] at this
      exact this

theorem addToUnused_mem (label : Label) (confidence : C) (l : List (LabelCount C)) :
    ∀ l2, addToUnused label confidence l = some l2 →
      l2.length = l.length ∧
        ∀ y ∈ l2, y ∈ l ∨ y = { label := label, label_confidence := confidence } := by
  induction l with
  | nil => intro l2 h; cases h
  | cons x t ih =>
    intro l2 h
    unfold addToUnused at h
    by_cases hx : x.label = 0
    · rw [if_pos hx] at h
      injection h with h
      rw [← h]
      refine ⟨rfl, ?_⟩
      intro y hy
      rcases List.mem_cons.mp hy with e | e
      · exact Or.inr e
      · exact Or.inl (List.mem_cons_of_mem _ e)
    · rw [if_neg hx] at h
      cases hr : addToUnused label confidence t with
      | none => rw [hr] at h; cases h
      | some r =>
        rw [hr] at h
        simp only [Option.map_some'] at h
        injection h with h
        obtain ⟨h1, h2⟩ := ih r hr
        rw [← h]
        refine ⟨by simp only [List.length_cons]; rw [h1], ?_⟩
        intro y hy
        rcases List.mem_cons.mp hy with e | e
        · exact Or.inl (by rw [e]; exact List.mem_cons_self _ _)
        · rcases h2 y e with e2 | e2
          · exact Or.inl (List.mem_cons_of_mem _ e2)
          · exact Or.inr e2

theorem addToObserved_length (label : Label) (confidence : C) (l : List (LabelCount C)) :
    ∀ l2, addToObserved label confidence l = some l2 → l2.length = l.length := by
  induction l with
  | nil => intro l2 h; cases h
  | cons x t ih =>
    intro l2 h
    unfold addToObserved at h
    by_cases hx : x.label = label
    · rw [if_pos hx] at h
      injection h with h
      rw [← h]; rfl
    · rw [if_neg hx] at h
      cases hr : addToObserved label confidence t with
      | none => rw [hr] at h; cases h
      | some r =>
        rw [hr] at h
        simp only [Option.map_some'] at h
        injection h with h
        rw [← h]
        simp only [List.length_cons]
        rw [ih r hr]

/-- The entries after `addVoxelLabelConfidence`: the array keeps its length,
and an entry is an old entry, or the added label with the confidence added to
that of an old entry, or the added label with the added confidence. -/
theorem addVoxelLabelConfidence_entries (label : Label) (confidence : C)
    (voxel : LabelVoxel C) :
    (addVoxelLabelConfidence label confidence voxel).label_count.length
        = voxel.label_count.length ∧
      ∀ y ∈ (addVoxelLabelConfidence label confidence voxel).label_count,
        y ∈ voxel.label_count ∨
        (∃ x ∈ voxel.label_count,
          y = { label := label, label_confidence := x.label_confidence + confidence }) ∨
        y = { label := label, label_confidence := confidence } := by
  unfold addVoxelLabelConfidence
  cases h1 : addToObserved label confidence voxel.label_count with
  | some entries =>
    simp only []
    refine ⟨addToObserved_length label confidence _ entries h1, ?_⟩
    obtain ⟨x, hx, _, _, hall⟩ := addToObserved_spec label confidence _ entries h1
    intro y hy
    rcases hall y hy with e | e
    · exact Or.inl e
    · exact Or.inr (Or.inl ⟨x, hx, e⟩)
  | none =>
    simp only []
    cases h2 : addToUnused label confidence voxel.label_count with
    | some entries =>
      simp only []
      obtain ⟨hl, hall⟩ := addToUnused_mem label confidence _ entries h2
      refine ⟨hl, ?_⟩
      intro y hy
      rcases hall y hy with e | e
      · exact Or.inl e
      · exact Or.inr (Or.inr e)
    | none =>
      exact ⟨rfl, fun y hy => Or.inl hy⟩

theorem addVoxelLabelConfidence_nonneg (label : Label) (confidence : C) (voxel : LabelVoxel C)
    (hc : 0 ≤ confidence) (h : ConfidencesNonneg voxel) :
    ConfidencesNonneg (addVoxelLabelConfidence label confidence voxel) := by
  intro y hy
  rcases (addVoxelLabelConfidence_entries label confidence voxel).2 y hy with
    e | ⟨x, hx, e⟩ | e
  · exact h y e
  · rw [e]; exact add_nonneg (h x hx) hc
  · rw [e]; exact hc

theorem addVoxelLabelConfidence_zeroIsUnused (label : Label) (confidence : C)
    (voxel : LabelVoxel C) (hc : 0 < confidence) (h : ConfidencesNonneg voxel)
    (hz : ZeroIsUnused voxel) :
    ZeroIsUnused (addVoxelLabelConfidence label confidence voxel) := by
  intro y hy hy0
  rcases (addVoxelLabelConfidence_entries label confidence voxel).2 y hy with
    e | ⟨x, hx, e⟩ | e
  · exact hz y e hy0
  · exfalso
    rw [e] at hy0
    have hle : 0 + confidence ≤ x.label_confidence + confidence :=
      add_le_add_right (h x hx) confidence
    rw [zero_add] at hle
    have hpos : 0 < x.label_confidence + confidence := lt_of_lt_of_le hc hle
    simp only at hy0
    rw [hy0] at hpos
    exact lt_irrefl _ hpos
  · exfalso
    rw [e] at hy0
    simp only at hy0
    rw [hy0] at hc
    exact lt_irrefl _ hc

theorem addVoxelLabelConfidence_ne_nil (label : Label) (confidence : C) (voxel : LabelVoxel C)
    (h : voxel.label_count ≠ []) :
    (addVoxelLabelConfidence label confidence voxel).label_count ≠ [] := by
  intro e
  have h1 := (addVoxelLabelConfidence_entries label confidence voxel).1
  rw [e] at h1
  exact h (List.length_eq_zero.mp h1.symm)

theorem clearOldLabel_length (old_label : Label) (l : List (LabelCount C)) :
    ∀ acc : C, (clearOldLabel old_label acc l).2.length = l.length := by
  induction l with
  | nil => intro acc; rfl
  | cons x t ih =>
    intro acc
    unfold clearOldLabel
    by_cases hx : x.label = old_label
    · rw [if_pos hx]
      simp only [List.length_cons]
      rw [ih]
    · rw [if_neg hx]
      simp only [List.length_cons]
      rw [ih]

/-- The entries of a voxel rewritten by `swapLabels`. -/
theorem swapVoxel_entries (old_label new_label : Label) (voxel : LabelVoxel C)
    (hnn : ConfidencesNonneg voxel) :
    ConfidencesNonneg (swapVoxel old_label new_label voxel) ∧
      (voxel.label_count ≠ [] → (swapVoxel old_label new_label voxel).label_count ≠ []) ∧
      (ZeroIsUnused voxel → ZeroIsUnused (swapVoxel old_label new_label voxel)) := by
  -- the voxel after the entries of `old_label` have been cleared
  have hnn1 : ConfidencesNonneg
      ({ voxel with label_count := (clearOldLabel old_label 0 voxel.label_count).2 } :
        LabelVoxel C) := by
    intro y hy
    rcases clearOldLabel_mem old_label voxel.label_count 0 y hy with e | e
    · exact hnn y e
    · rw [e]
  have hz1 : ZeroIsUnused voxel → ZeroIsUnused
      ({ voxel with label_count := (clearOldLabel old_label 0 voxel.label_count).2 } :
        LabelVoxel C) := by
    intro hz y hy hy0
    rcases clearOldLabel_mem old_label voxel.label_count 0 y hy with e | e
    · exact hz y e hy0
    · rw [e]
  have hne1 : voxel.label_count ≠ [] →
      (clearOldLabel old_label 0 voxel.label_count).2 ≠ [] := by
    intro h e
    have h1 := clearOldLabel_length old_label voxel.label_count 0
    rw [e] at h1
    exact h (List.length_eq_zero.mp h1.symm)
  have hc0 := clearOldLabel_nonneg old_label voxel.label_count 0 (le_refl _) hnn
  unfold swapVoxel
  simp only []
  by_cases hpos : (clearOldLabel old_label 0 voxel.label_count).1 > 0
  · rw [if_pos hpos]
    refine ⟨?_, ?_, ?_⟩
    · exact addVoxelLabelConfidence_nonneg new_label _ _ hc0 hnn1
    · intro h
      exact addVoxelLabelConfidence_ne_nil new_label _ _ (hne1 h)
    · intro hz
      exact addVoxelLabelConfidence_zeroIsUnused new_label _ _ hpos hnn1 (hz1 hz)
  · rw [if_neg hpos]
    exact ⟨hnn1, hne1, hz1⟩

theorem swapVoxel_eq_update (old_label new_label : Label) (voxel : LabelVoxel C) :
    ∃ v2 : LabelVoxel C, swapVoxel old_label new_label voxel =
      updateVoxelLabelAndConfidence v2 new_label := by
  unfold swapVoxel
  exact ⟨_, rfl⟩

end FusionLemmas

section FusionStore

set_option linter.unusedSectionVars false

variable {C : Type} [LinearOrderedAddCommMonoid C]

theorem updateLabelVoxel_voxel (st : Integrator C) (label : Label) (voxel : LabelVoxel C)
    (confidence : C) :
    (updateLabelVoxel st label voxel confidence).2 =
      updateVoxelLabelAndConfidence (addVoxelLabelConfidence label confidence voxel) label := by
  unfold updateLabelVoxel
  simp only []
  split <;> rfl

theorem mem_allVoxels {layer : Layer C} {v : LabelVoxel C} :
    v ∈ allVoxels layer ↔ ∃ b ∈ layer, v ∈ b.2.voxels := by
  induction layer with
  | nil => simp [allVoxels]
  | cons b t ih =>
    unfold allVoxels
    rw [List.mem_append, ih]
    constructor
    · rintro (h | ⟨b2, hb2, h⟩)
      · exact ⟨b, List.mem_cons_self _ _, h⟩
      · exact ⟨b2, List.mem_cons_of_mem _ hb2, h⟩
    · rintro ⟨b2, hb2, h⟩
      rcases List.mem_cons.mp hb2 with e | e
      · left; rw [← e]; exact h
      · right; exact ⟨b2, e, h⟩

theorem voxelAtPos_mem {layer : Layer C} {i j : Nat} {v : LabelVoxel C}
    (h : voxelAtPos layer i j = some v) : v ∈ allVoxels layer := by
  unfold voxelAtPos at h
  cases hb : layer[i]? with
  | none => rw [hb] at h; cases h
  | some block =>
    rw [hb] at h
    simp only [] at h
    exact mem_allVoxels.mpr ⟨block, List.getElem?_mem hb, List.getElem?_mem h⟩

theorem mem_allVoxels_setVoxelAt {layer : Layer C} {i j : Nat} {w v : LabelVoxel C}
    (h : v ∈ allVoxels (setVoxelAt layer i j w)) : v ∈ allVoxels layer ∨ v = w := by
  unfold setVoxelAt at h
  cases hb : layer[i]? with
  | none => rw [hb] at h; exact Or.inl h
  | some block =>
    rw [hb] at h
    simp only [] at h
    obtain ⟨b, hbm, hv⟩ := mem_allVoxels.mp h
    rcases List.mem_or_eq_of_mem_set hbm with e | e
    · exact Or.inl (mem_allVoxels.mpr ⟨b, e, hv⟩)
    · rw [e] at hv
      rcases List.mem_or_eq_of_mem_set hv with e2 | e2
      · exact Or.inl (mem_allVoxels.mpr ⟨block, List.getElem?_mem hb, e2⟩)
      · exact Or.inr e2

theorem updateLabelVoxelAt_voxels (st : Integrator C) (i j : Nat) (label : Label)
    (confidence : C) (v : LabelVoxel C)
    (h : v ∈ allVoxels (updateLabelVoxelAt st i j label confidence).label_layer_) :
    v ∈ allVoxels st.label_layer_ ∨
      ∃ v0 ∈ allVoxels st.label_layer_,
        v = updateVoxelLabelAndConfidence (addVoxelLabelConfidence label confidence v0) label := by
  unfold updateLabelVoxelAt at h
  cases hv : voxelAtPos st.label_layer_ i j with
  | none => rw [hv] at h; exact Or.inl h
  | some v0 =>
    rw [hv] at h
    simp only [] at h
    rcases mem_allVoxels_setVoxelAt h with e | e
    · exact Or.inl e
    · exact Or.inr ⟨v0, voxelAtPos_mem hv, by rw [e, updateLabelVoxel_voxel]⟩

/-- A property of voxels that every admitted `updateLabelVoxel` and every
`swapLabels` keeps holds for all voxels after a sequence of operations. -/
theorem applyOps_voxels (P : LabelVoxel C → Prop) (Q : FusionOp C → Prop)
    (hupd : ∀ i j label confidence v, Q (.update i j label confidence) → P v →
      P (updateVoxelLabelAndConfidence (addVoxelLabelConfidence label confidence v) label))
    (hswap : ∀ old_label new_label v, P v → P (swapVoxel old_label new_label v))
    (ops : List (FusionOp C)) :
    ∀ st : Integrator C, (∀ op ∈ ops, Q op) → (∀ v ∈ allVoxels st.label_layer_, P v) →
      ∀ v ∈ allVoxels (applyOps st ops).label_layer_, P v := by
  induction ops with
  | nil => intro st _ h; exact h
  | cons op t ih =>
    intro st hq h
    unfold applyOps
    simp only [List.foldl_cons]
    apply ih (applyOp st op) (fun o ho => hq o (List.mem_cons_of_mem _ ho))
    intro v hv
    cases op with
    | update i j label confidence =>
      rcases updateLabelVoxelAt_voxels st i j label confidence v hv with e | ⟨v0, hv0, e⟩
      · exact h v e
      · rw [e]
        exact hupd i j label confidence v0 (hq _ (List.mem_cons_self _ _)) (h v0 hv0)
    | swap old_label new_label =>
      have hv2 : v ∈ allVoxels (swapLabels st old_label new_label).label_layer_ := hv
      rw [allVoxels_swapLabels] at hv2
      obtain ⟨v0, hv0, e⟩ := List.mem_map.mp hv2
      rw [← e]
      exact hswap old_label new_label v0 (h v0 hv0)

end FusionStore

/-! ## Voxel well-formedness as an invariant of the fusion operations -/

/-- C12 as stated fails: on a store with one all-zero voxel that has room for
two labels, three calls of `updateLabelVoxel` with confidence 0 for the labels
5, 6 and 7 leave the entries `(5, 0)` and `(6, 0)` and the cached pair
`(0, 0)`, which is not the label and confidence of an entry. -/
theorem fusion_zero_confidence_breaks_cached_best :
    (∀ v ∈ allVoxels integratorZeroVoxel.label_layer_, AllZero v) ∧
    (∀ op ∈ zeroConfidenceUpdates, OpNonneg op) ∧
    voxelAtPos (applyOps integratorZeroVoxel zeroConfidenceUpdates).label_layer_ 0 0 =
      some { label := 0, label_confidence := 0, label_count := [⟨5, 0⟩, ⟨6, 0⟩] } ∧
    ¬ CachedBest
      ({ label := 0, label_confidence := 0, label_count := [⟨5, 0⟩, ⟨6, 0⟩] } :
        LabelVoxel Int) := by
  decide

/-- C12, amended: starting from all-zero voxels, after any sequence of
`updateLabelVoxel` calls with confidence at least 0 and `swapLabels` calls,
every stored confidence of every voxel is non-negative, the cached confidence
is the maximum over the entries of the voxel, and the cached pair is the label
and confidence of an entry or it is `(0, 0)`; when the confidences of the
`updateLabelVoxel` calls are positive, the cached pair is the label and
confidence of an entry of maximal confidence. -/
theorem fusion_keeps_voxels_well_formed {C : Type} [LinearOrderedAddCommMonoid C]
    (st0 : Integrator C) (ops : List (FusionOp C))
    (hzero : ∀ v ∈ allVoxels st0.label_layer_, AllZero v) :
    ((∀ op ∈ ops, OpNonneg op) →
      ∀ v ∈ allVoxels (applyOps st0 ops).label_layer_,
        ConfidencesNonneg v ∧ CachedMaxOrZero v) ∧
    ((∀ op ∈ ops, OpPositive op) →
      ∀ v ∈ allVoxels (applyOps st0 ops).label_layer_,
        ConfidencesNonneg v ∧ CachedBest v) := by
  refine ⟨?_, ?_⟩
  · intro hq
    refine applyOps_voxels (fun v => ConfidencesNonneg v ∧ CachedMaxOrZero v) OpNonneg
      ?_ ?_ ops st0 hq ?_
    · intro i j label confidence v hc hv
      exact ⟨addVoxelLabelConfidence_nonneg label confidence v hc hv.1,
        updateVoxel_cached _ label⟩
    · intro old_label new_label v hv
      refine ⟨(swapVoxel_entries old_label new_label v hv.1).1, ?_⟩
      obtain ⟨v2, e⟩ := swapVoxel_eq_update old_label new_label v
      rw [e]
      exact updateVoxel_cached v2 new_label
    · intro v hv
      obtain ⟨h1, h2, h3, h4⟩ := hzero v hv
      refine ⟨fun e he => le_of_eq (h4 e he).2.symm, ?_, Or.inr ⟨h1, h2⟩⟩
      intro e he
      rw [h2]; exact le_of_eq (h4 e he).2
  · intro hq
    have key := applyOps_voxels
      (fun v => ConfidencesNonneg v ∧ v.label_count ≠ [] ∧ ZeroIsUnused v ∧ CachedBest v)
      OpPositive ?_ ?_ ops st0 hq ?_
    · intro v hv
      exact ⟨(key v hv).1, (key v hv).2.2.2⟩
    · intro i j label confidence v hc hv
      have hc0 : 0 ≤ confidence := le_of_lt hc
      have h1 := addVoxelLabelConfidence_nonneg label confidence v hc0 hv.1
      have h2 := addVoxelLabelConfidence_ne_nil label confidence v hv.2.1
      have h3 := addVoxelLabelConfidence_zeroIsUnused label confidence v hc hv.1 hv.2.2.1
      exact ⟨h1, h2, h3, updateVoxel_cachedBest _ label h2 h1 h3⟩
    · intro old_label new_label v hv
      obtain ⟨h1, h2, h3⟩ := swapVoxel_entries old_label new_label v hv.1
      refine ⟨h1, h2 hv.2.1, h3 hv.2.2.1, ?_⟩
      exact updateVoxel_cachedBest _ new_label (h2 hv.2.1) h1 (h3 hv.2.2.1)
    · intro v hv
      obtain ⟨h1, h2, h3, h4⟩ := hzero v hv
      refine ⟨fun e he => le_of_eq (h4 e he).2.symm, h3, fun e he _ => (h4 e he).1, ?_⟩
      obtain ⟨x, hx⟩ := List.exists_mem_of_ne_nil _ h3
      refine ⟨x, hx, by rw [h1]; exact (h4 x hx).1, by rw [h2]; exact (h4 x hx).2, ?_⟩
      intro e he
      rw [(h4 x hx).2]; exact le_of_eq (h4 e he).2

theorem fusion_keeps_voxels_well_formed_witness :
    (∀ op ∈ positiveUpdates, OpPositive op) ∧
    voxelAtPos (applyOps integratorZeroVoxel positiveUpdates).label_layer_ 0 0 =
      some { label := 3, label_confidence := 3, label_count := [⟨0, 0⟩, ⟨3, 3⟩] } ∧
    ∀ v ∈ allVoxels (applyOps integratorZeroVoxel positiveUpdates).label_layer_,
      ConfidencesNonneg v ∧ CachedBest v :=
  ⟨by decide, by decide,
    (fusion_keeps_voxels_well_formed integratorZeroVoxel positiveUpdates (by decide)).2
      (by decide)⟩

section ScenarioALemmas

set_option linter.unusedSectionVars false

variable {C : Type} [LinearOrderedAddCommMonoid C]

/-! ## Scenario A: a segment without candidate labels -/

theorem scanPoint_unlabelled (st : Integrator C) (segment : SegmentPtr) (n : Nat)
    (acc : PointScan) (point : Point) (h : LandsUnlabelled st.label_layer_ point) :
    scanPoint st segment n [] acc point = acc := by
  unfold LandsUnlabelled at h
  unfold scanPoint
  cases hv : voxelAt st.label_layer_ point with
  | none => rfl
  | some voxel =>
    rw [hv] at h
    simp only [Option.map_some', Option.getD_some] at h
    simp only []
    have hl : getNextUnassignedLabel voxel [] = 0 := by
      unfold getNextUnassignedLabel
      rw [if_neg (List.not_mem_nil _)]
      exact h
    rw [hl]
    rw [if_neg (fun hc => hc.1 rfl)]

theorem scanPoints_unlabelled (st : Integrator C) (segment : SegmentPtr) (n : Nat)
    (points : List Point) (h : ∀ point ∈ points, LandsUnlabelled st.label_layer_ point) :
    ∀ acc : PointScan, points.foldl (scanPoint st segment n []) acc = acc := by
  induction points with
  | nil => intro acc; rfl
  | cons p t ih =>
    intro acc
    simp only [List.foldl_cons]
    rw [scanPoint_unlabelled st segment n acc p (h p (List.mem_cons_self _ _))]
    exact ih (fun q hq => h q (List.mem_cons_of_mem _ hq)) acc

/-- For a segment without candidate labels `computeSegmentLabelCandidates`
issues one fresh label and enters the segment under it with all its points. -/
theorem compute_unlabelled (st : Integrator C) (heap : Heap) (segment : SegmentPtr)
    (hpoints : ∀ point ∈ (heap segment).points_C_, LandsUnlabelled st.label_layer_ point)
    (hlabel : st.highest_label_ < UINT_MAX) :
    ∃ smc, computeSegmentLabelCandidates heap segment
        { st := st, candidates := [], segment_merge_candidates := [] } =
      .ok { st := { st with highest_label_ := st.highest_label_ + 1 },
            candidates := [(st.highest_label_ + 1, [(segment, (heap segment).points_C_.length)])],
            segment_merge_candidates := smc } := by
  unfold computeSegmentLabelCandidates
  simp only []
  rw [scanPoints_unlabelled st segment _ _ hpoints]
  simp only [Bool.false_eq_true, if_false]
  unfold getFreshLabel
  rw [if_pos hlabel]
  exact ⟨_, rfl⟩

theorem getNext_empty (heap : Heap) (labelled : List SegmentPtr) (assigned : LSet)
    (cs : CandidateState C) (h : cs.candidates = []) :
    getNextSegmentLabelPair heap labelled assigned cs = .ok (none, assigned, cs) := by
  unfold getNextSegmentLabelPair
  simp only []
  rw [h]
  rfl

theorem getNext_single (heap : Heap) (cs : CandidateState C) (label : Label)
    (segment : SegmentPtr) (n : Nat) (h : cs.candidates = [(label, [(segment, n)])])
    (hn : cs.st.label_tsdf_config_.min_label_voxel_count < n) :
    getNextSegmentLabelPair heap [] [] cs = .ok (some (segment, label), [label], cs) := by
  have hsel : selectMax cs.st.label_tsdf_config_.min_label_voxel_count [] cs.candidates =
      { max_label := label, max_count := n, max_segment := segment,
        segments_to_recompute := [(segment, n)] } := by
    rw [h]
    unfold selectMax
    simp only [List.foldl_cons, List.foldl_nil]
    unfold selectStep
    rw [if_pos ⟨by show n > 0; omega, hn, List.not_mem_nil _⟩]
  unfold getNextSegmentLabelPair
  simp only []
  rw [hsel]
  simp only []
  rw [if_neg (by omega)]
  have hrec : recomputeSegments heap label segment (StdSet.put [] label) cs [(segment, n)]
      = .ok cs := by
    unfold recomputeSegments
    rw [if_neg (fun hc => hc rfl)]
    rfl
  rw [hrec]
  rfl

theorem labelRemaining_labelled (r : Resolution C) (segment : SegmentPtr)
    (h : segment ∈ r.labelled_segments) : labelRemaining r [segment] = .ok r := by
  unfold labelRemaining
  rw [if_neg (fun hc => hc h)]
  rfl

theorem instanceStep_highest_label {heap : Heap} {acc acc1 : Integrator C × List SemanticLabel}
    {segment : SegmentPtr} (h : instanceStep heap acc segment = .ok acc1) :
    acc1.1.highest_label_ = acc.1.highest_label_ := by
  unfold instanceStep at h
  cases hl : (heap segment).labels_ with
  | nil => rw [hl] at h; cases h
  | cons label rest =>
    rw [hl] at h
    simp only [] at h
    have hfr : (if (heap segment).points_C_.length > 0 then increaseLabelFramesCount acc.1 label
        else acc.1).highest_label_ = acc.1.highest_label_ := by
      by_cases hp : (heap segment).points_C_.length > 0
      · rw [if_pos hp]
        unfold increaseLabelFramesCount
        cases StdMap.find acc.1.label_frames_count_ label <;> rfl
      · rw [if_neg hp]
    generalize (if (heap segment).points_C_.length > 0 then increaseLabelFramesCount acc.1 label
      else acc.1) = st1 at hfr h
    by_cases hi : (heap segment).instance_ ≠ 0
    · rw [if_pos hi] at h
      cases hm : StdMap.find st1.current_to_global_instance_map_ (heap segment).instance_ with
      | some g =>
        rw [hm] at h
        simp only [] at h
        injection h with h
        rw [← h]; exact hfr
      | none =>
        rw [hm] at h
        simp only [] at h
        by_cases hil : getLabelInstance st1 label acc.2 ≠ 0
        · rw [if_pos hil] at h
          injection h with h
          rw [← h]; exact hfr
        · rw [if_neg hil] at h
          unfold getFreshInstance at h
          by_cases hlt : st1.highest_instance_ < UINT_MAX
          · rw [if_pos hlt] at h
            simp only [] at h
            injection h with h
            rw [← h]; exact hfr
          · rw [if_neg hlt] at h
            cases h
    · rw [if_neg hi] at h
      by_cases hil : getLabelInstance st1 label ≠ 0
      · rw [if_pos hil] at h
        injection h with h
        rw [← h]; exact hfr
      · rw [if_neg hil] at h
        injection h with h
        rw [← h]; exact hfr

theorem instanceLoop_single {heap : Heap} {acc acc1 : Integrator C × List SemanticLabel}
    {segment : SegmentPtr} (h : instanceStep heap acc segment = .ok acc1) :
    instanceLoop heap acc [segment] = .ok acc1 := by
  unfold instanceLoop
  rw [h]
  rfl

theorem decide_of_parts {fuel : Nat} {st : Integrator C} {heap : Heap}
    {segs : List SegmentPtr} {candidates : Candidates} {smc : SegmentMergeCandidates}
    {r1 r2 : Resolution C} {r3 : Integrator C × List SemanticLabel}
    (h1 : assignLoop fuel (initialResolution st heap candidates smc) = .ok r1)
    (h2 : labelRemaining (afterPairwise r1) segs = .ok r2)
    (h3 : instanceLoop r2.heap (r2.cs.st, []) r2.labelled_segments = .ok r3) :
    decideLabelPointClouds fuel st heap segs candidates smc =
      .ok { st := r3.1, heap := r2.heap, candidates := r2.cs.candidates,
            segment_merge_candidates := r2.cs.segment_merge_candidates } := by
  rw [decide_unfold, h1]
  simp only []
  rw [h2]
  simp only []
  rw [h3]

end ScenarioALemmas

/-! ## Scenario A -/

set_option maxRecDepth 100000 in
/-- C13 as stated fails for small segments: with highest label 10 and the
default `min_label_voxel_count` 20, the segment 3 of one point, which lands on
a block that is not allocated, is assigned label 12, and the highest label
afterwards is 12: the fresh label 11 issued by `computeSegmentLabelCandidates`
has too little support to be selected, and `decideLabelPointClouds` issues a
second one. -/
theorem scenarioA_small_segment_two_fresh_labels :
    (∀ point ∈ (heapB 3).points_C_, LandsUnlabelled integratorB.label_layer_ point) ∧
    integratorB.highest_label_ = 10 ∧
    labelsAfter (resolveFrame 2 integratorB heapB [3]) 3 = some [12] ∧
    highestLabelAfter (resolveFrame 2 integratorB heapB [3]) = some 12 := by
  decide

/-- C13, amended: when all points of a segment land on voxels with no assigned
label or on unallocated blocks, the segment has more than
`min_label_voxel_count` points, the highest issued label is `h` and the
counters can be incremented, then `computeSegmentLabelCandidates` for the
segment followed by `decideLabelPointClouds` returns, pushes label `h + 1`
once per point of the segment, and leaves `h + 1` as the highest issued label:
exactly one fresh label is issued. -/
theorem scenarioA_one_fresh_label {C : Type} [LinearOrderedAddCommMonoid C]
    (st : Integrator C) (heap : Heap) (segment : SegmentPtr)
    (hpoints : ∀ point ∈ (heap segment).points_C_, LandsUnlabelled st.label_layer_ point)
    (hsize : st.label_tsdf_config_.min_label_voxel_count < (heap segment).points_C_.length)
    (hlabel : st.highest_label_ < UINT_MAX) (hinstance : st.highest_instance_ < UINT_MAX)
    (fuel : Nat) :
    ∃ d, resolveFrame (fuel + 2) st heap [segment] = .ok d ∧
      (d.heap segment).labels_ = (heap segment).labels_ ++
        List.replicate (heap segment).points_C_.length (st.highest_label_ + 1) ∧
      d.st.highest_label_ = st.highest_label_ + 1 := by
  obtain ⟨smc, hc⟩ := compute_unlabelled st heap segment hpoints hlabel
  have hcol : collectCandidates heap
      { st := st, candidates := [], segment_merge_candidates := [] } [segment] =
      .ok { st := { st with highest_label_ := st.highest_label_ + 1 },
            candidates := [(st.highest_label_ + 1, [(segment, (heap segment).points_C_.length)])],
            segment_merge_candidates := smc } := by
    unfold collectCandidates
    rw [hc]
    rfl
  -- the state after the round of the `while` loop that labels the segment
  have hloop : assignLoop (fuel + 2)
      (initialResolution { st with highest_label_ := st.highest_label_ + 1 } heap
        [(st.highest_label_ + 1, [(segment, (heap segment).points_C_.length)])] smc) =
      .ok { cs := { st := { st with highest_label_ := st.highest_label_ + 1 },
                    candidates := [], segment_merge_candidates := smc },
            heap := pushLabels heap segment (st.highest_label_ + 1),
            assigned_labels := [st.highest_label_ + 1],
            labelled_segments := [segment] } := by
    unfold assignLoop initialResolution
    simp only []
    rw [getNext_single heap _ (st.highest_label_ + 1) segment _ rfl hsize]
    simp only []
    unfold assignLoop
    rw [getNext_empty _ _ _ _ (by simp [StdMap.erase])]
    simp only [StdMap.erase, if_true, StdSet.put]
  have hne : (pushLabels heap segment (st.highest_label_ + 1) segment).labels_ ≠ [] := by
    rw [(pushLabels_self heap segment (st.highest_label_ + 1)).2]
    intro e
    have hlen := congrArg List.length e
    simp only [List.length_append, List.length_replicate, List.length_nil] at hlen
    omega
  obtain ⟨acc1, h1, _⟩ := instanceStep_returns
    (pushLabels heap segment (st.highest_label_ + 1))
    (({ st with highest_label_ := st.highest_label_ + 1,
                pairwise_confidence_ := smc.foldl
                  (fun pc merge_candidates =>
                    increasePairwiseConfidenceCount pc merge_candidates.2)
                  st.pairwise_confidence_ } : Integrator C), []) segment hne hinstance
  have h2 := instanceStep_highest_label h1
  have h3 := decide_of_parts hloop
    (labelRemaining_labelled _ segment (List.mem_singleton.mpr rfl))
    (instanceLoop_single h1)
  have hres : resolveFrame (fuel + 2) st heap [segment] =
      .ok { st := acc1.1, heap := pushLabels heap segment (st.highest_label_ + 1),
            candidates := [], segment_merge_candidates := smc } := by
    unfold resolveFrame
    rw [hcol]
    exact h3
  exact ⟨_, hres, (pushLabels_self heap segment (st.highest_label_ + 1)).2, h2⟩

set_option maxRecDepth 100000 in
theorem scenarioA_one_fresh_label_witness :
    integratorB.highest_label_ = 10 ∧
    ∃ d, resolveFrame 2 integratorB heapScenarioA [4] = .ok d ∧
      (d.heap 4).labels_ = (heapScenarioA 4).labels_ ++
        List.replicate (heapScenarioA 4).points_C_.length (integratorB.highest_label_ + 1) ∧
      d.st.highest_label_ = integratorB.highest_label_ + 1 :=
  ⟨rfl, scenarioA_one_fresh_label integratorB heapScenarioA 4 (by decide) (by decide)
    (by decide) (by decide) 0⟩

section Rounds

set_option linter.unusedSectionVars false

variable {C : Type} [LinearOrderedAddCommMonoid C]

/-! ## The assignment loop: one round per distinct segment -/

theorem roundsInv_step (S : List SegmentPtr) (r : Resolution C)
    (segment : SegmentPtr) (label : Label) (A : LSet) (cs : CandidateState C)
    (hinv : RoundsInv S r)
    (hg : getNextSegmentLabelPair r.heap r.labelled_segments r.assigned_labels r.cs
      = .ok (some (segment, label), A, cs)) :
    (segment ∈ S ∧ segment ∉ r.labelled_segments) ∧
    RoundsInv S (assignRound r segment label A cs) ∧
      unlabelledCount S (assignRound r segment label A cs).labelled_segments <
        unlabelledCount S r.labelled_segments := by
  obtain ⟨segments, count, hmem, hmemseg, hnl, _, hrec⟩ := getNext_selected hg
  obtain ⟨hs, hsub, hlen⟩ := hinv
  have hsS : segment ∈ S := hs (label, segments) hmem (segment, count) hmemseg
  have hlt := unlabelledCount_put_lt S r.labelled_segments segment hsS hnl
  have hput := StdSet.length_put r.labelled_segments segment
  refine ⟨⟨hsS, hnl⟩, ⟨?_, ?_, ?_⟩, hlt⟩
  · intro e he x hx
    have he2 := (StdMap.mem_erase he).1
    exact recompute_segments (fun s => s ∈ S) _ _ _ _ _ _ _ hrec hs
      (fun y hy => hs (label, segments) hmem y hy) e he2 x hx
  · intro p hp
    rcases (StdSet.mem_put_iff _ _ _).mp hp with e | e
    · rw [e]; exact hsS
    · exact hsub p e
  · show (StdSet.put r.labelled_segments segment).length +
        unlabelledCount S (StdSet.put r.labelled_segments segment) ≤ S.length
    omega

end Rounds

/-- C15: for every candidate table the `while` loop of
`decideLabelPointClouds` ends within one round per distinct segment of the
table: a successful `getNextSegmentLabelPair` returns a segment of the table
that is not yet in `labelled_segments`, the segment is then added, the table
keeps mentioning only segments it mentioned at the call, and when the loop has
ended the labelled segments are segments of the table, at most as many as the
table has distinct segments. -/
theorem assignLoop_terminates {C : Type} [LinearOrderedAddCommMonoid C]
    (st : Integrator C) (heap : Heap) (candidates : Candidates)
    (segment_merge_candidates : SegmentMergeCandidates) :
    assignLoop ((tableSegments candidates).dedup.length + 1)
        (initialResolution st heap candidates segment_merge_candidates)
      ≠ .error .outOfFuel ∧
    (∀ fuel r1, assignLoop fuel
        (initialResolution st heap candidates segment_merge_candidates) = .ok r1 →
      (∀ p ∈ r1.labelled_segments, p ∈ tableSegments candidates) ∧
      r1.labelled_segments.length ≤ (tableSegments candidates).dedup.length ∧
      SegmentsSatisfy (fun s => s ∈ tableSegments candidates) r1.cs.candidates) ∧
    (∀ (r : Resolution C) segment label A cs,
      RoundsInv (tableSegments candidates).dedup r →
      getNextSegmentLabelPair r.heap r.labelled_segments r.assigned_labels r.cs
        = .ok (some (segment, label), A, cs) →
      segment ∈ tableSegments candidates ∧ segment ∉ r.labelled_segments ∧
        RoundsInv (tableSegments candidates).dedup (assignRound r segment label A cs)) := by
  have hinit : RoundsInv (tableSegments candidates).dedup
      (initialResolution st heap candidates segment_merge_candidates) := by
    refine ⟨?_, fun p hp => absurd hp (List.not_mem_nil p), ?_⟩
    · intro e he x hx
      exact List.mem_dedup.mpr (mem_tableSegments he hx)
    · show ([] : List SegmentPtr).length + unlabelledCount _ [] ≤ _
      simp only [List.length_nil, Nat.zero_add]
      exact unlabelledCount_le _ _
  have hstep : ∀ (r : Resolution C) segment label A cs,
      RoundsInv (tableSegments candidates).dedup r →
      getNextSegmentLabelPair r.heap r.labelled_segments r.assigned_labels r.cs
        = .ok (some (segment, label), A, cs) →
      RoundsInv (tableSegments candidates).dedup (assignRound r segment label A cs) ∧
        unlabelledCount (tableSegments candidates).dedup
            (assignRound r segment label A cs).labelled_segments <
          unlabelledCount (tableSegments candidates).dedup r.labelled_segments :=
    fun r s l A cs hi hg => (roundsInv_step _ r s l A cs hi hg).2
  refine ⟨?_, ?_, ?_⟩
  · exact (assignLoop_rule _ (fun r => unlabelledCount (tableSegments candidates).dedup
      r.labelled_segments) hstep _ _ hinit
      (Nat.lt_succ_of_le (unlabelledCount_le _ _))).1
  · intro fuel r1 h
    -- with less fuel than the bound the loop either runs out or returns the same state
    have hrule : ∀ (k : Nat) (r : Resolution C), RoundsInv (tableSegments candidates).dedup r →
        ∀ r1, assignLoop k r = .ok r1 → RoundsInv (tableSegments candidates).dedup r1 := by
      intro k
      induction k with
      | zero =>
        intro r _ r1 h1
        simp only [assignLoop] at h1
        cases h1
      | succ n ih =>
        intro r hinv r1 h1
        unfold assignLoop at h1
        cases hg : getNextSegmentLabelPair r.heap r.labelled_segments r.assigned_labels r.cs with
        | error e => rw [hg] at h1; cases h1
        | ok res =>
          obtain ⟨pair, A, cs⟩ := res
          rw [hg] at h1
          cases pair with
          | none =>
            obtain ⟨_, hA, hcs⟩ := getNext_none hg
            subst hA; subst hcs
            change Except.ok r = Except.ok r1 at h1
            injection h1 with h1
            rw [← h1]; exact hinv
          | some p =>
            obtain ⟨segment, label⟩ := p
            exact ih _ (hstep r segment label A cs hinv hg).1 r1 h1
    obtain ⟨h1, h2, h3⟩ := hrule fuel _ hinit r1 h
    refine ⟨fun p hp => List.mem_dedup.mp (h2 p hp), by omega, ?_⟩
    intro e he x hx
    exact List.mem_dedup.mp (h1 e he x hx)
  · intro r segment label A cs hinv hg
    obtain ⟨⟨h1, h2⟩, h3, _⟩ := roundsInv_step _ r segment label A cs hinv hg
    exact ⟨List.mem_dedup.mp h1, h2, h3⟩

set_option maxRecDepth 100000 in
theorem assignLoop_terminates_witness :
    (tableSegments candidatesB).dedup.length = 2 ∧
    assignLoop ((tableSegments candidatesB).dedup.length + 1)
        (initialResolution integratorB heapB candidatesB [(1, [10]), (2, [10])])
      ≠ .error .outOfFuel :=
  ⟨by decide, (assignLoop_terminates integratorB heapB candidatesB [(1, [10]), (2, [10])]).1⟩

section ComputeFrameLemmas

set_option linter.unusedSectionVars false

variable {C : Type} [LinearOrderedAddCommMonoid C]

/-! ## What `computeSegmentLabelCandidates` changes -/

theorem scanPoint_exists (st : Integrator C) (segment : SegmentPtr) (n : Nat)
    (assigned_labels : LSet) (acc : PointScan) (point : Point) :
    (scanPoint st segment n assigned_labels acc point).candidate_label_exists = true ↔
      acc.candidate_label_exists = true ∨ PointHasCandidate st assigned_labels point := by
  unfold scanPoint PointHasCandidate
  cases hv : voxelAt st.label_layer_ point with
  | none =>
    simp only []
    constructor
    · intro h; exact Or.inl h
    · rintro (h | ⟨v, hv2, _⟩)
      · exact h
      · cases hv2
  | some voxel =>
    simp only []
    by_cases hc : getNextUnassignedLabel voxel assigned_labels ≠ 0 ∧ point.within_band = true
    · rw [if_pos hc]
      constructor
      · intro _; exact Or.inr ⟨voxel, rfl, hc.1, hc.2⟩
      · intro _; rfl
    · rw [if_neg hc]
      constructor
      · intro h; exact Or.inl h
      · rintro (h | ⟨v, hv2, h1, h2⟩)
        · exact h
        · injection hv2 with hv2
          subst hv2
          exact absurd ⟨h1, h2⟩ hc

theorem scanPoints_exists (st : Integrator C) (segment : SegmentPtr) (n : Nat)
    (assigned_labels : LSet) (points : List Point) :
    ∀ acc : PointScan,
      (points.foldl (scanPoint st segment n assigned_labels) acc).candidate_label_exists = true ↔
        acc.candidate_label_exists = true ∨
          ∃ point ∈ points, PointHasCandidate st assigned_labels point := by
  induction points with
  | nil =>
    intro acc
    simp
  | cons p t ih =>
    intro acc
    simp only [List.foldl_cons]
    rw [ih, scanPoint_exists]
    constructor
    · rintro ((h | h) | ⟨q, hq, h⟩)
      · exact Or.inl h
      · exact Or.inr ⟨p, List.mem_cons_self _ _, h⟩
      · exact Or.inr ⟨q, List.mem_cons_of_mem _ hq, h⟩
    · rintro (h | ⟨q, hq, h⟩)
      · exact Or.inl (Or.inl h)
      · rcases List.mem_cons.mp hq with e | e
        · rw [e] at h; exact Or.inl (Or.inr h)
        · exact Or.inr ⟨q, e, h⟩

end ComputeFrameLemmas

set_option maxRecDepth 100000 in
/-- C16 as stated fails: for the segment 3 of `heapB`, whose only point lands
on a block that is not allocated, `computeSegmentLabelCandidates` raises the
highest issued label from 10 to 11. -/
theorem compute_changes_highest_label :
    integratorB.highest_label_ = 10 ∧
    (integratorAfter (computeSegmentLabelCandidates heapB 3
      { st := integratorB, candidates := [], segment_merge_candidates := [] })).map
        (fun st => st.highest_label_) = some 11 := by
  decide

/-- C16, amended: `computeSegmentLabelCandidates` leaves the voxel store and
all other integrator state as they are, except the highest issued label: when
some point of the segment gives it a candidate label the integrator is
unchanged, and otherwise the highest issued label is raised by one (the fresh
label entered for the segment) and nothing else changes; the call returns
unless that fresh label would pass the maximum of the counter. -/
theorem compute_frame {C : Type} [LinearOrderedAddCommMonoid C]
    (heap : Heap) (segment : SegmentPtr) (cs : CandidateState C) (assigned_labels : LSet) :
    (∀ cs1, computeSegmentLabelCandidates heap segment cs assigned_labels = .ok cs1 →
      cs1.st = { cs.st with highest_label_ := cs1.st.highest_label_ } ∧
      ((∃ point ∈ (heap segment).points_C_, PointHasCandidate cs.st assigned_labels point) →
        cs1.st = cs.st) ∧
      ((¬ ∃ point ∈ (heap segment).points_C_, PointHasCandidate cs.st assigned_labels point) →
        cs1.st.highest_label_ = cs.st.highest_label_ + 1)) ∧
    (((∃ point ∈ (heap segment).points_C_, PointHasCandidate cs.st assigned_labels point) ∨
        cs.st.highest_label_ < UINT_MAX) →
      ∃ cs1, computeSegmentLabelCandidates heap segment cs assigned_labels = .ok cs1) := by
  have hex := scanPoints_exists cs.st segment (heap segment).points_C_.length assigned_labels
    (heap segment).points_C_
    { candidate_label_exists := false, candidates := cs.candidates,
      merge_candidate_labels := [] }
  simp only [Bool.false_eq_true, false_or] at hex
  refine ⟨?_, ?_⟩
  · intro cs1 h
    unfold computeSegmentLabelCandidates at h
    simp only [] at h
    by_cases hc : ((heap segment).points_C_.foldl
        (scanPoint cs.st segment (heap segment).points_C_.length assigned_labels)
        { candidate_label_exists := false, candidates := cs.candidates,
          merge_candidate_labels := [] }).candidate_label_exists = true
    · rw [if_pos hc] at h
      injection h with h
      rw [← h]
      exact ⟨rfl, fun _ => rfl, fun hn => absurd (hex.mp hc) hn⟩
    · rw [if_neg hc] at h
      unfold getFreshLabel at h
      by_cases hlt : cs.st.highest_label_ < UINT_MAX
      · rw [if_pos hlt] at h
        simp only [] at h
        injection h with h
        rw [← h]
        exact ⟨rfl, fun he => absurd (hex.mpr he) hc, fun _ => rfl⟩
      · rw [if_neg hlt] at h
        simp only [] at h
        cases h
  · intro hor
    unfold computeSegmentLabelCandidates
    simp only []
    by_cases hc : ((heap segment).points_C_.foldl
        (scanPoint cs.st segment (heap segment).points_C_.length assigned_labels)
        { candidate_label_exists := false, candidates := cs.candidates,
          merge_candidate_labels := [] }).candidate_label_exists = true
    · rw [if_pos hc]
      exact ⟨_, rfl⟩
    · rw [if_neg hc]
      rcases hor with he | hlt
      · exact absurd (hex.mpr he) hc
      · unfold getFreshLabel
        rw [if_pos hlt]
        exact ⟨_, rfl⟩

set_option maxRecDepth 100000 in
theorem compute_frame_witness :
    integratorAfter (computeSegmentLabelCandidates heapB 1
      { st := integratorB, candidates := [], segment_merge_candidates := [] })
        = some integratorB ∧
    ∃ cs1, computeSegmentLabelCandidates heapB 3
        { st := integratorB, candidates := [], segment_merge_candidates := [] } = .ok cs1 ∧
      cs1.st = { integratorB with highest_label_ := cs1.st.highest_label_ } := by
  have h := compute_frame heapB 3
    ({ st := integratorB, candidates := [], segment_merge_candidates := [] } :
      CandidateState Int) []
  obtain ⟨cs1, hc⟩ := h.2 (Or.inr (by decide))
  exact ⟨by decide, cs1, hc, (h.1 cs1 hc).1⟩

/-! ## `getFreshLabel` -/

/-- C20: for a highest issued label in the range of `unsigned int`,
`getFreshLabel` fails its check iff the highest issued label is the maximum of
`unsigned int`; otherwise it returns the highest label plus one and stores it
as the new highest label, so a returned label is non-zero, in range, and
strictly smaller than the label returned by any later call, the counter never
being lowered in between. -/
theorem getFreshLabel_spec {C : Type} [LinearOrderedAddCommMonoid C] (st : Integrator C)
    (hrange : st.highest_label_ ≤ UINT_MAX) :
    ((∃ e, getFreshLabel st = .error e) ↔ st.highest_label_ = UINT_MAX) ∧
    (getFreshLabel st = .error .counterOverflow ↔ st.highest_label_ = UINT_MAX) ∧
    (st.highest_label_ ≠ UINT_MAX →
      getFreshLabel st =
        .ok (st.highest_label_ + 1, { st with highest_label_ := st.highest_label_ + 1 })) ∧
    (∀ l st1, getFreshLabel st = .ok (l, st1) →
      l = st.highest_label_ + 1 ∧ st1 = { st with highest_label_ := l } ∧ l ≠ 0 ∧
      l ≤ UINT_MAX ∧
      ∀ (st2 : Integrator C) l2 st3, st1.highest_label_ ≤ st2.highest_label_ →
        getFreshLabel st2 = .ok (l2, st3) → l < l2) := by
  have hcases : st.highest_label_ < UINT_MAX ∨ st.highest_label_ = UINT_MAX :=
    lt_or_eq_of_le hrange
  refine ⟨?_, ?_, ?_, ?_⟩
  · constructor
    · rintro ⟨e, he⟩
      rcases hcases with hlt | heq
      · unfold getFreshLabel at he
        rw [if_pos hlt] at he
        cases he
      · exact heq
    · intro heq
      unfold getFreshLabel
      rw [if_neg (by rw [heq]; exact lt_irrefl _)]
      exact ⟨_, rfl⟩
  · constructor
    · intro he
      rcases hcases with hlt | heq
      · unfold getFreshLabel at he
        rw [if_pos hlt] at he
        cases he
      · exact heq
    · intro heq
      unfold getFreshLabel
      rw [if_neg (by rw [heq]; exact lt_irrefl _)]
  · intro hne
    rcases hcases with hlt | heq
    · unfold getFreshLabel
      rw [if_pos hlt]
    · exact absurd heq hne
  · intro l st1 h
    obtain ⟨h1, h2⟩ := getFreshLabel_ok h
    have hlt : st.highest_label_ < UINT_MAX := by
      rcases hcases with hlt | heq
      · exact hlt
      · exfalso
        unfold getFreshLabel at h
        rw [if_neg (by rw [heq]; exact lt_irrefl _)] at h
        cases h
    refine ⟨h1, by rw [h2, h1], by rw [h1]; exact Nat.succ_ne_zero _, ?_, ?_⟩
    · rw [h1]; exact hlt
    · intro st2 l2 st3 hle h3
      obtain ⟨h4, _⟩ := getFreshLabel_ok h3
      rw [h2] at hle
      have hle2 : st.highest_label_ + 1 ≤ st2.highest_label_ := hle
      rw [h1, h4]
      exact Nat.lt_succ_of_le hle2

theorem getFreshLabel_spec_witness :
    integratorB.highest_label_ ≤ UINT_MAX ∧
    getFreshLabel integratorB =
      .ok (11, { integratorB with highest_label_ := 11 }) :=
  ⟨by decide, (getFreshLabel_spec integratorB (by decide)).2.2.1 (by decide)⟩

/-! ## `getLabelInstance` -/

section LabelInstance

variable {C : Type}

theorem labelInstanceStep_frames (frames_count frames_count' : Int)
    (assigned_instances : List SemanticLabel) :
    labelInstanceStep frames_count assigned_instances =
      labelInstanceStep frames_count' assigned_instances := by
  funext acc instance_count
  unfold labelInstanceStep
  simp only [zero_mul]

theorem bestSeen_step (frames_count : Int) (assigned_instances : List SemanticLabel)
    (seen : List (SemanticLabel × Int)) (acc e : SemanticLabel × Int)
    (hlt : ∀ x ∈ seen, x.1 < e.1) (h : BestSeen assigned_instances seen acc) :
    BestSeen assigned_instances (seen ++ [e])
      (labelInstanceStep frames_count assigned_instances acc e) := by
  obtain ⟨h0, h1⟩ := h
  have hacc : 0 ≤ acc.2 := by
    by_cases ha : acc.1 = 0
    · rw [(h0 ha).1]
    · exact le_of_lt (h1 ha).2.2.1
  unfold labelInstanceStep
  by_cases hc : e.2 > acc.2 ∧ e.1 ≠ 0 ∧ e.1 ∉ assigned_instances
  · rw [if_pos hc]
    have hpos : e.2 > 0 * (frames_count - e.2) := by
      rw [zero_mul]; exact lt_of_le_of_lt hacc hc.1
    rw [if_pos hpos]
    rw [zero_mul] at hpos
    refine ⟨fun hz => absurd hz hc.2.1, fun _ => ⟨?_, hc.2.2, hpos, ?_⟩⟩
    · exact List.mem_append_right _ (List.mem_singleton_self _)
    · intro x hx hx0 hxa
      rcases List.mem_append.mp hx with hx | hx
      · have hle : x.2 ≤ acc.2 := by
          by_cases ha : acc.1 = 0
          · rw [(h0 ha).1]; exact (h0 ha).2 x hx hx0 hxa
          · exact ((h1 ha).2.2.2 x hx hx0 hxa).1
        have hlt2 : x.2 < e.2 := lt_of_le_of_lt hle hc.1
        exact ⟨le_of_lt hlt2, fun heq => absurd heq (ne_of_lt hlt2)⟩
      · rw [List.mem_singleton.mp hx]
        exact ⟨le_refl _, fun _ => le_refl _⟩
  · rw [if_neg hc]
    refine ⟨fun ha => ⟨(h0 ha).1, ?_⟩, fun ha => ⟨?_, (h1 ha).2.1, (h1 ha).2.2.1, ?_⟩⟩
    · intro x hx hx0 hxa
      rcases List.mem_append.mp hx with hx | hx
      · exact (h0 ha).2 x hx hx0 hxa
      · rw [List.mem_singleton.mp hx] at hx0 hxa ⊢
        have hle : ¬ e.2 > acc.2 := fun hgt => hc ⟨hgt, hx0, hxa⟩
        rw [(h0 ha).1] at hle
        exact not_lt.mp hle
    · exact List.mem_append_left _ (h1 ha).1
    · intro x hx hx0 hxa
      rcases List.mem_append.mp hx with hx | hx
      · exact (h1 ha).2.2.2 x hx hx0 hxa
      · rw [List.mem_singleton.mp hx] at hx0 hxa ⊢
        have hle : ¬ e.2 > acc.2 := fun hgt => hc ⟨hgt, hx0, hxa⟩
        exact ⟨not_lt.mp hle, fun _ => le_of_lt (hlt acc (h1 ha).1)⟩

theorem bestSeen_foldl (frames_count : Int) (assigned_instances : List SemanticLabel) :
    ∀ (rest seen : List (SemanticLabel × Int)) (acc : SemanticLabel × Int),
      StdMap.ascending rest = true → (∀ x ∈ seen, ∀ y ∈ rest, x.1 < y.1) →
      BestSeen assigned_instances seen acc →
      BestSeen assigned_instances (seen ++ rest)
        (rest.foldl (labelInstanceStep frames_count assigned_instances) acc) := by
  intro rest
  induction rest with
  | nil =>
    intro seen acc _ _ h
    rw [List.append_nil]
    exact h
  | cons e t ih =>
    intro seen acc hasc hlt h
    have h1 := bestSeen_step frames_count assigned_instances seen acc e
      (fun x hx => hlt x hx e (List.mem_cons_self _ _)) h
    have h2 := ih (seen ++ [e]) _ (StdMap.ascending_tail hasc)
      (fun x hx y hy => by
        rcases List.mem_append.mp hx with hx | hx
        · exact hlt x hx y (List.mem_cons_of_mem _ hy)
        · rw [List.mem_singleton.mp hx]
          exact StdMap.ascending_head_lt hasc y hy) h1
    rw [List.append_assoc] at h2
    exact h2

theorem bestSeen_getLabelInstance (st : Integrator C) (label : Label)
    (assigned_instances : List SemanticLabel) (votes : List (SemanticLabel × Int))
    (hfind : StdMap.find st.label_instance_count_ label = some votes)
    (hasc : StdMap.ascending votes = true) :
    ∃ c, BestSeen assigned_instances votes
      (getLabelInstance st label assigned_instances, c) := by
  unfold getLabelInstance
  rw [hfind]
  simp only []
  have h := bestSeen_foldl
    (match StdMap.find st.label_frames_count_ label with
      | some c => c
      | none => 0) assigned_instances votes [] (0, 0) hasc
    (fun x hx => by cases hx)
    ⟨fun _ => ⟨rfl, fun e he => by cases he⟩, fun hne => absurd rfl hne⟩
  rw [List.nil_append] at h
  exact ⟨_, h⟩

theorem getLabelInstance_frames (st : Integrator C) (label : Label)
    (assigned_instances : List SemanticLabel) (frames : LMap) :
    getLabelInstance { st with label_frames_count_ := frames } label assigned_instances =
      getLabelInstance st label assigned_instances := by
  unfold getLabelInstance
  simp only []
  cases StdMap.find st.label_instance_count_ label with
  | none => rfl
  | some votes =>
    exact congrArg (fun f => (List.foldl f (0, 0) votes).1)
      (labelInstanceStep_frames _ _ assigned_instances)

/-- C19: `getLabelInstance(label, assigned_instances)` only computes a value.
It is 0 when the label has no recorded instance votes.  With votes recorded (a
`std::map`, so in ascending key order), a non-zero result is an instance not in
`assigned_instances` whose vote count is positive and at least that of every
non-zero unclaimed instance, and the smallest id among those with that count;
the result is 0 exactly when no non-zero unclaimed instance has a positive
count.  The result is the same for every content of `label_frames_count_`. -/
theorem getLabelInstance_spec (st : Integrator C) (label : Label)
    (assigned_instances : List SemanticLabel) :
    (StdMap.find st.label_instance_count_ label = none →
      getLabelInstance st label assigned_instances = 0) ∧
    (∀ votes, StdMap.find st.label_instance_count_ label = some votes →
      StdMap.ascending votes = true →
      (getLabelInstance st label assigned_instances ≠ 0 →
        getLabelInstance st label assigned_instances ∉ assigned_instances ∧
        ∃ c, StdMap.find votes (getLabelInstance st label assigned_instances) = some c ∧
          0 < c ∧
          ∀ e ∈ votes, e.1 ≠ 0 → e.1 ∉ assigned_instances →
            e.2 ≤ c ∧ (e.2 = c → getLabelInstance st label assigned_instances ≤ e.1)) ∧
      (getLabelInstance st label assigned_instances = 0 ↔
        ∀ e ∈ votes, e.1 ≠ 0 → e.1 ∉ assigned_instances → e.2 ≤ 0)) ∧
    (∀ frames : LMap,
      getLabelInstance { st with label_frames_count_ := frames } label assigned_instances =
        getLabelInstance st label assigned_instances) := by
  refine ⟨?_, ?_, ?_⟩
  · intro hnone
    unfold getLabelInstance
    rw [hnone]
  · intro votes hfind hasc
    obtain ⟨c, h0, h1⟩ := bestSeen_getLabelInstance st label assigned_instances votes hfind hasc
    simp only [] at h0 h1
    refine ⟨fun hne => ?_, ?_⟩
    · obtain ⟨hmem, hna, hpos, hmax⟩ := h1 hne
      exact ⟨hna, c, StdMap.find_of_mem_ascending hasc hmem, hpos, hmax⟩
    · constructor
      · intro hz
        exact (h0 hz).2
      · intro hall
        by_contra hne
        obtain ⟨hmem, hna, hpos, _⟩ := h1 hne
        have := hall _ hmem hne hna
        exact absurd hpos (not_lt.mpr this)
  · intro frames
    exact getLabelInstance_frames st label assigned_instances frames

set_option maxRecDepth 100000 in
theorem getLabelInstance_spec_witness :
    getLabelInstance integratorVotes 7 [] = 3 ∧
    getLabelInstance integratorVotes 7 [3] = 5 ∧
    getLabelInstance integratorVotes 7 [3, 5] = 2 ∧
    getLabelInstance integratorVotes 7 [2, 3, 5] = 0 ∧
    getLabelInstance integratorVotes 8 [] = 0 ∧
    (getLabelInstance integratorVotes 7 [3] ∉ [3] ∧
      ∃ c, StdMap.find [(0, 9), (2, 4), (3, 6), (5, 6)]
          (getLabelInstance integratorVotes 7 [3]) = some c ∧ 0 < c ∧
        ∀ e ∈ [((0 : SemanticLabel), (9 : Int)), (2, 4), (3, 6), (5, 6)], e.1 ≠ 0 → e.1 ∉ [3] →
          e.2 ≤ c ∧ (e.2 = c → getLabelInstance integratorVotes 7 [3] ≤ e.1)) :=
  ⟨by decide, by decide, by decide, by decide, by decide,
    ((getLabelInstance_spec integratorVotes 7 [3]).2.1 [(0, 9), (2, 4), (3, 6), (5, 6)]
      (by decide) (by decide)).1 (by decide)⟩

end LabelInstance

/-! ## Instance and class votes -/

section InstanceVotes

variable {C : Type}

end InstanceVotes

/-! ## Publish scheduling -/

section PublishLemmas

variable {C : Type}

theorem find_resetFold (updated : List Label) (m : LMap) (label : Label) :
    StdMap.find (updated.foldl (fun m label => StdMap.put m label 0) m) label =
      if label ∈ updated then some 0 else StdMap.find m label := by
  induction updated generalizing m with
  | nil => simp
  | cons l t ih =>
    rw [List.foldl_cons, ih, StdMap.find_put]
    by_cases h1 : label ∈ t
    · rw [if_pos h1, if_pos (List.mem_cons_of_mem _ h1)]
    · rw [if_neg h1]
      by_cases h2 : label = l
      · rw [if_pos h2, if_pos (by rw [h2]; exact List.mem_cons_self _ _)]
      · rw [if_neg h2, if_neg (fun h => by
          rcases List.mem_cons.mp h with h | h
          · exact h2 h
          · exact h1 h)]

theorem ascending_resetFold (updated : List Label) (m : LMap)
    (h : StdMap.ascending m = true) :
    StdMap.ascending (updated.foldl (fun m label => StdMap.put m label 0) m) = true := by
  induction updated generalizing m with
  | nil => exact h
  | cons l t ih =>
    rw [List.foldl_cons]
    exact ih _ (StdMap.ascending_put m l 0 h)

theorem mem_resetFold (updated : List Label) (m : LMap) (e : Label × Int)
    (h : e ∈ updated.foldl (fun m label => StdMap.put m label 0) m) :
    e.2 = 0 ∨ e ∈ m := by
  induction updated generalizing m with
  | nil => exact Or.inr h
  | cons l t ih =>
    rw [List.foldl_cons] at h
    rcases ih _ h with h1 | h1
    · exact Or.inl h1
    · rcases StdMap.mem_put h1 with h2 | h2
      · left; rw [h2]
      · exact Or.inr h2

theorem mem_publishLoop_out (T : Int) (m : LMap) (label : Label) :
    label ∈ (publishLoop T m).1 ↔ ∃ age, (label, age) ∈ m ∧ age + 1 > T := by
  induction m with
  | nil => simp [publishLoop]
  | cons e rest ih =>
    obtain ⟨k, a⟩ := e
    unfold publishLoop
    simp only []
    by_cases hc : a + 1 > T
    · rw [if_pos hc]
      simp only [List.mem_cons, ih]
      constructor
      · rintro (h | ⟨age, h1, h2⟩)
        · exact ⟨a, Or.inl (by rw [h]), hc⟩
        · exact ⟨age, Or.inr h1, h2⟩
      · rintro ⟨age, h1 | h1, h2⟩
        · injection h1 with h3 h4
          exact Or.inl h3
        · exact Or.inr ⟨age, h1, h2⟩
    · rw [if_neg hc]
      simp only [List.mem_cons, ih]
      constructor
      · rintro ⟨age, h1, h2⟩
        exact ⟨age, Or.inr h1, h2⟩
      · rintro ⟨age, h1 | h1, h2⟩
        · injection h1 with h3 h4
          rw [h4] at h2
          exact absurd h2 hc
        · exact ⟨age, h1, h2⟩

theorem mem_publishLoop_kept (T : Int) (m : LMap) (e : Label × Int) :
    e ∈ (publishLoop T m).2 ↔ ∃ age, (e.1, age) ∈ m ∧ ¬ age + 1 > T ∧ e.2 = age + 1 := by
  induction m with
  | nil => simp [publishLoop]
  | cons e0 rest ih =>
    obtain ⟨k, a⟩ := e0
    unfold publishLoop
    simp only []
    by_cases hc : a + 1 > T
    · rw [if_pos hc]
      simp only [List.mem_cons, ih]
      constructor
      · rintro ⟨age, h1, h2⟩
        exact ⟨age, Or.inr h1, h2⟩
      · rintro ⟨age, h1 | h1, h2⟩
        · injection h1 with h3 h4
          rw [h4] at h2
          exact absurd hc h2.1
        · exact ⟨age, h1, h2⟩
    · rw [if_neg hc]
      simp only [List.mem_cons, ih]
      constructor
      · rintro (h | ⟨age, h1, h2⟩)
        · exact ⟨a, Or.inl (by rw [h]), hc, by rw [h]⟩
        · exact ⟨age, Or.inr h1, h2⟩
      · rintro ⟨age, h1 | h1, h2⟩
        · injection h1 with h3 h4
          left
          apply Prod.ext
          · exact h3
          · rw [h2.2, h4]
        · exact Or.inr ⟨age, h1, h2⟩

theorem ascending_publishLoop (T : Int) (m : LMap) (h : StdMap.ascending m = true) :
    StdMap.ascending (publishLoop T m).2 = true := by
  induction m with
  | nil => rfl
  | cons e0 rest ih =>
    obtain ⟨k, a⟩ := e0
    have hrest := ih (StdMap.ascending_tail h)
    unfold publishLoop
    simp only []
    by_cases hc : a + 1 > T
    · rw [if_pos hc]; exact hrest
    · rw [if_neg hc]
      refine (StdMap.ascending_cons_iff _ _).mpr ⟨?_, hrest⟩
      intro x hx
      obtain ⟨age, h1, _⟩ := (mem_publishLoop_kept T rest x).mp hx
      exact StdMap.ascending_head_lt h (x.1, age) h1

theorem find_publishLoop (T : Int) (m : LMap) (label : Label)
    (h : StdMap.ascending m = true) :
    StdMap.find (publishLoop T m).2 label =
      (StdMap.find m label).bind (fun age => if age + 1 > T then none else some (age + 1)) := by
  cases hf : StdMap.find m label with
  | none =>
    simp only [Option.bind]
    cases hr : StdMap.find (publishLoop T m).2 label with
    | none => rfl
    | some v =>
      exfalso
      obtain ⟨age, h1, _⟩ := (mem_publishLoop_kept T m (label, v)).mp (StdMap.mem_of_find hr)
      rw [StdMap.find_of_mem_ascending h h1] at hf
      cases hf
  | some age =>
    simp only [Option.bind]
    by_cases hc : age + 1 > T
    · rw [if_pos hc]
      cases hr : StdMap.find (publishLoop T m).2 label with
      | none => rfl
      | some v =>
        exfalso
        obtain ⟨age', h1, h2, _⟩ :=
          (mem_publishLoop_kept T m (label, v)).mp (StdMap.mem_of_find hr)
        rw [StdMap.find_of_mem_ascending h h1] at hf
        injection hf with hf
        rw [hf] at h2
        exact h2 hc
    · rw [if_neg hc]
      exact StdMap.find_of_mem_ascending (ascending_publishLoop T m h)
        ((mem_publishLoop_kept T m (label, age + 1)).mpr ⟨age, StdMap.mem_of_find hf, hc, rfl⟩)

theorem mem_publishLoop_out_find (T : Int) (m : LMap) (label : Label)
    (h : StdMap.ascending m = true) :
    label ∈ (publishLoop T m).1 ↔ ∃ age, StdMap.find m label = some age ∧ age + 1 > T := by
  rw [mem_publishLoop_out]
  constructor
  · rintro ⟨age, h1, h2⟩
    exact ⟨age, StdMap.find_of_mem_ascending h h1, h2⟩
  · rintro ⟨age, h1, h2⟩
    exact ⟨age, StdMap.mem_of_find h1, h2⟩

/-- The age of a label when the loop of `getLabelsToPublish` starts. -/
theorem find_reset (st : Integrator C) (label : Label) :
    StdMap.find (resetCurrentFrameUpdatedLabelsAge st).labels_to_publish_ label =
      if label ∈ st.updated_labels_ then some 0 else StdMap.find st.labels_to_publish_ label :=
  find_resetFold _ _ _

theorem getLabelsToPublish_ascending (st : Integrator C) (out : List Label)
    (h : StdMap.ascending st.labels_to_publish_ = true) :
    StdMap.ascending (getLabelsToPublish st out).2.labels_to_publish_ = true :=
  ascending_publishLoop _ _ (ascending_resetFold _ _ h)

theorem getLabelsToPublish_mem (st : Integrator C) (out : List Label) (label : Label)
    (h : StdMap.ascending st.labels_to_publish_ = true) :
    label ∈ (getLabelsToPublish st out).1 ↔ label ∈ out ∨
      ∃ age, StdMap.find (resetCurrentFrameUpdatedLabelsAge st).labels_to_publish_ label =
          some age ∧
        age + 1 > st.label_tsdf_config_.object_flushing_age_threshold := by
  unfold getLabelsToPublish
  simp only [List.mem_append]
  exact or_congr Iff.rfl (mem_publishLoop_out_find _ _ _ (ascending_resetFold _ _ h))

theorem getLabelsToPublish_find (st : Integrator C) (out : List Label) (label : Label)
    (h : StdMap.ascending st.labels_to_publish_ = true) :
    StdMap.find (getLabelsToPublish st out).2.labels_to_publish_ label =
      (StdMap.find (resetCurrentFrameUpdatedLabelsAge st).labels_to_publish_ label).bind
        (fun age => if age + 1 > st.label_tsdf_config_.object_flushing_age_threshold then none
          else some (age + 1)) :=
  find_publishLoop _ _ _ (ascending_resetFold _ _ h)

/-- The age of a label that was updated before call 0 and is left alone
afterwards, when the loop of call `j` starts. -/
theorem age_at_call (T : Int) (hT : 0 ≤ T) (frames : ℕ → Integrator C) (label : Label)
    (hconfig : ∀ j, (frames j).label_tsdf_config_.object_flushing_age_threshold = T)
    (hasc : ∀ j, StdMap.ascending (frames j).labels_to_publish_ = true)
    (hupdated : label ∈ (frames 0).updated_labels_)
    (hidle : ∀ j, label ∉ (frames (j + 1)).updated_labels_)
    (hkept : ∀ j, StdMap.find (frames (j + 1)).labels_to_publish_ label =
      StdMap.find (getLabelsToPublish (frames j) []).2.labels_to_publish_ label) :
    ∀ j : ℕ, StdMap.find (resetCurrentFrameUpdatedLabelsAge (frames j)).labels_to_publish_ label =
      if (j : Int) ≤ T then some (j : Int) else none := by
  intro j
  induction j with
  | zero =>
    rw [find_reset, if_pos hupdated]
    rw [if_pos (by simpa using hT)]
    rfl
  | succ j ih =>
    rw [find_reset, if_neg (hidle j), hkept j, getLabelsToPublish_find _ _ _ (hasc j), ih,
      hconfig j]
    by_cases h : (j : Int) ≤ T
    · rw [if_pos h]
      simp only [Option.bind]
      by_cases h2 : (j : Int) + 1 > T
      · rw [if_pos h2, if_neg (by push_cast; omega)]
      · rw [if_neg h2, if_pos (by push_cast; omega)]
        push_cast; rfl
    · rw [if_neg h, if_neg (by push_cast; omega)]
      rfl

theorem idleFrames_config (st : Integrator C) (j : ℕ) :
    (idleFrames st j).label_tsdf_config_ = st.label_tsdf_config_ := by
  induction j with
  | zero => rfl
  | succ j ih => exact ih

theorem idleFrames_ascending (st : Integrator C)
    (h : StdMap.ascending st.labels_to_publish_ = true) (j : ℕ) :
    StdMap.ascending (idleFrames st j).labels_to_publish_ = true := by
  induction j with
  | zero => exact h
  | succ j ih => exact getLabelsToPublish_ascending _ _ ih

/-- C17: publish scheduling.  Let `frames j` be the integrator at the start of
call `j` of `getLabelsToPublish`, all with threshold
`object_flushing_age_threshold = T ≥ 0`, and let `label` be in
`updated_labels_` at call 0, in `updated_labels_` at no later call, and with an
age entry that nothing but `getLabelsToPublish` changes between the calls.
Then call `j` appends `label` to the output exactly when `j = T`.  Moreover
every call appends to the given vector, leaves `updated_labels_` and the frame
instance map empty, leaves only ages in `[1, T]` when the ages were
non-negative before, and leaves no age entry for a label it reported; when the
ages were at most `T` before, no age is increased beyond `T + 1`. -/
theorem getLabelsToPublish_schedule (T : Int) (hT : 0 ≤ T) (frames : ℕ → Integrator C)
    (label : Label)
    (hconfig : ∀ j, (frames j).label_tsdf_config_.object_flushing_age_threshold = T)
    (hasc : ∀ j, StdMap.ascending (frames j).labels_to_publish_ = true)
    (hupdated : label ∈ (frames 0).updated_labels_)
    (hidle : ∀ j, label ∉ (frames (j + 1)).updated_labels_)
    (hkept : ∀ j, StdMap.find (frames (j + 1)).labels_to_publish_ label =
      StdMap.find (getLabelsToPublish (frames j) []).2.labels_to_publish_ label) :
    (∀ j : ℕ, label ∈ (getLabelsToPublish (frames j) []).1 ↔ (j : Int) = T) ∧
    (∀ (j : ℕ) (out : List Label),
      (getLabelsToPublish (frames j) out).1 = out ++ (getLabelsToPublish (frames j) []).1 ∧
      (getLabelsToPublish (frames j) out).2 = (getLabelsToPublish (frames j) []).2 ∧
      (getLabelsToPublish (frames j) out).2.updated_labels_ = [] ∧
      (getLabelsToPublish (frames j) out).2.current_to_global_instance_map_ = [] ∧
      StdMap.ascending (getLabelsToPublish (frames j) out).2.labels_to_publish_ = true ∧
      ((∀ e ∈ (frames j).labels_to_publish_, 0 ≤ e.2) →
        ∀ e ∈ (getLabelsToPublish (frames j) out).2.labels_to_publish_, 1 ≤ e.2 ∧ e.2 ≤ T) ∧
      (∀ l ∈ (getLabelsToPublish (frames j) []).1,
        StdMap.find (getLabelsToPublish (frames j) out).2.labels_to_publish_ l = none) ∧
      ((∀ e ∈ (frames j).labels_to_publish_, e.2 ≤ T) →
        ∀ e ∈ (resetCurrentFrameUpdatedLabelsAge (frames j)).labels_to_publish_,
          e.2 + 1 ≤ T + 1)) := by
  have hage := age_at_call T hT frames label hconfig hasc hupdated hidle hkept
  refine ⟨?_, ?_⟩
  · intro j
    rw [getLabelsToPublish_mem _ _ _ (hasc j), hage j, hconfig j]
    constructor
    · rintro (h | ⟨age, h1, h2⟩)
      · cases h
      · by_cases hj : (j : Int) ≤ T
        · rw [if_pos hj] at h1
          injection h1 with h1
          omega
        · rw [if_neg hj] at h1
          cases h1
    · intro hj
      refine Or.inr ⟨(j : Int), ?_, by omega⟩
      rw [if_pos (le_of_eq hj)]
  · intro j out
    refine ⟨?_, rfl, rfl, rfl, getLabelsToPublish_ascending _ _ (hasc j), ?_, ?_, ?_⟩
    · unfold getLabelsToPublish
      simp only [List.nil_append]
    · intro hnonneg e he
      obtain ⟨age, h1, h2, h3⟩ := (mem_publishLoop_kept _ _ e).mp he
      have h4 : 0 ≤ age := by
        rcases mem_resetFold _ _ _ h1 with h | h
        · exact le_of_eq h.symm
        · exact hnonneg _ h
      have h5 : (frames j).label_tsdf_config_.object_flushing_age_threshold = T := hconfig j
      have h6 : ¬ age + 1 > (frames j).label_tsdf_config_.object_flushing_age_threshold := h2
      rw [h5] at h6
      rw [h3]
      constructor <;> omega
    · intro l hl
      obtain ⟨age, h1, h2⟩ := ((getLabelsToPublish_mem _ _ _ (hasc j)).mp hl).resolve_left
        (fun h => by cases h)
      rw [getLabelsToPublish_find _ _ _ (hasc j), h1]
      simp only [Option.bind]
      rw [if_pos h2]
    · intro hle e he
      rcases mem_resetFold _ _ _ he with h | h
      · rw [h]; omega
      · have := hle e h
        omega

set_option maxRecDepth 100000 in
theorem getLabelsToPublish_schedule_witness :
    (0 : Int) ≤ 3 ∧ 5 ∈ (idleFrames integratorScenarioC 0).updated_labels_ ∧
    (getLabelsToPublish (idleFrames integratorScenarioC 0) []).1 = [] ∧
    (getLabelsToPublish (idleFrames integratorScenarioC 2) []).1 = [] ∧
    (getLabelsToPublish (idleFrames integratorScenarioC 3) []).1 = [5, 7] ∧
    (getLabelsToPublish (idleFrames integratorScenarioC 4) []).1 = [] ∧
    ((idleFrames integratorScenarioC 3).labels_to_publish_ = [(5, 3), (7, 3)]) ∧
    ((∀ j : ℕ, 5 ∈ (getLabelsToPublish (idleFrames integratorScenarioC j) []).1 ↔
      (j : Int) = 3)) :=
  ⟨by decide, by decide, by decide, by decide, by decide, by decide, by decide,
    (getLabelsToPublish_schedule 3 (by decide) (idleFrames integratorScenarioC) 5
      (fun j => by rw [idleFrames_config]; rfl)
      (fun j => idleFrames_ascending _ (by decide) j)
      (by decide)
      (fun j h => by cases h)
      (fun j => rfl)).1⟩

end PublishLemmas

/-! ## Worker partition of the ray-casting workload -/

theorem integrateVoxels_eq (w n map_size t : Nat) (h : map_size + t < 2 ^ w) :
    integrateVoxels w n map_size t =
      (List.range map_size).filter (fun i => decide ((i + t + 1) % n = 0)) := by
  unfold integrateVoxels
  apply List.filter_congr
  intro i hi
  have hi' : i < map_size := List.mem_range.mp hi
  have e : (i + t + 1) % 2 ^ w = i + t + 1 := Nat.mod_eq_of_lt (by omega)
  rw [e]

theorem mem_integrateVoxels (w n map_size t i : Nat) (h : map_size + t < 2 ^ w) :
    i ∈ integrateVoxels w n map_size t ↔ i < map_size ∧ (i + t + 1) % n = 0 := by
  rw [integrateVoxels_eq w n map_size t h]
  simp only [List.mem_filter, List.mem_range, decide_eq_true_eq]

theorem length_range_filter (n t : Nat) (ht : t < n) :
    ∀ m, ((List.range m).filter (fun i => decide ((i + t + 1) % n = 0))).length =
      (m + t) / n := by
  intro m
  induction m with
  | zero =>
    simp only [List.range_zero, List.filter_nil, List.length_nil, zero_add]
    exact (Nat.div_eq_of_lt ht).symm
  | succ m ih =>
    rw [List.range_succ, List.filter_append, List.length_append, ih]
    have e : m + 1 + t = (m + t) + 1 := by omega
    rw [e, Nat.succ_div]
    by_cases hd : n ∣ m + t + 1
    · rw [if_pos hd]
      have : (m + t + 1) % n = 0 := Nat.mod_eq_zero_of_dvd hd
      simp [List.filter, this]
    · rw [if_neg hd]
      have : ¬ (m + t + 1) % n = 0 := fun h0 => hd (Nat.dvd_of_mod_eq_zero h0)
      simp [List.filter, this]

theorem length_integrateVoxels (w n t : Nat) (ht : t < n) (map_size : Nat)
    (h : map_size + t < 2 ^ w) :
    (integrateVoxels w n map_size t).length = (map_size + t) / n := by
  rw [integrateVoxels_eq w n map_size t h]
  exact length_range_filter n t ht map_size

theorem worker_unique (n i t1 t2 : Nat) (h1 : t1 < n) (h2 : t2 < n)
    (e1 : (i + t1 + 1) % n = 0) (e2 : (i + t2 + 1) % n = 0) : t1 = t2 := by
  wlog hle : t1 ≤ t2 with H
  · exact (H n i t2 t1 h2 h1 e2 e1 (by omega)).symm
  have hd1 : n ∣ i + t1 + 1 := Nat.dvd_of_mod_eq_zero e1
  have hd2 : n ∣ i + t2 + 1 := Nat.dvd_of_mod_eq_zero e2
  have hd : n ∣ (i + t2 + 1) - (i + t1 + 1) := Nat.dvd_sub' hd2 hd1
  have e : (i + t2 + 1) - (i + t1 + 1) = t2 - t1 := by omega
  rw [e] at hd
  have := Nat.eq_zero_of_dvd_of_lt hd (by omega)
  omega

theorem worker_exists (n i : Nat) (hn : 0 < n) :
    n - 1 - i % n < n ∧ (i + (n - 1 - i % n) + 1) % n = 0 := by
  have hlt : i % n < n := Nat.mod_lt _ hn
  refine ⟨by omega, ?_⟩
  have e : i + (n - 1 - i % n) + 1 = n * (i / n) + n := by
    have := Nat.div_add_mod i n
    omega
  rw [e]
  simp

/-- C21: the workers of `integrateVoxels` partition the positions of the map.
For `n ≥ 1` threads and a map of `map_size` entries (with `map_size + n`
representable in `size_t`), every position below `map_size` is handled by
exactly one thread index below `n`; the position lists of two different
workers are disjoint, hold only positions of the map and none twice; worker
`t` handles `(map_size + t) / n` positions, so two workers differ by at most
one position; and with one thread `integrateRays` starts the single worker 0,
which handles every position. -/
theorem integrateVoxels_partition (w n map_size : Nat) (hn : 1 ≤ n)
    (hsize : map_size + n ≤ 2 ^ w) :
    (∀ i, i < map_size → ∃ t, (t < n ∧ i ∈ integrateVoxels w n map_size t) ∧
      ∀ t', t' < n ∧ i ∈ integrateVoxels w n map_size t' → t' = t) ∧
    (∀ t1 t2, t1 < n → t2 < n → t1 ≠ t2 →
      ∀ i ∈ integrateVoxels w n map_size t1, i ∉ integrateVoxels w n map_size t2) ∧
    (∀ t, t < n → (∀ i ∈ integrateVoxels w n map_size t, i < map_size) ∧
      (integrateVoxels w n map_size t).Nodup ∧
      (integrateVoxels w n map_size t).length = (map_size + t) / n) ∧
    (∀ t1 t2, t1 < n → t2 < n →
      (integrateVoxels w n map_size t1).length ≤ (integrateVoxels w n map_size t2).length + 1) ∧
    (n = 1 → integrateRays w n map_size = [List.range map_size]) ∧
    (n ≠ 1 → integrateRays w n map_size =
      (List.range n).map (integrateVoxels w n map_size)) := by
  have hmem : ∀ t i, t < n →
      (i ∈ integrateVoxels w n map_size t ↔ i < map_size ∧ (i + t + 1) % n = 0) :=
    fun t i ht => mem_integrateVoxels w n map_size t i (by omega)
  have hlen : ∀ t, t < n → (integrateVoxels w n map_size t).length = (map_size + t) / n :=
    fun t ht => length_integrateVoxels w n t ht map_size (by omega)
  refine ⟨?_, ?_, ?_, ?_, ?_, ?_⟩
  · intro i hi
    obtain ⟨h1, h2⟩ := worker_exists n i (by omega)
    refine ⟨n - 1 - i % n, ⟨h1, (hmem _ _ h1).mpr ⟨hi, h2⟩⟩, ?_⟩
    rintro t' ⟨ht', hi'⟩
    exact worker_unique n i t' _ ht' h1 ((hmem _ _ ht').mp hi').2 h2
  · intro t1 t2 h1 h2 hne i hi1 hi2
    exact hne (worker_unique n i t1 t2 h1 h2 ((hmem _ _ h1).mp hi1).2 ((hmem _ _ h2).mp hi2).2)
  · intro t ht
    refine ⟨fun i hi => ((hmem _ _ ht).mp hi).1, ?_, hlen t ht⟩
    unfold integrateVoxels
    exact (List.nodup_range map_size).filter _
  · intro t1 t2 h1 h2
    rw [hlen t1 h1, hlen t2 h2]
    have e1 : (map_size + t1) / n ≤ (map_size + n) / n :=
      Nat.div_le_div_right (by omega)
    have e2 : (map_size + n) / n = map_size / n + 1 := by
      rw [Nat.add_div_right _ (by omega)]
    have e3 : map_size / n ≤ (map_size + t2) / n := Nat.div_le_div_right (by omega)
    omega
  · intro h1
    subst h1
    unfold integrateRays
    rw [if_pos rfl]
    unfold integrateVoxels
    congr 1
    apply List.filter_eq_self.mpr
    intro i _
    simp [Nat.mod_one]
  · intro h1
    unfold integrateRays
    rw [if_neg h1]

theorem integrateVoxels_partition_witness :
    1 ≤ 3 ∧ 8 + 3 ≤ 2 ^ 64 ∧
    integrateRays 64 3 8 = [[2, 5], [1, 4, 7], [0, 3, 6]] ∧
    integrateRays 64 1 8 = [[0, 1, 2, 3, 4, 5, 6, 7]] ∧
    (∀ t1 t2, t1 < 3 → t2 < 3 →
      (integrateVoxels 64 3 8 t1).length ≤ (integrateVoxels 64 3 8 t2).length + 1) :=
  ⟨by decide, by decide, by decide, by decide,
    (integrateVoxels_partition 64 3 8 (by decide) (by decide)).2.2.2.1⟩

/-! ## `addVoxelLabelConfidence` writes at most one entry -/

section AddConfidenceLemmas

set_option linter.unusedSectionVars false

variable {C : Type} [LinearOrder C] [Zero C] [Add C]

theorem addToObserved_split (label : Label) (confidence : C) (e : LabelCount C)
    (post : List (LabelCount C)) (he : e.label = label) :
    ∀ pre : List (LabelCount C), (∀ x ∈ pre, x.label ≠ label) →
      addToObserved label confidence (pre ++ e :: post) =
        some (pre ++ { label := e.label,
                       label_confidence := e.label_confidence + confidence } :: post) := by
  intro pre
  induction pre with
  | nil =>
    intro _
    simp only [List.nil_append]
    unfold addToObserved
    rw [if_pos he]
  | cons x t ih =>
    intro h
    have hx : x.label ≠ label := h x (List.mem_cons_self _ _)
    rw [List.cons_append]
    unfold addToObserved
    rw [if_neg hx, ih (fun y hy => h y (List.mem_cons_of_mem _ hy))]
    rfl

theorem addToObserved_eq_none (label : Label) (confidence : C) :
    ∀ l : List (LabelCount C), (∀ x ∈ l, x.label ≠ label) →
      addToObserved label confidence l = none := by
  intro l
  induction l with
  | nil => intro _; rfl
  | cons x t ih =>
    intro h
    unfold addToObserved
    rw [if_neg (h x (List.mem_cons_self _ _)), ih (fun y hy => h y (List.mem_cons_of_mem _ hy))]
    rfl

theorem addToUnused_split (label : Label) (confidence : C) (e : LabelCount C)
    (post : List (LabelCount C)) (he : e.label = 0) :
    ∀ pre : List (LabelCount C), (∀ x ∈ pre, x.label ≠ 0) →
      addToUnused label confidence (pre ++ e :: post) =
        some (pre ++ { label := label, label_confidence := confidence } :: post) := by
  intro pre
  induction pre with
  | nil =>
    intro _
    simp only [List.nil_append]
    unfold addToUnused
    rw [if_pos he]
  | cons x t ih =>
    intro h
    have hx : x.label ≠ 0 := h x (List.mem_cons_self _ _)
    rw [List.cons_append]
    unfold addToUnused
    rw [if_neg hx, ih (fun y hy => h y (List.mem_cons_of_mem _ hy))]
    rfl

theorem addToUnused_eq_none (label : Label) (confidence : C) :
    ∀ l : List (LabelCount C), (∀ x ∈ l, x.label ≠ 0) →
      addToUnused label confidence l = none := by
  intro l
  induction l with
  | nil => intro _; rfl
  | cons x t ih =>
    intro h
    unfold addToUnused
    rw [if_neg (h x (List.mem_cons_self _ _)), ih (fun y hy => h y (List.mem_cons_of_mem _ hy))]
    rfl

/-- The first element of a list that satisfies `P` splits the list. -/
theorem first_split {α : Type} (P : α → Prop) [DecidablePred P] :
    ∀ l : List α, (∃ x ∈ l, P x) →
      ∃ pre e post, l = pre ++ e :: post ∧ P e ∧ ∀ x ∈ pre, ¬ P x := by
  intro l
  induction l with
  | nil => rintro ⟨x, hx, _⟩; cases hx
  | cons a t ih =>
    intro h
    by_cases ha : P a
    · exact ⟨[], a, t, rfl, ha, fun x hx => by cases hx⟩
    · have h2 : ∃ x ∈ t, P x := by
        obtain ⟨x, hx, hp⟩ := h
        rcases List.mem_cons.mp hx with h1 | h1
        · rw [h1] at hp; exact absurd hp ha
        · exact ⟨x, h1, hp⟩
      obtain ⟨pre, e, post, hl, he, hpre⟩ := ih h2
      refine ⟨a :: pre, e, post, by rw [hl]; rfl, he, ?_⟩
      intro x hx
      rcases List.mem_cons.mp hx with h1 | h1
      · rw [h1]; exact ha
      · exact hpre x h1

theorem addVoxel_observed (label : Label) (confidence : C) (voxel : LabelVoxel C)
    (pre post : List (LabelCount C)) (e : LabelCount C)
    (hl : voxel.label_count = pre ++ e :: post) (he : e.label = label)
    (hpre : ∀ x ∈ pre, x.label ≠ label) :
    addVoxelLabelConfidence label confidence voxel =
      { voxel with label_count :=
          pre ++ { label := e.label, label_confidence := e.label_confidence + confidence } ::
            post } := by
  unfold addVoxelLabelConfidence
  rw [hl, addToObserved_split label confidence e post he pre hpre]

theorem addVoxel_unused (label : Label) (confidence : C) (voxel : LabelVoxel C)
    (pre post : List (LabelCount C)) (e : LabelCount C)
    (hl : voxel.label_count = pre ++ e :: post) (he : e.label = 0)
    (hpre : ∀ x ∈ pre, x.label ≠ 0) (hnone : ∀ x ∈ voxel.label_count, x.label ≠ label) :
    addVoxelLabelConfidence label confidence voxel =
      { voxel with label_count :=
          pre ++ { label := label, label_confidence := confidence } :: post } := by
  unfold addVoxelLabelConfidence
  rw [addToObserved_eq_none label confidence _ hnone]
  simp only []
  rw [hl, addToUnused_split label confidence e post he pre hpre]

theorem addVoxel_full (label : Label) (confidence : C) (voxel : LabelVoxel C)
    (h : ∀ x ∈ voxel.label_count, x.label ≠ 0 ∧ x.label ≠ label) :
    addVoxelLabelConfidence label confidence voxel = voxel := by
  unfold addVoxelLabelConfidence
  rw [addToObserved_eq_none label confidence _ (fun x hx => (h x hx).2)]
  simp only []
  rw [addToUnused_eq_none label confidence _ (fun x hx => (h x hx).1)]

theorem addVoxel_pairwise (label : Label) (confidence : C) (voxel : LabelVoxel C)
    (hpw : voxel.label_count.Pairwise (fun a b => a.label ≠ 0 → a.label ≠ b.label)) :
    (addVoxelLabelConfidence label confidence voxel).label_count.Pairwise
      (fun a b => a.label ≠ 0 → a.label ≠ b.label) := by
  by_cases hobs : ∃ x ∈ voxel.label_count, x.label = label
  · obtain ⟨pre, e, post, hl, he, hpre⟩ := first_split (fun x => x.label = label) _ hobs
    rw [addVoxel_observed label confidence voxel pre post e hl he hpre]
    simp only []
    rw [hl] at hpw
    rw [List.pairwise_append, List.pairwise_cons] at hpw ⊢
    obtain ⟨h1, ⟨h2, h3⟩, h4⟩ := hpw
    refine ⟨h1, ⟨fun b hb => h2 b hb, h3⟩, ?_⟩
    intro a ha b hb
    rcases List.mem_cons.mp hb with hb | hb
    · rw [hb]; exact h4 a ha e (List.mem_cons_self _ _)
    · exact h4 a ha b (List.mem_cons_of_mem _ hb)
  · have hnone : ∀ x ∈ voxel.label_count, x.label ≠ label :=
      fun x hx hxl => hobs ⟨x, hx, hxl⟩
    by_cases hfree : ∃ x ∈ voxel.label_count, x.label = 0
    · obtain ⟨pre, e, post, hl, he, hpre⟩ := first_split (fun x => x.label = 0) _ hfree
      rw [addVoxel_unused label confidence voxel pre post e hl he hpre hnone]
      simp only []
      have hpw2 := hpw
      rw [hl] at hpw2
      rw [List.pairwise_append, List.pairwise_cons] at hpw2 ⊢
      obtain ⟨h1, ⟨_, h3⟩, h4⟩ := hpw2
      refine ⟨h1, ⟨?_, h3⟩, ?_⟩
      · intro b hb _ hlb
        exact hnone b (by rw [hl]; exact List.mem_append_right _ (List.mem_cons_of_mem _ hb))
          hlb.symm
      · intro a ha b hb
        rcases List.mem_cons.mp hb with hb | hb
        · rw [hb]
          intro _
          exact hnone a (by rw [hl]; exact List.mem_append_left _ ha)
        · exact h4 a ha b (List.mem_cons_of_mem _ hb)
    · have hfull : ∀ x ∈ voxel.label_count, x.label ≠ 0 ∧ x.label ≠ label :=
        fun x hx => ⟨fun h0 => hfree ⟨x, hx, h0⟩, hnone x hx⟩
      rw [addVoxel_full label confidence voxel hfull]
      exact hpw

end AddConfidenceLemmas

section AddConfidence

set_option linter.unusedSectionVars false

variable {C : Type} [LinearOrderedAddCommMonoid C]

/-- C30: `addVoxelLabelConfidence(label, confidence, voxel)` never touches the
cached label and confidence of the voxel.  When every slot holds a non-zero
label other than `label`, the voxel is left as it is.  When some entry carries
`label`, the first such entry gains `confidence` and nothing else changes; when
no entry carries `label` and some slot is empty (label 0), the first empty slot
becomes `(label, confidence)` and nothing else changes.  These are all the
cases, and entries whose non-zero labels are pairwise distinct stay so. -/
theorem addVoxelLabelConfidence_one_entry (label : Label) (confidence : C)
    (voxel : LabelVoxel C) :
    (addVoxelLabelConfidence label confidence voxel).label = voxel.label ∧
    (addVoxelLabelConfidence label confidence voxel).label_confidence =
      voxel.label_confidence ∧
    ((∀ x ∈ voxel.label_count, x.label ≠ 0 ∧ x.label ≠ label) →
      addVoxelLabelConfidence label confidence voxel = voxel) ∧
    (∀ pre e post, voxel.label_count = pre ++ e :: post → e.label = label →
      (∀ x ∈ pre, x.label ≠ label) →
      (addVoxelLabelConfidence label confidence voxel).label_count =
        pre ++ { label := label, label_confidence := e.label_confidence + confidence } ::
          post) ∧
    (∀ pre e post, voxel.label_count = pre ++ e :: post → e.label = 0 →
      (∀ x ∈ pre, x.label ≠ 0) → (∀ x ∈ voxel.label_count, x.label ≠ label) →
      (addVoxelLabelConfidence label confidence voxel).label_count =
        pre ++ { label := label, label_confidence := confidence } :: post) ∧
    ((∀ x ∈ voxel.label_count, x.label ≠ 0 ∧ x.label ≠ label) ∨
      (∃ pre e post, voxel.label_count = pre ++ e :: post ∧ e.label = label ∧
        ∀ x ∈ pre, x.label ≠ label) ∨
      (∃ pre e post, voxel.label_count = pre ++ e :: post ∧ e.label = 0 ∧
        (∀ x ∈ pre, x.label ≠ 0) ∧ ∀ x ∈ voxel.label_count, x.label ≠ label)) ∧
    (voxel.label_count.Pairwise (fun a b => a.label ≠ 0 → a.label ≠ b.label) →
      (addVoxelLabelConfidence label confidence voxel).label_count.Pairwise
        (fun a b => a.label ≠ 0 → a.label ≠ b.label)) := by
  refine ⟨?_, ?_, addVoxel_full label confidence voxel, ?_, ?_, ?_,
    addVoxel_pairwise label confidence voxel⟩
  · unfold addVoxelLabelConfidence
    cases addToObserved label confidence voxel.label_count with
    | some l => rfl
    | none =>
      simp only []
      cases addToUnused label confidence voxel.label_count <;> rfl
  · unfold addVoxelLabelConfidence
    cases addToObserved label confidence voxel.label_count with
    | some l => rfl
    | none =>
      simp only []
      cases addToUnused label confidence voxel.label_count <;> rfl
  · intro pre e post hl he hpre
    rw [addVoxel_observed label confidence voxel pre post e hl he hpre, he]
  · intro pre e post hl he hpre hnone
    rw [addVoxel_unused label confidence voxel pre post e hl he hpre hnone]
  · by_cases hobs : ∃ x ∈ voxel.label_count, x.label = label
    · exact Or.inr (Or.inl (first_split (fun x => x.label = label) _ hobs))
    · have hnone : ∀ x ∈ voxel.label_count, x.label ≠ label :=
        fun x hx hxl => hobs ⟨x, hx, hxl⟩
      by_cases hfree : ∃ x ∈ voxel.label_count, x.label = 0
      · obtain ⟨pre, e, post, hl, he, hpre⟩ := first_split (fun x => x.label = 0) _ hfree
        exact Or.inr (Or.inr ⟨pre, e, post, hl, he, hpre, hnone⟩)
      · exact Or.inl (fun x hx => ⟨fun h0 => hfree ⟨x, hx, h0⟩, hnone x hx⟩)

theorem addVoxelLabelConfidence_one_entry_witness :
    addVoxelLabelConfidence 5 4 voxelFull = voxelFull ∧
    (addVoxelLabelConfidence 7 4 voxelFull).label_count = [⟨3, 1⟩, ⟨7, 6⟩] ∧
    (addVoxelLabelConfidence 5 4 voxelSeven).label_count = [⟨3, 1⟩, ⟨7, 2⟩, ⟨5, 4⟩] :=
  ⟨(addVoxelLabelConfidence_one_entry 5 4 voxelFull).2.2.1 (by decide),
    (addVoxelLabelConfidence_one_entry 7 4 voxelFull).2.2.2.1 [⟨3, 1⟩] ⟨7, 2⟩ [] rfl rfl
      (by decide),
    (addVoxelLabelConfidence_one_entry 5 4 voxelSeven).2.2.2.2.1 [⟨3, 1⟩, ⟨7, 2⟩] ⟨0, 0⟩ [] rfl
      rfl (by decide) (by decide)⟩

end AddConfidence

/-! ## The tie-break of `updateVoxelLabelAndConfidence` -/

section TieBreak

variable {C : Type} [LinearOrderedAddCommMonoid C]

theorem updateVoxel_fold_below (p : Label) (M : C) :
    ∀ (l : List (LabelCount C)) (acc : Label × C), acc.2 < M →
      (∀ x ∈ l, x.label_confidence < M) → (l.foldl (updateVoxelStep p) acc).2 < M := by
  intro l
  induction l with
  | nil => intro acc h _; exact h
  | cons x t ih =>
    intro acc h hall
    rw [List.foldl_cons]
    apply ih _ _ (fun y hy => hall y (List.mem_cons_of_mem _ hy))
    unfold updateVoxelStep
    by_cases hc : x.label_confidence > acc.2 ∨
        (x.label = p ∧ p ≠ 0 ∧ x.label_confidence = acc.2)
    · rw [if_pos hc]; exact hall x (List.mem_cons_self _ _)
    · rw [if_neg hc]; exact h

theorem updateVoxel_fold_keep (p : Label) :
    ∀ (l : List (LabelCount C)) (acc : Label × C),
      (∀ x ∈ l, x.label_confidence ≤ acc.2 ∧
        ¬ (x.label = p ∧ p ≠ 0 ∧ x.label_confidence = acc.2)) →
      l.foldl (updateVoxelStep p) acc = acc := by
  intro l
  induction l with
  | nil => intro acc _; rfl
  | cons x t ih =>
    intro acc hall
    rw [List.foldl_cons]
    have hx := hall x (List.mem_cons_self _ _)
    have hstep : updateVoxelStep p acc x = acc := by
      unfold updateVoxelStep
      rw [if_neg]
      rintro (h | h)
      · exact absurd h (not_lt.mpr hx.1)
      · exact hx.2 h
    rw [hstep]
    exact ih acc (fun y hy => hall y (List.mem_cons_of_mem _ hy))

theorem updateVoxel_first_max (p : Label) (M : C) (hM : 0 < M)
    (pre post : List (LabelCount C)) (e : LabelCount C)
    (hpre : ∀ x ∈ pre, x.label_confidence < M) (he : e.label_confidence = M)
    (hpost : ∀ x ∈ post, x.label_confidence ≤ M)
    (hnot : ∀ x ∈ post, ¬ (x.label = p ∧ p ≠ 0 ∧ x.label_confidence = M)) :
    (pre ++ e :: post).foldl (updateVoxelStep p) (0, 0) = (e.label, M) := by
  rw [List.foldl_append, List.foldl_cons]
  have h1 := updateVoxel_fold_below p M pre (0, 0) hM hpre
  have h2 : updateVoxelStep p (pre.foldl (updateVoxelStep p) (0, 0)) e = (e.label, M) := by
    unfold updateVoxelStep
    rw [if_pos (Or.inl (by rw [he]; exact h1)), he]
  rw [h2]
  exact updateVoxel_fold_keep p post (e.label, M) (fun x hx => ⟨hpost x hx, hnot x hx⟩)

/-- C29: the result of `updateVoxelLabelAndConfidence(voxel, preferred)` is
determined by the entries of the voxel and `preferred`.  When the largest
confidence `M` among the entries is positive, the cached confidence becomes `M`
and the cached label becomes `preferred` if `preferred ≠ 0` labels an entry
with confidence `M`, and otherwise the label of the first entry (lowest slot)
with confidence `M`.  `updateLabelVoxel` calls it with the label just fused as
`preferred`, and `swapLabels` with the surviving label. -/
theorem updateVoxelLabelAndConfidence_tie_break (voxel : LabelVoxel C) (preferred : Label)
    (M : C) (hM : 0 < M) (hall : ∀ x ∈ voxel.label_count, x.label_confidence ≤ M) :
    (∀ voxel2 : LabelVoxel C, voxel2.label_count = voxel.label_count →
      (updateVoxelLabelAndConfidence voxel2 preferred).label =
        (updateVoxelLabelAndConfidence voxel preferred).label ∧
      (updateVoxelLabelAndConfidence voxel2 preferred).label_confidence =
        (updateVoxelLabelAndConfidence voxel preferred).label_confidence) ∧
    (preferred ≠ 0 →
      (∃ x ∈ voxel.label_count, x.label = preferred ∧ x.label_confidence = M) →
      (updateVoxelLabelAndConfidence voxel preferred).label = preferred ∧
      (updateVoxelLabelAndConfidence voxel preferred).label_confidence = M) ∧
    (¬ (preferred ≠ 0 ∧
        ∃ x ∈ voxel.label_count, x.label = preferred ∧ x.label_confidence = M) →
      ∀ pre e post, voxel.label_count = pre ++ e :: post →
        (∀ x ∈ pre, x.label_confidence < M) → e.label_confidence = M →
        (updateVoxelLabelAndConfidence voxel preferred).label = e.label ∧
        (updateVoxelLabelAndConfidence voxel preferred).label_confidence = M) ∧
    (∀ (st : Integrator C) (label : Label) (confidence : C),
      (updateLabelVoxel st label voxel confidence).2 =
        updateVoxelLabelAndConfidence (addVoxelLabelConfidence label confidence voxel) label) ∧
    (∀ old_label new_label : Label,
      swapVoxel old_label new_label voxel =
        updateVoxelLabelAndConfidence
          (if (clearOldLabel old_label 0 voxel.label_count).1 > 0 then
            addVoxelLabelConfidence new_label (clearOldLabel old_label 0 voxel.label_count).1
              { voxel with label_count := (clearOldLabel old_label 0 voxel.label_count).2 }
          else { voxel with label_count := (clearOldLabel old_label 0 voxel.label_count).2 })
          new_label) := by
  refine ⟨?_, ?_, ?_, ?_, ?_⟩
  · intro voxel2 h2
    unfold updateVoxelLabelAndConfidence
    simp only []
    rw [h2]
    exact ⟨rfl, rfl⟩
  · intro hp hex
    unfold updateVoxelLabelAndConfidence
    simp only []
    rw [updateVoxel_fold_preferred preferred hp M voxel.label_count (0, 0) hall (le_of_lt hM)
      (Or.inl hex)]
    exact ⟨rfl, rfl⟩
  · intro hnot pre e post hl hpre he
    have hpost : ∀ x ∈ post, x.label_confidence ≤ M := fun x hx =>
      hall x (by rw [hl]; exact List.mem_append_right _ (List.mem_cons_of_mem _ hx))
    have hnp : ∀ x ∈ post, ¬ (x.label = preferred ∧ preferred ≠ 0 ∧ x.label_confidence = M) :=
      fun x hx h => hnot ⟨h.2.1, x,
        by rw [hl]; exact List.mem_append_right _ (List.mem_cons_of_mem _ hx), h.1, h.2.2⟩
    unfold updateVoxelLabelAndConfidence
    simp only []
    rw [hl, updateVoxel_first_max preferred M hM pre post e hpre he hpost hnp]
    exact ⟨rfl, rfl⟩
  · intro st label confidence
    exact updateLabelVoxel_voxel st label voxel confidence
  · intro old_label new_label
    rfl

theorem updateVoxelLabelAndConfidence_tie_break_witness :
    (updateVoxelLabelAndConfidence
      ({ label := 0, label_confidence := 0, label_count := [⟨3, 1⟩, ⟨4, 2⟩, ⟨7, 2⟩] } :
        LabelVoxel Int) 7).label = 7 ∧
    (updateVoxelLabelAndConfidence
      ({ label := 0, label_confidence := 0, label_count := [⟨3, 1⟩, ⟨4, 2⟩, ⟨7, 2⟩] } :
        LabelVoxel Int) 3).label = 4 :=
  ⟨((updateVoxelLabelAndConfidence_tie_break
      ({ label := 0, label_confidence := 0, label_count := [⟨3, 1⟩, ⟨4, 2⟩, ⟨7, 2⟩] } :
        LabelVoxel Int) 7 2 (by decide) (by decide)).2.1 (by decide) (by decide)).1,
    ((updateVoxelLabelAndConfidence_tie_break
      ({ label := 0, label_confidence := 0, label_count := [⟨3, 1⟩, ⟨4, 2⟩, ⟨7, 2⟩] } :
        LabelVoxel Int) 3 2 (by decide) (by decide)).2.2.1 (by decide)
      [⟨3, 1⟩] ⟨4, 2⟩ [⟨7, 2⟩] rfl (by decide) rfl).1⟩

end TieBreak

/-! ## `getNextUnassignedLabel` -/

section NextUnassignedLemmas

set_option linter.unusedSectionVars false

variable {C : Type} [LinearOrderedAddCommMonoid C]

theorem nextSeen_step (assigned_labels : LSet) (seen : List (LabelCount C))
    (acc : Label × C) (x : LabelCount C) (hx : 0 ≤ x.label_confidence)
    (h : NextSeen assigned_labels seen acc) :
    NextSeen assigned_labels (seen ++ [x]) (nextUnassignedStep assigned_labels 0 acc x) := by
  unfold nextUnassignedStep
  by_cases hc : x.label ∉ assigned_labels ∧
      (x.label_confidence ≥ acc.2 ∨
        (x.label = 0 ∧ (0 : Label) ≠ 0 ∧ x.label_confidence = acc.2))
  · rw [if_pos hc]
    have hge : acc.2 ≤ x.label_confidence := by
      rcases hc.2 with h1 | h1
      · exact h1
      · exact absurd rfl h1.2.1
    refine Or.inr ⟨x, List.mem_append_right _ (List.mem_singleton_self _), hc.1, rfl, ?_⟩
    intro e' he' hna
    rcases List.mem_append.mp he' with h1 | h1
    · rcases h with ⟨hall, _⟩ | ⟨e, _, _, hacc, hmax⟩
      · exact absurd (hall e' h1) hna
      · rw [hacc] at hge
        exact le_trans (hmax e' h1 hna) hge
    · rw [List.mem_singleton.mp h1]
  · rw [if_neg hc]
    rcases h with ⟨hall, hacc⟩ | ⟨e, he, hna, hacc, hmax⟩
    · refine Or.inl ⟨?_, hacc⟩
      intro e' he'
      rcases List.mem_append.mp he' with h1 | h1
      · exact hall e' h1
      · rw [List.mem_singleton.mp h1]
        by_contra hna
        apply hc
        refine ⟨hna, Or.inl ?_⟩
        rw [hacc]
        exact hx
    · refine Or.inr ⟨e, List.mem_append_left _ he, hna, hacc, ?_⟩
      intro e' he' hna'
      rcases List.mem_append.mp he' with h1 | h1
      · exact hmax e' h1 hna'
      · rw [List.mem_singleton.mp h1] at hna' ⊢
        have hlt : ¬ x.label_confidence ≥ acc.2 := fun hge => hc ⟨hna', Or.inl hge⟩
        rw [hacc] at hlt
        exact le_of_lt (not_le.mp hlt)

theorem nextSeen_foldl (assigned_labels : LSet) :
    ∀ (rest seen : List (LabelCount C)) (acc : Label × C),
      (∀ x ∈ rest, 0 ≤ x.label_confidence) → NextSeen assigned_labels seen acc →
      NextSeen assigned_labels (seen ++ rest)
        (rest.foldl (nextUnassignedStep assigned_labels 0) acc) := by
  intro rest
  induction rest with
  | nil =>
    intro seen acc _ h
    rw [List.append_nil]
    exact h
  | cons x t ih =>
    intro seen acc hnn h
    have h1 := nextSeen_step assigned_labels seen acc x (hnn x (List.mem_cons_self _ _)) h
    have h2 := ih (seen ++ [x]) _ (fun y hy => hnn y (List.mem_cons_of_mem _ hy)) h1
    rw [List.append_assoc] at h2
    exact h2

theorem nextSeen_result (voxel : LabelVoxel C) (assigned_labels : LSet)
    (hnn : ConfidencesNonneg voxel) :
    NextSeen assigned_labels voxel.label_count
      (voxel.label_count.foldl (nextUnassignedStep assigned_labels 0) (0, 0)) := by
  have h := nextSeen_foldl assigned_labels voxel.label_count [] (0, 0) hnn
    (Or.inl ⟨fun e he => absurd he (List.not_mem_nil e), rfl⟩)
  rw [List.nil_append] at h
  exact h

/-- C23 as stated fails: for a voxel whose two slots hold the labels 10 and 4,
both already assigned, `getNextUnassignedLabel` returns 0, and no entry of the
voxel has a label outside `assigned_labels`. -/
theorem getNextUnassignedLabel_all_assigned :
    voxelTenFour.label ∈ ([4, 10] : LSet) ∧ ConfidencesNonneg voxelTenFour ∧
    getNextUnassignedLabel voxelTenFour [4, 10] = 0 ∧
    ¬ ∃ e ∈ voxelTenFour.label_count, e.label ∉ ([4, 10] : LSet) ∧
        getNextUnassignedLabel voxelTenFour [4, 10] = e.label ∧
        ∀ e' ∈ voxelTenFour.label_count, e'.label ∉ ([4, 10] : LSet) →
          e'.label_confidence ≤ e.label_confidence := by
  decide

/-- C23 (amended): for a voxel with non-negative stored confidences,
`getNextUnassignedLabel(voxel, assigned_labels)` returns the cached best label
of the voxel when that label is not in `assigned_labels`.  Otherwise, when some
entry of the voxel has a label not in `assigned_labels`, it returns the label
of such an entry whose confidence is maximal among such entries (so 0 when only
empty slots qualify), and when no entry has such a label it returns 0.
Whenever 0 is not in `assigned_labels`, the returned label is not in
`assigned_labels`. -/
theorem getNextUnassignedLabel_spec (voxel : LabelVoxel C) (assigned_labels : LSet)
    (hnn : ConfidencesNonneg voxel) :
    (voxel.label ∉ assigned_labels →
      getNextUnassignedLabel voxel assigned_labels = voxel.label) ∧
    (voxel.label ∈ assigned_labels →
      (∃ e ∈ voxel.label_count, e.label ∉ assigned_labels) →
      ∃ e ∈ voxel.label_count, e.label ∉ assigned_labels ∧
        getNextUnassignedLabel voxel assigned_labels = e.label ∧
        ∀ e' ∈ voxel.label_count, e'.label ∉ assigned_labels →
          e'.label_confidence ≤ e.label_confidence) ∧
    (voxel.label ∈ assigned_labels →
      (∀ e ∈ voxel.label_count, e.label ∈ assigned_labels) →
      getNextUnassignedLabel voxel assigned_labels = 0) ∧
    (0 ∉ assigned_labels → getNextUnassignedLabel voxel assigned_labels ∉ assigned_labels) := by
  have hres := nextSeen_result voxel assigned_labels hnn
  refine ⟨?_, ?_, ?_, ?_⟩
  · intro h
    unfold getNextUnassignedLabel
    rw [if_neg h]
  · intro h hex
    unfold getNextUnassignedLabel
    rw [if_pos h]
    rcases hres with ⟨hall, _⟩ | ⟨e, he, hna, hacc, hmax⟩
    · obtain ⟨e, he, hna⟩ := hex
      exact absurd (hall e he) hna
    · exact ⟨e, he, hna, by rw [hacc], hmax⟩
  · intro h hall
    unfold getNextUnassignedLabel
    rw [if_pos h]
    rcases hres with ⟨_, hacc⟩ | ⟨e, he, hna, _, _⟩
    · rw [hacc]
    · exact absurd (hall e he) hna
  · intro h0
    unfold getNextUnassignedLabel
    by_cases h : voxel.label ∈ assigned_labels
    · rw [if_pos h]
      rcases hres with ⟨_, hacc⟩ | ⟨e, _, hna, hacc, _⟩
      · rw [hacc]; exact h0
      · rw [hacc]; exact hna
    · rw [if_neg h]; exact h

theorem getNextUnassignedLabel_spec_witness :
    ConfidencesNonneg voxelTen ∧ voxelTen.label ∈ ([10] : LSet) ∧
    getNextUnassignedLabel voxelTen [10] = 4 ∧ getNextUnassignedLabel voxelTen [4, 10] = 0 ∧
    ∃ e ∈ voxelTen.label_count, e.label ∉ ([0, 10] : LSet) ∧
      getNextUnassignedLabel voxelTen [0, 10] = e.label ∧
      ∀ e' ∈ voxelTen.label_count, e'.label ∉ ([0, 10] : LSet) →
        e'.label_confidence ≤ e.label_confidence :=
  ⟨by decide, by decide, by decide, by decide,
    (getNextUnassignedLabel_spec voxelTen [0, 10] (by decide)).2.1 (by decide) (by decide)⟩

end NextUnassignedLemmas

/-! ## `increasePairwiseConfidenceCount` -/

theorem bump_comp (P Q : Prop) [Decidable P] [Decidable Q] (hex : ¬ (P ∧ Q)) (v : Option Int) :
    (if Q then some ((if P then some (v.getD 0 + 1) else v).getD 0 + 1)
      else (if P then some (v.getD 0 + 1) else v)) =
      if P ∨ Q then some (v.getD 0 + 1) else v := by
  by_cases hP : P
  · by_cases hQ : Q
    · exact absurd ⟨hP, hQ⟩ hex
    · simp [hP, hQ]
  · by_cases hQ : Q
    · simp [hP, hQ]
    · simp [hP, hQ]

theorem pairCount_increasePair (pc : LLMap) (li lj a b : Label) :
    pairCount (increasePairwiseConfidenceCountPair pc li lj) a b =
      if li ≠ lj ∧ a = (if li > lj then lj else li) ∧ b = (if li > lj then li else lj) then
        some ((pairCount pc a b).getD 0 + 1)
      else pairCount pc a b := by
  unfold increasePairwiseConfidenceCountPair
  by_cases hne : li ≠ lj
  · rw [if_pos hne]
    simp only []
    generalize (if li > lj then lj else li) = lo
    generalize (if li > lj then li else lj) = hi
    cases h1 : StdMap.find pc lo with
    | none =>
      simp only []
      rw [pairCount_emplace pc lo _ a b h1]
      by_cases ha : a = lo
      · subst ha
        rw [if_pos rfl]
        have hp : ∀ x, pairCount pc a x = none := fun x => pairCount_ne_none_of_find_none h1
        rw [hp b]
        by_cases hb : b = hi
        · subst hb
          simp [StdMap.find, hne]
        · have hb' : ¬ hi = b := fun e => hb e.symm
          simp [StdMap.find, hne, hb, hb']
      · rw [if_neg ha]
        simp [ha]
    | some inner =>
      simp only []
      have hp : ∀ x, pairCount pc lo x = StdMap.find inner x := fun x => pairCount_of_find h1
      cases h2 : StdMap.find inner hi with
      | none =>
        simp only []
        rw [pairCount_put]
        by_cases ha : a = lo
        · subst ha
          rw [if_pos rfl, StdMap.find_emplace, hp b]
          by_cases hb : b = hi
          · subst hb
            simp [hne, h2]
          · simp [hne, hb]
        · rw [if_neg ha]
          simp [ha]
      | some c =>
        simp only []
        rw [pairCount_put]
        by_cases ha : a = lo
        · subst ha
          rw [if_pos rfl, StdMap.find_put, hp b]
          by_cases hb : b = hi
          · subst hb
            simp [hne, h2]
          · simp [hne, hb]
        · rw [if_neg ha]
          simp [ha]
  · rw [if_neg hne]
    simp [hne]

theorem pairCount_increaseFrom (li : Label) (rest : List Label) :
    ∀ (pc : LLMap) (a b : Label), li ∉ rest → rest.Nodup →
      pairCount (increasePairwiseConfidenceCountFrom pc li rest) a b =
        if a < b ∧ ((a = li ∧ b ∈ rest) ∨ (b = li ∧ a ∈ rest)) then
          some ((pairCount pc a b).getD 0 + 1)
        else pairCount pc a b := by
  induction rest with
  | nil =>
    intro pc a b _ _
    simp [increasePairwiseConfidenceCountFrom]
  | cons lj t ih =>
    intro pc a b hli hnd
    have hne : li ≠ lj := fun e => hli (by rw [e]; exact List.mem_cons_self _ _)
    have hlit : li ∉ t := fun h => hli (List.mem_cons_of_mem _ h)
    have hljt : lj ∉ t := (List.nodup_cons.mp hnd).1
    unfold increasePairwiseConfidenceCountFrom
    rw [ih _ a b hlit (List.nodup_cons.mp hnd).2, pairCount_increasePair]
    have hex : ¬ ((li ≠ lj ∧ a = (if li > lj then lj else li) ∧
        b = (if li > lj then li else lj)) ∧
        (a < b ∧ ((a = li ∧ b ∈ t) ∨ (b = li ∧ a ∈ t)))) := by
      rintro ⟨⟨_, ha, hb⟩, _, h | h⟩
      · by_cases hgt : li > lj
        · rw [if_pos hgt] at ha hb
          exact hne (h.1.symm.trans ha)
        · rw [if_neg hgt] at ha hb
          exact hljt (hb ▸ h.2)
      · by_cases hgt : li > lj
        · rw [if_pos hgt] at ha hb
          exact hljt (ha ▸ h.2)
        · rw [if_neg hgt] at ha hb
          exact hne (h.1.symm.trans hb)
    rw [bump_comp _ _ hex]
    apply if_congr _ rfl rfl
    constructor
    · rintro (⟨_, ha, hb⟩ | ⟨hlt, h | h⟩)
      · by_cases hgt : li > lj
        · rw [if_pos hgt] at ha hb
          exact ⟨by rw [ha, hb]; exact hgt, Or.inr ⟨hb, by rw [ha]; exact List.mem_cons_self _ _⟩⟩
        · rw [if_neg hgt] at ha hb
          have hlt : li < lj := lt_of_le_of_ne (not_lt.mp hgt) hne
          exact ⟨by rw [ha, hb]; exact hlt, Or.inl ⟨ha, by rw [hb]; exact List.mem_cons_self _ _⟩⟩
      · exact ⟨hlt, Or.inl ⟨h.1, List.mem_cons_of_mem _ h.2⟩⟩
      · exact ⟨hlt, Or.inr ⟨h.1, List.mem_cons_of_mem _ h.2⟩⟩
    · rintro ⟨hlt, h | h⟩
      · rcases List.mem_cons.mp h.2 with hb | hb
        · left
          have hgt : ¬ li > lj := by rw [← h.1, ← hb]; exact not_lt.mpr (le_of_lt hlt)
          rw [if_neg hgt, if_neg hgt]
          exact ⟨hne, h.1, hb⟩
        · exact Or.inr ⟨hlt, Or.inl ⟨h.1, hb⟩⟩
      · rcases List.mem_cons.mp h.2 with ha | ha
        · left
          have hgt : li > lj := by rw [← h.1, ← ha]; exact hlt
          rw [if_pos hgt, if_pos hgt]
          exact ⟨hne, ha, h.1⟩
        · exact Or.inr ⟨hlt, Or.inr ⟨h.1, ha⟩⟩

theorem pairCount_increase (l : List Label) :
    ∀ (pc : LLMap) (a b : Label), l.Nodup →
      pairCount (increasePairwiseConfidenceCount pc l) a b =
        if a < b ∧ a ∈ l ∧ b ∈ l then some ((pairCount pc a b).getD 0 + 1)
        else pairCount pc a b := by
  induction l with
  | nil =>
    intro pc a b _
    simp [increasePairwiseConfidenceCount]
  | cons li rest ih =>
    intro pc a b hnd
    have hli : li ∉ rest := (List.nodup_cons.mp hnd).1
    have hrest : rest.Nodup := (List.nodup_cons.mp hnd).2
    unfold increasePairwiseConfidenceCount
    rw [ih _ a b hrest, pairCount_increaseFrom li rest pc a b hli hrest]
    have hex : ¬ ((a < b ∧ ((a = li ∧ b ∈ rest) ∨ (b = li ∧ a ∈ rest))) ∧
        (a < b ∧ a ∈ rest ∧ b ∈ rest)) := by
      rintro ⟨⟨_, h | h⟩, _, ha, hb⟩
      · exact hli (h.1 ▸ ha)
      · exact hli (h.1 ▸ hb)
    rw [bump_comp _ _ hex]
    apply if_congr _ rfl rfl
    constructor
    · rintro (⟨hlt, h | h⟩ | ⟨hlt, ha, hb⟩)
      · exact ⟨hlt, by rw [h.1]; exact List.mem_cons_self _ _, List.mem_cons_of_mem _ h.2⟩
      · exact ⟨hlt, List.mem_cons_of_mem _ h.2, by rw [h.1]; exact List.mem_cons_self _ _⟩
      · exact ⟨hlt, List.mem_cons_of_mem _ ha, List.mem_cons_of_mem _ hb⟩
    · rintro ⟨hlt, ha, hb⟩
      rcases List.mem_cons.mp ha with ha | ha
      · rcases List.mem_cons.mp hb with hb | hb
        · exact absurd hlt (by rw [ha, hb]; exact lt_irrefl _)
        · exact Or.inl ⟨hlt, Or.inl ⟨ha, hb⟩⟩
      · rcases List.mem_cons.mp hb with hb | hb
        · exact Or.inl ⟨hlt, Or.inr ⟨hb, ha⟩⟩
        · exact Or.inr ⟨hlt, ha, hb⟩

/-- C24: for a list of pairwise distinct labels, after
`increasePairwiseConfidenceCount(list)` the counter stored under outer key `a`
and inner key `b`, for `a < b` both in the list, is its previous value (0 if
absent) plus 1; every other stored counter is the same as before, and no other
counter is created.  A list of fewer than two labels leaves the table as it
is. -/
theorem increasePairwiseConfidenceCount_spec (pc : LLMap) (merge_candidates : List Label)
    (hdistinct : merge_candidates.Nodup) :
    (∀ a b, a < b → a ∈ merge_candidates → b ∈ merge_candidates →
      pairCount (increasePairwiseConfidenceCount pc merge_candidates) a b =
        some ((pairCount pc a b).getD 0 + 1)) ∧
    (∀ a b, ¬ (a < b ∧ a ∈ merge_candidates ∧ b ∈ merge_candidates) →
      pairCount (increasePairwiseConfidenceCount pc merge_candidates) a b =
        pairCount pc a b) ∧
    (merge_candidates.length < 2 →
      increasePairwiseConfidenceCount pc merge_candidates = pc) := by
  refine ⟨?_, ?_, ?_⟩
  · intro a b hlt ha hb
    rw [pairCount_increase merge_candidates pc a b hdistinct, if_pos ⟨hlt, ha, hb⟩]
  · intro a b h
    rw [pairCount_increase merge_candidates pc a b hdistinct, if_neg h]
  · intro hlen
    match merge_candidates, hlen with
    | [], _ => rfl
    | [_], _ => rfl
    | _ :: _ :: _, h => exact absurd h (by simp)

set_option maxRecDepth 100000 in
theorem increasePairwiseConfidenceCount_spec_witness :
    ([7, 3, 9] : List Label).Nodup ∧
    increasePairwiseConfidenceCount tableScenarioC [7, 3, 9] =
      [(2, [(7, 4), (9, 1)]), (3, [(7, 32), (9, 1)]), (5, [(7, 2)]), (7, [(8, 3), (9, 1)])] ∧
    pairCount (increasePairwiseConfidenceCount tableScenarioC [7, 3, 9]) 3 7 =
      some ((pairCount tableScenarioC 3 7).getD 0 + 1) :=
  ⟨by decide, by decide,
    (increasePairwiseConfidenceCount_spec tableScenarioC [7, 3, 9] (by decide)).1 3 7
      (by decide) (by decide) (by decide)⟩

/-! ## Voxel-count consistency as an invariant -/

section CountInvariant

set_option linter.unusedSectionVars false

variable {C : Type} [LinearOrderedAddCommMonoid C]

theorem list_split_at {α : Type} (v : α) :
    ∀ (l : List α) (j : Nat), l[j]? = some v →
      ∃ p q, l = p ++ v :: q ∧ ∀ w, l.set j w = p ++ w :: q := by
  intro l
  induction l with
  | nil => intro j h; simp at h
  | cons a t ih =>
    intro j h
    cases j with
    | zero =>
      simp only [List.getElem?_cons_zero, Option.some.injEq] at h
      subst h
      exact ⟨[], t, rfl, fun w => rfl⟩
    | succ j =>
      simp only [List.getElem?_cons_succ] at h
      obtain ⟨p, q, hl, hset⟩ := ih j h
      refine ⟨a :: p, q, by rw [hl]; rfl, fun w => ?_⟩
      rw [List.set_cons_succ, hset w]
      rfl

theorem allVoxels_setVoxelAt (v : LabelVoxel C) :
    ∀ (layer : Layer C) (i j : Nat), voxelAtPos layer i j = some v →
      ∃ pre post, allVoxels layer = pre ++ v :: post ∧
        ∀ w, allVoxels (setVoxelAt layer i j w) = pre ++ w :: post := by
  intro layer
  induction layer with
  | nil => intro i j h; simp [voxelAtPos] at h
  | cons b rest ih =>
    intro i j h
    cases i with
    | zero =>
      have h1 : b.2.voxels[j]? = some v := by
        simpa [voxelAtPos] using h
      obtain ⟨p, q, hl, hset⟩ := list_split_at v b.2.voxels j h1
      refine ⟨p, q ++ allVoxels rest, ?_, fun w => ?_⟩
      · show b.2.voxels ++ allVoxels rest = _
        rw [hl]; simp
      · show allVoxels (setVoxelAt (b :: rest) 0 j w) = _
        unfold setVoxelAt
        simp only [List.getElem?_cons_zero, List.set_cons_zero]
        show (b.2.voxels.set j w) ++ allVoxels rest = _
        rw [hset w]; simp
    | succ i =>
      have h1 : voxelAtPos rest i j = some v := by
        simpa [voxelAtPos] using h
      obtain ⟨pre, post, hl, hset⟩ := ih i j h1
      refine ⟨b.2.voxels ++ pre, post, ?_, fun w => ?_⟩
      · show b.2.voxels ++ allVoxels rest = _
        rw [hl]; simp
      · have h2 : setVoxelAt (b :: rest) (i + 1) j w = b :: setVoxelAt rest i j w := by
          unfold setVoxelAt
          simp only [List.getElem?_cons_succ, List.set_cons_succ]
          cases rest[i]? <;> rfl
        rw [h2]
        show b.2.voxels ++ allVoxels (setVoxelAt rest i j w) = _
        rw [hset w]; simp

theorem changeLabelCount_map (s t : Integrator C) (label : Label) (count : Int)
    (h : s.labels_count_map_ = t.labels_count_map_) :
    (changeLabelCount s label count).labels_count_map_ =
      (changeLabelCount t label count).labels_count_map_ := by
  unfold changeLabelCount
  rw [h]
  cases StdMap.find t.labels_count_map_ label with
  | none =>
    simp only []
    by_cases h0 : label ≠ 0
    · rw [if_pos h0, if_pos h0]
    · rw [if_neg h0, if_neg h0]; exact h
  | some c =>
    simp only []
    by_cases hc : c + count ≤ 0
    · rw [if_pos hc, if_pos hc]
    · rw [if_neg hc, if_neg hc]

theorem updateLabelVoxel_counts (st : Integrator C) (label : Label) (v : LabelVoxel C)
    (confidence : C) (h0 : StdMap.find st.labels_count_map_ 0 = none)
    (hpos : ∀ label c, StdMap.find st.labels_count_map_ label = some c → 0 < c) :
    (updateLabelVoxel st label v confidence).1.labels_count_map_ =
      (swapBookkeeping st v.label
        (updateVoxelLabelAndConfidence
          (addVoxelLabelConfidence label confidence v) label).label).labels_count_map_ := by
  unfold updateLabelVoxel swapBookkeeping
  simp only []
  generalize (updateVoxelLabelAndConfidence
    (addVoxelLabelConfidence label confidence v) label).label = new_label
  by_cases hne : new_label ≠ v.label
  · rw [if_pos hne, if_pos hne]
    simp only []
    have hmap : ∀ s : Integrator C,
        (if s.highest_label_ < new_label then { s with highest_label_ := new_label }
          else s).labels_count_map_ = s.labels_count_map_ := by
      intro s
      by_cases hh : s.highest_label_ < new_label
      · rw [if_pos hh]
      · rw [if_neg hh]
    rw [hmap]
    by_cases hp : v.label ≠ 0
    · rw [if_pos hp]
      exact changeLabelCount_map _ _ _ _ rfl
    · rw [if_neg hp]
      have hz : v.label = 0 := not_not.mp hp
      rw [hz]
      have hinc := changeLabelCount_increase
        ({ st with updated_labels_ := StdSet.put st.updated_labels_ new_label } : Integrator C)
        new_label h0 hpos 0
      have h0' : StdMap.find (changeLabelCount
          ({ st with updated_labels_ := StdSet.put st.updated_labels_ new_label } :
            Integrator C) new_label 1).labels_count_map_ 0 = none := by
        rw [hinc]
        by_cases hu : (0 : Label) = new_label ∧ new_label ≠ 0
        · exact absurd hu.1.symm hu.2
        · rw [if_neg hu]; exact h0
      rw [changeLabelCount_zero _ _ h0']
  · rw [if_neg hne, if_neg hne]

theorem updateLabelVoxelAt_consistent (st : Integrator C) (i j : Nat) (label : Label)
    (confidence : C)
    (h : CountsConsistent st.labels_count_map_ (allVoxels st.label_layer_)) :
    CountsConsistent (updateLabelVoxelAt st i j label confidence).labels_count_map_
      (allVoxels (updateLabelVoxelAt st i j label confidence).label_layer_) := by
  unfold updateLabelVoxelAt
  cases hv : voxelAtPos st.label_layer_ i j with
  | none => exact h
  | some v =>
    simp only []
    obtain ⟨pre, post, hl, hset⟩ := allVoxels_setVoxelAt v st.label_layer_ i j hv
    show CountsConsistent (updateLabelVoxel st label v confidence).1.labels_count_map_
      (allVoxels (setVoxelAt st.label_layer_ i j (updateLabelVoxel st label v confidence).2))
    rw [hset, updateLabelVoxel_counts st label v confidence h.1 h.2.1, updateLabelVoxel_voxel]
    rw [hl] at h
    exact swapBookkeeping_consistent st pre post v _ h

theorem applyOps_consistent (ops : List (FusionOp C)) :
    ∀ st : Integrator C,
      CountsConsistent st.labels_count_map_ (allVoxels st.label_layer_) →
      CountsConsistent (applyOps st ops).labels_count_map_
        (allVoxels (applyOps st ops).label_layer_) := by
  induction ops with
  | nil => intro st h; exact h
  | cons op rest ih =>
    intro st h
    show CountsConsistent (applyOps (applyOp st op) rest).labels_count_map_ _
    apply ih
    cases op with
    | update i j label confidence => exact updateLabelVoxelAt_consistent st i j label confidence h
    | swap old_label new_label => exact swapLabels_consistent st old_label new_label h

theorem countsConsistent_unlabelled (voxels : List (LabelVoxel C))
    (h : ∀ v ∈ voxels, v.label = 0) : CountsConsistent ([] : LMap) voxels := by
  refine ⟨rfl, fun label c hc => (by cases hc), ?_⟩
  intro label hl
  have h4 : voxelCount voxels label = 0 := by
    unfold voxelCount
    rw [List.countP_eq_zero]
    intro v hv
    simp only [decide_eq_true_eq]
    intro e
    exact hl (by rw [← e]; exact h v hv)
  rw [h4]
  rfl

/-- C27: voxel-count consistency is an invariant of the fusion operations.  The
statement "label 0 is not a key of `labels_count_map_`, no stored value is zero
or negative, and for every label other than 0 the stored value (0 if absent)
is the number of voxels of the store whose cached best label it is" holds for
the empty store with an empty map, and for any store of unlabelled voxels with
an empty map; it is preserved by every `updateLabelVoxel` on a voxel of the
store, by every `swapLabels`, and hence by every sequence of them. -/
theorem countsConsistent_invariant :
    CountsConsistent ([] : LMap) (allVoxels ([] : Layer C)) ∧
    (∀ st : Integrator C, st.labels_count_map_ = [] →
      (∀ v ∈ allVoxels st.label_layer_, v.label = 0) →
      CountsConsistent st.labels_count_map_ (allVoxels st.label_layer_)) ∧
    (∀ (st : Integrator C) (i j : Nat) (label : Label) (confidence : C),
      CountsConsistent st.labels_count_map_ (allVoxels st.label_layer_) →
      CountsConsistent (updateLabelVoxelAt st i j label confidence).labels_count_map_
        (allVoxels (updateLabelVoxelAt st i j label confidence).label_layer_)) ∧
    (∀ (st : Integrator C) (old_label new_label : Label),
      CountsConsistent st.labels_count_map_ (allVoxels st.label_layer_) →
      CountsConsistent (swapLabels st old_label new_label).labels_count_map_
        (allVoxels (swapLabels st old_label new_label).label_layer_)) ∧
    (∀ (st : Integrator C) (ops : List (FusionOp C)),
      CountsConsistent st.labels_count_map_ (allVoxels st.label_layer_) →
      CountsConsistent (applyOps st ops).labels_count_map_
        (allVoxels (applyOps st ops).label_layer_)) := by
  refine ⟨countsConsistent_unlabelled _ (fun v hv => (by cases hv)), ?_,
    updateLabelVoxelAt_consistent, swapLabels_consistent, fun st ops => applyOps_consistent ops st⟩
  intro st hm hv
  rw [hm]
  exact countsConsistent_unlabelled _ hv

end CountInvariant

set_option maxRecDepth 100000 in
theorem countsConsistent_invariant_witness :
    (applyOps integratorZeroVoxel countedUpdates).labels_count_map_ = [(3, 1)] ∧
    (allVoxels (applyOps integratorZeroVoxel countedUpdates).label_layer_).map
      (fun v => (v.label, v.label_confidence)) = [(3, 4)] ∧
    CountsConsistent (applyOps integratorZeroVoxel countedUpdates).labels_count_map_
      (allVoxels (applyOps integratorZeroVoxel countedUpdates).label_layer_) :=
  ⟨by decide, by decide,
    (countsConsistent_invariant (C := Int)).2.2.2.2 integratorZeroVoxel countedUpdates
      ((countsConsistent_invariant (C := Int)).2.1 integratorZeroVoxel (by decide) (by decide))⟩

/-! ## Every segment gets an entry in the candidate table -/

theorem entryCount_of_find {candidates : Candidates} {label : Label}
    {segments : List (SegmentPtr × Nat)} (h : StdMap.find candidates label = some segments)
    (segment : SegmentPtr) :
    entryCount candidates label segment = StdMap.find segments segment := by
  unfold entryCount
  rw [h]

theorem entryCount_of_find_none {candidates : Candidates} {label : Label}
    (h : StdMap.find candidates label = none) (segment : SegmentPtr) :
    entryCount candidates label segment = none := by
  unfold entryCount
  rw [h]

theorem entryCount_put (candidates : Candidates) (label : Label)
    (segments : List (SegmentPtr × Nat)) (label' : Label) (segment : SegmentPtr) :
    entryCount (StdMap.put candidates label segments) label' segment =
      if label' = label then StdMap.find segments segment
      else entryCount candidates label' segment := by
  unfold entryCount
  rw [StdMap.find_put]
  by_cases h : label' = label
  · rw [if_pos h, if_pos h]
  · rw [if_neg h, if_neg h]

theorem entryCount_increase (config : LabelTsdfConfig) (segment : SegmentPtr) (label : Label)
    (n : Nat) (candidates : Candidates) (mcl : List Label) (label' : Label)
    (segment' : SegmentPtr) :
    entryCount (increaseLabelCountForSegment config segment label n candidates mcl).1
        label' segment' =
      if label' = label ∧ segment' = segment then
        some ((entryCount candidates label segment).getD 0 + 1)
      else entryCount candidates label' segment' := by
  unfold increaseLabelCountForSegment
  cases h1 : StdMap.find candidates label with
  | none =>
    simp only []
    unfold StdMap.emplace
    rw [h1]
    simp only []
    rw [entryCount_put, entryCount_of_find_none h1]
    by_cases hl : label' = label
    · subst hl
      rw [if_pos rfl]
      by_cases hs : segment' = segment
      · subst hs
        simp [StdMap.find]
      · have hs' : ¬ segment = segment' := fun e => hs e.symm
        simp [StdMap.find, hs, hs', entryCount_of_find_none h1]
    · rw [if_neg hl]
      simp [hl]
  | some segments =>
    simp only []
    rw [entryCount_of_find h1]
    cases h2 : StdMap.find segments segment with
    | none =>
      simp only []
      rw [entryCount_put]
      by_cases hl : label' = label
      · subst hl
        rw [if_pos rfl, StdMap.find_emplace, entryCount_of_find h1]
        by_cases hs : segment' = segment
        · subst hs
          simp [h2]
        · simp [hs]
      · rw [if_neg hl]
        simp [hl]
    | some c =>
      simp only []
      rw [entryCount_put]
      by_cases hl : label' = label
      · subst hl
        rw [if_pos rfl, StdMap.find_put, entryCount_of_find h1]
        by_cases hs : segment' = segment
        · subst hs
          simp
        · simp [hs]
      · rw [if_neg hl]
        simp [hl]

section EntryLemmas

set_option linter.unusedSectionVars false

variable {C : Type} [LinearOrderedAddCommMonoid C]

theorem scanPoint_no_candidate (st : Integrator C) (segment : SegmentPtr) (n : Nat)
    (assigned_labels : LSet) (acc : PointScan) (point : Point)
    (h : ¬ PointHasCandidate st assigned_labels point) :
    scanPoint st segment n assigned_labels acc point = acc := by
  unfold scanPoint
  cases hv : voxelAt st.label_layer_ point with
  | none => rfl
  | some voxel =>
    simp only []
    rw [if_neg]
    intro hc
    exact h ⟨voxel, hv, hc.1, hc.2⟩

theorem scanPoints_no_candidate (st : Integrator C) (segment : SegmentPtr) (n : Nat)
    (assigned_labels : LSet) (points : List Point)
    (h : ¬ ∃ point ∈ points, PointHasCandidate st assigned_labels point) :
    ∀ acc : PointScan, points.foldl (scanPoint st segment n assigned_labels) acc = acc := by
  induction points with
  | nil => intro acc; rfl
  | cons p t ih =>
    intro acc
    rw [List.foldl_cons,
      scanPoint_no_candidate st segment n assigned_labels acc p
        (fun hp => h ⟨p, List.mem_cons_self _ _, hp⟩)]
    exact ih (fun ⟨q, hq, hp⟩ => h ⟨q, List.mem_cons_of_mem _ hq, hp⟩) acc

theorem scanPoint_hasEntry (st : Integrator C) (segment : SegmentPtr) (n : Nat)
    (assigned_labels : LSet) (acc : PointScan) (point : Point)
    (h : acc.candidate_label_exists = true → HasEntry acc.candidates segment) :
    (scanPoint st segment n assigned_labels acc point).candidate_label_exists = true →
      HasEntry (scanPoint st segment n assigned_labels acc point).candidates segment := by
  unfold scanPoint
  cases hv : voxelAt st.label_layer_ point with
  | none => exact h
  | some voxel =>
    simp only []
    by_cases hc : getNextUnassignedLabel voxel assigned_labels ≠ 0 ∧ point.within_band = true
    · rw [if_pos hc]
      intro _
      refine ⟨getNextUnassignedLabel voxel assigned_labels,
        (entryCount acc.candidates (getNextUnassignedLabel voxel assigned_labels)
          segment).getD 0 + 1, ?_⟩
      show entryCount (increaseLabelCountForSegment _ _ _ _ _ _).1 _ _ = _
      rw [entryCount_increase, if_pos ⟨rfl, rfl⟩]
    · rw [if_neg hc]
      exact h

theorem scanPoints_hasEntry (st : Integrator C) (segment : SegmentPtr) (n : Nat)
    (assigned_labels : LSet) (points : List Point) :
    ∀ acc : PointScan,
      (acc.candidate_label_exists = true → HasEntry acc.candidates segment) →
      (points.foldl (scanPoint st segment n assigned_labels) acc).candidate_label_exists = true →
      HasEntry (points.foldl (scanPoint st segment n assigned_labels) acc).candidates segment := by
  induction points with
  | nil => intro acc h; exact h
  | cons p t ih =>
    intro acc h
    rw [List.foldl_cons]
    exact ih _ (scanPoint_hasEntry st segment n assigned_labels acc p h)

end EntryLemmas

namespace StdMap

theorem mem_put_of_find_none {V : Type} (m : List (Nat × V)) (k : Nat) (v : V)
    (h : find m k = none) (e : Nat × V) : e ∈ put m k v ↔ e = (k, v) ∨ e ∈ m := by
  induction m with
  | nil => simp [put]
  | cons e0 t ih =>
    obtain ⟨k0, v0⟩ := e0
    have hne : ¬ k0 = k := by
      intro e1
      simp [find, e1] at h
    have ht : find t k = none := by
      simpa [find, hne] using h
    unfold put
    by_cases h1 : k < k0
    · rw [if_pos h1]
      simp
    · rw [if_neg h1, if_neg (fun e1 => hne e1.symm)]
      simp only [List.mem_cons, ih ht]
      constructor
      · rintro (h2 | h2 | h2)
        · exact Or.inr (Or.inl h2)
        · exact Or.inl h2
        · exact Or.inr (Or.inr h2)
      · rintro (h2 | h2 | h2)
        · exact Or.inr (Or.inl h2)
        · exact Or.inl h2
        · exact Or.inr (Or.inr h2)

theorem length_put_of_find_none {V : Type} (m : List (Nat × V)) (k : Nat) (v : V)
    (h : find m k = none) : (put m k v).length = m.length + 1 := by
  induction m with
  | nil => simp [put]
  | cons e0 t ih =>
    obtain ⟨k0, v0⟩ := e0
    have hne : ¬ k0 = k := by
      intro e1
      simp [find, e1] at h
    have ht : find t k = none := by
      simpa [find, hne] using h
    unfold put
    by_cases h1 : k < k0
    · rw [if_pos h1]
      simp
    · rw [if_neg h1, if_neg (fun e1 => hne e1.symm)]
      simp [ih ht]

end StdMap

/-- C28: let no key of the candidate table exceed the highest issued label.
When `computeSegmentLabelCandidates(segment, ...)` has returned, the table has
an entry for the segment under some label.  When no point of the segment
yields a non-zero label within the propagation band, the table afterwards is
the table before with one entry added, under the fresh label (previous highest
label + 1), whose map sends the segment to its full point count; every entry
of the table before is still there, unchanged.  The call returns when some
point yields a label or the highest label is below the maximum of
`unsigned int`. -/
theorem compute_adds_entry {C : Type} [LinearOrderedAddCommMonoid C]
    (heap : Heap) (segment : SegmentPtr) (cs : CandidateState C) (assigned_labels : LSet)
    (hkeys : KeysSatisfy (fun k => k ≤ cs.st.highest_label_) cs.candidates) :
    (∀ cs1, computeSegmentLabelCandidates heap segment cs assigned_labels = .ok cs1 →
      HasEntry cs1.candidates segment) ∧
    ((¬ ∃ point ∈ (heap segment).points_C_, PointHasCandidate cs.st assigned_labels point) →
      ∀ cs1, computeSegmentLabelCandidates heap segment cs assigned_labels = .ok cs1 →
        cs1.candidates = StdMap.put cs.candidates (cs.st.highest_label_ + 1)
          [(segment, (heap segment).points_C_.length)] ∧
        StdMap.find cs.candidates (cs.st.highest_label_ + 1) = none ∧
        StdMap.find cs1.candidates (cs.st.highest_label_ + 1) =
          some [(segment, (heap segment).points_C_.length)] ∧
        cs1.candidates.length = cs.candidates.length + 1 ∧
        (∀ e, e ∈ cs1.candidates ↔
          e = (cs.st.highest_label_ + 1, [(segment, (heap segment).points_C_.length)]) ∨
            e ∈ cs.candidates) ∧
        (∀ k, k ≠ cs.st.highest_label_ + 1 →
          StdMap.find cs1.candidates k = StdMap.find cs.candidates k)) ∧
    (((∃ point ∈ (heap segment).points_C_, PointHasCandidate cs.st assigned_labels point) ∨
        cs.st.highest_label_ < UINT_MAX) →
      ∃ cs1, computeSegmentLabelCandidates heap segment cs assigned_labels = .ok cs1) := by
  have hfresh : StdMap.find cs.candidates (cs.st.highest_label_ + 1) = none := by
    cases hf : StdMap.find cs.candidates (cs.st.highest_label_ + 1) with
    | none => rfl
    | some v =>
      have := hkeys _ (StdMap.mem_of_find hf)
      simp only [] at this
      exact absurd this (Nat.not_succ_le_self _)
  have hex := scanPoints_exists cs.st segment (heap segment).points_C_.length assigned_labels
    (heap segment).points_C_
    { candidate_label_exists := false, candidates := cs.candidates,
      merge_candidate_labels := [] }
  have hent := scanPoints_hasEntry cs.st segment (heap segment).points_C_.length assigned_labels
    (heap segment).points_C_
    { candidate_label_exists := false, candidates := cs.candidates,
      merge_candidate_labels := [] } (fun h => by cases h)
  refine ⟨?_, ?_, ?_⟩
  · intro cs1 h
    unfold computeSegmentLabelCandidates at h
    simp only [] at h
    by_cases hc : ((heap segment).points_C_.foldl
        (scanPoint cs.st segment (heap segment).points_C_.length assigned_labels)
        { candidate_label_exists := false, candidates := cs.candidates,
          merge_candidate_labels := [] }).candidate_label_exists = true
    · rw [if_pos hc] at h
      injection h with h
      subst h
      exact hent hc
    · rw [if_neg hc] at h
      have hno : ¬ ∃ point ∈ (heap segment).points_C_,
          PointHasCandidate cs.st assigned_labels point :=
        fun hp => hc (hex.mpr (Or.inr hp))
      rw [scanPoints_no_candidate cs.st segment _ assigned_labels _ hno] at h
      unfold getFreshLabel at h
      by_cases hroom : cs.st.highest_label_ < UINT_MAX
      · rw [if_pos hroom] at h
        simp only [] at h
        injection h with h
        subst h
        refine ⟨cs.st.highest_label_ + 1, (heap segment).points_C_.length, ?_⟩
        show entryCount (StdMap.emplace cs.candidates _ _) _ _ = _
        unfold entryCount
        rw [StdMap.find_emplace, if_pos rfl, hfresh]
        simp [StdMap.find]
      · rw [if_neg hroom] at h
        cases h
  · intro hno cs1 h
    unfold computeSegmentLabelCandidates at h
    simp only [] at h
    rw [scanPoints_no_candidate cs.st segment _ assigned_labels _ hno] at h
    simp only [] at h
    unfold getFreshLabel at h
    by_cases hroom : cs.st.highest_label_ < UINT_MAX
    · rw [if_pos hroom] at h
      simp only [Bool.false_eq_true, if_false] at h
      injection h with h
      subst h
      have hput : StdMap.emplace cs.candidates (cs.st.highest_label_ + 1)
          [(segment, (heap segment).points_C_.length)] =
          StdMap.put cs.candidates (cs.st.highest_label_ + 1)
            [(segment, (heap segment).points_C_.length)] := by
        unfold StdMap.emplace
        rw [hfresh]
      refine ⟨hput, hfresh, ?_, ?_, ?_, ?_⟩
      · show StdMap.find (StdMap.emplace cs.candidates _ _) _ = _
        rw [hput, StdMap.find_put, if_pos rfl]
      · show (StdMap.emplace cs.candidates _ _).length = _
        rw [hput]
        exact StdMap.length_put_of_find_none _ _ _ hfresh
      · intro e
        show e ∈ StdMap.emplace cs.candidates _ _ ↔ _
        rw [hput]
        exact StdMap.mem_put_of_find_none _ _ _ hfresh e
      · intro k hk
        show StdMap.find (StdMap.emplace cs.candidates _ _) k = _
        rw [hput, StdMap.find_put, if_neg hk]
    · rw [if_neg hroom] at h
      simp only [Bool.false_eq_true, if_false] at h
      cases h
  · intro hor
    unfold computeSegmentLabelCandidates
    simp only []
    by_cases hc : ((heap segment).points_C_.foldl
        (scanPoint cs.st segment (heap segment).points_C_.length assigned_labels)
        { candidate_label_exists := false, candidates := cs.candidates,
          merge_candidate_labels := [] }).candidate_label_exists = true
    · rw [if_pos hc]
      exact ⟨_, rfl⟩
    · rw [if_neg hc]
      have hroom : cs.st.highest_label_ < UINT_MAX := by
        rcases hor with hp | hr
        · exact absurd (hex.mpr (Or.inr hp)) hc
        · exact hr
      unfold getFreshLabel
      rw [if_pos hroom]
      exact ⟨_, rfl⟩

set_option maxRecDepth 100000 in
theorem compute_adds_entry_witness :
    KeysSatisfy (fun k => k ≤ candidateStateB.st.highest_label_) candidateStateB.candidates ∧
    (computeSegmentLabelCandidates heapB 3 candidateStateB []).toOption.map
      (fun cs1 => cs1.candidates) = some [(10, [(1, 25), (2, 30)]), (11, [(3, 1)])] ∧
    (computeSegmentLabelCandidates heapB 1
      { st := integratorB, candidates := [], segment_merge_candidates := [] } []).toOption.map
      (fun cs1 => cs1.candidates) = some [(10, [(1, 25)])] ∧
    ∃ cs1, computeSegmentLabelCandidates heapB 3 candidateStateB [] = .ok cs1 :=
  ⟨by unfold KeysSatisfy; decide, by decide, by decide,
    (compute_adds_entry heapB 3 candidateStateB [] (by unfold KeysSatisfy; decide)).2.2
      (Or.inr (by decide))⟩

/-! ## Merge candidates of a segment -/

theorem mem_unorderedInsert (s : List Label) (k x : Label) :
    x ∈ unorderedInsert s k ↔ x = k ∨ x ∈ s := by
  unfold unorderedInsert
  by_cases h : k ∈ s
  · rw [if_pos h]
    constructor
    · intro hx; exact Or.inr hx
    · rintro (hx | hx)
      · rw [hx]; exact h
      · exact hx
  · rw [if_neg h]
    simp only [List.mem_append, List.mem_singleton]
    exact or_comm

theorem mem_checkForSegmentLabelMergeCandidate (config : LabelTsdfConfig) (label : Label)
    (k n : Nat) (mcl : List Label) (x : Label) :
    x ∈ checkForSegmentLabelMergeCandidate config label k n mcl ↔
      (x = label ∧ k * config.ratio_threshold_den > config.ratio_threshold_num * n) ∨
        x ∈ mcl := by
  unfold checkForSegmentLabelMergeCandidate
  by_cases h : k * config.ratio_threshold_den > config.ratio_threshold_num * n
  · rw [if_pos h, mem_unorderedInsert]
    constructor
    · rintro (hx | hx)
      · exact Or.inl ⟨hx, h⟩
      · exact Or.inr hx
    · rintro (hx | hx)
      · exact Or.inl hx.1
      · exact Or.inr hx
  · rw [if_neg h]
    constructor
    · intro hx; exact Or.inr hx
    · rintro (hx | hx)
      · exact absurd hx.2 h
      · exact hx

theorem increaseLabelCountForSegment_merge (config : LabelTsdfConfig) (segment : SegmentPtr)
    (label : Label) (n : Nat) (candidates : Candidates) (mcl : List Label) :
    (increaseLabelCountForSegment config segment label n candidates mcl).2 =
      match entryCount candidates label segment with
      | some c =>
        if config.enable_pairwise_confidence_merging then
          checkForSegmentLabelMergeCandidate config label (c + 1) n mcl
        else mcl
      | none => mcl := by
  unfold increaseLabelCountForSegment entryCount
  cases h1 : StdMap.find candidates label with
  | none => rfl
  | some segments =>
    simp only []
    cases h2 : StdMap.find segments segment with
    | none => rfl
    | some c => rfl

section SupportLemmas

set_option linter.unusedSectionVars false

variable {C : Type} [LinearOrderedAddCommMonoid C]

theorem scanPoint_vote (st : Integrator C) (segment : SegmentPtr) (n : Nat)
    (assigned_labels : LSet) (acc : PointScan) (point : Point) :
    scanPoint st segment n assigned_labels acc point =
      if pointVote st assigned_labels point ≠ 0 then
        { candidate_label_exists := true,
          candidates := (increaseLabelCountForSegment st.label_tsdf_config_ segment
            (pointVote st assigned_labels point) n acc.candidates
            acc.merge_candidate_labels).1,
          merge_candidate_labels := (increaseLabelCountForSegment st.label_tsdf_config_ segment
            (pointVote st assigned_labels point) n acc.candidates
            acc.merge_candidate_labels).2 }
      else acc := by
  unfold scanPoint pointVote
  cases hv : voxelAt st.label_layer_ point with
  | none => simp
  | some voxel =>
    simp only []
    by_cases hc : getNextUnassignedLabel voxel assigned_labels ≠ 0 ∧ point.within_band = true
    · rw [if_pos hc, if_pos hc, if_pos hc.1]
    · rw [if_neg hc, if_neg hc, if_neg (by simp)]

theorem supportCount_append (st : Integrator C) (assigned_labels : LSet) (seen : List Point)
    (point : Point) (label : Label) :
    supportCount st assigned_labels (seen ++ [point]) label =
      supportCount st assigned_labels seen label +
        (if pointVote st assigned_labels point = label then 1 else 0) := by
  unfold supportCount
  rw [List.countP_append]
  by_cases h : pointVote st assigned_labels point = label
  · simp [List.countP_cons, h]
  · simp [List.countP_cons, h]

theorem scanInv_step (st : Integrator C) (segment : SegmentPtr) (n : Nat)
    (assigned_labels : LSet) (seen : List Point) (acc : PointScan) (point : Point)
    (henable : st.label_tsdf_config_.enable_pairwise_confidence_merging = true)
    (h : ScanInv st segment n assigned_labels seen acc) :
    ScanInv st segment n assigned_labels (seen ++ [point])
      (scanPoint st segment n assigned_labels acc point) := by
  obtain ⟨h1, h2⟩ := h
  rw [scanPoint_vote]
  by_cases hv : pointVote st assigned_labels point ≠ 0
  · rw [if_pos hv]
    have hentry := h1 _ hv
    refine ⟨?_, ?_⟩
    · intro label hl
      show entryCount (increaseLabelCountForSegment _ _ _ _ _ _).1 label segment = _
      rw [entryCount_increase, supportCount_append]
      by_cases he : label = pointVote st assigned_labels point
      · subst he
        rw [if_pos ⟨rfl, rfl⟩, if_pos rfl, hentry]
        by_cases hz : supportCount st assigned_labels seen
            (pointVote st assigned_labels point) = 0
        · rw [if_pos hz, hz]
          simp
        · rw [if_neg hz]
          simp
      · have he' : ¬ pointVote st assigned_labels point = label := fun e => he e.symm
        rw [if_neg (fun e => he e.1), if_neg he', Nat.add_zero]
        exact h1 label hl
    · intro label
      show label ∈ (increaseLabelCountForSegment _ _ _ _ _ _).2 ↔ _
      rw [increaseLabelCountForSegment_merge, hentry, supportCount_append]
      by_cases hz : supportCount st assigned_labels seen
          (pointVote st assigned_labels point) = 0
      · rw [if_pos hz]
        simp only []
        rw [h2 label]
        by_cases he : pointVote st assigned_labels point = label
        · subst he
          rw [if_pos rfl, hz]
          constructor
          · rintro ⟨_, h3, _⟩
            exact absurd h3 (by decide)
          · rintro ⟨_, h3, _⟩
            exact absurd h3 (by decide)
        · rw [if_neg he, Nat.add_zero]
      · rw [if_neg hz]
        simp only []
        rw [henable, if_pos rfl, mem_checkForSegmentLabelMergeCandidate, h2 label]
        by_cases he : pointVote st assigned_labels point = label
        · subst he
          rw [if_pos rfl]
          constructor
          · rintro (⟨_, h3⟩ | ⟨h3, h4, h5⟩)
            · exact ⟨hv, by omega, h3⟩
            · refine ⟨h3, by omega, ?_⟩
              have : supportCount st assigned_labels seen (pointVote st assigned_labels point) *
                  st.label_tsdf_config_.ratio_threshold_den ≤
                  (supportCount st assigned_labels seen (pointVote st assigned_labels point) + 1) *
                  st.label_tsdf_config_.ratio_threshold_den :=
                Nat.mul_le_mul_right _ (Nat.le_succ _)
              exact lt_of_lt_of_le h5 this
          · rintro ⟨_, _, h5⟩
            exact Or.inl ⟨rfl, h5⟩
        · rw [if_neg he, Nat.add_zero]
          constructor
          · rintro (⟨h3, _⟩ | h3)
            · exact absurd h3.symm he
            · exact h3
          · intro h3
            exact Or.inr h3
  · rw [if_neg hv]
    have hz : pointVote st assigned_labels point = 0 := not_not.mp hv
    refine ⟨?_, ?_⟩
    · intro label hl
      have e0 : (if pointVote st assigned_labels point = label then 1 else 0) = 0 :=
        if_neg (by rw [hz]; exact fun e => hl e.symm)
      rw [supportCount_append, e0, Nat.add_zero]
      exact h1 label hl
    · intro label
      rw [h2 label, supportCount_append]
      by_cases hl : label = 0
      · constructor
        · rintro ⟨h3, _⟩; exact absurd hl h3
        · rintro ⟨h3, _⟩; exact absurd hl h3
      · have e0 : (if pointVote st assigned_labels point = label then 1 else 0) = 0 :=
          if_neg (by rw [hz]; exact fun e => hl e.symm)
        rw [e0, Nat.add_zero]

theorem scanInv_foldl (st : Integrator C) (segment : SegmentPtr) (n : Nat)
    (assigned_labels : LSet)
    (henable : st.label_tsdf_config_.enable_pairwise_confidence_merging = true) :
    ∀ (rest seen : List Point) (acc : PointScan),
      ScanInv st segment n assigned_labels seen acc →
      ScanInv st segment n assigned_labels (seen ++ rest)
        (rest.foldl (scanPoint st segment n assigned_labels) acc) := by
  intro rest
  induction rest with
  | nil =>
    intro seen acc h
    rw [List.append_nil]
    exact h
  | cons p t ih =>
    intro seen acc h
    have h2 := ih (seen ++ [p]) _ (scanInv_step st segment n assigned_labels seen acc p henable h)
    rw [List.append_assoc] at h2
    exact h2

/-- What `computeSegmentLabelCandidates` does for the merge candidates of a
segment, with pairwise merging enabled and a candidate table without a prior
entry for the segment: a label is in the merge-candidate set of the segment
exactly when at least two points of the segment support it and its support
count times the denominator of the threshold exceeds the numerator times the
point count of the segment. -/
theorem compute_merge_candidates (heap : Heap) (segment : SegmentPtr) (cs : CandidateState C)
    (assigned_labels : LSet)
    (henable : cs.st.label_tsdf_config_.enable_pairwise_confidence_merging = true)
    (hprior : ∀ label, entryCount cs.candidates label segment = none) :
    ∀ cs1, computeSegmentLabelCandidates heap segment cs assigned_labels = .ok cs1 →
      ∃ merge_candidates,
        StdMap.find cs1.segment_merge_candidates segment = some merge_candidates ∧
        ∀ label, label ∈ merge_candidates ↔
          label ≠ 0 ∧
          2 ≤ supportCount cs.st assigned_labels (heap segment).points_C_ label ∧
          supportCount cs.st assigned_labels (heap segment).points_C_ label *
              cs.st.label_tsdf_config_.ratio_threshold_den >
            cs.st.label_tsdf_config_.ratio_threshold_num * (heap segment).points_C_.length := by
  intro cs1 h
  have hinv := scanInv_foldl cs.st segment (heap segment).points_C_.length assigned_labels
    henable (heap segment).points_C_ []
    { candidate_label_exists := false, candidates := cs.candidates,
      merge_candidate_labels := [] }
    ⟨fun label _ => by
        rw [hprior label]
        simp [supportCount],
      fun label => by
        simp [supportCount]⟩
  rw [List.nil_append] at hinv
  unfold computeSegmentLabelCandidates at h
  simp only [] at h
  rw [henable] at h
  simp only [if_true] at h
  by_cases hc : ((heap segment).points_C_.foldl
      (scanPoint cs.st segment (heap segment).points_C_.length assigned_labels)
      { candidate_label_exists := false, candidates := cs.candidates,
        merge_candidate_labels := [] }).candidate_label_exists = true
  · rw [if_pos hc] at h
    injection h with h
    subst h
    refine ⟨_, ?_, hinv.2⟩
    show StdMap.find (StdMap.put _ _ _) _ = _
    rw [StdMap.find_put, if_pos rfl]
  · rw [if_neg hc] at h
    cases hg : getFreshLabel cs.st with
    | error e => rw [hg] at h; cases h
    | ok r =>
      rw [hg] at h
      simp only [] at h
      injection h with h
      subst h
      refine ⟨_, ?_, hinv.2⟩
      show StdMap.find (StdMap.put _ _ _) _ = _
      rw [StdMap.find_put, if_pos rfl]

end SupportLemmas

set_option maxRecDepth 100000 in
/-- C22 fails on the code for a support of one point: with the default options
(merging enabled, ratio threshold 1/5) and empty tables, the segment of a
single point that lands on a voxel labelled 10 gets the table entry
`10 ↦ (segment ↦ 1)`, so label 10 has support 1 of 1 point, above the
threshold, and the merge-candidate set stored for the segment is empty. -/
theorem compute_single_point_no_merge_candidate :
    integratorB.label_tsdf_config_.enable_pairwise_confidence_merging = true ∧
    (heapSinglePoint 5).points_C_.length = 1 ∧
    supportCount integratorB [] (heapSinglePoint 5).points_C_ 10 = 1 ∧
    supportCount integratorB [] (heapSinglePoint 5).points_C_ 10 *
        integratorB.label_tsdf_config_.ratio_threshold_den >
      integratorB.label_tsdf_config_.ratio_threshold_num *
        (heapSinglePoint 5).points_C_.length ∧
    (computeSegmentLabelCandidates heapSinglePoint 5
      { st := integratorB, candidates := [], segment_merge_candidates := [] } []).toOption.map
      (fun cs1 => cs1.candidates) = some [(10, [(5, 1)])] ∧
    (computeSegmentLabelCandidates heapSinglePoint 5
      { st := integratorB, candidates := [], segment_merge_candidates := [] } []).toOption.map
      (fun cs1 => cs1.segment_merge_candidates) = some [(5, [])] := by
  decide

/-! ## Pairwise rebalancing: where the counters go -/

theorem addOpt_getD (x y : Option Int) : (addOpt x y).getD 0 = x.getD 0 + y.getD 0 := by
  cases y with
  | none => simp [addOpt]
  | some n => simp [addOpt]

theorem pairCount_foldl_add (new_label : Label) :
    ∀ (l : LMap) (pc : LLMap), StdMap.ascending l = true →
      StdMap.find pc new_label ≠ none → ∀ a b,
      pairCount (l.foldl (fun acc e => addPairwiseConfidenceCount acc new_label e.1 e.2) pc) a b =
        if a = new_label then addOpt (pairCount pc new_label b) (StdMap.find l b)
        else pairCount pc a b := by
  intro l
  induction l with
  | nil =>
    intro pc _ _ a b
    by_cases ha : a = new_label
    · rw [if_pos ha, ha]; rfl
    · rw [if_neg ha]; rfl
  | cons e t ih =>
    obtain ⟨b0, n0⟩ := e
    intro pc hasc hnew a b
    rw [List.foldl_cons]
    have hnew' : StdMap.find (addPairwiseConfidenceCount pc new_label b0 n0) new_label ≠ none :=
      fun h => hnew ((find_add pc new_label b0 n0 new_label).mp h)
    rw [ih _ (StdMap.ascending_tail hasc) hnew' a b]
    obtain ⟨x, hx⟩ := Option.ne_none_iff_exists'.mp hnew
    by_cases ha : a = new_label
    · rw [if_pos ha, if_pos ha, pairCount_add]
      by_cases hb : b = b0
      · subst hb
        have hnone : StdMap.find t b = none :=
          StdMap.find_none_of_head_lt (StdMap.ascending_head_lt hasc)
        rw [if_pos ⟨rfl, rfl⟩, hx, hnone]
        simp [addOpt, StdMap.find]
      · rw [if_neg (fun h => hb h.2)]
        have hb' : ¬ b0 = b := fun h => hb h.symm
        simp [StdMap.find, hb']
    · rw [if_neg ha, if_neg ha, pairCount_add, if_neg (fun h => ha h.1)]

theorem pairCount_adjustOuter (pc : LLMap) (new_label old_label : Label) (hwf : TableWF pc)
    (a b : Label) :
    pairCount (adjustOuter pc new_label old_label) a b =
      if a = old_label then none
      else if a = new_label then
        addOpt (pairCount pc new_label b) (pairCount pc old_label b)
      else pairCount pc a b := by
  unfold adjustOuter
  cases hold : StdMap.find pc old_label with
  | none =>
    simp only []
    have h0 : ∀ x, pairCount pc old_label x = none := fun x => pairCount_ne_none_of_find_none hold
    by_cases ha : a = old_label
    · rw [if_pos ha, ha]; exact h0 b
    · rw [if_neg ha]
      by_cases ha2 : a = new_label
      · rw [if_pos ha2, h0 b, ha2]; rfl
      · rw [if_neg ha2]
  | some old_inner =>
    simp only []
    have h0 : ∀ x, pairCount pc old_label x = StdMap.find old_inner x :=
      fun x => pairCount_of_find hold
    rw [pairCount_erase]
    by_cases ha : a = old_label
    · rw [if_pos ha, if_pos ha]
    · rw [if_neg ha, if_neg ha]
      cases hnew : StdMap.find pc new_label with
      | none =>
        simp only []
        rw [pairCount_emplace pc new_label old_inner a b hnew]
        by_cases ha2 : a = new_label
        · rw [if_pos ha2, if_pos ha2, h0 b, pairCount_ne_none_of_find_none hnew]
          cases StdMap.find old_inner b with
          | none => rfl
          | some n => simp [addOpt]
        · rw [if_neg ha2, if_neg ha2]
      | some new_inner =>
        simp only []
        rw [pairCount_foldl_add new_label old_inner pc (tableWF_find hwf hold)
          (by rw [hnew]; exact Option.some_ne_none _) a b, h0 b]

theorem pairCount_adjustInnerStep_none (new_label old_label : Label) (pc : LLMap) (k : Label)
    (h : pairCount pc k old_label = none) (a b : Label) :
    pairCount (adjustInnerStep new_label old_label pc k) a b = pairCount pc a b := by
  unfold adjustInnerStep
  cases hf : StdMap.find pc k with
  | none => rfl
  | some inner =>
    simp only []
    rw [pairCount_of_find hf] at h
    rw [h]
    simp only []
    by_cases he : inner.isEmpty = true
    · rw [if_pos he, pairCount_erase]
      by_cases ha : a = k
      · rw [if_pos ha, ha, pairCount_of_find hf]
        have : inner = [] := List.isEmpty_iff.mp he
        rw [this]
        rfl
      · rw [if_neg ha]
    · rw [if_neg he]

theorem pairCount_adjustInnerStep_some (new_label old_label : Label) (pc : LLMap) (k : Label)
    (n : Int) (h : pairCount pc k old_label = some n)
    (a b : Label) :
    pairCount (adjustInnerStep new_label old_label pc k) a b =
      if a = k ∧ b = old_label then none
      else if a = (redirectTarget new_label k).1 ∧ b = (redirectTarget new_label k).2 then
        some ((pairCount pc a b).getD 0 + n)
      else pairCount pc a b := by
  obtain ⟨inner, hf, hg⟩ := pairCount_eq_some h
  unfold adjustInnerStep
  rw [hf]
  simp only []
  rw [hg]
  simp only []
  -- the table after the count has been added to its new place
  have key : ∀ pc1 : LLMap,
      pairCount (match StdMap.find pc1 k with
        | none => pc1
        | some inner1 =>
          if (StdMap.erase inner1 old_label).isEmpty then StdMap.erase pc1 k
          else StdMap.put pc1 k (StdMap.erase inner1 old_label)) a b =
        if a = k ∧ b = old_label then none else pairCount pc1 a b := by
    intro pc1
    cases hk : StdMap.find pc1 k with
    | none =>
      simp only []
      by_cases hc : a = k ∧ b = old_label
      · rw [if_pos hc, hc.1]; exact pairCount_ne_none_of_find_none hk
      · rw [if_neg hc]
    | some inner1 =>
      simp only []
      by_cases he : (StdMap.erase inner1 old_label).isEmpty = true
      · rw [if_pos he, pairCount_erase]
        by_cases ha : a = k
        · rw [if_pos ha]
          by_cases hb : b = old_label
          · rw [if_pos ⟨ha, hb⟩]
          · rw [if_neg (fun hc => hb hc.2), ha, pairCount_of_find hk]
            have hemp : StdMap.erase inner1 old_label = [] := List.isEmpty_iff.mp he
            have h1 := StdMap.find_erase inner1 old_label b
            rw [hemp, if_neg hb] at h1
            exact h1
        · rw [if_neg ha, if_neg (fun hc => ha hc.1)]
      · rw [if_neg he, pairCount_put]
        by_cases ha : a = k
        · rw [if_pos ha, StdMap.find_erase]
          by_cases hb : b = old_label
          · rw [if_pos hb, if_pos ⟨ha, hb⟩]
          · rw [if_neg hb, if_neg (fun hc => hb hc.2), ha, pairCount_of_find hk]
        · rw [if_neg ha, if_neg (fun hc => ha hc.1)]
  refine (key _).trans ?_
  by_cases hc : a = k ∧ b = old_label
  · rw [if_pos hc, if_pos hc]
  · rw [if_neg hc, if_neg hc]
    unfold redirectTarget
    by_cases hlt : k < new_label
    · rw [if_pos hlt, if_pos hlt]
      simp only []
      rw [pairCount_add, hf]
      simp only []
      by_cases hab : a = k ∧ b = new_label
      · rw [if_pos hab, if_pos hab, hab.1, hab.2]
      · rw [if_neg hab, if_neg hab]
    · rw [if_neg hlt, if_neg hlt]
      simp only []
      cases hn : StdMap.find pc new_label with
      | some x =>
        simp only []
        rw [pairCount_add, hn]
        simp only []
        by_cases hab : a = new_label ∧ b = k
        · rw [if_pos hab, if_pos hab, hab.1, hab.2]
        · rw [if_neg hab, if_neg hab]
      | none =>
        simp only []
        rw [pairCount_emplace pc new_label _ a b hn]
        by_cases ha : a = new_label
        · rw [if_pos ha]
          have hp : pairCount pc a b = none := by
            rw [ha]; exact pairCount_ne_none_of_find_none hn
          by_cases hb : b = k
          · rw [if_pos ⟨ha, hb⟩, hp, hb]
            simp [StdMap.find]
          · rw [if_neg (fun hc2 => hb hc2.2), hp]
            have hb' : ¬ k = b := fun e => hb e.symm
            simp [StdMap.find, hb']
        · rw [if_neg ha, if_neg (fun hc2 => ha hc2.1)]

/-- A step of the second loop leaves every pair that involves neither label
as it is. -/
theorem pairCount_adjustInnerStep_other (new_label old_label : Label) (pc : LLMap) (k : Label)
    (a b : Label)
    (hb : b ≠ old_label) (hnot : ¬ (a = (redirectTarget new_label k).1 ∧
      b = (redirectTarget new_label k).2)) :
    pairCount (adjustInnerStep new_label old_label pc k) a b = pairCount pc a b := by
  cases h : pairCount pc k old_label with
  | none => exact pairCount_adjustInnerStep_none new_label old_label pc k h a b
  | some n =>
    rw [pairCount_adjustInnerStep_some new_label old_label pc k n h a b,
      if_neg (fun hc => hb hc.2), if_neg hnot]

/-- A step of the second loop at a key other than `a` leaves the counter of
`(a, old_label)` as it is. -/
theorem pairCount_adjustInnerStep_old (new_label old_label : Label) (pc : LLMap) (k : Label)
    (hne : new_label ≠ old_label) (hk : k ≠ old_label) (a : Label) (ha : a ≠ k) :
    pairCount (adjustInnerStep new_label old_label pc k) a old_label =
      pairCount pc a old_label := by
  cases h : pairCount pc k old_label with
  | none => exact pairCount_adjustInnerStep_none new_label old_label pc k h a old_label
  | some n =>
    rw [pairCount_adjustInnerStep_some new_label old_label pc k n h a old_label,
      if_neg (fun hc => ha hc.1), if_neg]
    unfold redirectTarget
    by_cases hlt : k < new_label
    · rw [if_pos hlt]
      exact fun hc => hne hc.2.symm
    · rw [if_neg hlt]
      exact fun hc => hk hc.2.symm

theorem redirectTarget_eq (new_label k c : Label)
    (h : redirectTarget new_label k = redirectTarget new_label c) : k = c := by
  unfold redirectTarget at h
  by_cases h1 : k < new_label
  · rw [if_pos h1] at h
    by_cases h2 : c < new_label
    · rw [if_pos h2] at h
      exact congrArg Prod.fst h
    · rw [if_neg h2] at h
      have e1 : k = new_label := congrArg Prod.fst h
      exact absurd e1 (ne_of_lt h1)
  · rw [if_neg h1] at h
    by_cases h2 : c < new_label
    · rw [if_pos h2] at h
      have e1 : new_label = c := congrArg Prod.fst h
      exact absurd e1.symm (ne_of_lt h2)
    · rw [if_neg h2] at h
      exact congrArg Prod.snd h

theorem pairCount_foldl_adjustInnerStep_other (new_label old_label : Label)
    (a b : Label) (ha : a ≠ new_label) (hb : b ≠ new_label)
    (hbo : b ≠ old_label) :
    ∀ (ks : List Label) (pc : LLMap),
      pairCount (ks.foldl (adjustInnerStep new_label old_label) pc) a b = pairCount pc a b := by
  intro ks
  induction ks with
  | nil => intro pc; rfl
  | cons k rest ih =>
    intro pc
    rw [List.foldl_cons, ih]
    apply pairCount_adjustInnerStep_other new_label old_label pc k a b hbo
    unfold redirectTarget
    by_cases hlt : k < new_label
    · rw [if_pos hlt]; exact fun hc => hb hc.2
    · rw [if_neg hlt]; exact fun hc => ha hc.1

theorem pairCount_foldl_adjustInnerStep_target (new_label old_label : Label)
    (hne : new_label ≠ old_label) (c : Label) (hc : c ≠ new_label) (hco : c ≠ old_label) :
    ∀ (ks : List Label) (pc : LLMap), ks.Nodup → old_label ∉ ks →
      pairCount pc new_label old_label = none →
      (pairCount (ks.foldl (adjustInnerStep new_label old_label) pc)
          (redirectTarget new_label c).1 (redirectTarget new_label c).2).getD 0 =
        (pairCount pc (redirectTarget new_label c).1 (redirectTarget new_label c).2).getD 0 +
          (if c ∈ ks then (pairCount pc c old_label).getD 0 else 0) := by
  have htb : (redirectTarget new_label c).2 ≠ old_label := by
    unfold redirectTarget
    by_cases hlt : c < new_label
    · rw [if_pos hlt]; exact hne
    · rw [if_neg hlt]; exact hco
  intro ks
  induction ks with
  | nil =>
    intro pc _ _ _
    simp
  | cons k rest ih =>
    intro pc hnd hold habs
    have hk : k ≠ old_label := fun e => hold (by rw [e]; exact List.mem_cons_self _ _)
    have hrest : old_label ∉ rest := fun h => hold (List.mem_cons_of_mem _ h)
    have hkr : k ∉ rest := (List.nodup_cons.mp hnd).1
    -- the pair `(new_label, old_label)` stays absent
    have habs' : pairCount (adjustInnerStep new_label old_label pc k) new_label old_label
        = none := by
      by_cases hkn : k = new_label
      · rw [hkn]
        rw [pairCount_adjustInnerStep_none new_label old_label pc new_label habs]
        exact habs
      · rw [pairCount_adjustInnerStep_old new_label old_label pc k hne hk new_label
          (fun e => hkn e.symm)]
        exact habs
    rw [List.foldl_cons, ih _ (List.nodup_cons.mp hnd).2 hrest habs']
    by_cases hkc : k = c
    · subst hkc
      rw [if_neg hkr, if_pos (List.mem_cons_self _ _), add_zero]
      cases h : pairCount pc k old_label with
      | none =>
        rw [pairCount_adjustInnerStep_none new_label old_label pc k h]
        simp
      | some n =>
        rw [pairCount_adjustInnerStep_some new_label old_label pc k n h,
          if_neg (fun hc2 => htb hc2.2), if_pos ⟨rfl, rfl⟩]
        simp
    · have hmem : c ∈ k :: rest ↔ c ∈ rest := by
        constructor
        · intro h
          rcases List.mem_cons.mp h with h1 | h1
          · exact absurd h1.symm hkc
          · exact h1
        · exact fun h => List.mem_cons_of_mem _ h
      rw [pairCount_adjustInnerStep_other new_label old_label pc k _ _ htb
        (fun hc2 => hkc (redirectTarget_eq new_label k c
          (Prod.ext hc2.1.symm hc2.2.symm)))]
      rw [pairCount_adjustInnerStep_old new_label old_label pc k hne hk c
        (fun e => hkc e.symm)]
      by_cases hcr : c ∈ rest
      · rw [if_pos hcr, if_pos (hmem.mpr hcr)]
      · rw [if_neg hcr, if_neg (fun h => hcr (hmem.mp h))]

/-! ## Pairwise rebalancing: the sum of the counters -/

theorem weightSum_cons {V : Type} (w : V → Int) (e : Nat × V) (t : List (Nat × V)) :
    weightSum w (e :: t) = w e.2 + weightSum w t := by
  unfold weightSum
  simp

theorem weightSum_put {V : Type} (w : V → Int) (k : Nat) (v : V) :
    ∀ m : List (Nat × V), StdMap.ascending m = true →
      weightSum w (StdMap.put m k v) =
        weightSum w m - ((StdMap.find m k).map w).getD 0 + w v := by
  intro m
  induction m with
  | nil =>
    intro _
    simp [StdMap.put, StdMap.find, weightSum]
  | cons e t ih =>
    obtain ⟨k0, v0⟩ := e
    intro hasc
    have hlt := StdMap.ascending_head_lt hasc
    unfold StdMap.put
    by_cases h1 : k < k0
    · rw [if_pos h1]
      have hnone : StdMap.find ((k0, v0) :: t) k = none := by
        apply StdMap.find_none_of_head_lt
        intro x hx
        rcases List.mem_cons.mp hx with h2 | h2
        · rw [h2]; exact h1
        · exact lt_trans h1 (hlt x h2)
      rw [hnone, weightSum_cons]
      simp only [Option.map_none', Option.getD_none]
      omega
    · rw [if_neg h1]
      by_cases h2 : k = k0
      · subst h2
        rw [if_pos rfl, weightSum_cons, weightSum_cons]
        simp only [StdMap.find, if_true, Option.map_some', Option.getD_some]
        omega
      · rw [if_neg h2, weightSum_cons, weightSum_cons, ih (StdMap.ascending_tail hasc)]
        have h3 : ¬ k0 = k := fun e => h2 e.symm
        simp only [StdMap.find, h3, if_false]
        omega

theorem weightSum_erase {V : Type} (w : V → Int) (k : Nat) :
    ∀ m : List (Nat × V), StdMap.ascending m = true →
      weightSum w (StdMap.erase m k) =
        weightSum w m - ((StdMap.find m k).map w).getD 0 := by
  intro m
  induction m with
  | nil =>
    intro _
    simp [StdMap.erase, StdMap.find, weightSum]
  | cons e t ih =>
    obtain ⟨k0, v0⟩ := e
    intro hasc
    have hlt := StdMap.ascending_head_lt hasc
    unfold StdMap.erase
    by_cases h1 : k0 = k
    · subst h1
      rw [if_pos rfl]
      have hnone : StdMap.find t k0 = none := StdMap.find_none_of_head_lt hlt
      rw [StdMap.erase_of_find_none t k0 hnone, weightSum_cons]
      simp only [StdMap.find, if_true, Option.map_some', Option.getD_some]
      omega
    · rw [if_neg h1, weightSum_cons, weightSum_cons, ih (StdMap.ascending_tail hasc)]
      simp only [StdMap.find, h1, if_false]
      omega

theorem counterSum_put (pc : LLMap) (hasc : StdMap.ascending pc = true) (k : Label)
    (inner inner0 : LMap) (h : StdMap.find pc k = some inner0) :
    counterSum (StdMap.put pc k inner) = counterSum pc - innerSum inner0 + innerSum inner := by
  unfold counterSum
  rw [weightSum_put innerSum k inner pc hasc, h]
  rfl

theorem counterSum_put_absent (pc : LLMap) (hasc : StdMap.ascending pc = true) (k : Label)
    (inner : LMap) (h : StdMap.find pc k = none) :
    counterSum (StdMap.put pc k inner) = counterSum pc + innerSum inner := by
  unfold counterSum
  rw [weightSum_put innerSum k inner pc hasc, h]
  simp

theorem counterSum_erase (pc : LLMap) (hasc : StdMap.ascending pc = true) (k : Label)
    (inner0 : LMap) (h : StdMap.find pc k = some inner0) :
    counterSum (StdMap.erase pc k) = counterSum pc - innerSum inner0 := by
  unfold counterSum
  rw [weightSum_erase innerSum k pc hasc, h]
  rfl

theorem innerSum_put (inner : LMap) (hasc : StdMap.ascending inner = true) (k : Label)
    (v : Int) :
    innerSum (StdMap.put inner k v) = innerSum inner - (StdMap.find inner k).getD 0 + v := by
  unfold innerSum
  rw [weightSum_put (fun c => c) k v inner hasc]
  cases StdMap.find inner k <;> rfl

theorem innerSum_erase (inner : LMap) (hasc : StdMap.ascending inner = true) (k : Label) :
    innerSum (StdMap.erase inner k) = innerSum inner - (StdMap.find inner k).getD 0 := by
  unfold innerSum
  rw [weightSum_erase (fun c => c) k inner hasc]
  cases StdMap.find inner k <;> rfl

theorem counterSum_add (pc : LLMap) (hwf : TableWF pc) (it l : Label) (n : Int) :
    counterSum (addPairwiseConfidenceCount pc it l n) =
      counterSum pc + (if StdMap.find pc it = none then 0 else n) := by
  unfold addPairwiseConfidenceCount
  cases hf : StdMap.find pc it with
  | none => simp
  | some inner =>
    simp only []
    have hasc := tableWF_find hwf hf
    rw [if_neg (Option.some_ne_none _)]
    cases hg : StdMap.find inner l with
    | none =>
      simp only []
      have he : StdMap.emplace inner l n = StdMap.put inner l n := by
        unfold StdMap.emplace; rw [hg]
      rw [he, counterSum_put pc hwf.1 it _ inner hf, innerSum_put inner hasc, hg]
      simp only [Option.getD_none]
      omega
    | some c =>
      simp only []
      rw [counterSum_put pc hwf.1 it _ inner hf, innerSum_put inner hasc, hg]
      simp only [Option.getD_some]
      omega

theorem counterSum_foldl_add (new_label : Label) :
    ∀ (l : LMap) (pc : LLMap), TableWF pc → StdMap.find pc new_label ≠ none →
      counterSum (l.foldl (fun acc e => addPairwiseConfidenceCount acc new_label e.1 e.2) pc) =
        counterSum pc + innerSum l := by
  intro l
  induction l with
  | nil =>
    intro pc _ _
    simp [innerSum, weightSum]
  | cons e t ih =>
    intro pc hwf hnew
    rw [List.foldl_cons,
      ih _ (tableWF_add hwf _ _ _)
        (fun h => hnew ((find_add pc new_label e.1 e.2 new_label).mp h)),
      counterSum_add pc hwf, if_neg hnew]
    unfold innerSum
    rw [weightSum_cons]
    omega

theorem counterSum_adjustOuter (pc : LLMap) (hwf : TableWF pc) (new_label old_label : Label)
    (hne : new_label ≠ old_label) :
    counterSum (adjustOuter pc new_label old_label) = counterSum pc := by
  unfold adjustOuter
  cases hold : StdMap.find pc old_label with
  | none => rfl
  | some old_inner =>
    simp only []
    cases hnew : StdMap.find pc new_label with
    | none =>
      simp only []
      have he : StdMap.emplace pc new_label old_inner = StdMap.put pc new_label old_inner := by
        unfold StdMap.emplace; rw [hnew]
      have hfind : StdMap.find (StdMap.put pc new_label old_inner) old_label = some old_inner := by
        rw [StdMap.find_put, if_neg (fun e => hne e.symm)]; exact hold
      rw [he, counterSum_erase _ (StdMap.ascending_put pc new_label old_inner hwf.1) old_label
        old_inner hfind, counterSum_put_absent pc hwf.1 new_label old_inner hnew]
      omega
    | some new_inner =>
      simp only []
      have hnn : StdMap.find pc new_label ≠ none := by rw [hnew]; exact Option.some_ne_none _
      have hfind : StdMap.find (old_inner.foldl
          (fun acc e => addPairwiseConfidenceCount acc new_label e.1 e.2) pc) old_label =
          some old_inner := by
        rw [find_foldl_add_other new_label old_inner old_label (fun e => hne e.symm)]
        exact hold
      rw [counterSum_erase _ (tableWF_foldl_add new_label old_inner pc hwf).1 old_label
        old_inner hfind, counterSum_foldl_add new_label old_inner pc hwf hnn]
      omega

theorem counterSum_adjustInnerStep (pc : LLMap) (hwf : TableWF pc)
    (new_label old_label : Label) (hne : new_label ≠ old_label) (k : Label) :
    counterSum (adjustInnerStep new_label old_label pc k) = counterSum pc := by
  unfold adjustInnerStep
  cases hf : StdMap.find pc k with
  | none => rfl
  | some inner =>
    simp only []
    cases hg : StdMap.find inner old_label with
    | none =>
      simp only []
      by_cases he : inner.isEmpty = true
      · rw [if_pos he, counterSum_erase pc hwf.1 k inner hf]
        have : inner = [] := List.isEmpty_iff.mp he
        rw [this]
        simp [innerSum, weightSum]
      · rw [if_neg he]
    | some n =>
      simp only []
      have hko : pairCount pc k old_label = some n := by
        rw [pairCount_of_find hf]; exact hg
      have key : ∀ pc1 : LLMap, TableWF pc1 → counterSum pc1 = counterSum pc + n →
          pairCount pc1 k old_label = some n →
          counterSum
            (match StdMap.find pc1 k with
              | none => pc1
              | some inner1 =>
                if (StdMap.erase inner1 old_label).isEmpty then StdMap.erase pc1 k
                else StdMap.put pc1 k (StdMap.erase inner1 old_label)) = counterSum pc := by
        intro pc1 hwf1 hsum hpair
        obtain ⟨inner1, hf1, hg1⟩ := pairCount_eq_some hpair
        rw [hf1]
        simp only []
        have herase := innerSum_erase inner1 (tableWF_find hwf1 hf1) old_label
        rw [hg1] at herase
        simp only [Option.getD_some] at herase
        by_cases he : (StdMap.erase inner1 old_label).isEmpty = true
        · rw [if_pos he, counterSum_erase pc1 hwf1.1 k inner1 hf1]
          have hemp : StdMap.erase inner1 old_label = [] := List.isEmpty_iff.mp he
          rw [hemp] at herase
          have h0 : innerSum ([] : LMap) = 0 := rfl
          omega
        · rw [if_neg he, counterSum_put pc1 hwf1.1 k _ inner1 hf1]
          omega
      apply key
      · by_cases hlt : k < new_label
        · rw [if_pos hlt]; exact tableWF_add hwf _ _ _
        · rw [if_neg hlt]
          cases hn : StdMap.find pc new_label with
          | none => exact tableWF_emplace hwf new_label rfl
          | some _ => exact tableWF_add hwf _ _ _
      · by_cases hlt : k < new_label
        · rw [if_pos hlt, counterSum_add pc hwf, hf, if_neg (Option.some_ne_none _)]
        · rw [if_neg hlt]
          cases hn : StdMap.find pc new_label with
          | none =>
            simp only []
            have he : StdMap.emplace pc new_label [(k, n)] = StdMap.put pc new_label [(k, n)] := by
              unfold StdMap.emplace; rw [hn]
            rw [he, counterSum_put_absent pc hwf.1 new_label _ hn]
            simp [innerSum, weightSum]
          | some x =>
            simp only []
            rw [counterSum_add pc hwf, hn, if_neg (Option.some_ne_none _)]
      · by_cases hlt : k < new_label
        · rw [if_pos hlt, pairCount_add]
          by_cases hc : k = k ∧ old_label = new_label
          · exact absurd hc.2.symm hne
          · rw [if_neg hc, hko]
        · rw [if_neg hlt]
          cases hn : StdMap.find pc new_label with
          | none =>
            simp only []
            rw [pairCount_emplace pc new_label _ k old_label hn]
            have hkn : k ≠ new_label := by
              intro e; rw [e, hn] at hf; cases hf
            rw [if_neg hkn, hko]
          | some _ =>
            simp only []
            rw [pairCount_add]
            by_cases hc : k = new_label ∧ old_label = k
            · exact absurd (hc.1.symm.trans hc.2.symm) hne
            · rw [if_neg hc, hko]

theorem counterSum_foldl_adjustInnerStep (new_label old_label : Label)
    (hne : new_label ≠ old_label) (ks : List Label) :
    ∀ pc : LLMap, TableWF pc →
      counterSum (ks.foldl (adjustInnerStep new_label old_label) pc) = counterSum pc := by
  induction ks with
  | nil => intro pc _; rfl
  | cons k rest ih =>
    intro pc hwf
    rw [List.foldl_cons, ih _ (tableWF_adjustInnerStep hwf new_label old_label k),
      counterSum_adjustInnerStep pc hwf new_label old_label hne k]

theorem counterSum_adjust (pc : LLMap) (hwf : TableWF pc) (new_label old_label : Label)
    (hne : new_label ≠ old_label) :
    counterSum (adjustPairwiseConfidenceAfterMerging pc new_label old_label) = counterSum pc := by
  unfold adjustPairwiseConfidenceAfterMerging
  simp only []
  rw [counterSum_foldl_adjustInnerStep new_label old_label hne _ _
    (tableWF_adjustOuter hwf new_label old_label),
    counterSum_adjustOuter pc hwf new_label old_label hne]

/-! ## Pairwise rebalancing: no empty inner map is left -/

theorem StdMap.put_ne_nil {V : Type} (m : List (Nat × V)) (k : Nat) (v : V) :
    StdMap.put m k v ≠ [] := by
  cases m with
  | nil => simp [StdMap.put]
  | cons e t =>
    obtain ⟨k0, v0⟩ := e
    unfold StdMap.put
    by_cases h1 : k < k0
    · rw [if_pos h1]; exact List.cons_ne_nil _ _
    · rw [if_neg h1]
      by_cases h2 : k = k0
      · rw [if_pos h2]; exact List.cons_ne_nil _ _
      · rw [if_neg h2]; exact List.cons_ne_nil _ _

theorem find_add_self_ne_nil (pc : LLMap) (it l : Label) (n : Int) (inner1 : LMap)
    (h : StdMap.find (addPairwiseConfidenceCount pc it l n) it = some inner1) :
    inner1 ≠ [] := by
  unfold addPairwiseConfidenceCount at h
  cases hf : StdMap.find pc it with
  | none =>
    rw [hf] at h
    simp only [] at h
    rw [hf] at h
    cases h
  | some inner =>
    rw [hf] at h
    simp only [] at h
    cases hg : StdMap.find inner l with
    | none =>
      rw [hg] at h
      simp only [] at h
      rw [StdMap.find_put, if_pos rfl] at h
      injection h with h
      rw [← h]
      unfold StdMap.emplace
      rw [hg]
      exact StdMap.put_ne_nil _ _ _
    | some c =>
      rw [hg] at h
      simp only [] at h
      rw [StdMap.find_put, if_pos rfl] at h
      injection h with h
      rw [← h]
      exact StdMap.put_ne_nil _ _ _

theorem noEmptyOutside_step (new_label old_label : Label) (pc : LLMap) (k : Label)
    (rest : List Label) (h : NoEmptyOutside (k :: rest) pc) :
    NoEmptyOutside rest (adjustInnerStep new_label old_label pc k) := by
  have hother : ∀ a inner, StdMap.find pc a = some inner → a ≠ k → a ∉ rest → inner ≠ [] := by
    intro a inner hfa hak har
    apply h a inner hfa
    intro hmem
    rcases List.mem_cons.mp hmem with h1 | h1
    · exact hak h1
    · exact har h1
  intro a inner' hfa har
  unfold adjustInnerStep at hfa
  cases hf : StdMap.find pc k with
  | none =>
    rw [hf] at hfa
    simp only [] at hfa
    by_cases hak : a = k
    · rw [hak, hf] at hfa; cases hfa
    · exact hother a inner' hfa hak har
  | some inner =>
    rw [hf] at hfa
    simp only [] at hfa
    cases hg : StdMap.find inner old_label with
    | none =>
      rw [hg] at hfa
      simp only [] at hfa
      by_cases he : inner.isEmpty = true
      · rw [if_pos he, StdMap.find_erase] at hfa
        by_cases hak : a = k
        · rw [if_pos hak] at hfa; cases hfa
        · rw [if_neg hak] at hfa
          exact hother a inner' hfa hak har
      · rw [if_neg he] at hfa
        by_cases hak : a = k
        · rw [hak, hf] at hfa
          injection hfa with hfa
          rw [← hfa]
          exact fun e => he (by rw [e]; rfl)
        · exact hother a inner' hfa hak har
    | some n =>
      rw [hg] at hfa
      simp only [] at hfa
      -- the table after the count has been added to its new place
      have key : ∀ pc1 : LLMap,
          (∀ a inner1, StdMap.find pc1 a = some inner1 → a ≠ k → a ∉ rest → inner1 ≠ []) →
          StdMap.find (match StdMap.find pc1 k with
            | none => pc1
            | some inner1 =>
              if (StdMap.erase inner1 old_label).isEmpty then StdMap.erase pc1 k
              else StdMap.put pc1 k (StdMap.erase inner1 old_label)) a = some inner' →
          inner' ≠ [] := by
        intro pc1 hp1 hfa1
        cases hk : StdMap.find pc1 k with
        | none =>
          rw [hk] at hfa1
          simp only [] at hfa1
          by_cases hak : a = k
          · rw [hak, hk] at hfa1; cases hfa1
          · exact hp1 a inner' hfa1 hak har
        | some inner1 =>
          rw [hk] at hfa1
          simp only [] at hfa1
          by_cases he : (StdMap.erase inner1 old_label).isEmpty = true
          · rw [if_pos he, StdMap.find_erase] at hfa1
            by_cases hak : a = k
            · rw [if_pos hak] at hfa1; cases hfa1
            · rw [if_neg hak] at hfa1
              exact hp1 a inner' hfa1 hak har
          · rw [if_neg he, StdMap.find_put] at hfa1
            by_cases hak : a = k
            · rw [if_pos hak] at hfa1
              injection hfa1 with hfa1
              rw [← hfa1]
              exact fun e => he (by rw [e]; rfl)
            · rw [if_neg hak] at hfa1
              exact hp1 a inner' hfa1 hak har
      refine key _ ?_ hfa
      intro a1 inner1 hf1 hak1 har1
      by_cases hlt : k < new_label
      · rw [if_pos hlt, find_add_other pc k new_label n a1 hak1] at hf1
        exact hother a1 inner1 hf1 hak1 har1
      · rw [if_neg hlt] at hf1
        cases hn : StdMap.find pc new_label with
        | none =>
          rw [hn] at hf1
          simp only [] at hf1
          rw [StdMap.find_emplace] at hf1
          by_cases han : a1 = new_label
          · rw [if_pos han, hn] at hf1
            injection hf1 with hf1
            rw [← hf1]
            exact List.cons_ne_nil _ _
          · rw [if_neg han] at hf1
            exact hother a1 inner1 hf1 hak1 har1
        | some x =>
          rw [hn] at hf1
          simp only [] at hf1
          by_cases han : a1 = new_label
          · rw [han] at hf1
            exact find_add_self_ne_nil pc new_label k n inner1 hf1
          · rw [find_add_other pc new_label k n a1 han] at hf1
            exact hother a1 inner1 hf1 hak1 har1

theorem noEmptyOutside_foldl (new_label old_label : Label) :
    ∀ (ks : List Label) (pc : LLMap), NoEmptyOutside ks pc →
      NoEmptyOutside [] (ks.foldl (adjustInnerStep new_label old_label) pc) := by
  intro ks
  induction ks with
  | nil => intro pc h; exact h
  | cons k rest ih =>
    intro pc h
    rw [List.foldl_cons]
    exact ih _ (noEmptyOutside_step new_label old_label pc k rest h)

theorem adjust_no_empty_inner (pc : LLMap) (hwf : TableWF pc) (new_label old_label : Label) :
    ∀ e ∈ adjustPairwiseConfidenceAfterMerging pc new_label old_label, e.2 ≠ [] := by
  intro e he
  have hwf2 := tableWF_adjust hwf new_label old_label
  have hfind : StdMap.find (adjustPairwiseConfidenceAfterMerging pc new_label old_label) e.1
      = some e.2 := StdMap.find_of_mem_ascending hwf2.1 he
  unfold adjustPairwiseConfidenceAfterMerging at hfind
  simp only [] at hfind
  refine noEmptyOutside_foldl new_label old_label _ _ ?_ e.1 e.2 hfind (List.not_mem_nil _)
  intro a inner hfa hna
  exfalso
  apply hna
  exact List.mem_map.mpr ⟨(a, inner), StdMap.mem_of_find hfa, rfl⟩

/-! ## Pairwise rebalancing -/

theorem redirectTarget_canonical (new_label c : Label) :
    redirectTarget new_label c = (min new_label c, max new_label c) := by
  unfold redirectTarget
  by_cases hlt : c < new_label
  · rw [if_pos hlt, min_eq_right (le_of_lt hlt), max_eq_left (le_of_lt hlt)]
  · have hle : new_label ≤ c := not_lt.mp hlt
    rw [if_neg hlt, min_eq_left hle, max_eq_right hle]

/-- C25: pairwise rebalancing.  For a well-formed, ordered pairwise table in
which the pair of `new` and `old` is absent, and `new < old`, after
`adjustPairwiseConfidenceAfterMerging(new, old)` the counter of the unordered
pair `{new, c}`, for every third label `c`, is the sum of the counters that
`{new, c}` and `{old, c}` had before (each 0 if absent); every pair that
contains neither `new` nor `old` has the counter it had; the sum of all
counters of the table is the same as before; and no outer key is left with an
empty inner map. -/
theorem adjustPairwiseConfidenceAfterMerging_rebalances (pc : LLMap)
    (new_label old_label : Label) (hwf : TableWF pc) (hord : PairOrdered pc)
    (hlt : new_label < old_label) (habs : pairCount pc new_label old_label = none) :
    (∀ c, c ≠ new_label → c ≠ old_label →
      unorderedCount (adjustPairwiseConfidenceAfterMerging pc new_label old_label) new_label c =
        unorderedCount pc new_label c + unorderedCount pc old_label c) ∧
    (∀ x y, x ≠ new_label → x ≠ old_label → y ≠ new_label → y ≠ old_label →
      pairCount (adjustPairwiseConfidenceAfterMerging pc new_label old_label) x y =
        pairCount pc x y) ∧
    counterSum (adjustPairwiseConfidenceAfterMerging pc new_label old_label) = counterSum pc ∧
    (∀ e ∈ adjustPairwiseConfidenceAfterMerging pc new_label old_label, e.2 ≠ []) := by
  have hne : new_label ≠ old_label := ne_of_lt hlt
  have hwf1 := tableWF_adjustOuter hwf new_label old_label
  have hnone : ∀ a b, ¬ a < b → pairCount pc a b = none := by
    intro a b hab
    cases h : pairCount pc a b with
    | none => rfl
    | some c => exact absurd (hord a b c h) hab
  refine ⟨?_, ?_, counterSum_adjust pc hwf new_label old_label hne,
    adjust_no_empty_inner pc hwf new_label old_label⟩
  · intro c hc hco
    have habs1 : pairCount (adjustOuter pc new_label old_label) new_label old_label = none := by
      rw [pairCount_adjustOuter pc new_label old_label hwf, if_neg hne, if_pos rfl, habs,
        hnone old_label old_label (lt_irrefl _)]
      rfl
    have hold1 : old_label ∉ StdMap.keys (adjustOuter pc new_label old_label) :=
      not_mem_keys_of_find_none (adjustOuter_find_old pc new_label old_label)
    have htarget := pairCount_foldl_adjustInnerStep_target new_label old_label hne c hc hco
      (StdMap.keys (adjustOuter pc new_label old_label)) (adjustOuter pc new_label old_label)
      (ascending_keys_nodup _ hwf1.1) hold1 habs1
    have hcold : (if c ∈ StdMap.keys (adjustOuter pc new_label old_label) then
        (pairCount (adjustOuter pc new_label old_label) c old_label).getD 0 else 0) =
        (pairCount pc c old_label).getD 0 := by
      have hB : pairCount (adjustOuter pc new_label old_label) c old_label =
          pairCount pc c old_label := by
        rw [pairCount_adjustOuter pc new_label old_label hwf, if_neg hco, if_neg hc]
      by_cases hmem : c ∈ StdMap.keys (adjustOuter pc new_label old_label)
      · rw [if_pos hmem, hB]
      · rw [if_neg hmem, ← hB,
          pairCount_ne_none_of_find_none (StdMap.find_eq_none_of_not_mem_keys hmem)]
        rfl
    rw [hcold] at htarget
    have hcanon := redirectTarget_canonical new_label c
    unfold unorderedCount adjustPairwiseConfidenceAfterMerging
    simp only []
    rw [← show (redirectTarget new_label c).1 = min new_label c from by rw [hcanon],
      ← show (redirectTarget new_label c).2 = max new_label c from by rw [hcanon], htarget]
    unfold redirectTarget
    by_cases hcn : c < new_label
    · rw [if_pos hcn]
      simp only []
      have hco2 : c < old_label := lt_trans hcn hlt
      rw [pairCount_adjustOuter pc new_label old_label hwf, if_neg hco, if_neg hc,
        min_eq_right (le_of_lt hco2), max_eq_left (le_of_lt hco2)]
    · rw [if_neg hcn]
      simp only []
      rw [pairCount_adjustOuter pc new_label old_label hwf, if_neg hne, if_pos rfl,
        addOpt_getD]
      by_cases hco2 : c < old_label
      · rw [min_eq_right (le_of_lt hco2), max_eq_left (le_of_lt hco2),
          hnone old_label c (not_lt.mpr (le_of_lt hco2))]
        simp
      · have hoc : old_label < c := lt_of_le_of_ne (not_lt.mp hco2) (fun e => hco e.symm)
        rw [min_eq_left (le_of_lt hoc), max_eq_right (le_of_lt hoc),
          hnone c old_label (not_lt.mpr (le_of_lt hoc))]
        simp
  · intro x y hx hxo hy hyo
    unfold adjustPairwiseConfidenceAfterMerging
    simp only []
    rw [pairCount_foldl_adjustInnerStep_other new_label old_label x y hx hy hyo,
      pairCount_adjustOuter pc new_label old_label hwf, if_neg hxo, if_neg hx]

set_option maxRecDepth 100000 in
theorem adjustPairwiseConfidenceAfterMerging_rebalances_witness :
    TableWF tableRebalance ∧ (3 : Label) < 7 ∧ pairCount tableRebalance 3 7 = none ∧
    adjustPairwiseConfidenceAfterMerging tableRebalance 3 7 =
      [(2, [(3, 4), (9, 1)]), (3, [(5, 8), (8, 3), (9, 12)])] ∧
    counterSum tableRebalance = 28 ∧
    counterSum (adjustPairwiseConfidenceAfterMerging tableRebalance 3 7) =
      counterSum tableRebalance ∧
    unorderedCount (adjustPairwiseConfidenceAfterMerging tableRebalance 3 7) 3 5 =
      unorderedCount tableRebalance 3 5 + unorderedCount tableRebalance 7 5 :=
  ⟨by decide, by decide, by decide, by decide, by decide,
    (adjustPairwiseConfidenceAfterMerging_rebalances tableRebalance 3 7 (by decide)
      (pairOrdered_of_forall_mem _ (by decide)) (by decide) (by decide)).2.2.1,
    (adjustPairwiseConfidenceAfterMerging_rebalances tableRebalance 3 7 (by decide)
      (pairOrdered_of_forall_mem _ (by decide)) (by decide) (by decide)).1 5 (by decide)
      (by decide)⟩

/-! ## The type `float`: rounding and addition -/

theorem bitLengthAux_lt (fuel : Nat) : ∀ n, n ≤ fuel → n < 2 ^ bitLengthAux fuel n := by
  induction fuel with
  | zero =>
    intro n h
    have h0 : n = 0 := by omega
    rw [h0]
    simp [bitLengthAux]
  | succ f ih =>
    intro n h
    unfold bitLengthAux
    by_cases hn : n = 0
    · rw [if_pos hn, hn]
      simp
    · rw [if_neg hn]
      have h2 : n / 2 ≤ f := by omega
      have h3 := ih (n / 2) h2
      rw [pow_succ]
      generalize 2 ^ bitLengthAux f (n / 2) = p at h3 ⊢
      omega

theorem bitLength_lt (n : Nat) : n < 2 ^ bitLength n :=
  bitLengthAux_lt n n (le_refl n)

theorem bitLengthAux_le (fuel : Nat) : ∀ n k, n < 2 ^ k → bitLengthAux fuel n ≤ k := by
  induction fuel with
  | zero => intro n k _; simp [bitLengthAux]
  | succ f ih =>
    intro n k h
    unfold bitLengthAux
    by_cases hn : n = 0
    · rw [if_pos hn]
      exact Nat.zero_le _
    · rw [if_neg hn]
      cases k with
      | zero =>
        simp at h
        exact absurd h hn
      | succ k =>
        have h2 : n / 2 < 2 ^ k := by
          rw [pow_succ] at h
          generalize 2 ^ k = p at h ⊢
          omega
        have h3 := ih (n / 2) k h2
        omega

theorem bitLength_le (n k : Nat) (h : n < 2 ^ k) : bitLength n ≤ k :=
  bitLengthAux_le n n k h

theorem roundNearestEven_of_dvd (n : Nat) (h : 2 ^ (bitLength n - 24) ∣ n) :
    roundNearestEven n = n := by
  unfold roundNearestEven
  simp only []
  have hr : n % 2 ^ (bitLength n - 24) = 0 := Nat.mod_eq_zero_of_dvd h
  have hpos : 0 < 2 ^ (bitLength n - 24) := Nat.pow_pos (by decide)
  rw [hr]
  have hc : ¬ (2 * 0 > 2 ^ (bitLength n - 24) ∨
      (2 * 0 = 2 ^ (bitLength n - 24) ∧ n / 2 ^ (bitLength n - 24) % 2 = 1)) := by
    intro hcon
    rcases hcon with h1 | h1
    · omega
    · omega
  rw [if_neg hc]
  exact Nat.div_mul_cancel h

theorem roundNearestEven_form (n : Nat) :
    ∃ q, q ≤ 2 ^ 24 ∧ roundNearestEven n = q * 2 ^ (bitLength n - 24) := by
  have hlt := bitLength_lt n
  have hq : n / 2 ^ (bitLength n - 24) < 2 ^ 24 := by
    rw [Nat.div_lt_iff_lt_mul (Nat.pow_pos (by decide))]
    rw [← pow_add]
    exact lt_of_lt_of_le hlt (Nat.pow_le_pow_right (by decide) (by omega))
  unfold roundNearestEven
  simp only []
  by_cases hc : 2 * (n % 2 ^ (bitLength n - 24)) > 2 ^ (bitLength n - 24) ∨
      (2 * (n % 2 ^ (bitLength n - 24)) = 2 ^ (bitLength n - 24) ∧
        n / 2 ^ (bitLength n - 24) % 2 = 1)
  · rw [if_pos hc]
    exact ⟨_, hq, rfl⟩
  · rw [if_neg hc]
    exact ⟨_, le_of_lt hq, rfl⟩

theorem roundNearestEven_dvd (n : Nat) :
    2 ^ (bitLength (roundNearestEven n) - 24) ∣ roundNearestEven n := by
  obtain ⟨q, hq, hform⟩ := roundNearestEven_form n
  rw [hform]
  generalize bitLength n - 24 = s
  rcases Nat.lt_or_ge q (2 ^ 24) with hlt | hge
  · have h1 : q * 2 ^ s < 2 ^ (24 + s) := by
      rw [pow_add]
      exact Nat.mul_lt_mul_of_pos_right hlt (Nat.pow_pos (by decide))
    have h2 := bitLength_le _ _ h1
    exact Dvd.dvd.mul_left (Nat.pow_dvd_pow 2 (by omega)) q
  · have hq2 : q = 2 ^ 24 := le_antisymm hq hge
    rw [hq2, ← pow_add]
    have h1 : 2 ^ (24 + s) < 2 ^ (25 + s) := Nat.pow_lt_pow_right (by decide) (by omega)
    have h2 := bitLength_le _ _ h1
    exact Nat.pow_dvd_pow 2 (by omega)

theorem roundNearestEven_idem (n : Nat) :
    roundNearestEven (roundNearestEven n) = roundNearestEven n :=
  roundNearestEven_of_dvd _ (roundNearestEven_dvd n)

set_option maxRecDepth 100000 in
theorem roundNearestEven_infinity : roundNearestEven infinityUnits = infinityUnits := by
  decide

theorem roundUnits_natCast (m : Nat) (hm : roundNearestEven m = m) (hle : m ≤ infinityUnits) :
    roundUnits (m : Int) = (m : Int) := by
  unfold roundUnits
  have h0 : ¬ ((m : Int) < 0) := by omega
  rw [if_neg h0, Int.natAbs_ofNat, hm, min_eq_left hle]

theorem roundUnits_neg_natCast (m : Nat) (hm : roundNearestEven m = m)
    (hle : m ≤ infinityUnits) : roundUnits (-(m : Int)) = -(m : Int) := by
  by_cases h0 : m = 0
  · rw [h0]
    exact roundUnits_natCast 0 (by rw [← h0]; exact hm) (Nat.zero_le _)
  · unfold roundUnits
    have hneg : -(m : Int) < 0 := by omega
    rw [if_pos hneg, Int.natAbs_neg, Int.natAbs_ofNat, hm, min_eq_left hle]

/-- Rounding to the type `float` gives a value of the type: rounding it again
changes nothing. -/
theorem roundUnits_idem (u : Int) : roundUnits (roundUnits u) = roundUnits u := by
  have hm : roundNearestEven (min (roundNearestEven u.natAbs) infinityUnits) =
      min (roundNearestEven u.natAbs) infinityUnits := by
    rcases le_total (roundNearestEven u.natAbs) infinityUnits with h | h
    · rw [min_eq_left h]
      exact roundNearestEven_idem _
    · rw [min_eq_right h]
      exact roundNearestEven_infinity
  have hle : min (roundNearestEven u.natAbs) infinityUnits ≤ infinityUnits := min_le_right _ _
  unfold roundUnits
  by_cases hu : u < 0
  · rw [if_pos hu]
    exact roundUnits_neg_natCast _ hm hle
  · rw [if_neg hu]
    exact roundUnits_natCast _ hm hle

theorem binary32_ext (a b : Binary32) (h : a.units = b.units) : a = b := by
  cases a
  cases b
  cases h
  rfl

theorem ofUnits_units (u : Int) (h : roundUnits u = u) : (Binary32.ofUnits u).units = u := by
  unfold Binary32.ofUnits
  rw [dif_pos h]

/-- The sum of two finite `float` values is the exact sum, rounded. -/
theorem binary32_add_units (a b : Binary32) (ha : a.units.natAbs ≠ infinityUnits)
    (hb : b.units.natAbs ≠ infinityUnits) :
    (a + b).units = roundUnits (a.units + b.units) := by
  show (Binary32.add a b).units = _
  unfold Binary32.add
  rw [if_neg ha, if_neg hb]
  exact ofUnits_units _ (roundUnits_idem _)

set_option maxRecDepth 100000 in
theorem binary32_zero_finite : (0 : Binary32).units.natAbs ≠ infinityUnits := by
  decide

/-- Adding 0 to a `float` is exact. -/
theorem binary32_add_zero (x : Binary32) : x + 0 = x := by
  show Binary32.add x 0 = x
  unfold Binary32.add
  by_cases hx : x.units.natAbs = infinityUnits
  · rw [if_pos hx]
  · rw [if_neg hx, if_neg binary32_zero_finite]
    apply binary32_ext
    have h0 : x.units + (0 : Binary32).units = x.units := by
      show x.units + 0 = x.units
      omega
    rw [h0, x.representable]
    exact ofUnits_units _ x.representable

/-- Adding a `float` to 0 is exact. -/
theorem binary32_zero_add (x : Binary32) : 0 + x = x := by
  show Binary32.add 0 x = x
  unfold Binary32.add
  rw [if_neg binary32_zero_finite]
  by_cases hx : x.units.natAbs = infinityUnits
  · rw [if_pos hx]
  · rw [if_neg hx]
    apply binary32_ext
    have h0 : (0 : Binary32).units + x.units = x.units := by
      show 0 + x.units = x.units
      omega
    rw [h0, x.representable]
    exact ofUnits_units _ x.representable

/-! ## Confidence transfer in `swapLabels` -/

section ConfidenceLemmas

set_option linter.unusedSectionVars false

variable {C : Type} [LinearOrder C] [Zero C] [Add C]

theorem confidenceOf_cons (x : LabelCount C) (t : List (LabelCount C)) (label : Label) :
    confidenceOf (x :: t) label =
      if x.label = label then x.label_confidence else confidenceOf t label := rfl

theorem confidenceOf_absent (l : List (LabelCount C)) (label : Label)
    (h : ∀ e ∈ l, e.label ≠ label) : confidenceOf l label = 0 := by
  induction l with
  | nil => rfl
  | cons x t ih =>
    rw [confidenceOf_cons, if_neg (h x (List.mem_cons_self _ _))]
    exact ih (fun e he => h e (List.mem_cons_of_mem _ he))

theorem confidenceOf_empty_label (l : List (LabelCount C)) (hez : EmptySlotsZero l) :
    confidenceOf l 0 = 0 := by
  induction l with
  | nil => rfl
  | cons x t ih =>
    rw [confidenceOf_cons]
    by_cases hx : x.label = 0
    · rw [if_pos hx]
      exact hez x (List.mem_cons_self _ _) hx
    · rw [if_neg hx]
      exact ih (fun e he => hez e (List.mem_cons_of_mem _ he))

theorem confidenceOf_nonneg (l : List (LabelCount C)) (label : Label)
    (hnn : ∀ e ∈ l, 0 ≤ e.label_confidence) : 0 ≤ confidenceOf l label := by
  induction l with
  | nil => exact le_refl _
  | cons x t ih =>
    rw [confidenceOf_cons]
    by_cases hx : x.label = label
    · rw [if_pos hx]
      exact hnn x (List.mem_cons_self _ _)
    · rw [if_neg hx]
      exact ih (fun e he => hnn e (List.mem_cons_of_mem _ he))

theorem confidenceOf_append_absent (pre q : List (LabelCount C)) (label : Label)
    (h : ∀ x ∈ pre, x.label ≠ label) :
    confidenceOf (pre ++ q) label = confidenceOf q label := by
  induction pre with
  | nil => rfl
  | cons x t ih =>
    rw [List.cons_append, confidenceOf_cons, if_neg (h x (List.mem_cons_self _ _))]
    exact ih (fun e he => h e (List.mem_cons_of_mem _ he))

theorem confidenceOf_replace (pre post : List (LabelCount C)) (e e' : LabelCount C)
    (label : Label) (h : e.label ≠ label) (h' : e'.label ≠ label) :
    confidenceOf (pre ++ e :: post) label = confidenceOf (pre ++ e' :: post) label := by
  induction pre with
  | nil =>
    rw [List.nil_append, List.nil_append, confidenceOf_cons, confidenceOf_cons, if_neg h,
      if_neg h']
  | cons x t ih =>
    rw [List.cons_append, List.cons_append, confidenceOf_cons, confidenceOf_cons, ih]

theorem totalConfidence_cons {M : Type} [AddCommMonoid M] (val : C → M) (x : LabelCount C)
    (t : List (LabelCount C)) :
    totalConfidence val (x :: t) = val x.label_confidence + totalConfidence val t := by
  unfold totalConfidence
  simp

theorem totalConfidence_append {M : Type} [AddCommMonoid M] (val : C → M)
    (p q : List (LabelCount C)) :
    totalConfidence val (p ++ q) = totalConfidence val p + totalConfidence val q := by
  unfold totalConfidence
  simp

theorem clearOldLabel_fst (old_label : Label) :
    ∀ (l : List (LabelCount C)) (acc : C),
      l.Pairwise (fun a b => a.label ≠ 0 → a.label ≠ b.label) → EmptySlotsZero l →
      (clearOldLabel old_label acc l).1 =
        if ∀ e ∈ l, e.label ≠ old_label then acc else confidenceOf l old_label := by
  intro l
  induction l with
  | nil =>
    intro acc _ _
    simp [clearOldLabel]
  | cons x t ih =>
    intro acc hpw hez
    have hpwt := (List.pairwise_cons.mp hpw).2
    have hezt : EmptySlotsZero t := fun e he => hez e (List.mem_cons_of_mem _ he)
    unfold clearOldLabel
    by_cases hx : x.label = old_label
    · rw [if_pos hx]
      simp only []
      rw [ih _ hpwt hezt]
      have hnall : ¬ ∀ e ∈ x :: t, e.label ≠ old_label :=
        fun hall => hall x (List.mem_cons_self _ _) hx
      rw [if_neg hnall, confidenceOf_cons, if_pos hx]
      by_cases hnone : ∀ e ∈ t, e.label ≠ old_label
      · rw [if_pos hnone]
      · rw [if_neg hnone]
        have hex : ∃ e ∈ t, e.label = old_label := by
          by_contra hcon
          exact hnone (fun e he hl => hcon ⟨e, he, hl⟩)
        obtain ⟨e, he, hl⟩ := hex
        have hx0 : x.label = 0 := by
          by_contra h0
          exact (List.pairwise_cons.mp hpw).1 e he h0 (hx.trans hl.symm)
        have hold0 : old_label = 0 := hx.symm.trans hx0
        rw [hez x (List.mem_cons_self _ _) hx0, hold0]
        exact confidenceOf_empty_label t hezt
    · rw [if_neg hx]
      simp only []
      rw [ih _ hpwt hezt, confidenceOf_cons, if_neg hx]
      apply if_congr _ rfl rfl
      constructor
      · intro hall e he
        rcases List.mem_cons.mp he with h1 | h1
        · rw [h1]; exact hx
        · exact hall e h1
      · intro hall e he
        exact hall e (List.mem_cons_of_mem _ he)

theorem clearOldLabel_fst_zero (old_label : Label) (l : List (LabelCount C))
    (hpw : l.Pairwise (fun a b => a.label ≠ 0 → a.label ≠ b.label)) (hez : EmptySlotsZero l) :
    (clearOldLabel old_label 0 l).1 = confidenceOf l old_label := by
  rw [clearOldLabel_fst old_label l 0 hpw hez]
  by_cases hnone : ∀ e ∈ l, e.label ≠ old_label
  · rw [if_pos hnone, confidenceOf_absent l old_label hnone]
  · rw [if_neg hnone]

theorem clearOldLabel_snd_old (old_label : Label) :
    ∀ (l : List (LabelCount C)) (acc : C),
      confidenceOf (clearOldLabel old_label acc l).2 old_label = 0 := by
  intro l
  induction l with
  | nil => intro acc; rfl
  | cons x t ih =>
    intro acc
    unfold clearOldLabel
    by_cases hx : x.label = old_label
    · rw [if_pos hx]
      simp only []
      rw [confidenceOf_cons, ih]
      simp
    · rw [if_neg hx]
      simp only []
      rw [confidenceOf_cons, ih, if_neg hx]

theorem clearOldLabel_emptySlots (old_label : Label) :
    ∀ (l : List (LabelCount C)) (acc : C), EmptySlotsZero l →
      EmptySlotsZero (clearOldLabel old_label acc l).2 := by
  intro l acc hez e he h0
  rcases clearOldLabel_mem old_label l acc e he with h | h
  · exact hez e h h0
  · rw [h]

theorem clearOldLabel_snd_nonzero (old_label label : Label) (hne : label ≠ old_label)
    (h0 : label ≠ 0) :
    ∀ (l : List (LabelCount C)) (acc : C),
      confidenceOf (clearOldLabel old_label acc l).2 label = confidenceOf l label := by
  intro l
  induction l with
  | nil => intro acc; rfl
  | cons x t ih =>
    intro acc
    unfold clearOldLabel
    by_cases hx : x.label = old_label
    · rw [if_pos hx]
      simp only []
      have h1 : ¬ x.label = label := by rw [hx]; exact fun e => hne e.symm
      have h2 : ¬ (0 : Label) = label := fun e => h0 e.symm
      rw [confidenceOf_cons, ih, confidenceOf_cons, if_neg h1]
      exact if_neg h2
    · rw [if_neg hx]
      simp only []
      rw [confidenceOf_cons, ih, confidenceOf_cons]

theorem clearOldLabel_snd_other (old_label label : Label) (hne : label ≠ old_label)
    (l : List (LabelCount C)) (acc : C) (hez : EmptySlotsZero l) :
    confidenceOf (clearOldLabel old_label acc l).2 label = confidenceOf l label := by
  by_cases h0 : label = 0
  · rw [h0, confidenceOf_empty_label l hez,
      confidenceOf_empty_label _ (clearOldLabel_emptySlots old_label l acc hez)]
  · exact clearOldLabel_snd_nonzero old_label label hne h0 l acc

theorem clearOldLabel_filter (old_label label : Label) (hne : label ≠ old_label)
    (h0 : label ≠ 0) :
    ∀ (l : List (LabelCount C)) (acc : C),
      (clearOldLabel old_label acc l).2.filter (fun e => decide (e.label = label)) =
        l.filter (fun e => decide (e.label = label)) := by
  intro l
  induction l with
  | nil => intro acc; rfl
  | cons x t ih =>
    intro acc
    unfold clearOldLabel
    by_cases hx : x.label = old_label
    · rw [if_pos hx]
      simp only []
      have h1 : ¬ x.label = label := by rw [hx]; exact fun e => hne e.symm
      have h2 : ¬ (0 : Label) = label := fun e => h0 e.symm
      simp [List.filter_cons, h1, h2, ih]
    · rw [if_neg hx]
      simp only []
      by_cases h1 : x.label = label
      · simp [List.filter_cons, h1, ih]
      · simp [List.filter_cons, h1, ih]

theorem clearOldLabel_total {M : Type} [AddCommMonoid M] (val : C → M) (hval : val 0 = 0)
    (old_label : Label) :
    ∀ (l : List (LabelCount C)) (acc : C),
      l.Pairwise (fun a b => a.label ≠ 0 → a.label ≠ b.label) → EmptySlotsZero l →
      totalConfidence val (clearOldLabel old_label acc l).2 + val (confidenceOf l old_label) =
        totalConfidence val l := by
  intro l
  induction l with
  | nil =>
    intro acc _ _
    simp [clearOldLabel, totalConfidence, confidenceOf, hval]
  | cons x t ih =>
    intro acc hpw hez
    have hpwt := (List.pairwise_cons.mp hpw).2
    have hezt : EmptySlotsZero t := fun e he => hez e (List.mem_cons_of_mem _ he)
    unfold clearOldLabel
    by_cases hx : x.label = old_label
    · rw [if_pos hx]
      simp only []
      have ht0 : val (confidenceOf t old_label) = 0 := by
        by_cases hnone : ∀ e ∈ t, e.label ≠ old_label
        · rw [confidenceOf_absent t old_label hnone, hval]
        · have hex : ∃ e ∈ t, e.label = old_label := by
            by_contra hcon
            exact hnone (fun e he hl => hcon ⟨e, he, hl⟩)
          obtain ⟨e, he, hl⟩ := hex
          have hx0 : x.label = 0 := by
            by_contra h0
            exact (List.pairwise_cons.mp hpw).1 e he h0 (hx.trans hl.symm)
          have hold0 : old_label = 0 := hx.symm.trans hx0
          rw [hold0, confidenceOf_empty_label t hezt, hval]
      have h1 := ih x.label_confidence hpwt hezt
      rw [ht0, add_zero] at h1
      rw [totalConfidence_cons, confidenceOf_cons, if_pos hx, totalConfidence_cons, h1]
      simp only []
      rw [hval, zero_add, add_comm]
    · rw [if_neg hx]
      simp only []
      rw [totalConfidence_cons, confidenceOf_cons, if_neg hx, totalConfidence_cons,
        ← ih acc hpwt hezt, add_assoc]

theorem clearOldLabel_freed (old_label : Label) :
    ∀ (l : List (LabelCount C)) (acc : C), (∃ e ∈ l, e.label = old_label) →
      ∃ e ∈ (clearOldLabel old_label acc l).2, e.label = 0 := by
  intro l
  induction l with
  | nil => rintro acc ⟨e, he, _⟩; cases he
  | cons x t ih =>
    intro acc hex
    unfold clearOldLabel
    by_cases hx : x.label = old_label
    · rw [if_pos hx]
      exact ⟨_, List.mem_cons_self _ _, rfl⟩
    · rw [if_neg hx]
      have hex2 : ∃ e ∈ t, e.label = old_label := by
        obtain ⟨e, he, hl⟩ := hex
        rcases List.mem_cons.mp he with h1 | h1
        · rw [h1] at hl; exact absurd hl hx
        · exact ⟨e, h1, hl⟩
      obtain ⟨e, he, h0⟩ := ih acc hex2
      exact ⟨e, List.mem_cons_of_mem _ he, h0⟩

theorem addVoxel_confidence (label : Label) (confidence : C) (voxel : LabelVoxel C)
    (hzero_add : ∀ x : C, 0 + x = x)
    (hez : EmptySlotsZero voxel.label_count)
    (hroom : (∃ e ∈ voxel.label_count, e.label = label) ∨
      ∃ e ∈ voxel.label_count, e.label = 0) :
    confidenceOf (addVoxelLabelConfidence label confidence voxel).label_count label =
      confidenceOf voxel.label_count label + confidence ∧
    (∀ l, l ≠ label →
      confidenceOf (addVoxelLabelConfidence label confidence voxel).label_count l =
        confidenceOf voxel.label_count l) ∧
    (∀ (M : Type) [AddCommMonoid M] (val : C → M), val 0 = 0 →
      totalConfidence val (addVoxelLabelConfidence label confidence voxel).label_count +
          val (confidenceOf voxel.label_count label) =
        totalConfidence val voxel.label_count +
          val (confidenceOf (addVoxelLabelConfidence label confidence voxel).label_count label)) ∧
    (∀ l, l ≠ label → l ≠ 0 →
      (addVoxelLabelConfidence label confidence voxel).label_count.filter
          (fun e => decide (e.label = l)) =
        voxel.label_count.filter (fun e => decide (e.label = l))) := by
  by_cases hobs : ∃ x ∈ voxel.label_count, x.label = label
  · obtain ⟨pre, e, post, hl, he, hpre⟩ := first_split (fun x => x.label = label) _ hobs
    rw [addVoxel_observed label confidence voxel pre post e hl he hpre]
    simp only []
    rw [hl]
    have hb : confidenceOf (pre ++ e :: post) label = e.label_confidence := by
      rw [confidenceOf_append_absent pre _ label hpre, confidenceOf_cons, if_pos he]
    have ha : confidenceOf
        (pre ++ { e with label_confidence := e.label_confidence + confidence } :: post) label =
        e.label_confidence + confidence := by
      rw [confidenceOf_append_absent pre _ label hpre, confidenceOf_cons]
      exact if_pos he
    refine ⟨?_, ?_, ?_, ?_⟩
    · rw [ha, hb]
    · intro l hne
      have h1 : e.label ≠ l := by rw [he]; exact fun e1 => hne e1.symm
      exact confidenceOf_replace pre post
        { e with label_confidence := e.label_confidence + confidence } e l h1 h1
    · intro M _ val _
      rw [ha, hb, totalConfidence_append, totalConfidence_append, totalConfidence_cons,
        totalConfidence_cons]
      simp only []
      abel
    · intro l hne _
      have h1 : ¬ e.label = l := by rw [he]; exact fun e1 => hne e1.symm
      simp [List.filter_append, List.filter_cons, h1]
  · have hnone : ∀ x ∈ voxel.label_count, x.label ≠ label :=
      fun x hx hxl => hobs ⟨x, hx, hxl⟩
    have hfree : ∃ x ∈ voxel.label_count, x.label = 0 := by
      rcases hroom with h | h
      · exact absurd h hobs
      · exact h
    obtain ⟨pre, e, post, hl, he, hpre⟩ := first_split (fun x => x.label = 0) _ hfree
    have hec : e.label_confidence = 0 :=
      hez e (by rw [hl]; exact List.mem_append_right _ (List.mem_cons_self _ _)) he
    have hprel : ∀ x ∈ pre, x.label ≠ label :=
      fun x hx => hnone x (by rw [hl]; exact List.mem_append_left _ hx)
    have hlabel0 : label ≠ 0 := by
      intro h0
      exact hnone e (by rw [hl]; exact List.mem_append_right _ (List.mem_cons_self _ _))
        (he.trans h0.symm)
    have hb : confidenceOf voxel.label_count label = 0 := confidenceOf_absent _ _ hnone
    rw [addVoxel_unused label confidence voxel pre post e hl he hpre hnone]
    simp only []
    have ha : confidenceOf
        (pre ++ ({ label := label, label_confidence := confidence } : LabelCount C) :: post)
        label = confidence := by
      rw [confidenceOf_append_absent pre _ label hprel, confidenceOf_cons]
      exact if_pos rfl
    have hez2 : EmptySlotsZero
        (pre ++ ({ label := label, label_confidence := confidence } : LabelCount C) :: post) := by
      intro x hx hx0
      rcases List.mem_append.mp hx with h1 | h1
      · exact hez x (by rw [hl]; exact List.mem_append_left _ h1) hx0
      · rcases List.mem_cons.mp h1 with h2 | h2
        · rw [h2] at hx0
          exact absurd hx0 hlabel0
        · exact hez x (by rw [hl]; exact List.mem_append_right _ (List.mem_cons_of_mem _ h2)) hx0
    refine ⟨?_, ?_, ?_, ?_⟩
    · rw [ha, hb, hzero_add]
    · intro l hne
      by_cases h0 : l = 0
      · rw [h0, confidenceOf_empty_label _ hez2, confidenceOf_empty_label _ hez]
      · rw [hl]
        have h1 : e.label ≠ l := by rw [he]; exact fun e1 => h0 e1.symm
        have h2 : label ≠ l := fun e1 => hne e1.symm
        exact (confidenceOf_replace pre post e _ l h1 h2).symm
    · intro M _ val hval
      rw [ha, hb, hl, totalConfidence_append, totalConfidence_append, totalConfidence_cons,
        totalConfidence_cons]
      simp only []
      rw [hec, hval]
      abel
    · intro l hne h0
      rw [hl]
      have h1 : ¬ e.label = l := by rw [he]; exact fun e1 => h0 e1.symm
      have h2 : ¬ label = l := fun e1 => hne e1.symm
      simp [List.filter_append, List.filter_cons, h1, h2]

theorem swapVoxel_confidence {M : Type} [AddCommMonoid M] (val : C → M) (hval : val 0 = 0)
    (hadd_zero : ∀ x : C, x + 0 = x) (hzero_add : ∀ x : C, 0 + x = x)
    (old_label new_label : Label) (voxel : LabelVoxel C)
    (hne : old_label ≠ new_label) (hwf : EntriesWF voxel)
    (hez : EmptySlotsZero voxel.label_count) :
    confidenceOf (swapVoxel old_label new_label voxel).label_count new_label =
      confidenceOf voxel.label_count new_label + confidenceOf voxel.label_count old_label ∧
    confidenceOf (swapVoxel old_label new_label voxel).label_count old_label = 0 ∧
    (∀ l, l ≠ old_label → l ≠ new_label →
      confidenceOf (swapVoxel old_label new_label voxel).label_count l =
        confidenceOf voxel.label_count l) ∧
    (∀ l, l ≠ old_label → l ≠ new_label → l ≠ 0 →
      (swapVoxel old_label new_label voxel).label_count.filter
          (fun e => decide (e.label = l)) =
        voxel.label_count.filter (fun e => decide (e.label = l))) ∧
    totalConfidence val (swapVoxel old_label new_label voxel).label_count +
        val (confidenceOf voxel.label_count new_label) +
        val (confidenceOf voxel.label_count old_label) =
      totalConfidence val voxel.label_count +
        val (confidenceOf (swapVoxel old_label new_label voxel).label_count new_label) := by
  obtain ⟨hnn, hpw⟩ := hwf
  have hfst := clearOldLabel_fst_zero old_label voxel.label_count hpw hez
  have hez2 := clearOldLabel_emptySlots old_label voxel.label_count 0 hez
  have htot := clearOldLabel_total val hval old_label voxel.label_count (0 : C) hpw hez
  have hnew := clearOldLabel_snd_other old_label new_label (fun e => hne e.symm)
    voxel.label_count 0 hez
  unfold swapVoxel
  simp only []
  rw [updateVoxel_label_count]
  by_cases hpos : (clearOldLabel old_label 0 voxel.label_count).1 > 0
  · rw [if_pos hpos]
    have hexold : ∃ e ∈ voxel.label_count, e.label = old_label := by
      by_contra hcon
      have hnone : ∀ e ∈ voxel.label_count, e.label ≠ old_label :=
        fun e he hl => hcon ⟨e, he, hl⟩
      rw [clearOldLabel_absent old_label voxel.label_count 0 hnone] at hpos
      exact lt_irrefl _ hpos
    obtain ⟨hc, ho, ht, hf⟩ := addVoxel_confidence new_label
      (clearOldLabel old_label 0 voxel.label_count).1
      { voxel with label_count := (clearOldLabel old_label 0 voxel.label_count).2 } hzero_add hez2
      (Or.inr (clearOldLabel_freed old_label voxel.label_count 0 hexold))
    simp only [] at hc ho ht hf
    refine ⟨?_, ?_, ?_, ?_, ?_⟩
    · rw [hc, hnew, hfst]
    · rw [ho old_label hne, clearOldLabel_snd_old]
    · intro l h1 h2
      rw [ho l h2, clearOldLabel_snd_other old_label l h1 voxel.label_count 0 hez]
    · intro l h1 h2 h3
      rw [hf l h2 h3, clearOldLabel_filter old_label l h1 h3]
    · have h1 := ht M val hval
      rw [hnew] at h1
      rw [← htot, h1]
      abel
  · rw [if_neg hpos]
    simp only []
    have hzero : confidenceOf voxel.label_count old_label = 0 := by
      rw [hfst] at hpos
      exact le_antisymm (not_lt.mp hpos) (confidenceOf_nonneg _ _ hnn)
    refine ⟨?_, ?_, ?_, ?_, ?_⟩
    · rw [hnew, hzero, hadd_zero]
    · rw [clearOldLabel_snd_old]
    · intro l h1 _
      rw [clearOldLabel_snd_other old_label l h1 voxel.label_count 0 hez]
    · intro l h1 _ h3
      rw [clearOldLabel_filter old_label l h1 h3]
    · rw [hnew, ← htot]
      abel

/-- C26, amended: the confidence transfer of `swapLabels(old, new)` adds in
the arithmetic of the confidence type.  The type is any one with a linear
order, a zero and an addition for which adding 0 is exact (`x + 0 = x` and
`0 + x = x`, as for `float`); nothing else is assumed of the addition.  For a
voxel of the store whose slots are empty `(0, 0)` or hold pairwise distinct
non-zero labels with non-negative confidences, and `old ≠ new`, the voxel at
the same place afterwards stores for `new` the sum, as the type computes it,
of the confidence stored before for `new` and the one stored before for `old`
(each 0 if absent), so the transfer is never dropped for lack of a free slot;
it stores nothing for `old`; the confidence of every other label is the same
and the entries of every other non-zero label are unchanged.  For exact values
`val` of the confidences (`val 0 = 0`), the exact sum of the confidences of the
voxel changes by the rounding error of that one addition only: the sum after,
plus the two confidences before, is the sum before plus the confidence stored
for `new` after. -/
theorem swapLabels_transfers_confidence {M : Type} [AddCommMonoid M] (val : C → M)
    (hval : val 0 = 0) (hadd_zero : ∀ x : C, x + 0 = x) (hzero_add : ∀ x : C, 0 + x = x)
    (st : Integrator C) (old_label new_label : Label)
    (hne : old_label ≠ new_label) (i j : Nat) (voxel : LabelVoxel C)
    (hat : voxelAtPos st.label_layer_ i j = some voxel) (hwf : EntriesWF voxel)
    (hez : EmptySlotsZero voxel.label_count) :
    ∃ voxel1, voxelAtPos (swapLabels st old_label new_label).label_layer_ i j = some voxel1 ∧
      confidenceOf voxel1.label_count new_label =
        confidenceOf voxel.label_count new_label + confidenceOf voxel.label_count old_label ∧
      confidenceOf voxel1.label_count old_label = 0 ∧
      (∀ l, l ≠ old_label → l ≠ new_label →
        confidenceOf voxel1.label_count l = confidenceOf voxel.label_count l) ∧
      (∀ l, l ≠ old_label → l ≠ new_label → l ≠ 0 →
        voxel1.label_count.filter (fun e => decide (e.label = l)) =
          voxel.label_count.filter (fun e => decide (e.label = l))) ∧
      totalConfidence val voxel1.label_count + val (confidenceOf voxel.label_count new_label) +
          val (confidenceOf voxel.label_count old_label) =
        totalConfidence val voxel.label_count +
          val (confidenceOf voxel1.label_count new_label) := by
  refine ⟨swapVoxel old_label new_label voxel, ?_,
    swapVoxel_confidence val hval hadd_zero hzero_add old_label new_label voxel hne hwf hez⟩
  rw [voxelAtPos_swapLabels, hat]
  rfl

end ConfidenceLemmas

set_option maxRecDepth 100000 in
/-- C26 as stated fails: take a voxel with `float` confidences holding 0.1f for
label 3, 0.2f for label 7 and 0.7f for label 5 (pairwise distinct non-zero
labels).  `swapLabels(7, 3)` stores for label 3 the `float` sum
`0.1f + 0.2f = 40265320 * 2^-27`, which is not the sum `40265319 * 2^-27` of
the two confidences, and the sum of the confidences of the voxel goes from
`134217727 * 2^-27` to `134217728 * 2^-27`.  Values are in units of `2^-149`,
so that `2^-27` is `2^122` units. -/
theorem swapLabels_transfer_is_rounded :
    float_0_1.units = 13421773 * 2 ^ 122 ∧ float_0_2.units = 13421773 * 2 ^ 123 ∧
    float_0_7.units = 11744051 * 2 ^ 125 ∧
    voxelAtPos integratorFloat.label_layer_ 0 0 = some voxelFloat ∧
    EntriesWF voxelFloat ∧ (∀ e ∈ voxelFloat.label_count, e.label ≠ 0) ∧
    (voxelAtPos (swapLabels integratorFloat 7 3).label_layer_ 0 0).map
      (fun v => v.label_count.map (fun e => e.label)) = some [3, 0, 5] ∧
    (voxelAtPos (swapLabels integratorFloat 7 3).label_layer_ 0 0).map
      (fun v => v.label_count.map (fun e => e.label_confidence.units)) =
        some [40265320 * 2 ^ 122, 0, 11744051 * 2 ^ 125] ∧
    (confidenceOf voxelFloat.label_count 3).units + (confidenceOf voxelFloat.label_count 7).units =
      40265319 * 2 ^ 122 ∧
    (voxelAtPos (swapLabels integratorFloat 7 3).label_layer_ 0 0).map
      (fun v => (confidenceOf v.label_count 3).units) ≠
        some ((confidenceOf voxelFloat.label_count 3).units +
          (confidenceOf voxelFloat.label_count 7).units) ∧
    totalConfidence Binary32.units voxelFloat.label_count = 134217727 * 2 ^ 122 ∧
    (voxelAtPos (swapLabels integratorFloat 7 3).label_layer_ 0 0).map
      (fun v => totalConfidence Binary32.units v.label_count) = some (134217728 * 2 ^ 122) ∧
    (voxelAtPos (swapLabels integratorFloat 7 3).label_layer_ 0 0).map
      (fun v => totalConfidence Binary32.units v.label_count) ≠
        some (totalConfidence Binary32.units voxelFloat.label_count) := by
  refine ⟨by decide, by decide, by decide, by decide, by decide, by decide, by decide,
    by decide, by decide, by decide, by decide, by decide, by decide⟩

set_option maxRecDepth 100000 in
theorem swapLabels_transfers_confidence_witness :
    (0 : Binary32).units = 0 ∧ (∀ x : Binary32, x + 0 = x) ∧ (∀ x : Binary32, 0 + x = x) ∧
    (7 : Label) ≠ 3 ∧ voxelAtPos integratorFloat.label_layer_ 0 0 = some voxelFloat ∧
    EntriesWF voxelFloat ∧ EmptySlotsZero voxelFloat.label_count ∧
    ∃ voxel1, voxelAtPos (swapLabels integratorFloat 7 3).label_layer_ 0 0 = some voxel1 ∧
      confidenceOf voxel1.label_count 3 =
        confidenceOf voxelFloat.label_count 3 + confidenceOf voxelFloat.label_count 7 ∧
      confidenceOf voxel1.label_count 7 = 0 ∧
      (∀ l, l ≠ 7 → l ≠ 3 →
        confidenceOf voxel1.label_count l = confidenceOf voxelFloat.label_count l) ∧
      (∀ l, l ≠ 7 → l ≠ 3 → l ≠ 0 →
        voxel1.label_count.filter (fun e => decide (e.label = l)) =
          voxelFloat.label_count.filter (fun e => decide (e.label = l))) ∧
      totalConfidence Binary32.units voxel1.label_count +
          (confidenceOf voxelFloat.label_count 3).units +
          (confidenceOf voxelFloat.label_count 7).units =
        totalConfidence Binary32.units voxelFloat.label_count +
          (confidenceOf voxel1.label_count 3).units :=
  ⟨by decide, binary32_add_zero, binary32_zero_add, by decide, by decide, by decide, by decide,
    swapLabels_transfers_confidence Binary32.units (by decide) binary32_add_zero
      binary32_zero_add integratorFloat 7 3 (by decide) 0 0 voxelFloat (by decide) (by decide)
      (by decide)⟩

end voxblox
